import Mathlib

/-!
Verification of the YouTube-Transcribr text pipeline.

The program's text processing (src/app.py, src/.streamlit/app.py,
src/fancypdf.py) is embedded shallowly over `List Char`.  Python regex
substitutions are modelled as left-to-right, non-overlapping scanners;
`\w` is `[A-Za-z0-9_]`, `\s` is `[ \t\n\r\v\f]` (the ASCII classes used
by the transcripts this program processes), and case-insensitive
matching lowers both sides with `Char.toLower`.
-/

set_option maxHeartbeats 1000000

namespace Transcribr

/-- Character class of Python's regex `\w` (ASCII range). -/
def isWordChar (c : Char) : Bool := c.isAlphanum || c == '_'

/-- Character class of Python's regex `\s` (ASCII range). -/
def isSpaceChar (c : Char) : Bool :=
  c == ' ' || c == '\t' || c == '\n' || c == '\r' || c == '\x0b' || c == '\x0c'

/-- The sentence punctuation class `[,.!?]` used by `clean_transcript_basic`. -/
def isPunctChar (c : Char) : Bool := c == ',' || c == '.' || c == '!' || c == '?'

/-- Scanner for `re.sub(r'\s+', ' ', text)`: every maximal whitespace run
becomes a single space.  The boolean records whether the previous character
was whitespace (i.e. whether we are inside a run that already emitted its
space). -/
def collapseWsAux : Bool → List Char → List Char
  | _, [] => []
  | inWs, c :: cs =>
    if isSpaceChar c then
      if inWs then collapseWsAux true cs else ' ' :: collapseWsAux true cs
    else c :: collapseWsAux false cs

/-- Python `str.strip()`: remove leading and trailing whitespace. -/
def stripEnds (s : List Char) : List Char :=
  ((s.dropWhile isSpaceChar).reverse.dropWhile isSpaceChar).reverse

/-- Step 1 of `clean_transcript_basic`: `re.sub(r'\s+', ' ', text).strip()`. -/
def normalizeWs (s : List Char) : List Char := stripEnds (collapseWsAux false s)

/-- Case-insensitive literal match of `key` against a prefix of the input;
returns the rest of the input after the matched prefix. -/
def matchCI : List Char → List Char → Option (List Char)
  | [], rest => some rest
  | _ :: _, [] => none
  | k :: ks, c :: cs => if c.toLower == k then matchCI ks cs else none

/-- Is this position a right word boundary (end of input or a non-word
character)? -/
def boundaryAt : List Char → Bool
  | [] => true
  | c :: _ => !isWordChar c

/-- Scanner for `re.sub(r'\b<key>\b', rep, text, flags=re.IGNORECASE)` where
`key` is a nonempty all-word-character literal.  The `Nat` is a skip counter
(characters of an already-emitted match still to consume); the `Bool` records
whether the previous character was a word character (for `\b`). -/
def subWordAux (key rep : List Char) : Nat → Bool → List Char → List Char
  | _, _, [] => []
  | skip+1, _, _ :: cs => subWordAux key rep skip true cs
  | 0, prevW, c :: cs =>
    if prevW then c :: subWordAux key rep 0 (isWordChar c) cs
    else
      match matchCI key (c :: cs) with
      | some rest =>
        if boundaryAt rest then
          rep ++ subWordAux key rep (key.length - 1) true cs
        else c :: subWordAux key rep 0 (isWordChar c) cs
      | none => c :: subWordAux key rep 0 (isWordChar c) cs

/-- One contraction rule `\b<key>\b → rep` of `clean_transcript_basic`. -/
def subWord (key rep : List Char) (s : List Char) : List Char :=
  subWordAux key rep 0 false s

/-- Scanner for the first contraction rule
`re.sub(r'\bi\s+', 'I ', text, flags=re.IGNORECASE)`: a standalone `i`
followed by whitespace becomes `I` followed by one space. -/
def subIAux : Nat → Bool → List Char → List Char
  | _, _, [] => []
  | skip+1, _, _ :: cs => subIAux skip false cs
  | 0, prevW, c :: cs =>
    if !prevW && (c == 'i' || c == 'I') && (match cs with
        | d :: _ => isSpaceChar d
        | [] => false) then
      'I' :: ' ' :: subIAux (cs.takeWhile isSpaceChar).length false cs
    else c :: subIAux 0 (isWordChar c) cs

/-- Scanner for `re.sub(r'\s+([,.!?])', r'\1', text)`: a whitespace character
is dropped exactly when its whitespace run is terminated by a punctuation
character. -/
def subSpacePunct : List Char → List Char
  | [] => []
  | c :: cs =>
    if isSpaceChar c && isPunctChar ((cs.dropWhile isSpaceChar).headD 'x') then
      subSpacePunct cs
    else c :: subSpacePunct cs

/-- Scanner for `re.sub(r'([,.!?])(\w)', r'\1 \2', text)`: insert a space
between a punctuation character and an immediately following word
character. -/
def subPunctWord : List Char → List Char
  | [] => []
  | [c] => [c]
  | c :: d :: ds =>
    if isPunctChar c && isWordChar d then c :: ' ' :: d :: subPunctWord ds
    else c :: subPunctWord (d :: ds)

/-- The ordered contraction table of `clean_transcript_basic` (all entries
after the leading `\bi\s+` rule, in source order). -/
def contractionTable : List (List Char × List Char) :=
  [("im".data, "I'm".data), ("id".data, "I'd".data), ("ive".data, "I've".data),
   ("youre".data, "you're".data), ("youve".data, "you've".data),
   ("hes".data, "he's".data), ("shes".data, "she's".data), ("its".data, "it's".data),
   ("theyre".data, "they're".data), ("theyve".data, "they've".data),
   ("weve".data, "we've".data), ("were".data, "we're".data),
   ("dont".data, "don't".data), ("wont".data, "won't".data), ("cant".data, "can't".data),
   ("isnt".data, "isn't".data), ("wasnt".data, "wasn't".data), ("arent".data, "aren't".data),
   ("didnt".data, "didn't".data), ("doesnt".data, "doesn't".data),
   ("havent".data, "haven't".data), ("hasnt".data, "hasn't".data), ("hadnt".data, "hadn't".data),
   ("wouldnt".data, "wouldn't".data), ("shouldnt".data, "shouldn't".data),
   ("couldnt".data, "couldn't".data),
   ("thats".data, "that's".data), ("whats".data, "what's".data), ("wheres".data, "where's".data)]

/-- Apply the contraction table entries in order, each as a separate
substitution over the evolving string. -/
def applyContractions (s : List Char) : List Char :=
  contractionTable.foldl (fun t kr => subWord kr.1 kr.2 t) s

/-- The full `clean_transcript_basic` pipeline over `List Char`. -/
def cleanList (s : List Char) : List Char :=
  subPunctWord (subSpacePunct (applyContractions (subIAux 0 false (normalizeWs s))))

/-- `clean_transcript_basic` from src/app.py (identical in
src/.streamlit/app.py): whitespace normalization, ordered case-insensitive
contraction fixes, then punctuation spacing. -/
def clean_transcript_basic (s : String) : String := ⟨cleanList s.data⟩

/-- A transcript fragment as consumed by the assemblers (only its `text`
field is read by the program). -/
structure TranscriptFragment where
  text : String

namespace App

/-- `format_original_transcript` from src/app.py (the Flat assembler): join
all raw fragment texts with single spaces, then clean the whole block
once. -/
def format_original_transcript (ts : List TranscriptFragment) : String :=
  clean_transcript_basic ⟨List.intercalate [' '] (ts.map (fun t => t.text.data))⟩

end App

/-- Fixed-size chunking with chunk size 4, as produced by
`range(0, len(xs), 4)` slicing in src/.streamlit/app.py. -/
def chunks4 {α : Type} : List α → List (List α)
  | [] => []
  | [a] => [[a]]
  | [a, b] => [[a, b]]
  | [a, b, c] => [[a, b, c]]
  | a :: b :: c :: d :: rest => [a, b, c, d] :: chunks4 rest

namespace Streamlit

/-- `format_original_transcript` from src/.streamlit/app.py (the Chunked
assembler): clean each fragment independently, group the cleaned snippets
into 4-element chunks, join each chunk with single spaces and the chunks
with blank lines. -/
def format_original_transcript (ts : List TranscriptFragment) : String :=
  ⟨List.intercalate ['\n', '\n']
    ((chunks4 (ts.map (fun t => cleanList t.text.data))).map (List.intercalate [' ']))⟩

end Streamlit

/-- Python `s.split("\n\n")` (used to count paragraphs in the Chunked
assembler's output): the accumulator holds the current segment reversed. -/
def splitNNAux : List Char → List Char → List (List Char)
  | acc, [] => [acc.reverse]
  | acc, [c] => [(c :: acc).reverse]
  | acc, c :: d :: rest =>
    if c == '\n' && d == '\n' then acc.reverse :: splitNNAux [] rest
    else splitNNAux (c :: acc) (d :: rest)

/-- Split a character list on the two-newline paragraph separator. -/
def splitNN (s : List Char) : List (List Char) := splitNNAux [] s

/-! ### The Markup Reconstructor `clean_and_fix_text`
(src/app.py lines 335-350, identical in src/fancypdf.py lines 6-47). -/

/-- Decimal digit class of regex `\d`. -/
def isDigitChar (c : Char) : Bool := c.isDigit

/-- Literal match of `p` against a prefix of the input, returning the rest. -/
def dropLit : List Char → List Char → Option (List Char)
  | [], s => some s
  | _, [] => none
  | p :: ps, c :: cs => if c == p then dropLit ps cs else none

/-- The product-name artifact removed by the Markup Reconstructor. -/
def transLit : List Char := "Transcribrr".data

/-- Scanner for `re.sub(r'\s*Transcribrr\s*', '\n', text)`: a match consumes
the maximal whitespace run at the current position (possibly empty), the
literal, and the following whitespace run, and is replaced by one newline.
The `Nat` is a skip counter for consumed-but-unemitted characters. -/
def subTransAux : Nat → List Char → List Char
  | _, [] => []
  | skip+1, _ :: cs => subTransAux skip cs
  | 0, c :: cs =>
    let rest := (c :: cs).dropWhile isSpaceChar
    match dropLit transLit rest with
    | some afterLit =>
      '\n' :: subTransAux
        (((c :: cs).takeWhile isSpaceChar).length + 11 +
          (afterLit.takeWhile isSpaceChar).length - 1) cs
    | none => c :: subTransAux 0 cs

/-- Python `s.split('\n')`, the lines seen by the MULTILINE `^...$` rules. -/
def splitNlAux : List Char → List Char → List (List Char)
  | acc, [] => [acc.reverse]
  | acc, c :: cs => if c == '\n' then acc.reverse :: splitNlAux [] cs
                    else splitNlAux (c :: acc) cs

/-- The lines of a character list. -/
def linesOf (s : List Char) : List (List Char) := splitNlAux [] s

/-- Join lines back with newlines. -/
def unlines (ls : List (List Char)) : List Char := List.intercalate ['\n'] ls

/-- A `re.MULTILINE` substitution whose pattern is anchored `^...$` with `.`
never matching a newline acts independently on each newline-separated line;
`mapLines` is that action. -/
def mapLines (f : List Char → List Char) (s : List Char) : List Char :=
  unlines ((linesOf s).map f)

/-- Does a line match `^Part \d+:.*$`? -/
def isPartLine (l : List Char) : Bool :=
  match dropLit "Part ".data l with
  | some r => !(r.takeWhile isDigitChar).isEmpty &&
      ((r.dropWhile isDigitChar).headD 'x' == ':')
  | none => false

/-- Rule `re.sub(r'^(Part \d+:.*?)$', r'### \1', ..., flags=re.MULTILINE)`
on a single line. -/
def partRuleLine (l : List Char) : List Char :=
  if isPartLine l then "### ".data ++ l else l

/-- The fixed phrase recognized by the Markup Reconstructor. -/
def learnLit : List Char := "Learnings and Actionable Takeaways".data

/-- Rule `re.sub(r'^(Learnings and Actionable Takeaways)$', r'\n---\n## \1',
..., flags=re.MULTILINE)` on a single line. -/
def learnRuleLine (l : List Char) : List Char :=
  if l == learnLit then '\n' :: "---".data ++ '\n' :: "## ".data ++ l else l

/-- Does a line match `^[A-Z]\..*$`? -/
def isAZLine (l : List Char) : Bool :=
  match l with
  | c :: d :: _ => c.isUpper && d == '.'
  | _ => false

/-- Rule `re.sub(r'^([A-Z]\..*?)$', r'### \1', ..., flags=re.MULTILINE)`
on a single line. -/
def azRuleLine (l : List Char) : List Char :=
  if isAZLine l then "### ".data ++ l else l

/-- Scanner for `re.sub(r'( \d+\. )', r'\n\1', text)`: insert a newline
before a run-together numbered list item. -/
def subNumAux : Nat → List Char → List Char
  | _, [] => []
  | skip+1, _ :: cs => subNumAux skip cs
  | 0, c :: cs =>
    if c == ' ' then
      let ds := cs.takeWhile isDigitChar
      match cs.dropWhile isDigitChar with
      | a :: b :: _ =>
        if !ds.isEmpty && a == '.' && b == ' ' then
          '\n' :: ' ' :: (ds ++ '.' :: ' ' :: subNumAux (ds.length + 2) cs)
        else c :: subNumAux 0 cs
      | _ => c :: subNumAux 0 cs
    else c :: subNumAux 0 cs

/-- Scanner for `re.sub(r'( \* )', r'\n\1', text)`: insert a newline before
a run-together bullet item. -/
def subStarAux : Nat → List Char → List Char
  | _, [] => []
  | skip+1, _ :: cs => subStarAux skip cs
  | 0, c :: cs =>
    match cs with
    | a :: b :: _ =>
      if c == ' ' && a == '*' && b == ' ' then
        '\n' :: ' ' :: '*' :: ' ' :: subStarAux 2 cs
      else c :: subStarAux 0 cs
    | _ => c :: subStarAux 0 cs

/-- Scanner for `re.sub(r'(\S) (\d+\.)', r'\1\n\2', text)`: break a line
between prose and a digit-dot list marker jammed against it. -/
def subJamAux : Nat → List Char → List Char
  | _, [] => []
  | skip+1, _ :: cs => subJamAux skip cs
  | 0, c :: cs =>
    if !isSpaceChar c then
      match cs with
      | sp :: rest =>
        if sp == ' ' then
          let ds := rest.takeWhile isDigitChar
          if !ds.isEmpty && ((rest.dropWhile isDigitChar).headD 'x' == '.') then
            c :: '\n' :: (ds ++ '.' :: subJamAux (ds.length + 2) cs)
          else c :: subJamAux 0 cs
        else c :: subJamAux 0 cs
      | [] => [c]
    else c :: subJamAux 0 cs

/-- Scanner for `re.sub(r'\n\n+', '\n\n', text)`: collapse runs of three or
more newlines (a run of two or more matches and is replaced by two). -/
def subNlAux : Nat → List Char → List Char
  | _, [] => []
  | skip+1, _ :: cs => subNlAux skip cs
  | 0, c :: cs =>
    match cs with
    | d :: rest =>
      if c == '\n' && d == '\n' then
        '\n' :: '\n' :: subNlAux (1 + (rest.takeWhile (· == '\n')).length) cs
      else c :: subNlAux 0 cs
    | [] => [c]

/-- The full `clean_and_fix_text` pipeline over `List Char`, rules in source
order. -/
def cleanFixList (s : List Char) : List Char :=
  let t1 := s.filter (fun c => c != '\uFEFF')
  let t2 := stripEnds (subTransAux 0 t1)
  let t3 := mapLines partRuleLine t2
  let t4 := mapLines learnRuleLine t3
  let t5 := mapLines azRuleLine t4
  let t6 := t5.map (fun c => if c == '•' then '*' else c)
  let t7 := subNumAux 0 t6
  let t8 := subStarAux 0 t7
  let t9 := subJamAux 0 t8
  let t10 := subNlAux 0 t9
  stripEnds t10

/-- `clean_and_fix_text` from src/app.py (identical in src/fancypdf.py). -/
def clean_and_fix_text (s : String) : String := ⟨cleanFixList s.data⟩

/-! ### The styled-path title handling (src/app.py lines 359-369,
src/fancypdf.py lines 56-61). -/

/-- Python `s.split('\n', 1)`: the text before the first newline, and the
rest after it when a newline exists. -/
def splitFirstNl : List Char → List Char × Option (List Char)
  | [] => ([], none)
  | c :: cs =>
    if c == '\n' then ([], some cs)
    else
      let p := splitFirstNl cs
      (c :: p.1, p.2)

/-- Python `s.replace("Video: ", "")`: remove every occurrence of the
7-character literal, scanning left to right. -/
def replaceVideoAux : Nat → List Char → List Char
  | _, [] => []
  | skip+1, _ :: cs => replaceVideoAux skip cs
  | 0, c :: cs =>
    match dropLit "Video: ".data (c :: cs) with
    | some _ => replaceVideoAux 6 cs
    | none => c :: replaceVideoAux 0 cs

/-- Split on every occurrence of the `"Video: "` literal (a specification
of Python's `replace` via `"".join(s.split("Video: "))`). -/
def splitVideoAux : List Char → Nat → List Char → List (List Char)
  | acc, _, [] => [acc.reverse]
  | acc, skip+1, _ :: cs => splitVideoAux acc skip cs
  | acc, 0, c :: cs =>
    match dropLit "Video: ".data (c :: cs) with
    | some _ => acc.reverse :: splitVideoAux [] 6 cs
    | none => splitVideoAux (c :: acc) 0 cs

/-- The displayed section heading of the styled path: `clean_and_fix_text`
applied to `"{title}\n{content}"`, first line, all `"Video: "` occurrences
removed, surrounding whitespace stripped. -/
def fancyTitleLine (title content : List Char) : List Char :=
  stripEnds (replaceVideoAux 0 (splitFirstNl (cleanFixList (title ++ '\n' :: content))).1)

/-- The markup body of the styled path: everything after the first line of
the reconstructed text (empty when there is no second line). -/
def fancyBody (title content : List Char) : List Char :=
  ((splitFirstNl (cleanFixList (title ++ '\n' :: content))).2).getD []

/-! ### The Basic renderer (FPDF path, src/app.py lines 193-235).
The external library calls (markdown-it rendering, `FPDF.write_html`,
font loading) are environment parameters; the repository's control flow
around them is embedded exactly. -/

/-- Environment of external behavior for the Basic renderer:
`mdRender` is `md_fpdf.render`; `writeHtmlOk html = false` means
`FPDF.write_html(html)` raises; `fontsAvailable = false` means
`add_font` raises `RuntimeError` (DejaVu files missing). -/
structure FpdfEnv where
  mdRender : String → String
  writeHtmlOk : String → Bool
  fontsAvailable : Bool

/-- Layout operations accumulated on the FPDF object. -/
inductive FpdfOp where
  | page
  | titleCell (t : String)
  | htmlBlock (h : String)
  | plainText (t : String)
deriving DecidableEq

/-- `PDF.chapter_body`: convert the text to HTML and try `write_html`; on
any failure fall back to emitting the raw text with `multi_cell` (which
always succeeds). -/
def chapter_body (env : FpdfEnv) (text : String) : List FpdfOp :=
  let html := env.mdRender text
  if env.writeHtmlOk html then [.htmlBlock html] else [.plainText text]

/-- One loop iteration of `create_pdf_from_transcripts`: `add_page`,
`chapter_title`, `chapter_body` — the fallback emits on the same page. -/
def pageOf (env : FpdfEnv) (title text : String) : List FpdfOp :=
  .page :: .titleCell title :: chapter_body env text

/-- Modelled from the spec: `bytes(pdf.output(dest='S'))` of the external
FPDF library serializes the accumulated document into non-empty bytes
(a PDF file always begins with the `%PDF` magic). -/
def fpdfOutput (ops : List FpdfOp) : List Nat :=
  [0x25, 0x50, 0x44, 0x46] ++ ops.map (fun _ => 0)

/-- `create_pdf_from_transcripts` from src/app.py: load fonts (missing
fonts abort the whole operation via `st.stop()`, modelled as `none`), then
render every `(title, text)` pair on its own page and serialize. -/
def create_pdf_from_transcripts (env : FpdfEnv)
    (secs : List (String × String)) : Option (List Nat) :=
  if env.fontsAvailable then
    some (fpdfOutput (List.flatten (secs.map (fun p => pageOf env p.1 p.2))))
  else none

/-! ### The Styled renderer (WeasyPrint path, src/app.py lines 352-393). -/

/-- Modelled from the spec: WeasyPrint's `HTML.write_pdf` returns non-empty
PDF bytes on success (`Except.ok`) or raises (`Except.error` with the
exception text). -/
structure WeasyEnv where
  markdownToHtml : String → String
  writePdf : String → Except String { b : List Nat // b ≠ [] }

/-- One `video-section` div of the styled document. -/
def videoSectionHtml (env : WeasyEnv) (title content : String) : String :=
  "<div class=\"video-section\"><h1>" ++ (⟨fancyTitleLine title.data content.data⟩ : String) ++
    "</h1>" ++ env.markdownToHtml (⟨fancyBody title.data content.data⟩ : String) ++ "</div>"

/-- The full HTML document assembled by `create_fancy_pdf_from_transcripts`
before rendering. -/
def htmlDocOf (env : WeasyEnv) (secs : List (String × String)) : String :=
  "<html><head><meta charset=\"UTF-8\"><title>Transcribrr Summary</title></head><body>" ++
    String.join (secs.map (fun p => videoSectionHtml env p.1 p.2)) ++ "</body></html>"

/-- The two `st.error` messages emitted when WeasyPrint rendering raises:
the first reports the cause. -/
def weasyErrorMsgs (e : String) : List String :=
  ["Error generating 'Fancy' PDF with WeasyPrint: " ++ e,
   "This can happen if WeasyPrint dependencies (like Pango, GDK-PixBuf) are not installed. Please check WeasyPrint documentation for your OS."]

/-- `create_fancy_pdf_from_transcripts` from src/app.py: build the whole
document, render it in one `write_pdf` call; on any exception report the
cause via `st.error` (the returned message list) and return `None`; there
is no per-section fallback. -/
def create_fancy_pdf_from_transcripts (env : WeasyEnv)
    (secs : List (String × String)) : Option { b : List Nat // b ≠ [] } × List String :=
  match env.writePdf (htmlDocOf env secs) with
  | .ok b => (some b, [])
  | .error e => (none, weasyErrorMsgs e)

/-! ### Word-level view of character lists.
A character list decomposes uniquely into maximal runs of `\w` characters
(word tokens) and single non-word characters (separator tokens); the
contraction rules act exactly on this decomposition. -/

/-- A token: a maximal word-character run or one separator character. -/
inductive Tok where
  | word (w : List Char)
  | sep (c : Char)
deriving DecidableEq

/-- The characters of a token. -/
def Tok.flat : Tok → List Char
  | .word w => w
  | .sep c => [c]

/-- The characters of a token list. -/
def flatT (ts : List Tok) : List Char := (ts.map Tok.flat).flatten

/-- Is a token a word token? -/
def Tok.isWordTok : Tok → Bool
  | .word _ => true
  | .sep _ => false

/-- Is a token a whitespace separator? -/
def Tok.isWsSep : Tok → Bool
  | .sep c => isSpaceChar c
  | .word _ => false

/-- Is a token a `[,.!?]` separator? -/
def Tok.isPunctSep : Tok → Bool
  | .sep c => isPunctChar c
  | .word _ => false

/-- Well-formedness of one token: words are nonempty word-character runs,
separators are single non-word characters. -/
def Tok.ok : Tok → Prop
  | .word w => w ≠ [] ∧ ∀ c ∈ w, isWordChar c = true
  | .sep c => isWordChar c = false

/-- A valid decomposition: well-formed tokens with no two adjacent word
tokens (word runs are maximal). -/
def ValidT (ts : List Tok) : Prop :=
  (∀ t ∈ ts, t.ok) ∧
    List.Chain' (fun a b => ¬(a.isWordTok = true ∧ b.isWordTok = true)) ts

/-- One step of the canonical decomposition: prepend a character to a
token list, merging into a leading word run when both are word material. -/
def tokStep (c : Char) (ts : List Tok) : List Tok :=
  if isWordChar c then
    match ts with
    | .word w :: rest => .word (c :: w) :: rest
    | _ => .word [c] :: ts
  else .sep c :: ts

/-- Compute the canonical decomposition of a character list. -/
def tokensOf (s : List Char) : List Tok := s.foldr tokStep []

/-- The word runs of a token list, in order. -/
def wordsOf (ts : List Tok) : List (List Char) :=
  ts.filterMap (fun t => match t with | .word w => some w | .sep _ => none)

/-- The maximal word-character runs of a character list — its "words once
whitespace and punctuation are ignored". -/
def wordRuns (s : List Char) : List (List Char) := wordsOf (tokensOf s)

/-- Lower-case image of a character list. -/
def lowerL (s : List Char) : List Char := s.map Char.toLower

/-- Token-level action of one contraction rule `\b<key>\b → rep`: a word
run equal to the key up to case is replaced by the decomposition of the
replacement; everything else is untouched. -/
def wMap (key rep : List Char) : Tok → List Tok
  | .word w => if lowerL w = key then tokensOf rep else [.word w]
  | .sep c => [.sep c]

/-- Token-level action of a whole pass of one contraction rule. -/
def wStage (key rep : List Char) (ts : List Tok) : List Tok :=
  ts.flatMap (wMap key rep)

/-- Does a token list start with a whitespace separator? -/
def headWsSep (ts : List Tok) : Bool :=
  match ts with
  | t :: _ => t.isWsSep
  | [] => false

/-- Token-level action of the `\bi\s+ → 'I '` rule: a standalone `i` (any
case) followed by whitespace separators becomes `I` followed by a single
space, consuming the whitespace run. -/
def iToks : List Tok → List Tok
  | [] => []
  | .sep c :: rest => .sep c :: iToks rest
  | .word w :: rest =>
    if lowerL w = ['i'] && headWsSep rest then
      .word ['I'] :: .sep ' ' :: iToks (rest.dropWhile Tok.isWsSep)
    else .word w :: iToks rest
  termination_by ts => ts.length
  decreasing_by
    all_goals simp only [List.length_cons]
    · omega
    · have := (List.dropWhile_sublist (l := rest) Tok.isWsSep).length_le
      omega
    · omega

/-- Token-level action of `re.sub(r'\s+([,.!?])', r'\1', ...)`: drop a
whitespace separator whose run is terminated by a punctuation character. -/
def P3Toks : List Tok → List Tok
  | [] => []
  | .word w :: rest => .word w :: P3Toks rest
  | .sep c :: rest =>
    if isSpaceChar c && isPunctChar (((flatT rest).dropWhile isSpaceChar).headD 'x') then
      P3Toks rest
    else .sep c :: P3Toks rest

/-- Token-level action of `re.sub(r'([,.!?])(\w)', r'\1 \2', ...)`: insert
a space separator between a punctuation separator and a word token. -/
def P4Toks : List Tok → List Tok
  | [] => []
  | .word w :: rest => .word w :: P4Toks rest
  | .sep c :: .word w :: rest =>
    if isPunctChar c then .sep c :: .sep ' ' :: .word w :: P4Toks rest
    else .sep c :: P4Toks (.word w :: rest)
  | .sep c :: .sep d :: rest => .sep c :: P4Toks (.sep d :: rest)
  | [.sep c] => [.sep c]

/-- Interior whitespace discipline: every whitespace separator is a single
space and no two whitespace separators are adjacent.  (Closed under taking
suffixes, unlike `SpaceOK`.) -/
def WsRunsOK (ts : List Tok) : Prop :=
  (∀ t ∈ ts, t.isWsSep = true → t = .sep ' ') ∧
    List.Chain' (fun a b => ¬(a.isWsSep = true ∧ b.isWsSep = true)) ts

/-- Whitespace discipline of a token list after whitespace normalization:
single-space separators never doubled and never at either end. -/
def SpaceOK (ts : List Tok) : Prop :=
  WsRunsOK ts ∧
    (∀ t, ts.head? = some t → t.isWsSep = false) ∧
    (∀ t, ts.getLast? = some t → t.isWsSep = false)

/-- Does a token list not start with a word token?  (The scanner state
`prevW = true` is only reachable at such positions.) -/
def headNotWord (ts : List Tok) : Prop :=
  ∀ w, ts.head? ≠ some (Tok.word w)

/-- The token-level image of the whole contraction table. -/
def contractionsT (ts : List Tok) : List Tok :=
  contractionTable.foldl (fun t kr => wStage kr.1 kr.2 t) ts

/-- The token-level image of the whole of `clean_transcript_basic` after
whitespace normalization. -/
def cleanToks (ts : List Tok) : List Tok :=
  P4Toks (P3Toks (contractionsT (iToks ts)))

/-- The words of a character list, lowered (the case-insensitive word
content). -/
def lowWords (s : List Char) : List (List Char) := (wordRuns s).map lowerL

/-- Adjacency discipline for the `i`-rule: a standalone `i` (up to case)
directly followed by whitespace is exactly the capital `I` its rule
produces. -/
def IOk (ts : List Tok) : Prop :=
  List.Chain'
    (fun a b => ∀ w, a = .word w → lowerL w = ['i'] → b.isWsSep = true → w = ['I'])
    ts

/-- No word run equal (up to case) to any of the given keys. -/
def NoKeys (ks : List (List Char)) (ts : List Tok) : Prop :=
  ∀ w ∈ wordsOf ts, lowerL w ∉ ks

/-- The contraction keys of the word-boundary rules, in order. -/
def keyList : List (List Char) := contractionTable.map Prod.fst

/-- No whitespace separator directly followed by a punctuation separator. -/
def NoWsPunct (ts : List Tok) : Prop :=
  List.Chain' (fun a b => ¬(a.isWsSep = true ∧ b.isPunctSep = true)) ts

/-- No punctuation separator directly followed by a word token. -/
def NoPunctWord (ts : List Tok) : Prop :=
  List.Chain' (fun a b => ¬(a.isPunctSep = true ∧ b.isWordTok = true)) ts

/-! ### Counting helpers for the Markup Reconstructor. -/

/-- Number of non-whitespace characters. -/
def nwsCount (s : List Char) : Nat := (s.filter (fun c => !isSpaceChar c)).length

/-- Number of zero-width marker characters. -/
def bomCount (s : List Char) : Nat := (s.filter (fun c => c == '\uFEFF')).length

/-- Number of matches of `\s*Transcribrr\s*` consumed by its scanner
(mirrors `subTransAux`). -/
def transCount : Nat → List Char → Nat
  | _, [] => 0
  | skip+1, _ :: cs => transCount skip cs
  | 0, c :: cs =>
    let rest := (c :: cs).dropWhile isSpaceChar
    match dropLit transLit rest with
    | some afterLit =>
      1 + transCount
        (((c :: cs).takeWhile isSpaceChar).length + 11 +
          (afterLit.takeWhile isSpaceChar).length - 1) cs
    | none => transCount 0 cs

/-- The horizontal rule and level-2 header the Learnings rule inserts. -/
def learnHeader : List Char := "---".data ++ '\n' :: "## ".data ++ learnLit

/-- Strip a leading `"Video: "` prefix only (the specification's reading of
the title handling). -/
def leadVideoStripped (l : List Char) : List Char :=
  match dropLit "Video: ".data l with
  | some r => r
  | none => l

/-- The heading the specification describes: first line of the
reconstructed text with a leading `"Video: "` prefix stripped and
surrounding whitespace trimmed. -/
def specTitleLine (title content : List Char) : List Char :=
  stripEnds (leadVideoStripped (splitFirstNl (cleanFixList (title ++ '\n' :: content))).1)

/-! ### Case-insensitive word content of the contraction pipeline. -/

/-- Action of one contraction rule on the lowered word sequence: a lowered
word equal to the rule's key becomes the lowered words of the replacement,
every other word is untouched. -/
def lowSub (key rep : List Char) (ws : List (List Char)) : List (List Char) :=
  ws.flatMap (fun w => if w = key then (wordsOf (tokensOf rep)).map lowerL else [w])

/-- Action of the whole contraction table on the lowered word sequence. -/
def contractionsLW (ws : List (List Char)) : List (List Char) :=
  contractionTable.foldl (fun t kr => lowSub kr.1 kr.2 t) ws

/-! ### The contraction-table entries whose keys are ordinary English
words, named in the implicit claim C10. -/

/-- The four rules singled out by the claim: `were`, `its`, `id` and
`wont` are legitimate English words, yet their rules rewrite them
unconditionally. -/
def ordinaryKeyRules : List (List Char × List Char) :=
  [("were".data, "we're".data), ("its".data, "it's".data),
   ("id".data, "I'd".data), ("wont".data, "won't".data)]

/-- A character list occurring between a prefix `u` and a suffix `v`
stands alone: nothing word-like directly abuts it on either side (the
`\b`-boundary condition of the contraction regexes). -/
def Standalone (u v : List Char) : Prop :=
  (∀ c, u.getLast? = some c → isWordChar c = false) ∧
    (∀ c, v.head? = some c → isWordChar c = false)

/-! ### A generic view of the Markup Reconstructor's character scanners,
used to reason about which regions of the input each rule can touch. -/

/-- Generic one-pass scanner: at skip `0`, `f` inspects the remaining
input; on `some (e, adv)` the scanner emits `e` and skips the current
character plus `adv` further ones, otherwise it copies the current
character. -/
def genScan (f : List Char → Option (List Char × Nat)) :
    Nat → List Char → List Char
  | _, [] => []
  | skip+1, _ :: cs => genScan f skip cs
  | 0, c :: cs =>
    match f (c :: cs) with
    | some (e, adv) => e ++ genScan f adv cs
    | none => c :: genScan f 0 cs

/-- Match decision of the `\s*Transcribrr\s*` rule. -/
def fTrans : List Char → Option (List Char × Nat)
  | [] => none
  | c :: cs =>
    match dropLit transLit ((c :: cs).dropWhile isSpaceChar) with
    | some afterLit => some (['\n'],
        ((c :: cs).takeWhile isSpaceChar).length + 11 +
          (afterLit.takeWhile isSpaceChar).length - 1)
    | none => none

/-- Match decision of the `( \d+\. )` rule. -/
def fNum : List Char → Option (List Char × Nat)
  | [] => none
  | c :: cs =>
    if c == ' ' then
      match cs.dropWhile isDigitChar with
      | a :: b :: _ =>
        if !(cs.takeWhile isDigitChar).isEmpty && a == '.' && b == ' ' then
          some ('\n' :: ' ' :: (cs.takeWhile isDigitChar ++ ['.', ' ']),
            (cs.takeWhile isDigitChar).length + 2)
        else none
      | _ => none
    else none

/-- Match decision of the `( \* )` rule. -/
def fStar : List Char → Option (List Char × Nat)
  | c :: a :: b :: _ =>
    if c == ' ' && a == '*' && b == ' ' then
      some (['\n', ' ', '*', ' '], 2)
    else none
  | _ => none

/-- Match decision of the `(\S) (\d+\.)` rule. -/
def fJam : List Char → Option (List Char × Nat)
  | c :: sp :: rest =>
    if !isSpaceChar c then
      if sp == ' ' then
        if !(rest.takeWhile isDigitChar).isEmpty &&
            ((rest.dropWhile isDigitChar).headD 'x' == '.') then
          some (c :: '\n' :: (rest.takeWhile isDigitChar ++ ['.']),
            (rest.takeWhile isDigitChar).length + 2)
        else none
      else none
    else none
  | _ => none

/-- Match decision of the `\n\n+` rule. -/
def fNl : List Char → Option (List Char × Nat)
  | c :: d :: rest =>
    if c == '\n' && d == '\n' then
      some (['\n', '\n'], 1 + (rest.takeWhile (· == '\n')).length)
    else none
  | _ => none

/-- Does the literal fail against this input with the mismatch inside the
inspected part (so that no extension of the input can make it match)? -/
def litMismatch : List Char → List Char → Bool
  | [], _ => false
  | _ :: _, [] => false
  | p :: ps, c :: cs => if c == p then litMismatch ps cs else true

/-- Local failure certificate for the `\s*Transcribrr\s*` rule: the
whitespace run ends inside the fragment and the literal then mismatches
inside it. -/
def localFailTrans (w : List Char) : Bool :=
  !(w.dropWhile isSpaceChar).isEmpty &&
    litMismatch transLit (w.dropWhile isSpaceChar)

/-- Local failure certificate for the `( \d+\. )` rule. -/
def localFailNum : List Char → Bool
  | [] => false
  | [c] => !(c == ' ')
  | c :: d :: _ => !(c == ' ') || !isDigitChar d

/-- Local failure certificate for the `( \* )` rule. -/
def localFailStar : List Char → Bool
  | [] => false
  | [c] => !(c == ' ')
  | c :: a :: _ => !(c == ' ') || !(a == '*')

/-- Local failure certificate for the `(\S) (\d+\.)` rule, for fragments
keeping at least two characters. -/
def localFailJam : List Char → Bool
  | c :: d :: e :: _ => isSpaceChar c || !(d == ' ') || !isDigitChar e
  | [c, d] => isSpaceChar c || !(d == ' ')
  | _ => false

/-- Local failure certificate for the `\n\n+` rule. -/
def localFailNl : List Char → Bool
  | [] => false
  | [c] => !(c == '\n')
  | c :: d :: _ => !(c == '\n') || !(d == '\n')

/-- The prefix of the output ends with a newline (or is empty): the
guarded fragment still starts its own line. -/
def EndsNl (u : List Char) : Prop := u = [] ∨ u.getLast? = some '\n'

/-- The suffix of the output starts with a newline (or is empty): the
guarded fragment still ends its own line. -/
def HeadNl (v : List Char) : Prop := v = [] ∨ v.head? = some '\n'

/-- The second header line the Learnings rule produces. -/
def learnHeader2 : List Char := "## ".data ++ learnLit

end Transcribr

namespace Transcribr

/-! ## Theorems -/

/-- C9.  End-to-end: the Flat assembler joins the three fragments
`["hes", "going", "home."]` with single spaces to `"hes going home."`, and
normalizing that concatenation yields exactly `"he's going home."`. -/
theorem flat_end_to_end_hes_going_home :
    List.intercalate [' ']
        (([⟨"hes"⟩, ⟨"going"⟩, ⟨"home."⟩] : List TranscriptFragment).map
          (fun t => t.text.data)) = "hes going home.".data ∧
    clean_transcript_basic "hes going home." = "he's going home." ∧
    App.format_original_transcript [⟨"hes"⟩, ⟨"going"⟩, ⟨"home."⟩] =
      "he's going home." := by
  refine ⟨by decide, ?_, ?_⟩ <;> decide

/-- C1 counterexample.  On the fragments `["i", "x"]` the Flat assembler
produces `"I x"` while the Chunked assembler produces `"i x"`: the word
`I` occurs among the Flat output's words (whitespace and punctuation
ignored) but not among the Chunked output's words, so the two word sets
differ. -/
theorem flat_chunked_word_sets_differ :
    'I' :: [] ∈ wordRuns (App.format_original_transcript [⟨"i"⟩, ⟨"x"⟩]).data ∧
    'I' :: [] ∉ wordRuns (Streamlit.format_original_transcript [⟨"i"⟩, ⟨"x"⟩]).data := by
  constructor <;> decide

/-! ### C3: paragraph count of the Chunked assembler. -/

theorem chunks4_length {α : Type} (l : List α) (h : l ≠ []) :
    (chunks4 l).length = (l.length + 3) / 4 := by
  induction l using chunks4.induct with
  | case1 => exact absurd rfl h
  | case2 => simp [chunks4]
  | case3 => simp [chunks4]
  | case4 => simp [chunks4]
  | case5 a b c d rest ih =>
    rcases rest with _ | ⟨x, xs⟩
    · simp [chunks4]
    · have := ih (by simp)
      simp only [chunks4, List.length_cons] at this ⊢
      omega

theorem chunks4_ne_nil {α : Type} (l : List α) (h : l ≠ []) : chunks4 l ≠ [] := by
  rcases l with _ | ⟨a, _ | ⟨b, _ | ⟨c, _ | ⟨d, rest⟩⟩⟩⟩ <;> simp_all [chunks4]

theorem splitNNAux_nil (acc : List Char) : splitNNAux acc [] = [acc.reverse] := by
  simp [splitNNAux]

theorem splitNNAux_single (x : Char) (acc : List Char) :
    splitNNAux acc [x] = [acc.reverse ++ [x]] := by
  simp [splitNNAux]

theorem splitNNAux_two_nl (cs : List Char) (acc : List Char) :
    splitNNAux acc ('\n' :: '\n' :: cs) = acc.reverse :: splitNNAux [] cs := by
  simp [splitNNAux]

theorem splitNNAux_step (x y : Char) (hx : x ≠ '\n') (cs : List Char) (acc : List Char) :
    splitNNAux acc (x :: y :: cs) = splitNNAux (x :: acc) (y :: cs) := by
  have hb : (x == '\n' && y == '\n') = false := by
    simp only [Bool.and_eq_false_iff, beq_eq_false_iff_ne]; exact Or.inl hx
  simp [splitNNAux, hb]

theorem splitNNAux_end (p : List Char) (hp : ∀ c ∈ p, c ≠ '\n') (acc : List Char) :
    splitNNAux acc p = [acc.reverse ++ p] := by
  induction p generalizing acc with
  | nil => simp [splitNNAux_nil]
  | cons x p ih =>
    have hx : x ≠ '\n' := hp x (by simp)
    rcases p with _ | ⟨y, p'⟩
    · simp [splitNNAux_single]
    · rw [splitNNAux_step x y hx, ih (fun c hc => hp c (by simp [hc])) (x :: acc)]
      simp

theorem splitNNAux_sep (p rest : List Char) (hp : ∀ c ∈ p, c ≠ '\n') (acc : List Char) :
    splitNNAux acc (p ++ '\n' :: '\n' :: rest) =
      (acc.reverse ++ p) :: splitNNAux [] rest := by
  induction p generalizing acc with
  | nil => simp [splitNNAux_two_nl]
  | cons x p ih =>
    have hx : x ≠ '\n' := hp x (by simp)
    rcases p with _ | ⟨y, p'⟩
    · simp only [List.nil_append, List.cons_append]
      rw [splitNNAux_step x '\n' hx, splitNNAux_two_nl]
      simp
    · simp only [List.cons_append] at ih ⊢
      rw [splitNNAux_step x y hx, ih (fun c hc => hp c (by simp [hc])) (x :: acc)]
      simp

theorem splitNN_intercalate (parts : List (List Char)) (h : parts ≠ [])
    (hp : ∀ p ∈ parts, ∀ c ∈ p, c ≠ '\n') :
    splitNN (List.intercalate ['\n', '\n'] parts) = parts := by
  induction parts with
  | nil => exact absurd rfl h
  | cons p rest ih =>
    rcases rest with _ | ⟨q, rest'⟩
    · have h1 : List.intercalate ['\n', '\n'] [p] = p := by simp [List.intercalate]
      rw [splitNN, h1, splitNNAux_end p (hp p (by simp)) []]
      simp
    · have h1 : List.intercalate ['\n', '\n'] (p :: q :: rest') =
          p ++ '\n' :: '\n' :: List.intercalate ['\n', '\n'] (q :: rest') := by
        simp [List.intercalate, List.intersperse]
      rw [splitNN, h1, splitNNAux_sep p _ (hp p (by simp)) []]
      simp only [List.reverse_nil, List.nil_append]
      have := ih (by simp) (fun r hr c hc => hp r (by simp [hr]) c hc)
      rw [splitNN] at this
      rw [this]

theorem mem_collapseWsAux (b : Bool) (s : List Char) (c : Char)
    (hc : c ∈ collapseWsAux b s) (hw : isSpaceChar c = true) : c = ' ' := by
  induction s generalizing b with
  | nil => simp [collapseWsAux] at hc
  | cons x xs ih =>
    by_cases hx : isSpaceChar x = true
    · rcases Bool.eq_false_or_eq_true b with hb | hb <;> subst hb <;>
        simp only [collapseWsAux, hx, if_true] at hc
      · exact ih true hc
      · rcases List.mem_cons.mp hc with h | h
        · exact h
        · exact ih true h
    · simp only [collapseWsAux, hx, Bool.false_eq_true, if_false] at hc
      rcases List.mem_cons.mp hc with h | h
      · subst h; exact absurd hw (by simp [hx])
      · exact ih false h

theorem mem_stripEnds (s : List Char) (c : Char) (hc : c ∈ stripEnds s) : c ∈ s := by
  simp only [stripEnds, List.mem_reverse] at hc
  have h1 := List.dropWhile_sublist (l := (s.dropWhile isSpaceChar).reverse) isSpaceChar
  have h2 := h1.mem hc
  rw [List.mem_reverse] at h2
  exact (List.dropWhile_sublist isSpaceChar).mem h2

theorem mem_normalizeWs (s : List Char) (c : Char)
    (hc : c ∈ normalizeWs s) (hw : isSpaceChar c = true) : c = ' ' :=
  mem_collapseWsAux false s c (mem_stripEnds _ c hc) hw

theorem mem_subIAux (n : Nat) (pw : Bool) (s : List Char) (c : Char)
    (hc : c ∈ subIAux n pw s) : c ∈ s ∨ c = 'I' ∨ c = ' ' := by
  induction s generalizing n pw with
  | nil => simp [subIAux] at hc
  | cons x xs ih =>
    match n with
    | Nat.succ k =>
      simp only [subIAux] at hc
      rcases ih k false hc with h | h
      · exact Or.inl (by simp [h])
      · exact Or.inr h
    | 0 =>
      simp only [subIAux] at hc
      split at hc
      · rcases List.mem_cons.mp hc with h | h
        · exact Or.inr (Or.inl h)
        · rcases List.mem_cons.mp h with h' | h'
          · exact Or.inr (Or.inr h')
          · rcases ih _ false h' with h'' | h''
            · exact Or.inl (by simp [h''])
            · exact Or.inr h''
      · rcases List.mem_cons.mp hc with h | h
        · exact Or.inl (by simp [h])
        · rcases ih 0 (isWordChar x) h with h' | h'
          · exact Or.inl (by simp [h'])
          · exact Or.inr h'

theorem mem_subWordAux (key rep : List Char) (n : Nat) (pw : Bool) (s : List Char)
    (c : Char) (hc : c ∈ subWordAux key rep n pw s) : c ∈ s ∨ c ∈ rep := by
  induction s generalizing n pw with
  | nil => simp [subWordAux] at hc
  | cons x xs ih =>
    match n with
    | Nat.succ k =>
      simp only [subWordAux] at hc
      rcases ih k true hc with h | h
      · exact Or.inl (by simp [h])
      · exact Or.inr h
    | 0 =>
      simp only [subWordAux] at hc
      split at hc
      · rcases List.mem_cons.mp hc with h | h
        · exact Or.inl (by simp [h])
        · rcases ih 0 (isWordChar x) h with h' | h'
          · exact Or.inl (by simp [h'])
          · exact Or.inr h'
      · split at hc
        · split at hc
          · rcases List.mem_append.mp hc with h | h
            · exact Or.inr h
            · rcases ih _ true h with h' | h'
              · exact Or.inl (by simp [h'])
              · exact Or.inr h'
          · rcases List.mem_cons.mp hc with h | h
            · exact Or.inl (by simp [h])
            · rcases ih 0 (isWordChar x) h with h' | h'
              · exact Or.inl (by simp [h'])
              · exact Or.inr h'
        · rcases List.mem_cons.mp hc with h | h
          · exact Or.inl (by simp [h])
          · rcases ih 0 (isWordChar x) h with h' | h'
            · exact Or.inl (by simp [h'])
            · exact Or.inr h'

theorem mem_subSpacePunct (s : List Char) (c : Char)
    (hc : c ∈ subSpacePunct s) : c ∈ s := by
  induction s with
  | nil => simp [subSpacePunct] at hc
  | cons x xs ih =>
    simp only [subSpacePunct] at hc
    split at hc
    · exact List.mem_cons_of_mem x (ih hc)
    · rcases List.mem_cons.mp hc with h | h
      · exact List.mem_cons.mpr (Or.inl h)
      · exact List.mem_cons_of_mem x (ih h)

theorem mem_subPunctWord (s : List Char) (c : Char)
    (hc : c ∈ subPunctWord s) : c ∈ s ∨ c = ' ' := by
  induction s using subPunctWord.induct with
  | case1 => simp [subPunctWord] at hc
  | case2 x => simp only [subPunctWord] at hc; exact Or.inl hc
  | case3 x d ds hcond ih =>
    simp only [subPunctWord, hcond, if_true] at hc
    rcases List.mem_cons.mp hc with h | h
    · exact Or.inl (by simp [h])
    · rcases List.mem_cons.mp h with h' | h'
      · exact Or.inr h'
      · rcases List.mem_cons.mp h' with h'' | h''
        · exact Or.inl (by simp [h''])
        · rcases ih h'' with h3 | h3
          · exact Or.inl (by simp [h3])
          · exact Or.inr h3
  | case4 x d ds hcond ih =>
    simp only [subPunctWord, hcond, if_false] at hc
    rcases List.mem_cons.mp hc with h | h
    · exact Or.inl (by simp [h])
    · rcases ih h with h' | h'
      · exact Or.inl (by simp [h'])
      · exact Or.inr h'

theorem mem_foldl_subWord (tbl : List (List Char × List Char)) (s : List Char)
    (c : Char) (hc : c ∈ tbl.foldl (fun t kr => subWord kr.1 kr.2 t) s) :
    c ∈ s ∨ ∃ kr ∈ tbl, c ∈ kr.2 := by
  induction tbl generalizing s with
  | nil => exact Or.inl hc
  | cons kr tbl ih =>
    simp only [List.foldl_cons] at hc
    rcases ih _ hc with h | h
    · rcases mem_subWordAux kr.1 kr.2 0 false s c h with h' | h'
      · exact Or.inl h'
      · exact Or.inr ⟨kr, by simp, h'⟩
    · rcases h with ⟨kr', h1, h2⟩
      exact Or.inr ⟨kr', by simp [h1], h2⟩

theorem cleanList_ws_space (s : List Char) (c : Char)
    (hc : c ∈ cleanList s) (hw : isSpaceChar c = true) : c = ' ' := by
  rcases mem_subPunctWord _ c hc with h1 | h1
  case inr => exact h1
  have h2 := mem_subSpacePunct _ c h1
  rcases mem_foldl_subWord _ _ c h2 with h3 | h3
  case inr =>
    exfalso
    rcases h3 with ⟨kr, hkr, hck⟩
    have : ∀ kr ∈ contractionTable, ∀ c ∈ kr.2, isSpaceChar c = false := by decide
    have := this kr hkr c hck
    rw [this] at hw
    exact Bool.false_ne_true hw
  rcases mem_subIAux _ _ _ c h3 with h4 | h4
  · exact mem_normalizeWs s c h4 hw
  · rcases h4 with h | h
    · subst h; exact absurd hw (by decide)
    · exact h

theorem cleanList_no_nl (s : List Char) : '\n' ∉ cleanList s := by
  intro h
  have := cleanList_ws_space s '\n' h (by decide)
  exact absurd this (by decide)

theorem mem_intercalate_space (parts : List (List Char)) (c : Char)
    (hc : c ∈ List.intercalate [' '] parts) : (∃ p ∈ parts, c ∈ p) ∨ c = ' ' := by
  induction parts with
  | nil => simp [List.intercalate] at hc
  | cons p rest ih =>
    rcases rest with _ | ⟨q, rest'⟩
    · rw [show List.intercalate [' '] [p] = p by simp [List.intercalate]] at hc
      exact Or.inl ⟨p, by simp, hc⟩
    · rw [show List.intercalate [' '] (p :: q :: rest') =
          p ++ ' ' :: List.intercalate [' '] (q :: rest') by
            simp [List.intercalate, List.intersperse]] at hc
      rcases List.mem_append.mp hc with h | h
      · exact Or.inl ⟨p, by simp, h⟩
      · rcases List.mem_cons.mp h with h' | h'
        · exact Or.inr h'
        · rcases ih h' with ⟨p', hp1, hp2⟩ | h''
          · exact Or.inl ⟨p', by simp [hp1], hp2⟩
          · exact Or.inr h''

theorem mem_chunks4_sublist {α : Type} (l : List α) (chunk : List α)
    (hchunk : chunk ∈ chunks4 l) : List.Sublist chunk l := by
  induction l using chunks4.induct with
  | case1 => simp [chunks4] at hchunk
  | case2 a => simp only [chunks4, List.mem_singleton] at hchunk; simp [hchunk]
  | case3 a b => simp only [chunks4, List.mem_singleton] at hchunk; simp [hchunk]
  | case4 a b c => simp only [chunks4, List.mem_singleton] at hchunk; simp [hchunk]
  | case5 a b c d rest ih =>
    simp only [chunks4, List.mem_cons] at hchunk
    rcases hchunk with h' | h'
    · subst h'
      exact List.Sublist.trans (by simp) (List.sublist_append_left [a, b, c, d] rest)
    · exact List.Sublist.trans (ih h') (List.sublist_append_right [a, b, c, d] rest)

/-- C3 amended.  For every non-empty fragment sequence of length `n`, the
Chunked assembler's output splits on the blank-line separator into exactly
`⌈n / 4⌉` paragraphs. -/
theorem chunked_paragraph_count (frags : List TranscriptFragment) (h : frags ≠ []) :
    (splitNN (Streamlit.format_original_transcript frags).data).length =
      (frags.length + 3) / 4 := by
  have hmap : frags.map (fun t => cleanList t.text.data) ≠ [] := by
    simpa using h
  have hparts :
      (chunks4 (frags.map (fun t => cleanList t.text.data))).map (List.intercalate [' ']) ≠ [] := by
    simpa using chunks4_ne_nil _ hmap
  have hnl : ∀ p ∈ (chunks4 (frags.map (fun t => cleanList t.text.data))).map
      (List.intercalate [' ']), ∀ c ∈ p, c ≠ '\n' := by
    intro p hp c hc
    rcases List.mem_map.mp hp with ⟨chunk, hchunk, rfl⟩
    rcases mem_intercalate_space chunk c hc with ⟨q, hq1, hq2⟩ | h'
    · have hq3 : q ∈ frags.map (fun t => cleanList t.text.data) :=
        (mem_chunks4_sublist _ chunk hchunk).mem hq1
      rcases List.mem_map.mp hq3 with ⟨t, _, rfl⟩
      intro hEq; subst hEq
      exact cleanList_no_nl _ hq2
    · subst h'; decide
  have := splitNN_intercalate _ hparts hnl
  calc (splitNN (Streamlit.format_original_transcript frags).data).length
      = ((chunks4 (frags.map (fun t => cleanList t.text.data))).map
          (List.intercalate [' '])).length := by
        rw [show (Streamlit.format_original_transcript frags).data =
            List.intercalate ['\n', '\n']
              ((chunks4 (frags.map (fun t => cleanList t.text.data))).map
                (List.intercalate [' '])) from rfl, this]
    _ = (frags.length + 3) / 4 := by
        rw [List.length_map, chunks4_length _ hmap, List.length_map]

/-- C3 counterexample.  On the empty fragment sequence the Chunked
assembler's output is the empty string, which splits into one (empty)
paragraph, while `⌈0 / 4⌉ = 0`. -/
theorem chunked_paragraph_count_empty :
    (splitNN (Streamlit.format_original_transcript []).data).length = 1 ∧
      (List.length ([] : List TranscriptFragment) + 3) / 4 = 0 := by
  constructor <;> decide

/-- Witness for the amended C3 theorem at five fragments. -/
theorem chunked_paragraph_count_witness :
    ([⟨"a"⟩, ⟨"b"⟩, ⟨"c"⟩, ⟨"d"⟩, ⟨"e"⟩] : List TranscriptFragment) ≠ [] ∧
    (splitNN (Streamlit.format_original_transcript
        [⟨"a"⟩, ⟨"b"⟩, ⟨"c"⟩, ⟨"d"⟩, ⟨"e"⟩]).data).length =
      (List.length ([⟨"a"⟩, ⟨"b"⟩, ⟨"c"⟩, ⟨"d"⟩, ⟨"e"⟩] : List TranscriptFragment) + 3) / 4 :=
  ⟨by simp, chunked_paragraph_count _ (by simp)⟩

/-! ### C7: the styled path's title handling. -/

theorem splitVideoAux_flatten (l : List Char) (skip : Nat) (acc : List Char) :
    (splitVideoAux acc skip l).flatten = acc.reverse ++ replaceVideoAux skip l := by
  induction l generalizing skip acc with
  | nil => simp [splitVideoAux, replaceVideoAux]
  | cons c cs ih =>
    match skip with
    | Nat.succ k =>
      simp only [splitVideoAux, replaceVideoAux]
      exact ih k acc
    | 0 =>
      simp only [splitVideoAux, replaceVideoAux]
      cases dropLit "Video: ".data (c :: cs) with
      | some r => simp only [List.flatten_cons]; rw [ih 6 []]; simp
      | none => rw [ih 0 (c :: acc)]; simp

/-- C7 counterexample.  For the section pair
`("Video: A Video: B", "body")` the code's displayed heading is `"A B"`
(every occurrence of `"Video: "` in the first line is removed), while the
claimed heading — only a leading `"Video: "` prefix stripped — would be
`"A Video: B"`. -/
theorem styled_title_not_leading_only :
    fancyTitleLine "Video: A Video: B".data "body".data = "A B".data ∧
    specTitleLine "Video: A Video: B".data "body".data = "A Video: B".data ∧
    "A B".data ≠ "A Video: B".data := by
  refine ⟨by decide, by decide, by decide⟩

/-- C7 amended.  For every `(title, content)` pair the displayed heading of
the styled path equals the first line of the Markup Reconstructor's output
on `"{title}\n{content}"` with every occurrence of `"Video: "` removed
(equivalently: the first line split on `"Video: "` and re-joined) and
surrounding whitespace trimmed. -/
theorem styled_title_line_removes_all_occurrences (title content : List Char) :
    fancyTitleLine title content =
      stripEnds ((splitVideoAux [] 0
        (splitFirstNl (cleanFixList (title ++ '\n' :: content))).1).flatten) := by
  rw [fancyTitleLine, splitVideoAux_flatten]
  simp

/-! ### C5: the Basic renderer's fallback semantics. -/

/-- C5.  For every environment and section list: if the structured
(markdown to HTML) conversion of a section's content fails, the section is
emitted as plain unformatted text on the same page (no further failure
path); with fonts available the assembled document is non-empty bytes; the
only renderer-level fatal error is a missing font asset, which aborts the
whole operation. -/
theorem basic_renderer_fallback (env : FpdfEnv) (title content : String)
    (secs : List (String × String)) :
    (env.writeHtmlOk (env.mdRender content) = false →
      pageOf env title content = [.page, .titleCell title, .plainText content]) ∧
    (env.fontsAvailable = true →
      ∃ b, create_pdf_from_transcripts env secs = some b ∧ b ≠ []) ∧
    (env.fontsAvailable = false → create_pdf_from_transcripts env secs = none) := by
  refine ⟨?_, ?_, ?_⟩
  · intro h
    simp [pageOf, chapter_body, h]
  · intro h
    refine ⟨fpdfOutput (List.flatten (secs.map (fun p => pageOf env p.1 p.2))), ?_, ?_⟩
    · simp [create_pdf_from_transcripts, h]
    · simp [fpdfOutput]
  · intro h
    simp [create_pdf_from_transcripts, h]

/-- Witness for C5 at a concrete environment whose HTML conversion always
fails, and at one whose fonts are missing. -/
theorem basic_renderer_fallback_witness :
    pageOf ⟨id, fun _ => false, true⟩ "t" "body" =
      [.page, .titleCell "t", .plainText "body"] ∧
    (∃ b, create_pdf_from_transcripts ⟨id, fun _ => false, true⟩ [("t", "body")] =
      some b ∧ b ≠ []) ∧
    create_pdf_from_transcripts ⟨id, fun _ => false, false⟩ [("t", "body")] = none :=
  ⟨(basic_renderer_fallback ⟨id, fun _ => false, true⟩ "t" "body" [("t", "body")]).1 rfl,
   (basic_renderer_fallback ⟨id, fun _ => false, true⟩ "t" "body" [("t", "body")]).2.1 rfl,
   (basic_renderer_fallback ⟨id, fun _ => false, false⟩ "t" "body" [("t", "body")]).2.2 rfl⟩

/-! ### C6: the Styled renderer's all-or-nothing semantics. -/

/-- C6.  For every environment and section list the styled renderer is
all-or-nothing: if the single `write_pdf` call fails, the whole operation
returns the explicit failure signal `none` and reports the cause (no
per-section fallback exists); on success it returns exactly the rendered
non-empty bytes. -/
theorem styled_renderer_all_or_nothing (env : WeasyEnv) (secs : List (String × String)) :
    (∀ e, env.writePdf (htmlDocOf env secs) = .error e →
      create_fancy_pdf_from_transcripts env secs = (none, weasyErrorMsgs e) ∧
        ("Error generating 'Fancy' PDF with WeasyPrint: " ++ e) ∈ weasyErrorMsgs e) ∧
    (∀ b, env.writePdf (htmlDocOf env secs) = .ok b →
      create_fancy_pdf_from_transcripts env secs = (some b, []) ∧ b.val ≠ []) := by
  constructor
  · intro e he
    constructor
    · simp [create_fancy_pdf_from_transcripts, he]
    · simp [weasyErrorMsgs]
  · intro b hb
    exact ⟨by simp [create_fancy_pdf_from_transcripts, hb], b.2⟩

/-- Witness for C6 at a concrete always-failing and a concrete
always-succeeding environment. -/
theorem styled_renderer_all_or_nothing_witness :
    create_fancy_pdf_from_transcripts ⟨id, fun _ => .error "boom"⟩ [("t", "body")] =
      (none, weasyErrorMsgs "boom") ∧
    create_fancy_pdf_from_transcripts ⟨id, fun _ => .ok ⟨[1], by decide⟩⟩ [("t", "body")] =
      (some ⟨[1], by decide⟩, []) :=
  ⟨((styled_renderer_all_or_nothing ⟨id, fun _ => .error "boom"⟩ [("t", "body")]).1
      "boom" rfl).1,
   ((styled_renderer_all_or_nothing ⟨id, fun _ => .ok ⟨[1], by decide⟩⟩ [("t", "body")]).2
      ⟨[1], by decide⟩ rfl).1⟩

/-! ### C4: the Markup Reconstructor never deletes content, except for the
zero-width marker and product-name artifact removals. -/

theorem nws_append (a b : List Char) : nwsCount (a ++ b) = nwsCount a + nwsCount b := by
  simp [nwsCount, List.filter_append]

theorem nws_cons (c : Char) (t : List Char) :
    nwsCount (c :: t) = (if isSpaceChar c then 0 else 1) + nwsCount t := by
  by_cases h : isSpaceChar c = true
  · simp [nwsCount, List.filter_cons, h]
  · simp only [nwsCount, List.filter_cons, h]
    simp
    omega

theorem nws_all_ws (u : List Char) (h : ∀ c ∈ u, isSpaceChar c = true) :
    nwsCount u = 0 := by
  induction u with
  | nil => rfl
  | cons c cs ih =>
    rw [nws_cons, h c (by simp), ih (fun x hx => h x (by simp [hx]))]
    simp

theorem nws_reverse (t : List Char) : nwsCount t.reverse = nwsCount t := by
  simp [nwsCount, List.filter_reverse]

theorem nws_dropWhile_ws (t : List Char) :
    nwsCount (t.dropWhile isSpaceChar) = nwsCount t := by
  conv_rhs => rw [← List.takeWhile_append_dropWhile (p := isSpaceChar) (l := t)]
  rw [nws_append, nws_all_ws _ (fun c hc => List.mem_takeWhile_imp hc)]
  omega

theorem nws_stripEnds (t : List Char) : nwsCount (stripEnds t) = nwsCount t := by
  rw [stripEnds, nws_reverse, nws_dropWhile_ws, nws_reverse, nws_dropWhile_ws]

theorem dropLit_append (p s r : List Char) (h : dropLit p s = some r) : s = p ++ r := by
  induction p generalizing s with
  | nil => simpa [dropLit] using h
  | cons x ps ih =>
    rcases s with _ | ⟨c, cs⟩
    · simp [dropLit] at h
    · simp only [dropLit] at h
      split at h
      case isTrue heq =>
        have hc : c = x := by simpa using heq
        subst hc
        rw [List.cons_append, ← ih cs h]
      case isFalse => exact absurd h (by simp)

theorem subTransAux_skip (k : Nat) (s : List Char) :
    subTransAux k s = subTransAux 0 (s.drop k) := by
  induction s generalizing k with
  | nil => cases k <;> rfl
  | cons c cs ih =>
    cases k with
    | zero => rfl
    | succ k => rw [List.drop_succ_cons, ← ih k]; rfl

theorem transCount_skip (k : Nat) (s : List Char) :
    transCount k s = transCount 0 (s.drop k) := by
  induction s generalizing k with
  | nil => cases k <;> rfl
  | cons c cs ih =>
    cases k with
    | zero => rfl
    | succ k => rw [List.drop_succ_cons, ← ih k]; rfl

theorem nws_subTrans (s : List Char) :
    nwsCount (subTransAux 0 s) + 11 * transCount 0 s = nwsCount s := by
  have main : ∀ n (s : List Char), s.length ≤ n →
      nwsCount (subTransAux 0 s) + 11 * transCount 0 s = nwsCount s := by
    intro n
    induction n with
    | zero =>
      intro s hs
      rw [List.length_eq_zero.mp (Nat.le_zero.mp hs)]
      rfl
    | succ n ih =>
      intro s hs
      rcases s with _ | ⟨c, cs⟩
      · rfl
      · rcases hm : dropLit transLit ((c :: cs).dropWhile isSpaceChar) with _ | afterLit
        · have e1 : subTransAux 0 (c :: cs) = c :: subTransAux 0 cs := by
            simp only [subTransAux, hm]
          have e2 : transCount 0 (c :: cs) = transCount 0 cs := by
            simp only [transCount, hm]
          rw [e1, e2, nws_cons, nws_cons]
          have hlen : cs.length ≤ n := by
            simp only [List.length_cons] at hs; omega
          have := ih cs hlen
          omega
        · have hv := dropLit_append _ _ _ hm
          have hfull : c :: cs =
              ((c :: cs).takeWhile isSpaceChar ++ transLit ++
                afterLit.takeWhile isSpaceChar) ++ afterLit.dropWhile isSpaceChar := by
            conv_lhs => rw [← List.takeWhile_append_dropWhile (p := isSpaceChar)
              (l := c :: cs)]
            rw [hv]
            conv_lhs => rw [← List.takeWhile_append_dropWhile (p := isSpaceChar)
              (l := afterLit)]
            simp [List.append_assoc]
          have hKlen : ((c :: cs).takeWhile isSpaceChar ++ transLit ++
              afterLit.takeWhile isSpaceChar).length =
              ((c :: cs).takeWhile isSpaceChar).length + 11 +
                (afterLit.takeWhile isSpaceChar).length := by
            simp [transLit]
            omega
          have hdrop : cs.drop (((c :: cs).takeWhile isSpaceChar).length + 11 +
              (afterLit.takeWhile isSpaceChar).length - 1) =
              afterLit.dropWhile isSpaceChar := by
            have h1 := List.drop_left
              ((c :: cs).takeWhile isSpaceChar ++ transLit ++
                afterLit.takeWhile isSpaceChar) (afterLit.dropWhile isSpaceChar)
            rw [hKlen, ← hfull] at h1
            have h2 : ((c :: cs).takeWhile isSpaceChar).length + 11 +
                (afterLit.takeWhile isSpaceChar).length =
                (((c :: cs).takeWhile isSpaceChar).length + 11 +
                  (afterLit.takeWhile isSpaceChar).length - 1) + 1 := by omega
            rw [h2, List.drop_succ_cons] at h1
            exact h1
          have e1 : subTransAux 0 (c :: cs) =
              '\n' :: subTransAux 0 (afterLit.dropWhile isSpaceChar) := by
            simp only [subTransAux, hm]
            rw [subTransAux_skip, hdrop]
          have e2 : transCount 0 (c :: cs) =
              1 + transCount 0 (afterLit.dropWhile isSpaceChar) := by
            simp only [transCount, hm]
            rw [transCount_skip, hdrop]
          have hrl : (afterLit.dropWhile isSpaceChar).length ≤ n := by
            have hlen2 : (c :: cs).length =
                ((c :: cs).takeWhile isSpaceChar).length + 11 +
                  (afterLit.takeWhile isSpaceChar).length +
                  (afterLit.dropWhile isSpaceChar).length := by
              conv_lhs => rw [hfull]
              rw [List.length_append, hKlen]
            simp only [List.length_cons] at hlen2 hs
            omega
          have hnwsu : nwsCount ((c :: cs).takeWhile isSpaceChar) = 0 :=
            nws_all_ws _ (fun x hx => List.mem_takeWhile_imp hx)
          have hnwsw : nwsCount (afterLit.takeWhile isSpaceChar) = 0 :=
            nws_all_ws _ (fun x hx => List.mem_takeWhile_imp hx)
          have hnwslit : nwsCount transLit = 11 := by decide
          have hsum : nwsCount (c :: cs) =
              11 + nwsCount (afterLit.dropWhile isSpaceChar) := by
            conv_lhs => rw [hfull]
            rw [nws_append, nws_append, nws_append, hnwsu, hnwsw, hnwslit]
          have hnl : (if isSpaceChar '\n' then (0 : Nat) else 1) = 0 := rfl
          rw [e1, e2, nws_cons, hsum, hnl]
          have := ih _ hrl
          omega
  exact main s.length s le_rfl

theorem nws_bom_filter (s : List Char) :
    nwsCount (s.filter (fun c => c != '﻿')) + bomCount s = nwsCount s := by
  induction s with
  | nil => rfl
  | cons c cs ih =>
    by_cases h : c = '﻿'
    · subst h
      have h1 : (('﻿' : Char) != '﻿') = false := by decide
      simp only [List.filter_cons, h1, Bool.false_eq_true, if_false]
      rw [show bomCount ('﻿' :: cs) = 1 + bomCount cs by
        simp [bomCount, List.filter_cons]; omega]
      rw [show nwsCount ('﻿' :: cs) = 1 + nwsCount cs by
        rw [nws_cons, show isSpaceChar '﻿' = false from rfl]
        simp]
      omega
    · have h1 : (c != '﻿') = true := by simpa using h
      simp only [List.filter_cons, h1, if_true]
      rw [show bomCount (c :: cs) = bomCount cs by
        simp [bomCount, List.filter_cons, h]]
      rw [nws_cons, nws_cons]
      omega

theorem splitNlAux_ne_nil (acc s : List Char) : splitNlAux acc s ≠ [] := by
  induction s generalizing acc with
  | nil => simp [splitNlAux]
  | cons c cs ih =>
    by_cases h : c = '\n'
    · subst h; simp [splitNlAux]
    · have h1 : (c == '\n') = false := by simpa using h
      simp [splitNlAux, h1, ih]

theorem unlines_cons (a : List Char) (ls : List (List Char)) (h : ls ≠ []) :
    unlines (a :: ls) = a ++ '\n' :: unlines ls := by
  rcases ls with _ | ⟨q, rest⟩
  · exact absurd rfl h
  · simp [unlines, List.intercalate, List.intersperse]

theorem unlines_splitNlAux (acc s : List Char) :
    unlines (splitNlAux acc s) = acc.reverse ++ s := by
  induction s generalizing acc with
  | nil => simp [splitNlAux, unlines, List.intercalate]
  | cons c cs ih =>
    by_cases h : c = '\n'
    · subst h
      simp only [splitNlAux, beq_self_eq_true, if_true]
      rw [unlines_cons _ _ (splitNlAux_ne_nil [] cs), ih []]
      simp
    · have h1 : (c == '\n') = false := by simpa using h
      simp only [splitNlAux, h1, Bool.false_eq_true, if_false]
      rw [ih (c :: acc)]
      simp

theorem unlines_linesOf (s : List Char) : unlines (linesOf s) = s := by
  simpa using unlines_splitNlAux [] s

theorem nws_unlines (ls : List (List Char)) :
    nwsCount (unlines ls) = (ls.map nwsCount).sum := by
  induction ls with
  | nil => rfl
  | cons a ls ih =>
    rcases ls with _ | ⟨q, rest⟩
    · simp [unlines, List.intercalate, nwsCount]
    · rw [unlines_cons a _ (by simp), nws_append, nws_cons, ih]
      simp [isSpaceChar]

theorem nws_mapLines_ge (f : List Char → List Char)
    (hf : ∀ l, nwsCount l ≤ nwsCount (f l)) (t : List Char) :
    nwsCount t ≤ nwsCount (mapLines f t) := by
  rw [mapLines, nws_unlines]
  conv_lhs => rw [← unlines_linesOf t]
  rw [nws_unlines, List.map_map]
  exact List.sum_le_sum (fun l _ => hf l)

theorem nws_partRuleLine (l : List Char) : nwsCount l ≤ nwsCount (partRuleLine l) := by
  rw [partRuleLine]
  split
  · rw [nws_append]; omega
  · exact le_rfl

theorem nws_learnRuleLine (l : List Char) : nwsCount l ≤ nwsCount (learnRuleLine l) := by
  rw [learnRuleLine]
  split
  · rw [show ('\n' :: "---".data ++ '\n' :: "## ".data ++ l : List Char) =
      ('\n' :: "---".data ++ '\n' :: "## ".data) ++ l by simp]
    rw [nws_append]; omega
  · exact le_rfl

theorem nws_azRuleLine (l : List Char) : nwsCount l ≤ nwsCount (azRuleLine l) := by
  rw [azRuleLine]
  split
  · rw [nws_append]; omega
  · exact le_rfl

theorem nws_bullet_map (t : List Char) :
    nwsCount (t.map (fun c => if c == '•' then '*' else c)) = nwsCount t := by
  induction t with
  | nil => rfl
  | cons c cs ih =>
    rw [List.map_cons, nws_cons, nws_cons, ih]
    by_cases h : c = '•'
    · subst h; rfl
    · have h1 : (c == '•') = false := by simpa using h
      rw [h1]
      simp

theorem subNumAux_skip (k : Nat) (s : List Char) :
    subNumAux k s = subNumAux 0 (s.drop k) := by
  induction s generalizing k with
  | nil => cases k <;> rfl
  | cons c cs ih =>
    cases k with
    | zero => rfl
    | succ k => rw [List.drop_succ_cons, ← ih k]; rfl

theorem subStarAux_skip (k : Nat) (s : List Char) :
    subStarAux k s = subStarAux 0 (s.drop k) := by
  induction s generalizing k with
  | nil => cases k <;> rfl
  | cons c cs ih =>
    cases k with
    | zero => rfl
    | succ k => rw [List.drop_succ_cons, ← ih k]; rfl

theorem subJamAux_skip (k : Nat) (s : List Char) :
    subJamAux k s = subJamAux 0 (s.drop k) := by
  induction s generalizing k with
  | nil => cases k <;> rfl
  | cons c cs ih =>
    cases k with
    | zero => rfl
    | succ k => rw [List.drop_succ_cons, ← ih k]; rfl

theorem subNlAux_skip (k : Nat) (s : List Char) :
    subNlAux k s = subNlAux 0 (s.drop k) := by
  induction s generalizing k with
  | nil => cases k <;> rfl
  | cons c cs ih =>
    cases k with
    | zero => rfl
    | succ k => rw [List.drop_succ_cons, ← ih k]; rfl

theorem drop_two_prefix (ds rr : List Char) (a b : Char) :
    (ds ++ a :: b :: rr).drop (ds.length + 2) = rr := by
  have h1 := List.drop_left (ds ++ [a, b]) rr
  have h2 : (ds ++ [a, b]).length = ds.length + 2 := by simp
  rw [h2] at h1
  rw [← h1]
  simp

theorem nws_cons_nl (t : List Char) : nwsCount ('\n' :: t) = nwsCount t := rfl

theorem nws_cons_sp (t : List Char) : nwsCount (' ' :: t) = nwsCount t := rfl

theorem nws_cons_dot (t : List Char) : nwsCount ('.' :: t) = nwsCount t + 1 := rfl

theorem nws_cons_star (t : List Char) : nwsCount ('*' :: t) = nwsCount t + 1 := rfl

theorem nws_cons_nonws (c : Char) (t : List Char) (h : isSpaceChar c = false) :
    nwsCount (c :: t) = nwsCount t + 1 := by
  rw [nws_cons, h]
  simp
  omega

theorem nws_subNum (s : List Char) : nwsCount (subNumAux 0 s) = nwsCount s := by
  have main : ∀ n (s : List Char), s.length ≤ n →
      nwsCount (subNumAux 0 s) = nwsCount s := by
    intro n
    induction n with
    | zero =>
      intro s hs
      rw [List.length_eq_zero.mp (Nat.le_zero.mp hs)]
      rfl
    | succ n ih =>
      intro s hs
      rcases s with _ | ⟨c, cs⟩
      · rfl
      · have hcs : cs.length ≤ n := by simp only [List.length_cons] at hs; omega
        by_cases hc : (c == ' ') = true
        · rcases hd : cs.dropWhile isDigitChar with _ | ⟨a, tl⟩
          · have e1 : subNumAux 0 (c :: cs) = c :: subNumAux 0 cs := by
              simp only [subNumAux, hc, if_true, hd]
            rw [e1, nws_cons, nws_cons, ih cs hcs]
          · rcases tl with _ | ⟨b, rr⟩
            · have e1 : subNumAux 0 (c :: cs) = c :: subNumAux 0 cs := by
                simp only [subNumAux, hc, if_true, hd]
              rw [e1, nws_cons, nws_cons, ih cs hcs]
            · by_cases hcond :
                  (!(cs.takeWhile isDigitChar).isEmpty && a == '.' && b == ' ') = true
              · have hparts := hcond
                simp only [Bool.and_eq_true, beq_iff_eq, Bool.not_eq_true'] at hparts
                obtain ⟨⟨hds, ha⟩, hb⟩ := hparts
                subst ha
                subst hb
                have hc' : c = ' ' := by simpa using hc
                subst hc'
                have hcsplit : cs = cs.takeWhile isDigitChar ++ '.' :: ' ' :: rr := by
                  conv_lhs => rw [← List.takeWhile_append_dropWhile
                    (p := isDigitChar) (l := cs)]
                  rw [hd]
                have hdrop2 : cs.drop ((cs.takeWhile isDigitChar).length + 2) = rr := by
                  have h0 := drop_two_prefix (cs.takeWhile isDigitChar) rr '.' ' '
                  rw [← hcsplit] at h0
                  exact h0
                have e1 : subNumAux 0 (' ' :: cs) =
                    '\n' :: ' ' :: (cs.takeWhile isDigitChar ++ '.' :: ' ' ::
                      subNumAux 0 rr) := by
                  simp only [subNumAux, hd, hcond]
                  rw [subNumAux_skip, hdrop2]
                  simp
                have hrr : rr.length ≤ n := by
                  have hl : cs.length =
                      (cs.takeWhile isDigitChar).length + 2 + rr.length := by
                    conv_lhs => rw [hcsplit]
                    simp
                    omega
                  omega
                conv_lhs => rw [e1, nws_cons_nl, nws_cons_sp, nws_append,
                  nws_cons_dot, nws_cons_sp]
                conv_rhs => rw [nws_cons_sp, hcsplit, nws_append, nws_cons_dot,
                  nws_cons_sp]
                rw [ih rr hrr]
              · have hcond' :
                    (!(cs.takeWhile isDigitChar).isEmpty && a == '.' && b == ' ') = false :=
                  by simpa using hcond
                have e1 : subNumAux 0 (c :: cs) = c :: subNumAux 0 cs := by
                  simp only [subNumAux, hc, if_true, hd, hcond']
                  simp
                rw [e1, nws_cons, nws_cons, ih cs hcs]
        · have hc' : (c == ' ') = false := by simpa using hc
          have e1 : subNumAux 0 (c :: cs) = c :: subNumAux 0 cs := by
            simp only [subNumAux, hc', Bool.false_eq_true, if_false]
          rw [e1, nws_cons, nws_cons, ih cs hcs]
  exact main s.length s le_rfl

theorem nws_subStar (s : List Char) : nwsCount (subStarAux 0 s) = nwsCount s := by
  have main : ∀ n (s : List Char), s.length ≤ n →
      nwsCount (subStarAux 0 s) = nwsCount s := by
    intro n
    induction n with
    | zero =>
      intro s hs
      rw [List.length_eq_zero.mp (Nat.le_zero.mp hs)]
      rfl
    | succ n ih =>
      intro s hs
      rcases s with _ | ⟨c, cs⟩
      · rfl
      · have hcs : cs.length ≤ n := by simp only [List.length_cons] at hs; omega
        rcases cs with _ | ⟨a, _ | ⟨b, rr⟩⟩
        · rfl
        · have e1 : subStarAux 0 [c, a] = c :: subStarAux 0 [a] := by
            simp only [subStarAux]
          rw [e1, nws_cons, nws_cons, ih [a] hcs]
        · by_cases hcond : (c == ' ' && a == '*' && b == ' ') = true
          · have hparts := hcond
            simp only [Bool.and_eq_true, beq_iff_eq] at hparts
            obtain ⟨⟨hc, ha⟩, hb⟩ := hparts
            subst hc; subst ha; subst hb
            have hrr : rr.length ≤ n := by
              simp only [List.length_cons] at hcs; omega
            have e1 : subStarAux 0 (' ' :: '*' :: ' ' :: rr) =
                '\n' :: ' ' :: '*' :: ' ' :: subStarAux 0 rr := by
              simp only [subStarAux, hcond]
              rw [subStarAux_skip]
              simp
            rw [e1, nws_cons_nl, nws_cons_sp, nws_cons_star, nws_cons_sp,
              nws_cons_sp, nws_cons_star, nws_cons_sp, ih rr hrr]
          · have hcond' : (c == ' ' && a == '*' && b == ' ') = false := by
              simpa using hcond
            have e1 : subStarAux 0 (c :: a :: b :: rr) =
                c :: subStarAux 0 (a :: b :: rr) := by
              simp only [subStarAux, hcond']
              simp
            rw [e1, nws_cons, nws_cons, ih _ hcs]
  exact main s.length s le_rfl

theorem drop_sp_ds_dot (ds rr : List Char) :
    (' ' :: (ds ++ '.' :: rr)).drop (ds.length + 2) = rr := by
  have h0 : ds.length + 2 = (ds.length + 1) + 1 := by omega
  rw [h0, List.drop_succ_cons]
  have h1 := List.drop_left (ds ++ ['.']) rr
  have h2 : (ds ++ ['.']).length = ds.length + 1 := by simp
  rw [h2] at h1
  rw [← h1]
  simp

theorem drop_ds_dot (ds rr : List Char) :
    (ds ++ '.' :: rr).drop (ds.length + 1) = rr := by
  have h1 := List.drop_left (ds ++ ['.']) rr
  have h2 : (ds ++ ['.']).length = ds.length + 1 := by simp
  rw [h2] at h1
  rw [← h1]
  simp

theorem nws_subJam (s : List Char) : nwsCount (subJamAux 0 s) = nwsCount s := by
  have main : ∀ n (s : List Char), s.length ≤ n →
      nwsCount (subJamAux 0 s) = nwsCount s := by
    intro n
    induction n with
    | zero =>
      intro s hs
      rw [List.length_eq_zero.mp (Nat.le_zero.mp hs)]
      rfl
    | succ n ih =>
      intro s hs
      rcases s with _ | ⟨c, cs⟩
      · rfl
      · have hcs : cs.length ≤ n := by simp only [List.length_cons] at hs; omega
        by_cases hw : isSpaceChar c = true
        · have e1 : subJamAux 0 (c :: cs) = c :: subJamAux 0 cs := by
            simp only [subJamAux, hw, Bool.not_true, Bool.false_eq_true, if_false]
          rw [e1, nws_cons, nws_cons, ih cs hcs]
        · have hw' : isSpaceChar c = false := by simpa using hw
          rcases cs with _ | ⟨sp, rest2⟩
          · have e1 : subJamAux 0 [c] = [c] := by
              simp only [subJamAux, hw', Bool.not_false, if_true]
            rw [e1]
          · by_cases hsp : (sp == ' ') = true
            · by_cases hcond : (!(rest2.takeWhile isDigitChar).isEmpty &&
                  ((rest2.dropWhile isDigitChar).headD 'x' == '.')) = true
              · have hsp' : sp = ' ' := by simpa using hsp
                subst hsp'
                have hparts := hcond
                simp only [Bool.and_eq_true, beq_iff_eq, Bool.not_eq_true'] at hparts
                obtain ⟨hds, hhead⟩ := hparts
                rcases he : rest2.dropWhile isDigitChar with _ | ⟨a2, rr⟩
                · rw [he] at hhead
                  exact absurd hhead (by decide)
                · rw [he] at hhead
                  simp only [List.headD_cons] at hhead
                  subst hhead
                  have hsplit : rest2 = rest2.takeWhile isDigitChar ++ '.' :: rr := by
                    conv_lhs => rw [← List.takeWhile_append_dropWhile
                      (p := isDigitChar) (l := rest2)]
                    rw [he]
                  have hdrop2 : rest2.drop
                      ((rest2.takeWhile isDigitChar).length + 1) = rr := by
                    have h0 := drop_ds_dot (rest2.takeWhile isDigitChar) rr
                    rw [← hsplit] at h0
                    exact h0
                  have e1 : subJamAux 0 (c :: ' ' :: rest2) =
                      c :: '\n' :: (rest2.takeWhile isDigitChar ++ '.' ::
                        subJamAux 0 rr) := by
                    simp only [subJamAux, hw', Bool.not_false, if_true, hcond]
                    rw [subJamAux_skip ((rest2.takeWhile isDigitChar).length + 1)
                      rest2, hdrop2]
                    simp
                  have hrr : rr.length ≤ n := by
                    have hl : rest2.length =
                        (rest2.takeWhile isDigitChar).length + 1 + rr.length := by
                      conv_lhs => rw [hsplit]
                      simp
                      omega
                    simp only [List.length_cons] at hcs
                    omega
                  conv_lhs => rw [e1, nws_cons_nonws c _ hw', nws_cons_nl,
                    nws_append, nws_cons_dot]
                  conv_rhs => rw [nws_cons_nonws c _ hw', nws_cons_sp, hsplit,
                    nws_append, nws_cons_dot]
                  rw [ih rr hrr]
              · have hcond' : (!(rest2.takeWhile isDigitChar).isEmpty &&
                    ((rest2.dropWhile isDigitChar).headD 'x' == '.')) = false := by
                  simpa using hcond
                have e1 : subJamAux 0 (c :: sp :: rest2) =
                    c :: subJamAux 0 (sp :: rest2) := by
                  simp only [subJamAux, hw', Bool.not_false, if_true, hsp, hcond']
                  simp
                rw [e1, nws_cons, nws_cons, ih _ hcs]
            · have hsp' : (sp == ' ') = false := by simpa using hsp
              have e1 : subJamAux 0 (c :: sp :: rest2) =
                  c :: subJamAux 0 (sp :: rest2) := by
                simp only [subJamAux, hw', Bool.not_false, if_true, hsp',
                  Bool.false_eq_true, if_false]
              rw [e1, nws_cons, nws_cons, ih _ hcs]
  exact main s.length s le_rfl

theorem drop_takeWhile_len (p : Char → Bool) (l : List Char) :
    l.drop (l.takeWhile p).length = l.dropWhile p := by
  induction l with
  | nil => rfl
  | cons c cs ih =>
    by_cases hp : p c = true
    · simp only [List.takeWhile_cons, hp, if_true, List.length_cons,
        List.drop_succ_cons, List.dropWhile_cons, ih]
    · have hp' : p c = false := by simpa using hp
      simp [List.takeWhile_cons, List.dropWhile_cons, hp']

theorem nws_subNl (s : List Char) : nwsCount (subNlAux 0 s) = nwsCount s := by
  have main : ∀ n (s : List Char), s.length ≤ n →
      nwsCount (subNlAux 0 s) = nwsCount s := by
    intro n
    induction n with
    | zero =>
      intro s hs
      rw [List.length_eq_zero.mp (Nat.le_zero.mp hs)]
      rfl
    | succ n ih =>
      intro s hs
      rcases s with _ | ⟨c, cs⟩
      · rfl
      · have hcs : cs.length ≤ n := by simp only [List.length_cons] at hs; omega
        rcases cs with _ | ⟨d, rest⟩
        · rfl
        · by_cases hcond : (c == '\n' && d == '\n') = true
          · have hparts := hcond
            simp only [Bool.and_eq_true, beq_iff_eq] at hparts
            obtain ⟨hc, hd⟩ := hparts
            subst hc; subst hd
            have hdrop2 : ('\n' :: rest).drop
                (1 + (rest.takeWhile (· == '\n')).length) =
                rest.dropWhile (· == '\n') := by
              rw [show 1 + (rest.takeWhile (· == '\n')).length =
                (rest.takeWhile (· == '\n')).length + 1 by omega]
              rw [show (('\n' :: rest).drop ((rest.takeWhile (· == '\n')).length + 1)) =
                rest.drop (rest.takeWhile (· == '\n')).length from List.drop_succ_cons ..]
              exact drop_takeWhile_len _ rest
            have e1 : subNlAux 0 ('\n' :: '\n' :: rest) =
                '\n' :: '\n' :: subNlAux 0 (rest.dropWhile (· == '\n')) := by
              simp only [subNlAux, hcond]
              rw [subNlAux_skip, hdrop2]
              simp
            have hsplit : rest = rest.takeWhile (· == '\n') ++
                rest.dropWhile (· == '\n') :=
              (List.takeWhile_append_dropWhile (p := (· == '\n')) (l := rest)).symm
            have hrr : (rest.dropWhile (· == '\n')).length ≤ n := by
              have := (List.dropWhile_sublist (l := rest) (· == '\n')).length_le
              simp only [List.length_cons] at hcs
              omega
            have hnwsrun : nwsCount (rest.takeWhile (· == '\n')) = 0 := by
              refine nws_all_ws _ (fun x hx => ?_)
              have := List.mem_takeWhile_imp hx
              have hx' : x = '\n' := by simpa using this
              subst hx'
              rfl
            conv_lhs => rw [e1, nws_cons_nl, nws_cons_nl]
            conv_rhs => rw [nws_cons_nl, nws_cons_nl, hsplit, nws_append, hnwsrun]
            rw [ih _ hrr]
            omega
          · have hcond' : (c == '\n' && d == '\n') = false := by simpa using hcond
            have e1 : subNlAux 0 (c :: d :: rest) =
                c :: subNlAux 0 (d :: rest) := by
              simp only [subNlAux, hcond']
              simp
            rw [e1, nws_cons, nws_cons, ih _ hcs]
  exact main s.length s le_rfl

/-- C4.  The Markup Reconstructor never reduces the non-whitespace
character count except through its two removal rules: the zero-width
marker removal and the product-name artifact removal delete exactly
`bomCount` plus `11` non-whitespace characters per artifact match, and
every later rule (headers, horizontal rule, bullets, list breaks, blank
line collapsing, trimming) only inserts structural markers or replaces a
character by another, so the output count is at least the input count
minus the characters belonging to those two removals. -/
theorem markup_reconstructor_never_deletes (s : String) :
    nwsCount s.data =
      nwsCount (stripEnds (subTransAux 0 (s.data.filter (fun c => c != '﻿')))) +
        (bomCount s.data +
          11 * transCount 0 (s.data.filter (fun c => c != '﻿'))) ∧
    nwsCount (stripEnds (subTransAux 0 (s.data.filter (fun c => c != '﻿')))) ≤
      nwsCount (clean_and_fix_text s).data ∧
    nwsCount s.data -
        (bomCount s.data +
          11 * transCount 0 (s.data.filter (fun c => c != '﻿'))) ≤
      nwsCount (clean_and_fix_text s).data := by
  have h1 := nws_bom_filter s.data
  have h2 := nws_subTrans (s.data.filter (fun c => c != '﻿'))
  have h3 := nws_stripEnds (subTransAux 0 (s.data.filter (fun c => c != '﻿')))
  have hfinal :
      nwsCount (stripEnds (subTransAux 0 (s.data.filter (fun c => c != '﻿')))) ≤
        nwsCount (clean_and_fix_text s).data := by
    have e0 : (clean_and_fix_text s).data =
        stripEnds (subNlAux 0 (subJamAux 0 (subStarAux 0 (subNumAux 0
          ((mapLines azRuleLine (mapLines learnRuleLine (mapLines partRuleLine
            (stripEnds (subTransAux 0
              (s.data.filter (fun c => c != '﻿'))))))).map
            (fun c => if c == '•' then '*' else c)))))) := by
      simp only [clean_and_fix_text, cleanFixList]
    rw [e0]
    have g1 := nws_mapLines_ge partRuleLine nws_partRuleLine
      (stripEnds (subTransAux 0 (s.data.filter (fun c => c != '﻿'))))
    have g2 := nws_mapLines_ge learnRuleLine nws_learnRuleLine
      (mapLines partRuleLine
        (stripEnds (subTransAux 0 (s.data.filter (fun c => c != '﻿')))))
    have g3 := nws_mapLines_ge azRuleLine nws_azRuleLine
      (mapLines learnRuleLine (mapLines partRuleLine
        (stripEnds (subTransAux 0 (s.data.filter (fun c => c != '﻿'))))))
    have g4 := nws_bullet_map
      (mapLines azRuleLine (mapLines learnRuleLine (mapLines partRuleLine
        (stripEnds (subTransAux 0 (s.data.filter (fun c => c != '﻿')))))))
    have g5 := nws_subNum
      ((mapLines azRuleLine (mapLines learnRuleLine (mapLines partRuleLine
        (stripEnds (subTransAux 0 (s.data.filter (fun c => c != '﻿'))))))).map
        (fun c => if c == '•' then '*' else c))
    have g6 := nws_subStar (subNumAux 0
      ((mapLines azRuleLine (mapLines learnRuleLine (mapLines partRuleLine
        (stripEnds (subTransAux 0 (s.data.filter (fun c => c != '﻿'))))))).map
        (fun c => if c == '•' then '*' else c)))
    have g7 := nws_subJam (subStarAux 0 (subNumAux 0
      ((mapLines azRuleLine (mapLines learnRuleLine (mapLines partRuleLine
        (stripEnds (subTransAux 0 (s.data.filter (fun c => c != '﻿'))))))).map
        (fun c => if c == '•' then '*' else c))))
    have g8 := nws_subNl (subJamAux 0 (subStarAux 0 (subNumAux 0
      ((mapLines azRuleLine (mapLines learnRuleLine (mapLines partRuleLine
        (stripEnds (subTransAux 0 (s.data.filter (fun c => c != '﻿'))))))).map
        (fun c => if c == '•' then '*' else c)))))
    have g9 := nws_stripEnds (subNlAux 0 (subJamAux 0 (subStarAux 0 (subNumAux 0
      ((mapLines azRuleLine (mapLines learnRuleLine (mapLines partRuleLine
        (stripEnds (subTransAux 0 (s.data.filter (fun c => c != '﻿'))))))).map
        (fun c => if c == '•' then '*' else c))))))
    omega
  refine ⟨by omega, hfinal, by omega⟩

/-! ### Token infrastructure: the decomposition of a character list into
maximal word runs and separator characters, and its interaction with the
scanners of `clean_transcript_basic`. -/

theorem flatT_nil : flatT [] = [] := rfl

theorem flatT_cons (t : Tok) (ts : List Tok) : flatT (t :: ts) = t.flat ++ flatT ts := by
  simp [flatT]

theorem flatT_append (a b : List Tok) : flatT (a ++ b) = flatT a ++ flatT b := by
  simp [flatT]

theorem tokensOf_nil : tokensOf [] = [] := rfl

theorem tokensOf_cons (c : Char) (s : List Char) :
    tokensOf (c :: s) = tokStep c (tokensOf s) := rfl

theorem tokStep_sep (c : Char) (hc : isWordChar c = false) (ts : List Tok) :
    tokStep c ts = .sep c :: ts := by
  simp [tokStep, hc]

theorem tokStep_merge (c : Char) (hc : isWordChar c = true) (w : List Char)
    (rest : List Tok) :
    tokStep c (.word w :: rest) = .word (c :: w) :: rest := by
  simp [tokStep, hc]

theorem tokStep_new (c : Char) (hc : isWordChar c = true) (ts : List Tok)
    (hts : headNotWord ts) :
    tokStep c ts = .word [c] :: ts := by
  rcases ts with _ | ⟨t, rest⟩
  · simp [tokStep, hc]
  · rcases t with w | d
    · exact absurd (show (Tok.word w :: rest).head? = some (Tok.word w) from rfl)
        (hts w)
    · simp [tokStep, hc]

theorem headNotWord_nil : headNotWord ([] : List Tok) := by
  intro w h; simp at h

theorem headNotWord_sep (c : Char) (rest : List Tok) :
    headNotWord (Tok.sep c :: rest) := by
  intro w h; simp at h

theorem flatT_tokensOf (s : List Char) : flatT (tokensOf s) = s := by
  induction s with
  | nil => rfl
  | cons c cs ih =>
    rw [tokensOf_cons]
    by_cases hc : isWordChar c = true
    · rcases hts : tokensOf cs with _ | ⟨t, rest⟩
      · rw [tokStep_new c hc [] headNotWord_nil, ← ih, hts]
        simp [flatT_cons, Tok.flat]
      · rcases t with w | d
        · rw [tokStep_merge c hc, ← ih, hts]
          simp [flatT_cons, Tok.flat]
        · rw [tokStep_new c hc _ (headNotWord_sep d rest), ← ih, hts]
          simp [flatT_cons, Tok.flat]
    · have hc' : isWordChar c = false := by simpa using hc
      rw [tokStep_sep c hc', flatT_cons, ih]
      simp [Tok.flat]

theorem validT_nil : ValidT [] := by
  constructor
  · intro t ht; simp at ht
  · simp

theorem validT_cons_iff (t : Tok) (ts : List Tok) :
    ValidT (t :: ts) ↔
      t.ok ∧ ValidT ts ∧
        (∀ u, ts.head? = some u → ¬(t.isWordTok = true ∧ u.isWordTok = true)) := by
  constructor
  · rintro ⟨hok, hch⟩
    rw [List.chain'_cons'] at hch
    exact ⟨hok t (by simp), ⟨fun u hu => hok u (by simp [hu]), hch.2⟩,
      fun u hu => hch.1 u hu⟩
  · rintro ⟨h1, ⟨h2, h3⟩, h4⟩
    refine ⟨fun u hu => ?_, ?_⟩
    · rcases List.mem_cons.mp hu with h | h
      · subst h; exact h1
      · exact h2 u h
    · rw [List.chain'_cons']
      exact ⟨h4, h3⟩

theorem validT_tokensOf (s : List Char) : ValidT (tokensOf s) := by
  induction s with
  | nil => exact validT_nil
  | cons c cs ih =>
    rw [tokensOf_cons]
    by_cases hc : isWordChar c = true
    · rcases hts : tokensOf cs with _ | ⟨t, rest⟩
      · rw [tokStep_new c hc [] headNotWord_nil]
        rw [validT_cons_iff]
        exact ⟨⟨by simp, fun x hx => by rw [List.mem_singleton.mp hx]; exact hc⟩,
          validT_nil, by simp⟩
      · rcases t with w | d
        · rw [tokStep_merge c hc]
          rw [hts] at ih
          rw [validT_cons_iff] at ih ⊢
          obtain ⟨⟨hw1, hw2⟩, hrest, hadj⟩ := ih
          refine ⟨⟨by simp, ?_⟩, hrest, hadj⟩
          intro x hx
          rcases List.mem_cons.mp hx with h | h
          · subst h; exact hc
          · exact hw2 x h
        · rw [tokStep_new c hc _ (headNotWord_sep d rest)]
          rw [hts] at ih
          rw [validT_cons_iff]
          refine ⟨⟨by simp, fun x hx => by rw [List.mem_singleton.mp hx]; exact hc⟩,
            ih, ?_⟩
          intro u hu
          simp only [List.head?_cons, Option.some_inj] at hu
          subst hu
          simp [Tok.isWordTok]
    · have hc' : isWordChar c = false := by simpa using hc
      rw [tokStep_sep c hc']
      rw [validT_cons_iff]
      exact ⟨hc', ih, fun u hu => by simp [Tok.isWordTok]⟩

theorem tokensOf_word_prepend (w : List Char) (hw : w ≠ [])
    (hww : ∀ c ∈ w, isWordChar c = true) (X : List Char)
    (hX : headNotWord (tokensOf X)) :
    tokensOf (w ++ X) = .word w :: tokensOf X := by
  induction w with
  | nil => exact absurd rfl hw
  | cons c w' ih =>
    rcases w' with _ | ⟨d, w''⟩
    · rw [List.cons_append, List.nil_append, tokensOf_cons,
        tokStep_new c (hww c (by simp)) _ hX]
    · rw [List.cons_append, tokensOf_cons,
        ih (by simp) (fun x hx => hww x (by simp [hx])),
        tokStep_merge c (hww c (by simp))]

theorem tokensOf_flatT (ts : List Tok) (h : ValidT ts) : tokensOf (flatT ts) = ts := by
  induction ts with
  | nil => rfl
  | cons t rest ih =>
    rw [validT_cons_iff] at h
    obtain ⟨hok, hrest, hadj⟩ := h
    rcases t with w | c
    · rw [flatT_cons]
      have hX : headNotWord (tokensOf (flatT rest)) := by
        rw [ih hrest]
        intro v hv
        rcases rest with _ | ⟨u, rest'⟩
        · simp at hv
        · simp only [List.head?_cons, Option.some_inj] at hv
          have := hadj u (by simp)
          rw [hv] at this
          simp [Tok.isWordTok] at this
      rw [show Tok.flat (.word w) = w from rfl,
        tokensOf_word_prepend w hok.1 hok.2 _ hX, ih hrest]
    · rw [flatT_cons, show Tok.flat (.sep c) = [c] from rfl, List.cons_append,
        List.nil_append, tokensOf_cons, tokStep_sep c hok, ih hrest]

theorem wordChar_not_space (c : Char) (h : isWordChar c = true) :
    isSpaceChar c = false := by
  rcases Bool.eq_false_or_eq_true (isSpaceChar c) with ht | hf
  · exfalso
    simp only [isSpaceChar, Bool.or_eq_true, beq_iff_eq] at ht
    rcases ht with ((((h1 | h1) | h1) | h1) | h1) | h1 <;> subst h1 <;>
      exact absurd h (by decide)
  · exact hf

theorem toLower_nonword (c : Char) (h : isWordChar c = false) : c.toLower = c := by
  have hup : c.isUpper = false := by
    rcases Bool.eq_false_or_eq_true c.isUpper with ht | hf
    · exfalso
      have hw : isWordChar c = true := by
        simp [isWordChar, Char.isAlphanum, Char.isAlpha, ht]
      simp [hw] at h
    · exact hf
  have hn : ¬(65 ≤ c.toNat ∧ c.toNat ≤ 90) := by
    intro h12
    have hu : c.isUpper = true := by
      simp only [Char.isUpper, Bool.and_eq_true, decide_eq_true_eq]
      exact ⟨h12.1, h12.2⟩
    simp [hu] at hup
  simp [Char.toLower, hn]

theorem matchCI_head_fail (k0 : Char) (key' : List Char) (c : Char)
    (h : c.toLower ≠ k0) (cs : List Char) :
    matchCI (k0 :: key') (c :: cs) = none := by
  simp [matchCI, h]

theorem matchCI_of_lower (key w rest : List Char)
    (h : w.map Char.toLower = key) :
    matchCI key (w ++ rest) = some rest := by
  induction w generalizing key with
  | nil => subst h; rfl
  | cons c w' ih =>
    subst h
    simp only [List.map_cons, List.cons_append, matchCI, beq_self_eq_true, if_true]
    exact ih _ rfl

theorem matchCI_word_no_match (key : List Char) (hkey : key ≠ [])
    (hkw : ∀ k ∈ key, isWordChar k = true)
    (w : List Char) (hw : w ≠ []) (hww : ∀ c ∈ w, isWordChar c = true)
    (X : List Char) (hX : X = [] ∨ isWordChar (X.headD ' ') = false)
    (hlw : lowerL w ≠ key) :
    matchCI key (w ++ X) = none ∨
      ∃ r, matchCI key (w ++ X) = some r ∧ boundaryAt r = false := by
  induction w generalizing key with
  | nil => exact absurd rfl hw
  | cons c w' ih =>
    rcases key with _ | ⟨k0, key'⟩
    · exact absurd rfl hkey
    · by_cases hck : c.toLower = k0
      · rcases w' with _ | ⟨d, w''⟩
        · rcases key' with _ | ⟨k1, key''⟩
          · exfalso
            apply hlw
            simp [lowerL, hck]
          · rcases X with _ | ⟨x, X'⟩
            · left
              simp [matchCI, hck]
            · left
              have hx : isWordChar x = false := by
                rcases hX with h | h
                · simp at h
                · simpa using h
              have hxl : x.toLower = x := toLower_nonword x hx
              have : x.toLower ≠ k1 := by
                rw [hxl]
                intro hEq
                subst hEq
                rw [hkw x (by simp)] at hx
                simp at hx
              simp only [List.cons_append, List.nil_append, matchCI, hck,
                beq_self_eq_true, if_true]
              exact matchCI_head_fail k1 key'' x this X'
        · rcases key' with _ | ⟨k1, key''⟩
          · right
            refine ⟨d :: w'' ++ X, ?_, ?_⟩
            · simp [matchCI, hck]
            · have hd := hww d (by simp)
              simp [boundaryAt, hd]
          · have hlw' : lowerL (d :: w'') ≠ k1 :: key'' := by
              intro hEq
              apply hlw
              simp only [lowerL, List.map_cons] at hEq ⊢
              rw [hck, hEq]
            rcases ih (k1 :: key'') (by simp)
                (fun k hk => hkw k (by simp [hk])) (by simp)
                (fun x hx => hww x (by simp [hx])) hlw' with h | ⟨r, hr1, hr2⟩
            · left
              simp only [List.cons_append, matchCI, hck, beq_self_eq_true, if_true]
              exact h
            · right
              refine ⟨r, ?_, hr2⟩
              simp only [List.cons_append, matchCI, hck, beq_self_eq_true, if_true]
              exact hr1
      · left
        exact matchCI_head_fail k0 key' c hck (w' ++ X)

theorem subWordAux_copy (key rep : List Char) (w : List Char)
    (hww : ∀ c ∈ w, isWordChar c = true) (rest : List Char) :
    subWordAux key rep 0 true (w ++ rest) = w ++ subWordAux key rep 0 true rest := by
  induction w with
  | nil => rfl
  | cons c w' ih =>
    rw [List.cons_append]
    rw [show subWordAux key rep 0 true (c :: (w' ++ rest)) =
      c :: subWordAux key rep 0 (isWordChar c) (w' ++ rest) from by
        simp [subWordAux]]
    rw [hww c (by simp), ih (fun x hx => hww x (by simp [hx])), List.cons_append]

theorem subWordAux_skip (key rep : List Char) (pre : List Char) (hpre : pre ≠ [])
    (s : List Char) (pw : Bool) :
    subWordAux key rep pre.length pw (pre ++ s) = subWordAux key rep 0 true s := by
  induction pre generalizing pw with
  | nil => exact absurd rfl hpre
  | cons d pre' ih =>
    rw [List.cons_append, List.length_cons]
    rw [show subWordAux key rep (pre'.length + 1) pw (d :: (pre' ++ s)) =
      subWordAux key rep pre'.length true (pre' ++ s) from rfl]
    rcases pre' with _ | ⟨e, pre''⟩
    · rfl
    · exact ih (by simp) true

theorem subWordAux_step_true (key rep : List Char) (c : Char) (cs : List Char) :
    subWordAux key rep 0 true (c :: cs) =
      c :: subWordAux key rep 0 (isWordChar c) cs := by
  simp [subWordAux]

theorem subWordAux_step_none (key rep : List Char) (c : Char) (cs : List Char)
    (hm : matchCI key (c :: cs) = none) :
    subWordAux key rep 0 false (c :: cs) =
      c :: subWordAux key rep 0 (isWordChar c) cs := by
  simp only [subWordAux, hm]
  simp

theorem subWordAux_step_some (key rep : List Char) (c : Char) (cs r : List Char)
    (hm : matchCI key (c :: cs) = some r) (hb : boundaryAt r = true) :
    subWordAux key rep 0 false (c :: cs) =
      rep ++ subWordAux key rep (key.length - 1) true cs := by
  simp only [subWordAux, hm, hb]
  simp

theorem subWordAux_step_some_nb (key rep : List Char) (c : Char) (cs r : List Char)
    (hm : matchCI key (c :: cs) = some r) (hb : boundaryAt r = false) :
    subWordAux key rep 0 false (c :: cs) =
      c :: subWordAux key rep 0 (isWordChar c) cs := by
  simp only [subWordAux, hm, hb]
  simp

theorem boundaryAt_flatT (ts : List Tok) (hv : ValidT ts) (hh : headNotWord ts) :
    boundaryAt (flatT ts) = true := by
  rcases ts with _ | ⟨t, rest⟩
  · rfl
  · rcases t with w | c
    · exact absurd rfl (hh w)
    · rw [flatT_cons]
      have hc : isWordChar c = false := ((validT_cons_iff _ _).mp hv).1
      simp [Tok.flat, boundaryAt, hc]

theorem boundaryAt_headD (s : List Char) (h : boundaryAt s = true) :
    s = [] ∨ isWordChar (s.headD ' ') = false := by
  rcases s with _ | ⟨c, s'⟩
  · exact Or.inl rfl
  · right
    simp only [boundaryAt, Bool.not_eq_true'] at h
    simpa using h

/-- The central characterization: on the characters of a valid token list,
the `\b<key>\b` case-insensitive substitution scanner acts tokenwise via
`wMap` (whole lowercase word-character keys only, as in the source's
contraction table). -/
theorem subWordAux_flatT (key rep : List Char)
    (hkey : key ≠ []) (hkw : ∀ k ∈ key, isWordChar k = true) :
    ∀ ts, ValidT ts → ∀ pw, (pw = true → headNotWord ts) →
      subWordAux key rep 0 pw (flatT ts) = flatT (wStage key rep ts) := by
  intro ts
  induction ts with
  | nil =>
    intro _ pw _
    cases pw <;> rfl
  | cons t rest ih =>
    intro hv pw hpw
    obtain ⟨hok, hvr, hadj⟩ := (validT_cons_iff t rest).mp hv
    rcases t with w | c
    · have hpwf : pw = false := by
        cases pw
        · rfl
        · exact absurd rfl (hpw rfl w)
      subst hpwf
      obtain ⟨hwne, hww⟩ := hok
      have hhr : headNotWord rest := by
        intro u hu
        exact hadj (Tok.word u) hu ⟨rfl, rfl⟩
      have hbr : boundaryAt (flatT rest) = true := boundaryAt_flatT rest hvr hhr
      have hrec : subWordAux key rep 0 true (flatT rest) =
          flatT (wStage key rep rest) := ih hvr true (fun _ => hhr)
      obtain ⟨c0, w1, rfl⟩ := List.exists_cons_of_ne_nil hwne
      rw [flatT_cons, show Tok.flat (Tok.word (c0 :: w1)) = c0 :: w1 from rfl,
        List.cons_append]
      by_cases hlw : lowerL (c0 :: w1) = key
      · have hm : matchCI key ((c0 :: w1) ++ flatT rest) = some (flatT rest) :=
          matchCI_of_lower key (c0 :: w1) (flatT rest) hlw
        rw [List.cons_append] at hm
        rw [subWordAux_step_some key rep c0 (w1 ++ flatT rest) (flatT rest) hm hbr]
        have hlen : key.length - 1 = w1.length := by
          rw [← hlw]; simp [lowerL]
        rw [hlen]
        have htail : subWordAux key rep w1.length true (w1 ++ flatT rest) =
            flatT (wStage key rep rest) := by
          rcases w1 with _ | ⟨d, w2⟩
          · simpa using hrec
          · rw [subWordAux_skip key rep (d :: w2) (by simp) (flatT rest) true]
            exact hrec
        rw [htail]
        rw [show wStage key rep (Tok.word (c0 :: w1) :: rest) =
          tokensOf rep ++ wStage key rep rest from by
            simp [wStage, wMap, hlw]]
        rw [flatT_append, flatT_tokensOf]
      · have hcopy : subWordAux key rep 0 false (c0 :: (w1 ++ flatT rest)) =
            c0 :: subWordAux key rep 0 (isWordChar c0) (w1 ++ flatT rest) := by
          rcases matchCI_word_no_match key hkey hkw (c0 :: w1) (by simp) hww
              (flatT rest) (boundaryAt_headD (flatT rest) hbr) hlw with hm | ⟨r, hm, hbf⟩
          · rw [List.cons_append] at hm
            exact subWordAux_step_none key rep c0 (w1 ++ flatT rest) hm
          · rw [List.cons_append] at hm
            exact subWordAux_step_some_nb key rep c0 (w1 ++ flatT rest) r hm hbf
        rw [hcopy, hww c0 (by simp),
          subWordAux_copy key rep w1 (fun x hx => hww x (by simp [hx])) (flatT rest),
          hrec]
        rw [show wStage key rep (Tok.word (c0 :: w1) :: rest) =
          Tok.word (c0 :: w1) :: wStage key rep rest from by
            simp [wStage, wMap, hlw]]
        rw [flatT_cons]
        rfl
    · rw [flatT_cons, show Tok.flat (Tok.sep c) = [c] from rfl, List.cons_append,
        List.nil_append]
      have hcw : isWordChar c = false := hok
      have hstep : subWordAux key rep 0 pw (c :: flatT rest) =
          c :: subWordAux key rep 0 false (flatT rest) := by
        cases pw
        · have hm : matchCI key (c :: flatT rest) = none := by
            rcases hkk : key with _ | ⟨k0, key'⟩
            · exact absurd hkk hkey
            · have hck : c.toLower ≠ k0 := by
                rw [toLower_nonword c hcw]
                intro hEq
                subst hEq
                rw [hkw c (by simp [hkk])] at hcw
                simp at hcw
              exact matchCI_head_fail k0 key' c hck (flatT rest)
          rw [subWordAux_step_none key rep c (flatT rest) hm, hcw]
        · rw [subWordAux_step_true key rep c (flatT rest), hcw]
      rw [hstep, ih hvr false (by simp)]
      rw [show wStage key rep (Tok.sep c :: rest) =
        Tok.sep c :: wStage key rep rest from by simp [wStage, wMap]]
      rw [flatT_cons]
      rfl

theorem char_eq_of_toNat_eq (c d : Char) (h : c.toNat = d.toNat) : c = d :=
  Char.ext (UInt32.ext h)

theorem toNat_ofNat_valid (n : Nat) (h : n < 55296) : (Char.ofNat n).toNat = n := by
  have hv : Nat.isValidChar n := Or.inl h
  simp only [Char.ofNat, hv, dif_pos, Char.ofNatAux, Char.toNat]
  rfl

theorem toLower_eq_i (c : Char) (h : c.toLower = 'i') : c = 'i' ∨ c = 'I' := by
  by_cases hr : 65 ≤ c.toNat ∧ c.toNat ≤ 90
  · right
    have h2 : c.toLower = Char.ofNat (c.toNat + 32) := by
      simp [Char.toLower, hr]
    rw [h2] at h
    have h3 := congrArg Char.toNat h
    rw [toNat_ofNat_valid (c.toNat + 32) (by omega)] at h3
    have h4 : c.toNat = 73 := by
      have h5 : ('i' : Char).toNat = 105 := by decide
      omega
    exact char_eq_of_toNat_eq c 'I' (by rw [h4]; decide)
  · left
    have h2 : c.toLower = c := by simp [Char.toLower, hr]
    rw [h2] at h
    exact h

theorem subIAux_step (prevW : Bool) (c : Char) (cs : List Char) :
    subIAux 0 prevW (c :: cs) =
      if !prevW && (c == 'i' || c == 'I') && isSpaceChar (cs.headD 'x') then
        'I' :: ' ' :: subIAux (cs.takeWhile isSpaceChar).length false cs
      else c :: subIAux 0 (isWordChar c) cs := by
  cases cs
  · show subIAux 0 prevW [c] = _
    have hx : isSpaceChar (([] : List Char).headD 'x') = false := by decide
    rw [hx]
    simp [subIAux]
  · rfl

theorem subIAux_copy_word (w : List Char) (hw : ∀ c ∈ w, isWordChar c = true)
    (rest : List Char) :
    subIAux 0 true (w ++ rest) = w ++ subIAux 0 true rest := by
  induction w with
  | nil => rfl
  | cons c w' ih =>
    rw [List.cons_append, subIAux_step true c (w' ++ rest)]
    rw [if_neg (by simp)]
    rw [hw c (by simp), ih (fun x hx => hw x (by simp [hx])), List.cons_append]

theorem subIAux_skip (pre : List Char) (hpre : pre ≠ []) (s : List Char) (pw : Bool) :
    subIAux pre.length pw (pre ++ s) = subIAux 0 false s := by
  induction pre generalizing pw with
  | nil => exact absurd rfl hpre
  | cons d pre' ih =>
    rw [List.cons_append, List.length_cons]
    rw [show subIAux (pre'.length + 1) pw (d :: (pre' ++ s)) =
      subIAux pre'.length false (pre' ++ s) from rfl]
    rcases pre' with _ | ⟨e, pre''⟩
    · rfl
    · exact ih (by simp) false

theorem flatT_ws_split (ts : List Tok) (hok : ∀ t ∈ ts, t.ok) :
    (flatT ts).takeWhile isSpaceChar = flatT (ts.takeWhile Tok.isWsSep) ∧
      (flatT ts).dropWhile isSpaceChar = flatT (ts.dropWhile Tok.isWsSep) := by
  induction ts with
  | nil => exact ⟨rfl, rfl⟩
  | cons t rest ih =>
    obtain ⟨ih1, ih2⟩ := ih (fun u hu => hok u (by simp [hu]))
    rcases t with w | c
    · obtain ⟨hwne, hww⟩ := hok (Tok.word w) (by simp)
      obtain ⟨c0, w1, rfl⟩ := List.exists_cons_of_ne_nil hwne
      have hc0 : isSpaceChar c0 = false :=
        wordChar_not_space c0 (hww c0 (by simp))
      constructor
      · rw [flatT_cons, show Tok.flat (Tok.word (c0 :: w1)) = c0 :: w1 from rfl,
          List.cons_append, List.takeWhile_cons, hc0]
        rfl
      · rw [flatT_cons, show Tok.flat (Tok.word (c0 :: w1)) = c0 :: w1 from rfl,
          List.cons_append, List.dropWhile_cons, hc0]
        rw [show (Tok.word (c0 :: w1) :: rest).dropWhile Tok.isWsSep =
          Tok.word (c0 :: w1) :: rest from by simp [List.dropWhile_cons, Tok.isWsSep]]
        rw [flatT_cons]
        rfl
    · by_cases hc : isSpaceChar c = true
      · constructor
        · rw [flatT_cons, show Tok.flat (Tok.sep c) = [c] from rfl, List.cons_append,
            List.nil_append, List.takeWhile_cons, hc]
          rw [show (Tok.sep c :: rest).takeWhile Tok.isWsSep =
            Tok.sep c :: rest.takeWhile Tok.isWsSep from by
              simp [List.takeWhile_cons, Tok.isWsSep, hc]]
          rw [flatT_cons, ih1]
          rfl
        · rw [flatT_cons, show Tok.flat (Tok.sep c) = [c] from rfl, List.cons_append,
            List.nil_append, List.dropWhile_cons, hc]
          rw [show (Tok.sep c :: rest).dropWhile Tok.isWsSep =
            rest.dropWhile Tok.isWsSep from by
              simp [List.dropWhile_cons, Tok.isWsSep, hc]]
          exact ih2
      · have hc' : isSpaceChar c = false := by
          cases hcc : isSpaceChar c
          · rfl
          · exact absurd hcc hc
        constructor
        · rw [flatT_cons, show Tok.flat (Tok.sep c) = [c] from rfl, List.cons_append,
            List.nil_append, List.takeWhile_cons, hc']
          rw [show (Tok.sep c :: rest).takeWhile Tok.isWsSep = [] from by
            simp [List.takeWhile_cons, Tok.isWsSep, hc']]
          rfl
        · rw [flatT_cons, show Tok.flat (Tok.sep c) = [c] from rfl, List.cons_append,
            List.nil_append, List.dropWhile_cons, hc']
          rw [show (Tok.sep c :: rest).dropWhile Tok.isWsSep =
            Tok.sep c :: rest from by simp [List.dropWhile_cons, Tok.isWsSep, hc']]
          rw [flatT_cons]
          rfl

theorem headWsSep_flatT_head (rest : List Tok) (h : headWsSep rest = true) :
    isSpaceChar ((flatT rest).headD 'x') = true := by
  rcases rest with _ | ⟨t, r⟩
  · simp [headWsSep] at h
  · rcases t with w | c
    · simp [headWsSep, Tok.isWsSep] at h
    · rw [flatT_cons]
      simpa [Tok.flat, headWsSep, Tok.isWsSep] using h

theorem flatT_head_space_headWsSep (rest : List Tok) (hok : ∀ t ∈ rest, t.ok)
    (h : isSpaceChar ((flatT rest).headD 'x') = true) :
    headWsSep rest = true := by
  rcases rest with _ | ⟨t, r⟩
  · exact absurd h (by decide)
  · rcases t with w | c
    · exfalso
      obtain ⟨hwne, hww⟩ := hok (Tok.word w) (by simp)
      obtain ⟨c0, w1, rfl⟩ := List.exists_cons_of_ne_nil hwne
      rw [flatT_cons, show Tok.flat (Tok.word (c0 :: w1)) = c0 :: w1 from rfl,
        List.cons_append] at h
      rw [show ((c0 :: (w1 ++ flatT r)).headD 'x') = c0 from rfl] at h
      rw [wordChar_not_space c0 (hww c0 (by simp))] at h
      simp at h
    · rw [flatT_cons, show Tok.flat (Tok.sep c) = [c] from rfl,
        List.cons_append, List.nil_append] at h
      rw [show ((c :: flatT r).headD 'x') = c from rfl] at h
      simp [headWsSep, Tok.isWsSep, h]

theorem validT_suffix (ts ts' : List Tok) (h : ts' <:+ ts) (hv : ValidT ts) :
    ValidT ts' :=
  ⟨fun t ht => hv.1 t (h.subset ht), hv.2.suffix h⟩

theorem iToks_nil : iToks [] = [] := by simp [iToks]

/-- Characterization of the `\bi\s+ → "I "` scanner on the characters of a
valid token list: it acts tokenwise via `iToks`. -/
theorem subIAux_flatT (ts : List Tok) (hv : ValidT ts) (pw : Bool)
    (hpw : pw = true → headNotWord ts) :
    subIAux 0 pw (flatT ts) = flatT (iToks ts) := by
  have main : ∀ n ts, ts.length ≤ n → ValidT ts → ∀ pw,
      (pw = true → headNotWord ts) →
      subIAux 0 pw (flatT ts) = flatT (iToks ts) := by
    intro n
    induction n with
    | zero =>
      intro ts hlen _ pw _
      have hnil : ts = [] := List.eq_nil_of_length_eq_zero (Nat.le_zero.mp hlen)
      subst hnil
      cases pw <;> (rw [iToks_nil]; rfl)
    | succ n ihn =>
      intro ts hlen hv pw hpw
      rcases ts with _ | ⟨t, rest⟩
      · cases pw <;> (rw [iToks_nil]; rfl)
      · obtain ⟨hok, hvr, hadj⟩ := (validT_cons_iff t rest).mp hv
        have hokr : ∀ u ∈ rest, u.ok := fun u hu => hv.1 u (by simp [hu])
        have hlenr : rest.length ≤ n := by
          simp only [List.length_cons] at hlen
          omega
        rcases t with w | c
        · have hpwf : pw = false := by
            cases pw
            · rfl
            · exact absurd rfl (hpw rfl w)
          subst hpwf
          obtain ⟨hwne, hww⟩ := hok
          have hhr : headNotWord rest := fun u hu =>
            hadj (Tok.word u) hu ⟨rfl, rfl⟩
          obtain ⟨c0, w1, rfl⟩ := List.exists_cons_of_ne_nil hwne
          rw [flatT_cons, show Tok.flat (Tok.word (c0 :: w1)) = c0 :: w1 from rfl,
            List.cons_append, subIAux_step false c0 (w1 ++ flatT rest)]
          by_cases hfire :
              (decide (lowerL (c0 :: w1) = ['i']) && headWsSep rest) = true
          · have hlw : lowerL (c0 :: w1) = ['i'] :=
              of_decide_eq_true (Bool.and_eq_true .. |>.mp hfire).1
            have hws : headWsSep rest = true := (Bool.and_eq_true .. |>.mp hfire).2
            have hw1 : w1 = [] := by
              have := congrArg List.length hlw
              simp [lowerL] at this
              exact this
            subst hw1
            have hc0l : c0.toLower = 'i' := by
              simpa [lowerL] using hlw
            have hcond : (c0 == 'i' || c0 == 'I') = true := by
              rcases toLower_eq_i c0 hc0l with h | h <;> subst h <;> decide
            have hsp : isSpaceChar ((flatT rest).headD 'x') = true :=
              headWsSep_flatT_head rest hws
            rw [show ([] : List Char) ++ flatT rest = flatT rest from rfl]
            rw [if_pos (by rw [hcond, hsp]; decide)]
            have hsplit := flatT_ws_split rest hokr
            have htw : (flatT rest).takeWhile isSpaceChar ≠ [] := by
              rcases hfr : flatT rest with _ | ⟨d, ds⟩
              · rw [hfr] at hsp
                exact absurd hsp (by decide)
              · rw [hfr] at hsp
                rw [show ((d :: ds).headD 'x') = d from rfl] at hsp
                simp [List.takeWhile_cons, hsp]
            have hdec : flatT rest =
                (flatT rest).takeWhile isSpaceChar ++
                  (flatT rest).dropWhile isSpaceChar :=
              (List.takeWhile_append_dropWhile isSpaceChar (flatT rest)).symm
            rw [show subIAux ((flatT rest).takeWhile isSpaceChar).length false
                  (flatT rest) =
                subIAux 0 false ((flatT rest).dropWhile isSpaceChar) from by
              rw [show subIAux ((flatT rest).takeWhile isSpaceChar).length false
                    (flatT rest) =
                  subIAux ((flatT rest).takeWhile isSpaceChar).length false
                    ((flatT rest).takeWhile isSpaceChar ++
                      (flatT rest).dropWhile isSpaceChar) from by rw [← hdec]]
              exact subIAux_skip _ htw _ false]
            rw [hsplit.2]
            have hvd : ValidT (rest.dropWhile Tok.isWsSep) :=
              validT_suffix rest _ (List.dropWhile_suffix _) hvr
            have hld : (rest.dropWhile Tok.isWsSep).length ≤ n := by
              have := (List.dropWhile_sublist (l := rest) Tok.isWsSep).length_le
              omega
            rw [ihn _ hld hvd false (by simp)]
            rw [show iToks (Tok.word [c0] :: rest) =
                  Tok.word ['I'] :: Tok.sep ' ' ::
                    iToks (rest.dropWhile Tok.isWsSep) from by
              simp only [iToks]
              rw [if_pos (by simp [hws, hlw])]]
            rw [flatT_cons, flatT_cons]
            rfl
          · have hnofire :
                (!false && (c0 == 'i' || c0 == 'I') &&
                  isSpaceChar ((w1 ++ flatT rest).headD 'x')) = false := by
              cases hcn : (c0 == 'i' || c0 == 'I')
              · simp
              · have hc0 : c0 = 'i' ∨ c0 = 'I' := by
                  rcases Bool.or_eq_true .. |>.mp hcn with h | h
                  · exact Or.inl (by simpa using h)
                  · exact Or.inr (by simpa using h)
                rcases w1 with _ | ⟨d, w2⟩
                · cases hsp : isSpaceChar ((([] : List Char) ++ flatT rest).headD 'x')
                  · simp
                  · exfalso
                    apply hfire
                    have hws : headWsSep rest = true :=
                      flatT_head_space_headWsSep rest hokr (by simpa using hsp)
                    have hlw : lowerL [c0] = ['i'] := by
                      rcases hc0 with h | h <;> subst h <;> decide
                    simp [hlw, hws]
                · have hd : isSpaceChar d = false :=
                    wordChar_not_space d (hww d (by simp))
                  rw [show (((d :: w2) ++ flatT rest).headD 'x') = d from rfl, hd]
                  simp
            rw [if_neg (by rw [hnofire]; exact Bool.false_ne_true)]
            rw [hww c0 (by simp),
              subIAux_copy_word w1 (fun x hx => hww x (by simp [hx])) (flatT rest)]
            rw [ihn rest hlenr hvr true (fun _ => hhr)]
            rw [show iToks (Tok.word (c0 :: w1) :: rest) =
                  Tok.word (c0 :: w1) :: iToks rest from by
              simp only [iToks]
              rw [if_neg (by simpa using hfire)]]
            rw [flatT_cons]
            rfl
        · have hcw : isWordChar c = false := hok
          rw [flatT_cons, show Tok.flat (Tok.sep c) = [c] from rfl,
            List.cons_append, List.nil_append, subIAux_step pw c (flatT rest)]
          have hcn : (c == 'i' || c == 'I') = false := by
            cases hcc : (c == 'i' || c == 'I')
            · rfl
            · exfalso
              have hc0 : c = 'i' ∨ c = 'I' := by
                rcases Bool.or_eq_true .. |>.mp hcc with h | h
                · exact Or.inl (by simpa using h)
                · exact Or.inr (by simpa using h)
              rcases hc0 with h | h <;> subst h <;> exact absurd hcw (by decide)
          rw [if_neg (by rw [hcn]; simp)]
          rw [hcw, ihn rest hlenr hvr false (by simp)]
          rw [show iToks (Tok.sep c :: rest) = Tok.sep c :: iToks rest from by
            simp [iToks]]
          rw [flatT_cons]
          rfl
  exact main ts.length ts le_rfl hv pw hpw

theorem wordChar_not_punct (c : Char) (h : isWordChar c = true) :
    isPunctChar c = false := by
  rcases Bool.eq_false_or_eq_true (isPunctChar c) with ht | hf
  · exfalso
    simp only [isPunctChar, Bool.or_eq_true, beq_iff_eq] at ht
    rcases ht with ((h1 | h1) | h1) | h1 <;> subst h1 <;>
      exact absurd h (by decide)
  · exact hf

theorem subSpacePunct_step (c : Char) (cs : List Char) :
    subSpacePunct (c :: cs) =
      if isSpaceChar c && isPunctChar ((cs.dropWhile isSpaceChar).headD 'x') then
        subSpacePunct cs
      else c :: subSpacePunct cs := rfl

theorem subSpacePunct_copy_word (w : List Char)
    (hw : ∀ c ∈ w, isWordChar c = true) (X : List Char) :
    subSpacePunct (w ++ X) = w ++ subSpacePunct X := by
  induction w with
  | nil => rfl
  | cons c w' ih =>
    rw [List.cons_append, subSpacePunct_step c (w' ++ X)]
    rw [if_neg (by rw [wordChar_not_space c (hw c (by simp))]; simp)]
    rw [ih (fun x hx => hw x (by simp [hx])), List.cons_append]

/-- Characterization of the `\s+([,.!?]) → \1` scanner on the characters of
a well-formed token list: it acts tokenwise via `P3Toks`. -/
theorem subSpacePunct_flatT (ts : List Tok) (hok : ∀ t ∈ ts, t.ok) :
    subSpacePunct (flatT ts) = flatT (P3Toks ts) := by
  induction ts with
  | nil => rfl
  | cons t rest ih =>
    have ihr := ih (fun u hu => hok u (by simp [hu]))
    rcases t with w | c
    · obtain ⟨hwne, hww⟩ := hok (Tok.word w) (by simp)
      rw [flatT_cons, show Tok.flat (Tok.word w) = w from rfl,
        subSpacePunct_copy_word w hww (flatT rest), ihr]
      rw [show P3Toks (Tok.word w :: rest) = Tok.word w :: P3Toks rest from rfl,
        flatT_cons]
      rfl
    · rw [flatT_cons, show Tok.flat (Tok.sep c) = [c] from rfl, List.cons_append,
        List.nil_append, subSpacePunct_step c (flatT rest)]
      by_cases hc :
          (isSpaceChar c &&
            isPunctChar (((flatT rest).dropWhile isSpaceChar).headD 'x')) = true
      · rw [if_pos hc, ihr]
        rw [show P3Toks (Tok.sep c :: rest) = P3Toks rest from by
          simp only [P3Toks]
          rw [if_pos hc]]
      · rw [if_neg hc, ihr]
        rw [show P3Toks (Tok.sep c :: rest) = Tok.sep c :: P3Toks rest from by
          simp only [P3Toks]
          rw [if_neg hc]]
        rw [flatT_cons]
        rfl

theorem subPunctWord_copy_nonpunct (u : List Char)
    (hu : ∀ c ∈ u, isPunctChar c = false) (X : List Char) :
    subPunctWord (u ++ X) = u ++ subPunctWord X := by
  induction u with
  | nil => rfl
  | cons c u' ih =>
    rw [List.cons_append]
    rcases hrest : u' ++ X with _ | ⟨d, ds⟩
    · rw [show subPunctWord [c] = [c] from rfl]
      rcases List.append_eq_nil.mp hrest with ⟨h1, h2⟩
      subst h1
      subst h2
      rfl
    · rw [show subPunctWord (c :: d :: ds) =
        if isPunctChar c && isWordChar d then c :: ' ' :: d :: subPunctWord ds
        else c :: subPunctWord (d :: ds) from rfl]
      rw [if_neg (by rw [hu c (by simp)]; simp)]
      rw [← hrest, ih (fun x hx => hu x (by simp [hx])), List.cons_append]

/-- Characterization of the `([,.!?])(\w) → \1 \2` scanner on the characters
of a well-formed token list: it acts tokenwise via `P4Toks`. -/
theorem subPunctWord_flatT (ts : List Tok) (hok : ∀ t ∈ ts, t.ok) :
    subPunctWord (flatT ts) = flatT (P4Toks ts) := by
  have main : ∀ n ts, ts.length ≤ n → (∀ t ∈ ts, Tok.ok t) →
      subPunctWord (flatT ts) = flatT (P4Toks ts) := by
    intro n
    induction n with
    | zero =>
      intro ts hlen _
      have hnil : ts = [] := List.eq_nil_of_length_eq_zero (Nat.le_zero.mp hlen)
      subst hnil
      rfl
    | succ n ihn =>
      intro ts hlen hok
      rcases ts with _ | ⟨t, rest⟩
      · rfl
      · have hokr : ∀ u ∈ rest, u.ok := fun u hu => hok u (by simp [hu])
        have hlenr : rest.length ≤ n := by
          simp only [List.length_cons] at hlen
          omega
        rcases t with w | c
        · obtain ⟨hwne, hww⟩ := hok (Tok.word w) (by simp)
          rw [flatT_cons, show Tok.flat (Tok.word w) = w from rfl,
            subPunctWord_copy_nonpunct w
              (fun x hx => wordChar_not_punct x (hww x hx)) (flatT rest),
            ihn rest hlenr hokr]
          rw [show P4Toks (Tok.word w :: rest) = Tok.word w :: P4Toks rest from by
            simp [P4Toks]]
          rw [flatT_cons]
          rfl
        · rcases rest with _ | ⟨t2, rest2⟩
          · rfl
          · have hokr2 : ∀ u ∈ rest2, u.ok := fun u hu => hokr u (by simp [hu])
            have hlenr2 : rest2.length ≤ n := by
              simp only [List.length_cons] at hlenr ⊢
              omega
            rcases t2 with w | d
            · obtain ⟨hwne, hww⟩ := hokr (Tok.word w) (by simp)
              obtain ⟨c0, w1, rfl⟩ := List.exists_cons_of_ne_nil hwne
              rw [flatT_cons, flatT_cons,
                show Tok.flat (Tok.sep c) = [c] from rfl,
                show Tok.flat (Tok.word (c0 :: w1)) = c0 :: w1 from rfl,
                List.cons_append, List.nil_append, List.cons_append]
              rw [show subPunctWord (c :: c0 :: (w1 ++ flatT rest2)) =
                if isPunctChar c && isWordChar c0 then
                  c :: ' ' :: c0 :: subPunctWord (w1 ++ flatT rest2)
                else c :: subPunctWord (c0 :: (w1 ++ flatT rest2)) from rfl]
              have hc0 : isWordChar c0 = true := hww c0 (by simp)
              by_cases hc : isPunctChar c = true
              · rw [if_pos (by rw [hc, hc0]; decide)]
                rw [subPunctWord_copy_nonpunct w1
                  (fun x hx => wordChar_not_punct x (hww x (by simp [hx])))
                  (flatT rest2), ihn rest2 hlenr2 hokr2]
                rw [show P4Toks (Tok.sep c :: Tok.word (c0 :: w1) :: rest2) =
                    Tok.sep c :: Tok.sep ' ' :: Tok.word (c0 :: w1) ::
                      P4Toks rest2 from by
                  simp only [P4Toks]
                  rw [if_pos hc]]
                rw [flatT_cons, flatT_cons, flatT_cons]
                simp [Tok.flat]
              · have hcf : isPunctChar c = false := by
                  cases hcc : isPunctChar c
                  · rfl
                  · exact absurd hcc hc
                rw [if_neg (by rw [hcf]; simp)]
                have hrec : subPunctWord (c0 :: (w1 ++ flatT rest2)) =
                    flatT (P4Toks (Tok.word (c0 :: w1) :: rest2)) := by
                  have := ihn (Tok.word (c0 :: w1) :: rest2)
                    (by simp only [List.length_cons] at hlen ⊢; omega)
                    (fun u hu => hokr u hu)
                  rw [flatT_cons, show Tok.flat (Tok.word (c0 :: w1)) =
                    c0 :: w1 from rfl, List.cons_append] at this
                  exact this
                rw [hrec]
                rw [show P4Toks (Tok.sep c :: Tok.word (c0 :: w1) :: rest2) =
                    Tok.sep c :: P4Toks (Tok.word (c0 :: w1) :: rest2) from by
                  simp only [P4Toks]
                  rw [if_neg (by rw [hcf]; simp)]]
                rw [flatT_cons]
                rfl
            · rw [flatT_cons, show Tok.flat (Tok.sep c) = [c] from rfl,
                List.cons_append, List.nil_append]
              have hd : flatT (Tok.sep d :: rest2) = d :: flatT rest2 := by
                rw [flatT_cons]
                rfl
              rw [show subPunctWord (c :: flatT (Tok.sep d :: rest2)) =
                  c :: subPunctWord (flatT (Tok.sep d :: rest2)) from by
                rw [hd]
                rw [show subPunctWord (c :: d :: flatT rest2) =
                  if isPunctChar c && isWordChar d then
                    c :: ' ' :: d :: subPunctWord (flatT rest2)
                  else c :: subPunctWord (d :: flatT rest2) from rfl]
                have hdw : isWordChar d = false := hokr (Tok.sep d) (by simp)
                rw [if_neg (by rw [hdw]; simp)]]
              rw [ihn (Tok.sep d :: rest2) (by simpa using hlenr)
                (fun u hu => hokr u hu)]
              rw [show P4Toks (Tok.sep c :: Tok.sep d :: rest2) =
                  Tok.sep c :: P4Toks (Tok.sep d :: rest2) from by
                simp [P4Toks]]
              rw [flatT_cons]
              rfl
  exact main ts.length ts le_rfl hok

theorem wordsOf_cons_word (w : List Char) (rest : List Tok) :
    wordsOf (Tok.word w :: rest) = w :: wordsOf rest := rfl

theorem wordsOf_cons_sep (c : Char) (rest : List Tok) :
    wordsOf (Tok.sep c :: rest) = wordsOf rest := rfl

theorem wsRunsOK_tail (t : Tok) (ts : List Tok) (h : WsRunsOK (t :: ts)) :
    WsRunsOK ts :=
  ⟨fun u hu => h.1 u (by simp [hu]), h.2.tail⟩

/-- One contraction pass is the identity on a token list with no word run
equal (up to case) to its key. -/
theorem wStage_id (key rep : List Char) (ts : List Tok)
    (h : ∀ w ∈ wordsOf ts, lowerL w ≠ key) :
    wStage key rep ts = ts := by
  induction ts with
  | nil => rfl
  | cons t rest ih =>
    rw [show wStage key rep (t :: rest) =
      wMap key rep t ++ wStage key rep rest from by simp [wStage]]
    rcases t with w | c
    · rw [ih (fun u hu => h u (by rw [wordsOf_cons_word]; simp [hu]))]
      rw [show wMap key rep (Tok.word w) = [Tok.word w] from by
        simp [wMap, h w (by rw [wordsOf_cons_word]; simp)]]
      rfl
    · rw [ih (fun u hu => h u (by rw [wordsOf_cons_sep]; exact hu))]
      rfl

/-- The punctuation-spacing stage is the identity when no punctuation
separator directly precedes a word token. -/
theorem P4Toks_id (ts : List Tok) (h : NoPunctWord ts) : P4Toks ts = ts := by
  have main : ∀ n ts, ts.length ≤ n → NoPunctWord ts → P4Toks ts = ts := by
    intro n
    induction n with
    | zero =>
      intro ts hlen _
      have hnil : ts = [] := List.eq_nil_of_length_eq_zero (Nat.le_zero.mp hlen)
      subst hnil
      rfl
    | succ n ihn =>
      intro ts hlen h
      rcases ts with _ | ⟨t, rest⟩
      · rfl
      · rcases t with w | c
        · rw [show P4Toks (Tok.word w :: rest) = Tok.word w :: P4Toks rest from by
            simp [P4Toks]]
          rw [ihn rest (by simp only [List.length_cons] at hlen; omega) h.tail]
        · rcases rest with _ | ⟨t2, rest2⟩
          · rfl
          · rcases t2 with w | d
            · have hcp : isPunctChar c = false := by
                cases hcc : isPunctChar c
                · rfl
                · exfalso
                  have := List.chain'_cons.mp h
                  exact this.1 ⟨by simp [Tok.isPunctSep, hcc], by simp [Tok.isWordTok]⟩
              rw [show P4Toks (Tok.sep c :: Tok.word w :: rest2) =
                  Tok.sep c :: P4Toks (Tok.word w :: rest2) from by
                simp only [P4Toks]
                rw [if_neg (by rw [hcp]; simp)]]
              rw [ihn (Tok.word w :: rest2)
                (by simp only [List.length_cons] at hlen ⊢; omega) h.tail]
            · rw [show P4Toks (Tok.sep c :: Tok.sep d :: rest2) =
                  Tok.sep c :: P4Toks (Tok.sep d :: rest2) from by
                simp [P4Toks]]
              rw [ihn (Tok.sep d :: rest2)
                (by simp only [List.length_cons] at hlen ⊢; omega) h.tail]
  exact main ts.length ts le_rfl h

/-- The space-before-punctuation stage is the identity on a token list with
single-space runs and no whitespace directly before punctuation. -/
theorem P3Toks_id (ts : List Tok) (hok : ∀ t ∈ ts, t.ok)
    (hws : WsRunsOK ts) (hnp : NoWsPunct ts) : P3Toks ts = ts := by
  induction ts with
  | nil => rfl
  | cons t rest ih =>
    have ihr := ih (fun u hu => hok u (by simp [hu])) (wsRunsOK_tail t rest hws)
      hnp.tail
    rcases t with w | c
    · rw [show P3Toks (Tok.word w :: rest) = Tok.word w :: P3Toks rest from rfl,
        ihr]
    · have hcond : (isSpaceChar c &&
          isPunctChar (((flatT rest).dropWhile isSpaceChar).headD 'x')) = false := by
        cases hsc : isSpaceChar c
        · rfl
        · rcases rest with _ | ⟨t2, rest2⟩
          · decide
          · have ht2 : t2.isWsSep = false := by
              cases htt : t2.isWsSep
              · rfl
              · exfalso
                have := List.chain'_cons.mp hws.2
                exact this.1 ⟨by simp [Tok.isWsSep, hsc], htt⟩
            rcases t2 with w | d
            · obtain ⟨hwne, hww⟩ := hok (Tok.word w) (by simp)
              obtain ⟨c0, w1, rfl⟩ := List.exists_cons_of_ne_nil hwne
              rw [flatT_cons, show Tok.flat (Tok.word (c0 :: w1)) = c0 :: w1 from rfl,
                List.cons_append, List.dropWhile_cons,
                wordChar_not_space c0 (hww c0 (by simp))]
              rw [if_neg (by simp)]
              rw [show (((c0 :: (w1 ++ flatT rest2))).headD 'x') = c0 from rfl]
              rw [wordChar_not_punct c0 (hww c0 (by simp))]
              simp
            · have hd : isSpaceChar d = false := by simpa [Tok.isWsSep] using ht2
              have hdp : isPunctChar d = false := by
                cases hdd : isPunctChar d
                · rfl
                · exfalso
                  have := List.chain'_cons.mp hnp
                  exact this.1 ⟨by simp [Tok.isWsSep, hsc],
                    by simp [Tok.isPunctSep, hdd]⟩
              rw [flatT_cons, show Tok.flat (Tok.sep d) = [d] from rfl,
                List.cons_append, List.nil_append, List.dropWhile_cons, hd]
              rw [if_neg (by simp)]
              rw [show ((d :: flatT rest2).headD 'x') = d from rfl, hdp]
              simp
      rw [show P3Toks (Tok.sep c :: rest) = Tok.sep c :: P3Toks rest from by
        simp only [P3Toks]
        rw [if_neg (by rw [hcond]; simp)]]
      rw [ihr]

/-- The standalone-`i` stage is the identity on a token list whose
whitespace is single spaces and whose standalone `i`s are already `I`. -/
theorem iToks_id (ts : List Tok) (hws : WsRunsOK ts) (hio : IOk ts) :
    iToks ts = ts := by
  have main : ∀ n ts, ts.length ≤ n → WsRunsOK ts → IOk ts → iToks ts = ts := by
    intro n
    induction n with
    | zero =>
      intro ts hlen _ _
      have hnil : ts = [] := List.eq_nil_of_length_eq_zero (Nat.le_zero.mp hlen)
      subst hnil
      exact iToks_nil
    | succ n ihn =>
      intro ts hlen hws hio
      rcases ts with _ | ⟨t, rest⟩
      · exact iToks_nil
      · rcases t with w | c
        · by_cases hfire : (decide (lowerL w = ['i']) && headWsSep rest) = true
          · have hlw : lowerL w = ['i'] :=
              of_decide_eq_true (Bool.and_eq_true .. |>.mp hfire).1
            have hhw : headWsSep rest = true := (Bool.and_eq_true .. |>.mp hfire).2
            rcases rest with _ | ⟨t2, rest2⟩
            · simp [headWsSep] at hhw
            · have ht2ws : t2.isWsSep = true := by simpa [headWsSep] using hhw
              have ht2 : t2 = Tok.sep ' ' := hws.1 t2 (by simp) ht2ws
              subst ht2
              have hwI : w = ['I'] := by
                have := List.chain'_cons.mp hio
                exact this.1 w rfl hlw (by simp [Tok.isWsSep]; decide)
              subst hwI
              rw [show iToks (Tok.word ['I'] :: Tok.sep ' ' :: rest2) =
                  Tok.word ['I'] :: Tok.sep ' ' ::
                    iToks ((Tok.sep ' ' :: rest2).dropWhile Tok.isWsSep) from by
                simp only [iToks]
                rw [if_pos hfire]]
              have hdrop : (Tok.sep ' ' :: rest2).dropWhile Tok.isWsSep = rest2 := by
                rw [List.dropWhile_cons,
                  show Tok.isWsSep (Tok.sep ' ') = true from by decide, if_pos rfl]
                rcases rest2 with _ | ⟨t3, rest3⟩
                · rfl
                · have ht3 : t3.isWsSep = false := by
                    cases htt : t3.isWsSep
                    · rfl
                    · exfalso
                      have := List.chain'_cons.mp (wsRunsOK_tail _ _ hws).2
                      exact this.1 ⟨by decide, htt⟩
                  rw [List.dropWhile_cons, ht3]
                  rfl
              rw [hdrop]
              rw [ihn rest2 (by simp only [List.length_cons] at hlen; omega)
                (wsRunsOK_tail _ _ (wsRunsOK_tail _ _ hws)) hio.tail.tail]
          · rw [show iToks (Tok.word w :: rest) = Tok.word w :: iToks rest from by
              simp only [iToks]
              rw [if_neg (by simpa using hfire)]]
            rw [ihn rest (by simp only [List.length_cons] at hlen; omega)
              (wsRunsOK_tail _ _ hws) hio.tail]
        · rw [show iToks (Tok.sep c :: rest) = Tok.sep c :: iToks rest from by
            simp [iToks]]
          rw [ihn rest (by simp only [List.length_cons] at hlen; omega)
            (wsRunsOK_tail _ _ hws) hio.tail]
  exact main ts.length ts le_rfl hws hio

theorem dropWhile_eq_self_of_head (p : Char → Bool) (l : List Char)
    (h : ∀ a, l.head? = some a → p a = false) : l.dropWhile p = l := by
  cases l with
  | nil => rfl
  | cons c cs =>
    rw [List.dropWhile_cons, h c rfl]
    rfl

theorem collapse_state_eq (cs : List Char)
    (h : ∀ d, cs.head? = some d → isSpaceChar d = false) :
    collapseWsAux true cs = collapseWsAux false cs := by
  cases cs with
  | nil => rfl
  | cons d ds =>
    have hd := h d rfl
    rw [show collapseWsAux true (d :: ds) =
      if isSpaceChar d then
        (if true then collapseWsAux true ds else ' ' :: collapseWsAux true ds)
      else d :: collapseWsAux false ds from rfl]
    rw [show collapseWsAux false (d :: ds) =
      if isSpaceChar d then
        (if false then collapseWsAux true ds else ' ' :: collapseWsAux true ds)
      else d :: collapseWsAux false ds from rfl]
    rw [hd]
    simp

/-- Whitespace collapsing is the identity on strings whose whitespace is
single plain spaces, never doubled. -/
theorem collapse_id (s : List Char)
    (h1 : ∀ c ∈ s, isSpaceChar c = true → c = ' ')
    (h2 : List.Chain'
      (fun a b => ¬(isSpaceChar a = true ∧ isSpaceChar b = true)) s) :
    collapseWsAux false s = s := by
  induction s with
  | nil => rfl
  | cons c cs ih =>
    have ihr := ih (fun x hx hs => h1 x (by simp [hx]) hs) h2.tail
    by_cases hc : isSpaceChar c = true
    · have hcsp : c = ' ' := h1 c (by simp) hc
      rw [show collapseWsAux false (c :: cs) = ' ' :: collapseWsAux true cs from by
        simp [collapseWsAux, hc]]
      rw [collapse_state_eq cs (fun d hd => by
        cases hdd : isSpaceChar d
        · rfl
        · exfalso
          rcases cs with _ | ⟨d', cs'⟩
          · simp at hd
          · have hd' : d' = d := by simpa using hd
            subst hd'
            exact (List.chain'_cons.mp h2).1 ⟨hc, hdd⟩)]
      rw [ihr, hcsp]
    · rw [show collapseWsAux false (c :: cs) = c :: collapseWsAux false cs from by
        simp [collapseWsAux, hc]]
      rw [ihr]

/-- `str.strip()` is the identity on strings with no leading or trailing
whitespace. -/
theorem stripEnds_id (s : List Char)
    (hh : ∀ c, s.head? = some c → isSpaceChar c = false)
    (hl : ∀ c, s.getLast? = some c → isSpaceChar c = false) :
    stripEnds s = s := by
  show ((s.dropWhile isSpaceChar).reverse.dropWhile isSpaceChar).reverse = s
  rw [dropWhile_eq_self_of_head isSpaceChar s hh]
  rw [dropWhile_eq_self_of_head isSpaceChar s.reverse (fun c hc =>
    hl c (by rw [← List.head?_reverse]; exact hc))]
  exact List.reverse_reverse s

theorem flatT_ne_nil (ts : List Tok) (hok : ∀ t ∈ ts, t.ok) (h : ts ≠ []) :
    flatT ts ≠ [] := by
  rcases ts with _ | ⟨t, rest⟩
  · exact absurd rfl h
  · rcases t with w | c
    · obtain ⟨hwne, _⟩ := hok (Tok.word w) (by simp)
      obtain ⟨c0, w1, rfl⟩ := List.exists_cons_of_ne_nil hwne
      rw [flatT_cons]
      simp [Tok.flat]
    · rw [flatT_cons]
      simp [Tok.flat]

theorem flatT_head_not_ws (ts : List Tok) (hok : ∀ t ∈ ts, t.ok)
    (hhead : ∀ t, ts.head? = some t → t.isWsSep = false) :
    ∀ y, (flatT ts).head? = some y → isSpaceChar y = false := by
  intro y hy
  rcases ts with _ | ⟨t, rest⟩
  · simp [flatT] at hy
  · rcases t with w | c
    · obtain ⟨hwne, hww⟩ := hok (Tok.word w) (by simp)
      obtain ⟨c0, w1, rfl⟩ := List.exists_cons_of_ne_nil hwne
      rw [flatT_cons, show Tok.flat (Tok.word (c0 :: w1)) = c0 :: w1 from rfl,
        List.cons_append] at hy
      have hyc : c0 = y := by simpa using hy
      subst hyc
      exact wordChar_not_space c0 (hww c0 (by simp))
    · rw [flatT_cons, show Tok.flat (Tok.sep c) = [c] from rfl,
        List.cons_append, List.nil_append] at hy
      have hyc : c = y := by simpa using hy
      subst hyc
      simpa [Tok.isWsSep] using hhead (Tok.sep c) rfl

theorem flatT_last_not_ws (ts : List Tok) (hok : ∀ t ∈ ts, t.ok)
    (hws : ∀ t ∈ ts, t.isWsSep = true → t = .sep ' ')
    (hlast : ∀ t, ts.getLast? = some t → t.isWsSep = false) :
    ∀ y, (flatT ts).getLast? = some y → isSpaceChar y = false := by
  induction ts with
  | nil =>
    intro y hy
    simp [flatT] at hy
  | cons t rest ih =>
    intro y hy
    rcases hr : rest with _ | ⟨t2, rest2⟩
    · subst hr
      rcases t with w | c
      · have hwok := hok (Tok.word w) (by simp)
        rw [show flatT [Tok.word w] = w from by simp [flatT, Tok.flat]] at hy
        exact wordChar_not_space y (hwok.2 y (List.mem_of_mem_getLast? hy))
      · have hc : (Tok.sep c).isWsSep = false := hlast (Tok.sep c) rfl
        rw [show flatT [Tok.sep c] = [c] from by simp [flatT, Tok.flat]] at hy
        have hyc : c = y := by simpa using hy
        subst hyc
        simpa [Tok.isWsSep] using hc
    · subst hr
      have hrne : flatT (t2 :: rest2) ≠ [] :=
        flatT_ne_nil (t2 :: rest2) (fun u hu => hok u (by simp [hu])) (by simp)
      rw [flatT_cons, List.getLast?_append_of_ne_nil _ hrne] at hy
      exact ih (fun u hu => hok u (by simp [hu]))
        (fun u hu hw => hws u (by simp [hu]) hw)
        (fun u hu => hlast u (by rw [List.getLast?_cons_cons]; exact hu)) y hy

theorem chain'_nonspace_left (w : List Char)
    (hw : ∀ c ∈ w, isSpaceChar c = false) :
    List.Chain' (fun a b => ¬(isSpaceChar a = true ∧ isSpaceChar b = true)) w := by
  induction w with
  | nil => exact List.chain'_nil
  | cons c w' ih =>
    rw [List.chain'_cons']
    refine ⟨fun y _ h => ?_, ih (fun x hx => hw x (by simp [hx]))⟩
    rw [hw c (by simp)] at h
    simp at h

/-- The characters of a token list with single-space discipline have no two
adjacent whitespace characters. -/
theorem flatT_chain_ws (ts : List Tok) (hok : ∀ t ∈ ts, t.ok)
    (hws : WsRunsOK ts) :
    List.Chain'
      (fun a b => ¬(isSpaceChar a = true ∧ isSpaceChar b = true)) (flatT ts) := by
  induction ts with
  | nil => exact List.chain'_nil
  | cons t rest ih =>
    have ihr := ih (fun u hu => hok u (by simp [hu])) (wsRunsOK_tail t rest hws)
    rw [flatT_cons, List.chain'_append]
    refine ⟨?_, ihr, ?_⟩
    · rcases t with w | c
      · exact chain'_nonspace_left w
          (fun x hx => wordChar_not_space x ((hok (Tok.word w) (by simp)).2 x hx))
      · exact List.chain'_singleton c
    · intro x hx y hy h
      rcases t with w | c
      · have hwok := hok (Tok.word w) (by simp)
        have hxw : x ∈ w := List.mem_of_mem_getLast? hx
        rw [wordChar_not_space x (hwok.2 x hxw)] at h
        simp at h
      · have hxc : c = x := by
          rw [show Tok.flat (Tok.sep c) = [c] from rfl] at hx
          simpa using hx
        subst hxc
        have hcw : (Tok.sep c).isWsSep = true := by
          simpa [Tok.isWsSep] using h.1
        have hyws : isSpaceChar y = false := by
          apply flatT_head_not_ws rest (fun u hu => hok u (by simp [hu]))
            (fun u hu => ?_) y hy
          cases huu : u.isWsSep
          · rfl
          · exfalso
            rcases rest with _ | ⟨t2, rest2⟩
            · simp at hu
            · have : t2 = u := by simpa using hu
              subst this
              exact (List.chain'_cons.mp hws.2).1 ⟨hcw, huu⟩
        rw [hyws] at h
        simp at h

theorem flatT_ws_all_space (ts : List Tok) (hok : ∀ t ∈ ts, t.ok)
    (hws : ∀ t ∈ ts, t.isWsSep = true → t = .sep ' ') :
    ∀ c ∈ flatT ts, isSpaceChar c = true → c = ' ' := by
  induction ts with
  | nil =>
    intro c hc
    simp [flatT] at hc
  | cons t rest ih =>
    intro c hc hsc
    rw [flatT_cons, List.mem_append] at hc
    rcases hc with hc | hc
    · rcases t with w | d
      · exfalso
        have hwok := hok (Tok.word w) (by simp)
        rw [wordChar_not_space c (hwok.2 c hc)] at hsc
        simp at hsc
      · have : c = d := by
          rw [show Tok.flat (Tok.sep d) = [d] from rfl] at hc
          simpa using hc
        subst this
        have := hws (Tok.sep c) (by simp) (by simpa [Tok.isWsSep] using hsc)
        simpa using congrArg (fun t => match t with | Tok.sep x => x | _ => ' ') this
    · exact ih (fun u hu => hok u (by simp [hu]))
        (fun u hu hw => hws u (by simp [hu]) hw) c hc hsc

/-- `normalizeWs` is the identity on the characters of a token list with
full single-space discipline. -/
theorem normalizeWs_id_of_spaceOK (ts : List Tok) (hok : ∀ t ∈ ts, t.ok)
    (hsp : SpaceOK ts) : normalizeWs (flatT ts) = flatT ts := by
  obtain ⟨⟨hws1, hws2⟩, hhead, hlast⟩ := hsp
  show stripEnds (collapseWsAux false (flatT ts)) = flatT ts
  rw [collapse_id (flatT ts) (flatT_ws_all_space ts hok hws1)
    (flatT_chain_ws ts hok ⟨hws1, hws2⟩)]
  exact stripEnds_id (flatT ts)
    (flatT_head_not_ws ts hok (fun t ht => hhead t ht))
    (flatT_last_not_ws ts hok hws1 (fun t ht => hlast t ht))

theorem head_dropWhile_false (p : Char → Bool) (l : List Char) (a : Char)
    (h : (l.dropWhile p).head? = some a) : p a = false := by
  induction l with
  | nil => simp at h
  | cons c cs ih =>
    rw [List.dropWhile_cons] at h
    by_cases hc : p c = true
    · rw [if_pos hc] at h
      exact ih h
    · rw [if_neg hc] at h
      have hca : c = a := by simpa using h
      subst hca
      cases hcc : p c
      · rfl
      · exact absurd hcc hc

theorem collapse_head_true (s : List Char) :
    ∀ y, (collapseWsAux true s).head? = some y → isSpaceChar y = false := by
  induction s with
  | nil =>
    intro y hy
    simp [collapseWsAux] at hy
  | cons c cs ih =>
    intro y hy
    by_cases hc : isSpaceChar c = true
    · rw [show collapseWsAux true (c :: cs) = collapseWsAux true cs from by
        simp [collapseWsAux, hc]] at hy
      exact ih y hy
    · rw [show collapseWsAux true (c :: cs) = c :: collapseWsAux false cs from by
        simp [collapseWsAux, hc]] at hy
      have hcy : c = y := by simpa using hy
      subst hcy
      cases hcc : isSpaceChar c
      · rfl
      · exact absurd hcc hc

theorem collapse_chain (b : Bool) (s : List Char) :
    List.Chain' (fun a b => ¬(isSpaceChar a = true ∧ isSpaceChar b = true))
      (collapseWsAux b s) := by
  induction s generalizing b with
  | nil => cases b <;> exact List.chain'_nil
  | cons c cs ih =>
    by_cases hc : isSpaceChar c = true
    · cases b
      · rw [show collapseWsAux false (c :: cs) = ' ' :: collapseWsAux true cs from by
          simp [collapseWsAux, hc]]
        rw [List.chain'_cons']
        refine ⟨fun y hy h => ?_, ih true⟩
        rw [collapse_head_true cs y hy] at h
        simp at h
      · rw [show collapseWsAux true (c :: cs) = collapseWsAux true cs from by
          simp [collapseWsAux, hc]]
        exact ih true
    · have hcf : isSpaceChar c = false := by
        cases hcc : isSpaceChar c
        · rfl
        · exact absurd hcc hc
      rw [show collapseWsAux b (c :: cs) = c :: collapseWsAux false cs from by
        cases b <;> simp [collapseWsAux, hcf]]
      rw [List.chain'_cons']
      refine ⟨fun y hy h => ?_, ih false⟩
      rw [hcf] at h
      simp at h

theorem normalizeWs_chain (s : List Char) :
    List.Chain' (fun a b => ¬(isSpaceChar a = true ∧ isSpaceChar b = true))
      (normalizeWs s) := by
  show List.Chain' _ (stripEnds (collapseWsAux false s))
  have hbase := collapse_chain false s
  have h1 : List.Chain'
      (fun a b => ¬(isSpaceChar a = true ∧ isSpaceChar b = true))
      ((collapseWsAux false s).dropWhile isSpaceChar) :=
    hbase.suffix (List.dropWhile_suffix _)
  have h2 : List.Chain'
      (fun a b => ¬(isSpaceChar a = true ∧ isSpaceChar b = true))
      ((collapseWsAux false s).dropWhile isSpaceChar).reverse := by
    rw [List.chain'_reverse]
    exact h1.imp (fun a b hab => by
      intro hh
      exact hab ⟨hh.2, hh.1⟩)
  have h3 : List.Chain'
      (fun a b => ¬(isSpaceChar a = true ∧ isSpaceChar b = true))
      (((collapseWsAux false s).dropWhile isSpaceChar).reverse.dropWhile
        isSpaceChar) :=
    h2.suffix (List.dropWhile_suffix _)
  show List.Chain' _
    (((collapseWsAux false s).dropWhile isSpaceChar).reverse.dropWhile
      isSpaceChar).reverse
  rw [List.chain'_reverse]
  exact h3.imp (fun a b hab => by
    intro hh
    exact hab ⟨hh.2, hh.1⟩)

theorem normalizeWs_last_not_ws (s : List Char) :
    ∀ c, (normalizeWs s).getLast? = some c → isSpaceChar c = false := by
  intro c hc
  have h0 : normalizeWs s =
      (((collapseWsAux false s).dropWhile isSpaceChar).reverse.dropWhile
        isSpaceChar).reverse := rfl
  rw [h0, List.getLast?_reverse] at hc
  exact head_dropWhile_false isSpaceChar _ c hc

theorem normalizeWs_head_not_ws (s : List Char) :
    ∀ c, (normalizeWs s).head? = some c → isSpaceChar c = false := by
  intro c hc
  have h0 : normalizeWs s =
      (((collapseWsAux false s).dropWhile isSpaceChar).reverse.dropWhile
        isSpaceChar).reverse := rfl
  have hpre : (((collapseWsAux false s).dropWhile isSpaceChar).reverse.dropWhile
      isSpaceChar).reverse <+: (collapseWsAux false s).dropWhile isSpaceChar := by
    rw [← List.reverse_reverse ((collapseWsAux false s).dropWhile isSpaceChar),
      List.reverse_prefix]
    simpa using
      List.dropWhile_suffix (l :=
        ((collapseWsAux false s).dropWhile isSpaceChar).reverse) isSpaceChar
  obtain ⟨t, ht⟩ := hpre
  rw [h0] at hc
  have hcv : ((collapseWsAux false s).dropWhile isSpaceChar).head? = some c := by
    rw [← ht]
    rcases hr : (((collapseWsAux false s).dropWhile isSpaceChar).reverse.dropWhile
        isSpaceChar).reverse with _ | ⟨d, ds⟩
    · rw [hr] at hc
      simp at hc
    · rw [hr] at hc
      have hdc : d = c := by simpa using hc
      subst hdc
      rfl
  exact head_dropWhile_false isSpaceChar _ c hcv

theorem wsRunsOK_of_chars (ts : List Tok) (hok : ∀ t ∈ ts, t.ok)
    (h1 : ∀ c ∈ flatT ts, isSpaceChar c = true → c = ' ')
    (h2 : List.Chain'
      (fun a b => ¬(isSpaceChar a = true ∧ isSpaceChar b = true)) (flatT ts)) :
    WsRunsOK ts := by
  induction ts with
  | nil => exact ⟨by simp, List.chain'_nil⟩
  | cons t rest ih =>
    rw [flatT_cons, List.chain'_append] at h2
    obtain ⟨h2a, h2b, h2c⟩ := h2
    have h1r : ∀ c ∈ flatT rest, isSpaceChar c = true → c = ' ' := by
      intro c hc
      exact h1 c (by rw [flatT_cons]; simp [hc])
    obtain ⟨ihw, ihc⟩ := ih (fun u hu => hok u (by simp [hu])) h1r h2b
    constructor
    · intro u hu huw
      rcases List.mem_cons.mp hu with hu | hu
      · subst hu
        rcases u with w | c
        · simp [Tok.isWsSep] at huw
        · have hcws : isSpaceChar c = true := by simpa [Tok.isWsSep] using huw
          have : c = ' ' := h1 c (by rw [flatT_cons]; simp [Tok.flat]) hcws
          rw [this]
      · exact ihw u hu huw
    · rw [List.chain'_cons']
      refine ⟨fun u hu hb => ?_, ihc⟩
      obtain ⟨htw, huw⟩ := hb
      rcases t with w | c
      · simp [Tok.isWsSep] at htw
      · have hcws : isSpaceChar c = true := by simpa [Tok.isWsSep] using htw
        rcases u with w' | d
        · simp [Tok.isWsSep] at huw
        · have hdws : isSpaceChar d = true := by simpa [Tok.isWsSep] using huw
          rcases rest with _ | ⟨t2, rest2⟩
          · simp at hu
          · have ht2 : t2 = Tok.sep d := by simpa using hu
            subst ht2
            apply h2c c (by simp [Tok.flat]) d
            · rw [flatT_cons, show Tok.flat (Tok.sep d) = [d] from rfl]
              simp
            · exact ⟨hcws, hdws⟩

theorem headOK_of_chars (ts : List Tok)
    (hh : ∀ c, (flatT ts).head? = some c → isSpaceChar c = false) :
    ∀ t, ts.head? = some t → t.isWsSep = false := by
  intro t ht
  rcases ts with _ | ⟨t0, rest⟩
  · simp at ht
  · have ht0 : t0 = t := by simpa using ht
    subst ht0
    rcases t0 with w | c
    · simp [Tok.isWsSep]
    · have := hh c (by rw [flatT_cons, show Tok.flat (Tok.sep c) = [c] from rfl]; simp)
      simpa [Tok.isWsSep] using this

theorem lastOK_of_chars (ts : List Tok) (hok : ∀ t ∈ ts, t.ok)
    (hl : ∀ c, (flatT ts).getLast? = some c → isSpaceChar c = false) :
    ∀ t, ts.getLast? = some t → t.isWsSep = false := by
  induction ts with
  | nil =>
    intro t ht
    simp at ht
  | cons t0 rest ih =>
    intro t ht
    rcases hr : rest with _ | ⟨t2, rest2⟩
    · subst hr
      have ht0 : t0 = t := by simpa using ht
      subst ht0
      rcases t0 with w | c
      · simp [Tok.isWsSep]
      · have := hl c (by
          rw [show flatT [Tok.sep c] = [c] from by simp [flatT, Tok.flat]]
          simp)
        simpa [Tok.isWsSep] using this
    · subst hr
      have hrne : flatT (t2 :: rest2) ≠ [] :=
        flatT_ne_nil (t2 :: rest2) (fun u hu => hok u (by simp [hu])) (by simp)
      refine ih (fun u hu => hok u (by simp [hu])) (fun c hc => ?_) t
        (by rw [List.getLast?_cons_cons] at ht; exact ht)
      apply hl c
      rw [flatT_cons, List.getLast?_append_of_ne_nil _ hrne]
      exact hc

/-- The token decomposition of a whitespace-normalized string has full
single-space discipline. -/
theorem spaceOK_tokensOf_normalizeWs (s : List Char) :
    SpaceOK (tokensOf (normalizeWs s)) := by
  have hok : ∀ t ∈ tokensOf (normalizeWs s), t.ok :=
    (validT_tokensOf (normalizeWs s)).1
  have hflat : flatT (tokensOf (normalizeWs s)) = normalizeWs s :=
    flatT_tokensOf (normalizeWs s)
  refine ⟨wsRunsOK_of_chars _ hok ?_ ?_, ?_, ?_⟩
  · rw [hflat]
    exact fun c hc => mem_normalizeWs s c hc
  · rw [hflat]
    exact normalizeWs_chain s
  · exact headOK_of_chars _ (by rw [hflat]; exact normalizeWs_head_not_ws s)
  · exact lastOK_of_chars _ hok (by rw [hflat]; exact normalizeWs_last_not_ws s)

theorem iToks_cons_sep (c : Char) (rest : List Tok) :
    iToks (Tok.sep c :: rest) = Tok.sep c :: iToks rest := by
  simp [iToks]

theorem iToks_cons_word_fire (w : List Char) (rest : List Tok)
    (h : (decide (lowerL w = ['i']) && headWsSep rest) = true) :
    iToks (Tok.word w :: rest) =
      Tok.word ['I'] :: Tok.sep ' ' :: iToks (rest.dropWhile Tok.isWsSep) := by
  simp only [iToks]
  rw [if_pos h]

theorem iToks_cons_word_nofire (w : List Char) (rest : List Tok)
    (h : ¬((decide (lowerL w = ['i']) && headWsSep rest) = true)) :
    iToks (Tok.word w :: rest) = Tok.word w :: iToks rest := by
  simp only [iToks]
  rw [if_neg (by simpa using h)]

theorem iToks_head_sep (ts : List Tok) (c : Char)
    (h : (iToks ts).head? = some (Tok.sep c)) : ts.head? = some (Tok.sep c) := by
  rcases ts with _ | ⟨t, rest⟩
  · rw [iToks_nil] at h
    simp at h
  · rcases t with w | d
    · by_cases hfire : (decide (lowerL w = ['i']) && headWsSep rest) = true
      · rw [iToks_cons_word_fire w rest hfire] at h
        simp at h
      · rw [iToks_cons_word_nofire w rest hfire] at h
        simp at h
    · rw [iToks_cons_sep d rest] at h
      simpa using h

theorem iToks_head_word (ts : List Tok) (w : List Char)
    (h : (iToks ts).head? = some (Tok.word w)) :
    ∃ w', ts.head? = some (Tok.word w') := by
  rcases ts with _ | ⟨t, rest⟩
  · rw [iToks_nil] at h
    simp at h
  · rcases t with w0 | d
    · exact ⟨w0, rfl⟩
    · rw [iToks_cons_sep d rest] at h
      simp at h

theorem iToks_ne_nil (ts : List Tok) (h : ts ≠ []) : iToks ts ≠ [] := by
  rcases ts with _ | ⟨t, rest⟩
  · exact absurd rfl h
  · rcases t with w | c
    · by_cases hfire : (decide (lowerL w = ['i']) && headWsSep rest) = true
      · rw [iToks_cons_word_fire w rest hfire]
        simp
      · rw [iToks_cons_word_nofire w rest hfire]
        simp
    · rw [iToks_cons_sep c rest]
      simp

/-- The standalone-`i` stage preserves validity and single-space discipline
and establishes the `I`-normalization invariant. -/
theorem iToks_main (ts : List Tok) (hv : ValidT ts) (hws : WsRunsOK ts) :
    ValidT (iToks ts) ∧ WsRunsOK (iToks ts) ∧ IOk (iToks ts) := by
  have main : ∀ n ts, ts.length ≤ n → ValidT ts → WsRunsOK ts →
      ValidT (iToks ts) ∧ WsRunsOK (iToks ts) ∧ IOk (iToks ts) := by
    intro n
    induction n with
    | zero =>
      intro ts hlen _ _
      have hnil : ts = [] := List.eq_nil_of_length_eq_zero (Nat.le_zero.mp hlen)
      subst hnil
      rw [iToks_nil]
      exact ⟨⟨by simp, List.chain'_nil⟩, ⟨by simp, List.chain'_nil⟩,
        List.chain'_nil⟩
    | succ n ihn =>
      intro ts hlen hv hws
      rcases ts with _ | ⟨t, rest⟩
      · rw [iToks_nil]
        exact ⟨⟨by simp, List.chain'_nil⟩, ⟨by simp, List.chain'_nil⟩,
          List.chain'_nil⟩
      · obtain ⟨hok, hvr, hadj⟩ := (validT_cons_iff t rest).mp hv
        have hlenr : rest.length ≤ n := by
          simp only [List.length_cons] at hlen
          omega
        rcases t with w | c
        · by_cases hfire : (decide (lowerL w = ['i']) && headWsSep rest) = true
          · have hlw : lowerL w = ['i'] :=
              of_decide_eq_true (Bool.and_eq_true .. |>.mp hfire).1
            have hhw : headWsSep rest = true := (Bool.and_eq_true .. |>.mp hfire).2
            rcases rest with _ | ⟨t2, rest2⟩
            · simp [headWsSep] at hhw
            · have ht2ws : t2.isWsSep = true := by simpa [headWsSep] using hhw
              have ht2 : t2 = Tok.sep ' ' := hws.1 t2 (by simp) ht2ws
              subst ht2
              have hdrop : (Tok.sep ' ' :: rest2).dropWhile Tok.isWsSep = rest2 := by
                rw [List.dropWhile_cons,
                  show Tok.isWsSep (Tok.sep ' ') = true from by decide, if_pos rfl]
                rcases rest2 with _ | ⟨t3, rest3⟩
                · rfl
                · have ht3 : t3.isWsSep = false := by
                    cases htt : t3.isWsSep
                    · rfl
                    · exfalso
                      have := List.chain'_cons.mp (wsRunsOK_tail _ _ hws).2
                      exact this.1 ⟨by decide, htt⟩
                  rw [List.dropWhile_cons, ht3]
                  rfl
              rw [iToks_cons_word_fire w _ hfire, hdrop]
              have hvr2 : ValidT rest2 :=
                validT_suffix _ _ (by exact ⟨[Tok.sep ' '], rfl⟩) hvr
              have hws2 : WsRunsOK rest2 := wsRunsOK_tail _ _ (wsRunsOK_tail _ _ hws)
              obtain ⟨ihv, ihws, ihio⟩ := ihn rest2
                (by simp only [List.length_cons] at hlen; omega) hvr2 hws2
              refine ⟨⟨?_, ?_⟩, ⟨?_, ?_⟩, ?_⟩
              · intro u hu
                rcases List.mem_cons.mp hu with hu | hu
                · subst hu
                  exact ⟨by simp, by intro x hx; rw [show x = 'I' from by
                    simpa using hx]; decide⟩
                · rcases List.mem_cons.mp hu with hu | hu
                  · subst hu
                    show isWordChar ' ' = false
                    decide
                  · exact ihv.1 u hu
              · rw [List.chain'_cons', List.chain'_cons']
                refine ⟨fun y hy => ?_, fun y _ => ?_, ihv.2⟩
                · have hy' : Tok.sep ' ' = y := by simpa using hy
                  subst hy'
                  rintro ⟨_, h2⟩
                  simp [Tok.isWordTok] at h2
                · rintro ⟨h1, _⟩
                  simp [Tok.isWordTok] at h1
              · intro u hu huw
                rcases List.mem_cons.mp hu with hu | hu
                · subst hu
                  simp [Tok.isWsSep] at huw
                · rcases List.mem_cons.mp hu with hu | hu
                  · subst hu
                    rfl
                  · exact ihws.1 u hu huw
              · rw [List.chain'_cons', List.chain'_cons']
                refine ⟨fun y _ hc => absurd hc.1 (by simp [Tok.isWsSep]),
                  fun y hy hc => ?_, ihws.2⟩
                rcases hc with ⟨_, h2⟩
                rcases y with w' | d
                · simp [Tok.isWsSep] at h2
                · have := iToks_head_sep rest2 d hy
                  rcases rest2 with _ | ⟨t3, rest3⟩
                  · simp at this
                  · have ht3 : t3 = Tok.sep d := by simpa using this
                    subst ht3
                    have := List.chain'_cons.mp (wsRunsOK_tail _ _ hws).2
                    exact this.1 ⟨by decide, h2⟩
              · show List.Chain' _ (Tok.word ['I'] :: Tok.sep ' ' :: iToks rest2)
                rw [List.chain'_cons', List.chain'_cons']
                refine ⟨fun y _ => ?_, fun y _ => ?_, ihio⟩
                · intro w' hw' _ _
                  injection hw' with h
                  rw [← h]
                · intro w' hw'
                  simp at hw'
          · rw [iToks_cons_word_nofire w rest hfire]
            obtain ⟨ihv, ihws, ihio⟩ := ihn rest hlenr hvr (wsRunsOK_tail _ _ hws)
            refine ⟨⟨?_, ?_⟩, ⟨?_, ?_⟩, ?_⟩
            · intro u hu
              rcases List.mem_cons.mp hu with hu | hu
              · subst hu
                exact hok
              · exact ihv.1 u hu
            · rw [List.chain'_cons']
              refine ⟨fun y hy hc => ?_, ihv.2⟩
              rcases hc with ⟨_, h2⟩
              rcases y with w' | d
              · obtain ⟨w'', hw''⟩ := iToks_head_word rest w' hy
                exact hadj (Tok.word w'') hw'' ⟨rfl, rfl⟩
              · simp [Tok.isWordTok] at h2
            · intro u hu huw
              rcases List.mem_cons.mp hu with hu | hu
              · subst hu
                simp [Tok.isWsSep] at huw
              · exact ihws.1 u hu huw
            · rw [List.chain'_cons']
              refine ⟨fun y _ hc => absurd hc.1 (by simp [Tok.isWsSep]),
                ihws.2⟩
            · show List.Chain' _ (Tok.word w :: iToks rest)
              rw [List.chain'_cons']
              refine ⟨fun y hy => ?_, ihio⟩
              intro w' hw' hlw hyws
              exfalso
              apply hfire
              injection hw' with hww'
              rcases y with w2 | d
              · simp [Tok.isWsSep] at hyws
              · have := iToks_head_sep rest d hy
                have hhws : headWsSep rest = true := by
                  rcases rest with _ | ⟨t2, rest2⟩
                  · simp at this
                  · have ht2 : t2 = Tok.sep d := by simpa using this
                    subst ht2
                    simpa [headWsSep, Tok.isWsSep] using hyws
                rw [hww', hlw, hhws]
                simp
        · rw [iToks_cons_sep c rest]
          obtain ⟨ihv, ihws, ihio⟩ := ihn rest hlenr hvr (wsRunsOK_tail _ _ hws)
          refine ⟨⟨?_, ?_⟩, ⟨?_, ?_⟩, ?_⟩
          · intro u hu
            rcases List.mem_cons.mp hu with hu | hu
            · subst hu
              exact hok
            · exact ihv.1 u hu
          · rw [List.chain'_cons']
            refine ⟨fun y _ hc => absurd hc.1 (by simp [Tok.isWordTok]),
              ihv.2⟩
          · intro u hu huw
            rcases List.mem_cons.mp hu with hu | hu
            · subst hu
              exact hws.1 (Tok.sep c) (by simp) huw
            · exact ihws.1 u hu huw
          · rw [List.chain'_cons']
            refine ⟨fun y hy hc => ?_, ihws.2⟩
            rcases hc with ⟨h1, h2⟩
            rcases y with w' | d
            · simp [Tok.isWsSep] at h2
            · have := iToks_head_sep rest d hy
              rcases rest with _ | ⟨t2, rest2⟩
              · simp at this
              · have ht2 : t2 = Tok.sep d := by simpa using this
                subst ht2
                exact (List.chain'_cons.mp hws.2).1 ⟨h1, h2⟩
          · show List.Chain' _ (Tok.sep c :: iToks rest)
            rw [List.chain'_cons']
            refine ⟨fun y _ => ?_, ihio⟩
            intro w' hw'
            simp at hw'
  exact main ts.length ts le_rfl hv hws

theorem iToks_last (ts : List Tok) (hws : WsRunsOK ts)
    (hlast : ∀ t, ts.getLast? = some t → t.isWsSep = false) :
    ∀ t, (iToks ts).getLast? = some t → t.isWsSep = false := by
  have main : ∀ n ts, ts.length ≤ n → WsRunsOK ts →
      (∀ t, ts.getLast? = some t → t.isWsSep = false) →
      ∀ t, (iToks ts).getLast? = some t → t.isWsSep = false := by
    intro n
    induction n with
    | zero =>
      intro ts hlen _ _ t ht
      have hnil : ts = [] := List.eq_nil_of_length_eq_zero (Nat.le_zero.mp hlen)
      subst hnil
      rw [iToks_nil] at ht
      simp at ht
    | succ n ihn =>
      intro ts hlen hws hlast t ht
      rcases ts with _ | ⟨t0, rest⟩
      · rw [iToks_nil] at ht
        simp at ht
      · have hlenr : rest.length ≤ n := by
          simp only [List.length_cons] at hlen
          omega
        rcases t0 with w | c
        · by_cases hfire : (decide (lowerL w = ['i']) && headWsSep rest) = true
          · have hhw : headWsSep rest = true := (Bool.and_eq_true .. |>.mp hfire).2
            rcases rest with _ | ⟨t2, rest2⟩
            · simp [headWsSep] at hhw
            · have ht2ws : t2.isWsSep = true := by simpa [headWsSep] using hhw
              have ht2 : t2 = Tok.sep ' ' := hws.1 t2 (by simp) ht2ws
              subst ht2
              have hdrop : (Tok.sep ' ' :: rest2).dropWhile Tok.isWsSep = rest2 := by
                rw [List.dropWhile_cons,
                  show Tok.isWsSep (Tok.sep ' ') = true from by decide, if_pos rfl]
                rcases rest2 with _ | ⟨t3, rest3⟩
                · rfl
                · have ht3 : t3.isWsSep = false := by
                    cases htt : t3.isWsSep
                    · rfl
                    · exfalso
                      have := List.chain'_cons.mp (wsRunsOK_tail _ _ hws).2
                      exact this.1 ⟨by decide, htt⟩
                  rw [List.dropWhile_cons, ht3]
                  rfl
              rw [iToks_cons_word_fire w _ hfire, hdrop] at ht
              have hr2ne : rest2 ≠ [] := by
                intro hnil
                subst hnil
                have := hlast (Tok.sep ' ') (by rfl)
                exact absurd this (by decide)
              have hine : iToks rest2 ≠ [] := iToks_ne_nil rest2 hr2ne
              obtain ⟨u, us, hu⟩ := List.exists_cons_of_ne_nil hine
              rw [hu, List.getLast?_cons_cons, List.getLast?_cons_cons] at ht
              rw [← hu] at ht
              refine ihn rest2 (by simp only [List.length_cons] at hlen; omega)
                (wsRunsOK_tail _ _ (wsRunsOK_tail _ _ hws)) (fun u' hu' => ?_) t ht
              apply hlast u'
              obtain ⟨v, vs, hv⟩ := List.exists_cons_of_ne_nil hr2ne
              rw [hv] at hu' ⊢
              rw [List.getLast?_cons_cons, List.getLast?_cons_cons]
              exact hu'
          · rw [iToks_cons_word_nofire w rest hfire] at ht
            rcases hr : rest with _ | ⟨t2, rest2⟩
            · subst hr
              rw [iToks_nil] at ht
              have htw : Tok.word w = t := by simpa using ht
              subst htw
              simp [Tok.isWsSep]
            · have hine : iToks rest ≠ [] := iToks_ne_nil rest (by rw [hr]; simp)
              obtain ⟨u, us, hu⟩ := List.exists_cons_of_ne_nil hine
              rw [hu, List.getLast?_cons_cons, ← hu] at ht
              refine ihn rest hlenr (wsRunsOK_tail _ _ hws) (fun u' hu' => ?_) t ht
              apply hlast u'
              rw [hr] at hu' ⊢
              rw [List.getLast?_cons_cons]
              exact hu'
        · rw [iToks_cons_sep c rest] at ht
          rcases hr : rest with _ | ⟨t2, rest2⟩
          · subst hr
            rw [iToks_nil] at ht
            have htw : Tok.sep c = t := by simpa using ht
            subst htw
            exact hlast (Tok.sep c) rfl
          · have hine : iToks rest ≠ [] := iToks_ne_nil rest (by rw [hr]; simp)
            obtain ⟨u, us, hu⟩ := List.exists_cons_of_ne_nil hine
            rw [hu, List.getLast?_cons_cons, ← hu] at ht
            refine ihn rest hlenr (wsRunsOK_tail _ _ hws) (fun u' hu' => ?_) t ht
            apply hlast u'
            rw [hr] at hu' ⊢
            rw [List.getLast?_cons_cons]
            exact hu'
  exact main ts.length ts le_rfl hws hlast

/-- Combined invariants after the standalone-`i` stage. -/
theorem iToks_preserves (ts : List Tok) (hv : ValidT ts) (hsp : SpaceOK ts) :
    ValidT (iToks ts) ∧ SpaceOK (iToks ts) ∧ IOk (iToks ts) := by
  obtain ⟨hvi, hwsi, hioi⟩ := iToks_main ts hv hsp.1
  refine ⟨hvi, ⟨hwsi, ?_, ?_⟩, hioi⟩
  · intro t ht
    rcases t with w | c
    · simp [Tok.isWsSep]
    · cases hcc : isSpaceChar c
      · simp [Tok.isWsSep, hcc]
      · exfalso
        have := iToks_head_sep ts c ht
        have h2 := hsp.2.1 (Tok.sep c) this
        simp [Tok.isWsSep, hcc] at h2
  · exact iToks_last ts hsp.1 hsp.2.2

/-- Side conditions satisfied by every rule of the contraction table: the
key is a nonempty word-character literal and the replacement decomposes
into whitespace-free tokens, word-fronted and word-ended, none of whose
words is a key of the table or an unnormalized standalone `i`. -/
def ruleOK (kr : List Char × List Char) : Prop :=
  kr.1 ≠ [] ∧ (∀ k ∈ kr.1, isWordChar k = true) ∧
  tokensOf kr.2 ≠ [] ∧
  (∀ t ∈ tokensOf kr.2, t.isWsSep = false) ∧
  (∀ t, (tokensOf kr.2).head? = some t → t.isWordTok = true) ∧
  (∀ t, (tokensOf kr.2).getLast? = some t → t.isWordTok = true) ∧
  (∀ w ∈ wordsOf (tokensOf kr.2),
    lowerL w ∉ keyList ∧ (lowerL w = ['i'] → w = ['I']))

instance (kr : List Char × List Char) : Decidable (ruleOK kr) := by
  unfold ruleOK
  infer_instance

set_option maxRecDepth 10000 in
theorem all_rules_ok : ∀ kr ∈ contractionTable, ruleOK kr := by decide

theorem chain'_of_forall_left {R : Tok → Tok → Prop} (l : List Tok)
    (h : ∀ a ∈ l, ∀ b, R a b) : List.Chain' R l := by
  induction l with
  | nil => exact List.chain'_nil
  | cons a l' ih =>
    rw [List.chain'_cons']
    exact ⟨fun y _ => h a (by simp) y, ih (fun x hx b => h x (by simp [hx]) b)⟩

theorem wStage_cons (key rep : List Char) (t : Tok) (rest : List Tok) :
    wStage key rep (t :: rest) = wMap key rep t ++ wStage key rep rest := by
  simp [wStage]

theorem wStage_nil (key rep : List Char) : wStage key rep [] = [] := rfl

theorem wMap_sep (key rep : List Char) (c : Char) :
    wMap key rep (Tok.sep c) = [Tok.sep c] := rfl

theorem wMap_ne_nil (key rep : List Char) (hrep : tokensOf rep ≠ []) (t : Tok) :
    wMap key rep t ≠ [] := by
  rcases t with w | c
  · by_cases hlw : lowerL w = key
    · rw [show wMap key rep (Tok.word w) = tokensOf rep from by simp [wMap, hlw]]
      exact hrep
    · rw [show wMap key rep (Tok.word w) = [Tok.word w] from by simp [wMap, hlw]]
      simp
  · rw [wMap_sep]
    simp

theorem wMap_mem_word (key rep : List Char) (w : List Char) (u : Tok)
    (hu : u ∈ wMap key rep (Tok.word w)) :
    u = Tok.word w ∨ u ∈ tokensOf rep := by
  by_cases hlw : lowerL w = key
  · rw [show wMap key rep (Tok.word w) = tokensOf rep from by simp [wMap, hlw]] at hu
    exact Or.inr hu
  · rw [show wMap key rep (Tok.word w) = [Tok.word w] from by
      simp [wMap, hlw]] at hu
    exact Or.inl (by simpa using hu)

theorem wMap_head_word (key rep : List Char)
    (hrephead : ∀ t, (tokensOf rep).head? = some t → t.isWordTok = true)
    (w : List Char) :
    ∀ t, (wMap key rep (Tok.word w)).head? = some t → t.isWordTok = true := by
  intro t ht
  by_cases hlw : lowerL w = key
  · rw [show wMap key rep (Tok.word w) = tokensOf rep from by simp [wMap, hlw]] at ht
    exact hrephead t ht
  · rw [show wMap key rep (Tok.word w) = [Tok.word w] from by
      simp [wMap, hlw]] at ht
    have : Tok.word w = t := by simpa using ht
    subst this
    simp [Tok.isWordTok]

theorem wMap_last_word (key rep : List Char)
    (hreplast : ∀ t, (tokensOf rep).getLast? = some t → t.isWordTok = true)
    (w : List Char) :
    ∀ t, (wMap key rep (Tok.word w)).getLast? = some t → t.isWordTok = true := by
  intro t ht
  by_cases hlw : lowerL w = key
  · rw [show wMap key rep (Tok.word w) = tokensOf rep from by simp [wMap, hlw]] at ht
    exact hreplast t ht
  · rw [show wMap key rep (Tok.word w) = [Tok.word w] from by
      simp [wMap, hlw]] at ht
    have : Tok.word w = t := by simpa using ht
    subst this
    simp [Tok.isWordTok]

theorem wStage_head (key rep : List Char) (hrep : tokensOf rep ≠ [])
    (t : Tok) (rest : List Tok) :
    (wStage key rep (t :: rest)).head? = (wMap key rep t).head? := by
  rw [wStage_cons]
  exact List.head?_append_of_ne_nil _ (wMap_ne_nil key rep hrep t)

theorem wordsOf_append (a b : List Tok) :
    wordsOf (a ++ b) = wordsOf a ++ wordsOf b := by
  simp [wordsOf]

theorem wordsOf_wStage (key rep : List Char) (ts : List Tok) :
    ∀ w ∈ wordsOf (wStage key rep ts),
      (w ∈ wordsOf ts ∧ lowerL w ≠ key) ∨ w ∈ wordsOf (tokensOf rep) := by
  induction ts with
  | nil =>
    intro w hw
    simp [wStage, wordsOf] at hw
  | cons t rest ih =>
    intro w hw
    rw [wStage_cons, wordsOf_append, List.mem_append] at hw
    rcases hw with hw | hw
    · rcases t with w0 | c
      · by_cases hlw : lowerL w0 = key
        · rw [show wMap key rep (Tok.word w0) = tokensOf rep from by
            simp [wMap, hlw]] at hw
          exact Or.inr hw
        · rw [show wMap key rep (Tok.word w0) = [Tok.word w0] from by
            simp [wMap, hlw]] at hw
          have hww0 : w = w0 := by simpa [wordsOf] using hw
          subst hww0
          exact Or.inl ⟨by rw [wordsOf_cons_word]; simp, hlw⟩
      · rw [wMap_sep] at hw
        simp [wordsOf] at hw
    · rcases ih w hw with ⟨h1, h2⟩ | h1
      · refine Or.inl ⟨?_, h2⟩
        rcases t with w0 | c
        · rw [wordsOf_cons_word]
          simp [h1]
        · rw [wordsOf_cons_sep]
          exact h1
      · exact Or.inr h1

theorem word_mem_wordsOf (w : List Char) (ts : List Tok)
    (h : Tok.word w ∈ ts) : w ∈ wordsOf ts := by
  induction ts with
  | nil => simp at h
  | cons t rest ih =>
    rcases List.mem_cons.mp h with h1 | h1
    · rw [← h1, wordsOf_cons_word]
      simp
    · rcases t with w0 | c
      · rw [wordsOf_cons_word]
        exact List.mem_cons.mpr (Or.inr (ih h1))
      · rw [wordsOf_cons_sep]
        exact ih h1

theorem wMap_head_ws_inv (key rep : List Char)
    (hrepws : ∀ t ∈ tokensOf rep, t.isWsSep = false)
    (t : Tok) (y : Tok) (hy : (wMap key rep t).head? = some y)
    (hyws : y.isWsSep = true) : t = y ∧ t.isWsSep = true := by
  rcases t with w | c
  · exfalso
    by_cases hlw : lowerL w = key
    · rw [show wMap key rep (Tok.word w) = tokensOf rep from by
        simp [wMap, hlw]] at hy
      have hymem : y ∈ tokensOf rep := by
        rcases htr : tokensOf rep with _ | ⟨u, us⟩
        · rw [htr] at hy
          simp at hy
        · rw [htr] at hy
          have huy : u = y := by simpa using hy
          rw [← huy]
          simp
      rw [hrepws y hymem] at hyws
      simp at hyws
    · rw [show wMap key rep (Tok.word w) = [Tok.word w] from by
        simp [wMap, hlw]] at hy
      have : Tok.word w = y := by simpa using hy
      subst this
      simp [Tok.isWsSep] at hyws
  · rw [wMap_sep] at hy
    have : Tok.sep c = y := by simpa using hy
    subst this
    exact ⟨rfl, hyws⟩

theorem wMap_last_cases (key rep : List Char) (t : Tok) (x : Tok)
    (hx : (wMap key rep t).getLast? = some x) :
    (x = t ∧ (∀ w, t = Tok.word w → lowerL w ≠ key)) ∨
      ((tokensOf rep).getLast? = some x ∧
        ∃ w, t = Tok.word w ∧ lowerL w = key) := by
  rcases t with w | c
  · by_cases hlw : lowerL w = key
    · rw [show wMap key rep (Tok.word w) = tokensOf rep from by
        simp [wMap, hlw]] at hx
      exact Or.inr ⟨hx, w, rfl, hlw⟩
    · rw [show wMap key rep (Tok.word w) = [Tok.word w] from by
        simp [wMap, hlw]] at hx
      have : Tok.word w = x := by simpa using hx
      subst this
      refine Or.inl ⟨rfl, fun w' hw' => ?_⟩
      injection hw' with h
      rw [← h]
      exact hlw
  · rw [wMap_sep] at hx
    have : Tok.sep c = x := by simpa using hx
    subst this
    exact Or.inl ⟨rfl, fun w' hw' => by simp at hw'⟩

theorem wMap_chain' {R : Tok → Tok → Prop} (key rep : List Char)
    (hrepchain : List.Chain' R (tokensOf rep)) (t : Tok) :
    List.Chain' R (wMap key rep t) := by
  rcases t with w | c
  · by_cases hlw : lowerL w = key
    · rw [show wMap key rep (Tok.word w) = tokensOf rep from by simp [wMap, hlw]]
      exact hrepchain
    · rw [show wMap key rep (Tok.word w) = [Tok.word w] from by simp [wMap, hlw]]
      exact List.chain'_singleton _
  · rw [wMap_sep]
    exact List.chain'_singleton _

/-- One contraction pass preserves validity, whitespace discipline and the
`I`-normalization invariant, for any rule satisfying the table's side
conditions. -/
theorem wStage_main (key rep : List Char) (hrep : tokensOf rep ≠ [])
    (hrepws : ∀ t ∈ tokensOf rep, t.isWsSep = false)
    (hrephead : ∀ t, (tokensOf rep).head? = some t → t.isWordTok = true)
    (hreplast : ∀ t, (tokensOf rep).getLast? = some t → t.isWordTok = true)
    (hrepwords : ∀ w ∈ wordsOf (tokensOf rep), lowerL w = ['i'] → w = ['I'])
    (ts : List Tok) (hv : ValidT ts) (hws : WsRunsOK ts) (hio : IOk ts) :
    ValidT (wStage key rep ts) ∧ WsRunsOK (wStage key rep ts) ∧
      IOk (wStage key rep ts) := by
  induction ts with
  | nil =>
    rw [wStage_nil]
    exact ⟨⟨by simp, List.chain'_nil⟩, ⟨by simp, List.chain'_nil⟩,
      List.chain'_nil⟩
  | cons t rest ih =>
    obtain ⟨hok, hvr, hadj⟩ := (validT_cons_iff t rest).mp hv
    obtain ⟨ihv, ihws, ihio⟩ := ih hvr (wsRunsOK_tail _ _ hws) hio.tail
    rw [wStage_cons]
    refine ⟨⟨?_, ?_⟩, ⟨?_, ?_⟩, ?_⟩
    · intro u hu
      rcases List.mem_append.mp hu with hu | hu
      · rcases t with w | c
        · rcases wMap_mem_word key rep w u hu with hu | hu
          · subst hu
            exact hok
          · exact (validT_tokensOf rep).1 u hu
        · rw [wMap_sep] at hu
          have : u = Tok.sep c := by simpa using hu
          subst this
          exact hok
      · exact ihv.1 u hu
    · rw [List.chain'_append]
      refine ⟨wMap_chain' key rep (validT_tokensOf rep).2 t, ihv.2, ?_⟩
      intro x hx y hy hcon
      obtain ⟨hxw, hyw⟩ := hcon
      rcases rest with _ | ⟨t2, r2⟩
      · rw [wStage_nil] at hy
        simp at hy
      · rw [wStage_head key rep hrep t2 r2] at hy
        have ht2w : t2.isWordTok = true := by
          rcases t2 with w2 | c2
          · simp [Tok.isWordTok]
          · rw [wMap_sep] at hy
            have : Tok.sep c2 = y := by simpa using hy
            subst this
            simp [Tok.isWordTok] at hyw
        have htw : t.isWordTok = true := by
          rcases wMap_last_cases key rep t x hx with ⟨hxt, _⟩ | ⟨_, w, hw, _⟩
          · rw [← hxt]
            exact hxw
          · rw [hw]
            simp [Tok.isWordTok]
        exact hadj t2 rfl ⟨htw, ht2w⟩
    · intro u hu huws
      rcases List.mem_append.mp hu with hu | hu
      · rcases t with w | c
        · rcases wMap_mem_word key rep w u hu with hu | hu
          · subst hu
            simp [Tok.isWsSep] at huws
          · rw [hrepws u hu] at huws
            simp at huws
        · rw [wMap_sep] at hu
          have : u = Tok.sep c := by simpa using hu
          subst this
          exact hws.1 (Tok.sep c) (by simp) huws
      · exact ihws.1 u hu huws
    · rw [List.chain'_append]
      refine ⟨?_, ihws.2, ?_⟩
      · rcases t with w | c
        · apply chain'_of_forall_left
          intro a ha b hab
          rcases wMap_mem_word key rep w a ha with ha | ha
          · subst ha
            simp [Tok.isWsSep] at hab
          · rw [hrepws a ha] at hab
            simp at hab
        · rw [wMap_sep]
          exact List.chain'_singleton _
      · intro x hx y hy hcon
        obtain ⟨hxws, hyws⟩ := hcon
        rcases rest with _ | ⟨t2, r2⟩
        · rw [wStage_nil] at hy
          simp at hy
        · rw [wStage_head key rep hrep t2 r2] at hy
          obtain ⟨ht2y, ht2ws⟩ := wMap_head_ws_inv key rep hrepws t2 y hy hyws
          have htws : t.isWsSep = true := by
            rcases wMap_last_cases key rep t x hx with ⟨hxt, _⟩ | ⟨hxrep, w, hw, _⟩
            · rw [← hxt]
              exact hxws
            · exfalso
              have := hreplast x hxrep
              rcases x with wx | cx
              · simp [Tok.isWsSep] at hxws
              · simp [Tok.isWordTok] at this
          exact (List.chain'_cons.mp hws.2).1 ⟨htws, ht2ws⟩
    · show List.Chain' _ (wMap key rep t ++ wStage key rep rest)
      rw [List.chain'_append]
      refine ⟨?_, ihio, ?_⟩
      · apply wMap_chain' key rep
        apply chain'_of_forall_left
        intro a ha b
        intro w' haw hlw _
        subst haw
        exact hrepwords w' (word_mem_wordsOf w' _ ha) hlw
      · intro x hx y hy
        intro w' hxw hlw hyws
        rcases wMap_last_cases key rep t x hx with ⟨hxt, _⟩ | ⟨hxrep, w, hw, _⟩
        · rcases rest with _ | ⟨t2, r2⟩
          · rw [wStage_nil] at hy
            simp at hy
          · rw [wStage_head key rep hrep t2 r2] at hy
            obtain ⟨ht2y, ht2ws⟩ := wMap_head_ws_inv key rep hrepws t2 y hy hyws
            have hpair := (List.chain'_cons.mp hio).1
            rw [← hxt] at hpair
            exact hpair w' hxw hlw ht2ws
        · refine hrepwords w' (word_mem_wordsOf w' _ ?_) hlw
          rw [← hxw]
          exact List.mem_of_mem_getLast? hxrep

theorem wStage_ne_nil (key rep : List Char) (hrep : tokensOf rep ≠ [])
    (ts : List Tok) (h : ts ≠ []) : wStage key rep ts ≠ [] := by
  rcases ts with _ | ⟨t, rest⟩
  · exact absurd rfl h
  · rw [wStage_cons]
    intro hcon
    rcases List.append_eq_nil.mp hcon with ⟨h1, _⟩
    exact wMap_ne_nil key rep hrep t h1

theorem wStage_headOK (key rep : List Char) (hrep : tokensOf rep ≠ [])
    (hrepws : ∀ t ∈ tokensOf rep, t.isWsSep = false) (ts : List Tok)
    (hhead : ∀ t, ts.head? = some t → t.isWsSep = false) :
    ∀ t, (wStage key rep ts).head? = some t → t.isWsSep = false := by
  intro t ht
  cases htws : t.isWsSep
  · rfl
  · exfalso
    rcases ts with _ | ⟨t0, rest⟩
    · rw [wStage_nil] at ht
      simp at ht
    · rw [wStage_head key rep hrep t0 rest] at ht
      obtain ⟨h1, h2⟩ := wMap_head_ws_inv key rep hrepws t0 t ht htws
      rw [hhead t0 rfl] at h2
      simp at h2

theorem wStage_lastOK (key rep : List Char) (hrep : tokensOf rep ≠ [])
    (hreplast : ∀ t, (tokensOf rep).getLast? = some t → t.isWordTok = true)
    (ts : List Tok)
    (hlast : ∀ t, ts.getLast? = some t → t.isWsSep = false) :
    ∀ t, (wStage key rep ts).getLast? = some t → t.isWsSep = false := by
  induction ts with
  | nil =>
    intro t ht
    rw [wStage_nil] at ht
    simp at ht
  | cons t0 rest ih =>
    intro t ht
    rw [wStage_cons] at ht
    rcases hr : rest with _ | ⟨t2, r2⟩
    · subst hr
      rw [wStage_nil, List.append_nil] at ht
      rcases wMap_last_cases key rep t0 t ht with ⟨hxt, _⟩ | ⟨hxrep, w, hw, _⟩
      · rw [hxt]
        exact hlast t0 rfl
      · have := hreplast t hxrep
        rcases t with w' | c'
        · simp [Tok.isWsSep]
        · simp [Tok.isWordTok] at this
    · have hne : wStage key rep rest ≠ [] :=
        wStage_ne_nil key rep hrep rest (by rw [hr]; simp)
      rw [List.getLast?_append_of_ne_nil _ hne] at ht
      refine ih (fun u hu => ?_) t ht
      apply hlast u
      rw [hr] at hu ⊢
      rw [List.getLast?_cons_cons]
      exact hu

/-- The whole contraction table preserves validity, single-space discipline
and the `I` invariant. -/
theorem foldl_wStage_main (rules : List (List Char × List Char))
    (hrules : ∀ kr ∈ rules, ruleOK kr) :
    ∀ ts, ValidT ts → SpaceOK ts → IOk ts →
      ValidT (rules.foldl (fun t kr => wStage kr.1 kr.2 t) ts) ∧
        SpaceOK (rules.foldl (fun t kr => wStage kr.1 kr.2 t) ts) ∧
        IOk (rules.foldl (fun t kr => wStage kr.1 kr.2 t) ts) := by
  induction rules with
  | nil =>
    intro ts hv hsp hio
    exact ⟨hv, hsp, hio⟩
  | cons kr rules' ih =>
    intro ts hv hsp hio
    obtain ⟨hk1, hk2, hrep, hrepws, hrephead, hreplast, hrepwords⟩ :=
      hrules kr (by simp)
    obtain ⟨hv', hws', hio'⟩ := wStage_main kr.1 kr.2 hrep hrepws hrephead
      hreplast (fun w hw hl => (hrepwords w hw).2 hl) ts hv hsp.1 hio
    have hsp' : SpaceOK (wStage kr.1 kr.2 ts) :=
      ⟨hws', wStage_headOK kr.1 kr.2 hrep hrepws ts hsp.2.1,
        wStage_lastOK kr.1 kr.2 hrep hreplast ts hsp.2.2⟩
    exact ih (fun kr' hkr' => hrules kr' (by simp [hkr'])) _ hv' hsp' hio'

/-- After the whole contraction table has run, no word run lowers to any
key of the table. -/
theorem foldl_wStage_noKeys (rules : List (List Char × List Char))
    (hrules : ∀ kr ∈ rules, ruleOK kr ∧ kr.1 ∈ keyList) :
    ∀ ts (done : List (List Char)), (∀ k ∈ done, k ∈ keyList) →
      (∀ w ∈ wordsOf ts, lowerL w ∉ done) →
      ∀ w ∈ wordsOf (rules.foldl (fun t kr => wStage kr.1 kr.2 t) ts),
        lowerL w ∉ done ∧ lowerL w ∉ rules.map Prod.fst := by
  induction rules with
  | nil =>
    intro ts done _ hdone w hw
    exact ⟨hdone w hw, by simp⟩
  | cons kr rules' ih =>
    intro ts done hdonek hdone w hw
    obtain ⟨hkOK, hkmem⟩ := hrules kr (by simp)
    have hstep := ih (fun kr' h => hrules kr' (by simp [h]))
      (wStage kr.1 kr.2 ts) (done ++ [kr.1])
      (fun k hk => by
        rcases List.mem_append.mp hk with h | h
        · exact hdonek k h
        · rw [show k = kr.1 from by simpa using h]
          exact hkmem)
      (fun w' hw' => by
        intro hcon
        rcases wordsOf_wStage kr.1 kr.2 ts w' hw' with ⟨hmem, hne⟩ | hrep
        · rcases List.mem_append.mp hcon with h | h
          · exact hdone w' hmem h
          · exact hne (by simpa using h)
        · refine (hkOK.2.2.2.2.2.2 w' hrep).1 ?_
          rcases List.mem_append.mp hcon with h | h
          · exact hdonek _ h
          · rw [show lowerL w' = kr.1 from by simpa using h]
            exact hkmem)
      w (by simpa using hw)
    obtain ⟨h1, h2⟩ := hstep
    rw [List.map_cons]
    refine ⟨fun h => h1 (by simp [h]), ?_⟩
    intro h
    rcases List.mem_cons.mp h with h | h
    · exact h1 (by simp [h])
    · exact h2 h

theorem punctChar_not_space (c : Char) (h : isPunctChar c = true) :
    isSpaceChar c = false := by
  simp only [isPunctChar, Bool.or_eq_true, beq_iff_eq] at h
  rcases h with ((h1 | h1) | h1) | h1 <;> subst h1 <;> decide

theorem P3Toks_cons_word (w : List Char) (rest : List Tok) :
    P3Toks (Tok.word w :: rest) = Tok.word w :: P3Toks rest := rfl

theorem P3Toks_cons_sep_drop (c : Char) (rest : List Tok)
    (h : (isSpaceChar c &&
      isPunctChar (((flatT rest).dropWhile isSpaceChar).headD 'x')) = true) :
    P3Toks (Tok.sep c :: rest) = P3Toks rest := by
  simp only [P3Toks]
  rw [if_pos h]

theorem P3Toks_cons_sep_keep (c : Char) (rest : List Tok)
    (h : (isSpaceChar c &&
      isPunctChar (((flatT rest).dropWhile isSpaceChar).headD 'x')) = false) :
    P3Toks (Tok.sep c :: rest) = Tok.sep c :: P3Toks rest := by
  simp only [P3Toks]
  rw [if_neg (by rw [h]; simp)]

theorem P3_ne_nil (ts : List Tok) (h : ts ≠ []) : P3Toks ts ≠ [] := by
  induction ts with
  | nil => exact absurd rfl h
  | cons t rest ih =>
    rcases t with w | c
    · rw [P3Toks_cons_word]
      simp
    · by_cases hc : (isSpaceChar c &&
          isPunctChar (((flatT rest).dropWhile isSpaceChar).headD 'x')) = true
      · rw [P3Toks_cons_sep_drop c rest hc]
        refine ih ?_
        intro hnil
        subst hnil
        have : isPunctChar 'x' = true := (Bool.and_eq_true .. |>.mp hc).2
        exact absurd this (by decide)
      · rw [P3Toks_cons_sep_keep c rest (by
          cases hcc : (isSpaceChar c &&
            isPunctChar (((flatT rest).dropWhile isSpaceChar).headD 'x'))
          · rfl
          · exact absurd hcc hc)]
        simp

theorem P3_head_facts (ts : List Tok) (hok : ∀ t ∈ ts, t.ok)
    (hws : WsRunsOK ts) :
    ∀ u, (P3Toks ts).head? = some u →
      ts.head? = some u ∨
        (u.isPunctSep = true ∧
          ∃ c, ts.head? = some (Tok.sep c) ∧ isSpaceChar c = true) := by
  intro u hu
  rcases ts with _ | ⟨t, rest⟩
  · rw [show P3Toks ([] : List Tok) = [] from rfl] at hu
    simp at hu
  · rcases t with w | c
    · rw [P3Toks_cons_word] at hu
      exact Or.inl (by simpa using hu)
    · by_cases hc : (isSpaceChar c &&
          isPunctChar (((flatT rest).dropWhile isSpaceChar).headD 'x')) = true
      · obtain ⟨hcsp, hcp⟩ := Bool.and_eq_true .. |>.mp hc
        rw [P3Toks_cons_sep_drop c rest hc] at hu
        rcases rest with _ | ⟨t2, rest2⟩
        · rw [show P3Toks ([] : List Tok) = [] from rfl] at hu
          simp at hu
        · have ht2 : t2.isWsSep = false := by
            cases htt : t2.isWsSep
            · rfl
            · exfalso
              exact (List.chain'_cons.mp hws.2).1 ⟨by simpa [Tok.isWsSep] using hcsp, htt⟩
          rcases t2 with w2 | d
          · exfalso
            obtain ⟨hwne, hww⟩ := hok (Tok.word w2) (by simp)
            obtain ⟨c0, w1, rfl⟩ := List.exists_cons_of_ne_nil hwne
            rw [flatT_cons, show Tok.flat (Tok.word (c0 :: w1)) = c0 :: w1 from rfl,
              List.cons_append, List.dropWhile_cons,
              wordChar_not_space c0 (hww c0 (by simp)), if_neg (by simp)] at hcp
            rw [show ((c0 :: (w1 ++ flatT rest2)).headD 'x') = c0 from rfl] at hcp
            rw [wordChar_not_punct c0 (hww c0 (by simp))] at hcp
            simp at hcp
          · have hd : isSpaceChar d = false := by simpa [Tok.isWsSep] using ht2
            have hdp : isPunctChar d = true := by
              rw [flatT_cons, show Tok.flat (Tok.sep d) = [d] from rfl,
                List.cons_append, List.nil_append, List.dropWhile_cons, hd,
                if_neg (by simp)] at hcp
              rw [show ((d :: flatT rest2).headD 'x') = d from rfl] at hcp
              exact hcp
            rw [P3Toks_cons_sep_keep d rest2 (by rw [hd]; rfl)] at hu
            have hud : Tok.sep d = u := by simpa using hu
            subst hud
            exact Or.inr ⟨by simpa [Tok.isPunctSep] using hdp, c, rfl, hcsp⟩
      · rw [P3Toks_cons_sep_keep c rest (by
          cases hcc : (isSpaceChar c &&
            isPunctChar (((flatT rest).dropWhile isSpaceChar).headD 'x'))
          · rfl
          · exact absurd hcc hc)] at hu
        exact Or.inl (by simpa using hu)

theorem P3_mem (ts : List Tok) (u : Tok) (hu : u ∈ P3Toks ts) : u ∈ ts := by
  induction ts with
  | nil =>
    rw [show P3Toks ([] : List Tok) = [] from rfl] at hu
    simp at hu
  | cons t rest ih =>
    rcases t with w | c
    · rw [P3Toks_cons_word] at hu
      rcases List.mem_cons.mp hu with h | h
      · simp [h]
      · simp [ih h]
    · by_cases hc : (isSpaceChar c &&
          isPunctChar (((flatT rest).dropWhile isSpaceChar).headD 'x')) = true
      · rw [P3Toks_cons_sep_drop c rest hc] at hu
        simp [ih hu]
      · rw [P3Toks_cons_sep_keep c rest (by
          cases hcc : (isSpaceChar c &&
            isPunctChar (((flatT rest).dropWhile isSpaceChar).headD 'x'))
          · rfl
          · exact absurd hcc hc)] at hu
        rcases List.mem_cons.mp hu with h | h
        · simp [h]
        · simp [ih h]

theorem wordsOf_P3Toks (ts : List Tok) : wordsOf (P3Toks ts) = wordsOf ts := by
  induction ts with
  | nil => rfl
  | cons t rest ih =>
    rcases t with w | c
    · rw [P3Toks_cons_word, wordsOf_cons_word, wordsOf_cons_word, ih]
    · by_cases hc : (isSpaceChar c &&
          isPunctChar (((flatT rest).dropWhile isSpaceChar).headD 'x')) = true
      · rw [P3Toks_cons_sep_drop c rest hc, wordsOf_cons_sep, ih]
      · rw [P3Toks_cons_sep_keep c rest (by
          cases hcc : (isSpaceChar c &&
            isPunctChar (((flatT rest).dropWhile isSpaceChar).headD 'x'))
          · rfl
          · exact absurd hcc hc), wordsOf_cons_sep, wordsOf_cons_sep, ih]

/-- The space-before-punctuation stage preserves validity, whitespace
discipline and the `I` invariant, and establishes that no whitespace
separator directly precedes punctuation. -/
theorem P3_main (ts : List Tok) (hok : ∀ t ∈ ts, t.ok) (hws : WsRunsOK ts)
    (hv : ValidT ts) (hio : IOk ts) :
    ValidT (P3Toks ts) ∧ WsRunsOK (P3Toks ts) ∧ IOk (P3Toks ts) ∧
      NoWsPunct (P3Toks ts) := by
  induction ts with
  | nil =>
    rw [show P3Toks ([] : List Tok) = [] from rfl]
    exact ⟨⟨by simp, List.chain'_nil⟩, ⟨by simp, List.chain'_nil⟩,
      List.chain'_nil, List.chain'_nil⟩
  | cons t rest ih =>
    obtain ⟨hokt, hvr, hadj⟩ := (validT_cons_iff t rest).mp hv
    have hokr : ∀ u ∈ rest, u.ok := fun u hu => hok u (by simp [hu])
    obtain ⟨ihv, ihws, ihio, ihnp⟩ := ih hokr (wsRunsOK_tail _ _ hws) hvr hio.tail
    have hpair := fun (u : Tok) (hu : (P3Toks rest).head? = some u) =>
      P3_head_facts rest hokr (wsRunsOK_tail _ _ hws) u hu
    rcases t with w | c
    · rw [P3Toks_cons_word]
      refine ⟨⟨?_, ?_⟩, ⟨?_, ?_⟩, ?_, ?_⟩
      · intro u hu
        rcases List.mem_cons.mp hu with h | h
        · subst h
          exact hokt
        · exact ihv.1 u h
      · rw [List.chain'_cons']
        refine ⟨fun y hy hcon => ?_, ihv.2⟩
        rcases hpair y hy with h | ⟨hp, c0, hc0, _⟩
        · exact hadj y h hcon
        · rcases y with w2 | d
          · simp [Tok.isPunctSep] at hp
          · exact absurd hcon.2 (by simp [Tok.isWordTok])
      · intro u hu huw
        rcases List.mem_cons.mp hu with h | h
        · subst h
          simp [Tok.isWsSep] at huw
        · exact ihws.1 u h huw
      · rw [List.chain'_cons']
        refine ⟨fun y _ hcon => absurd hcon.1 (by simp [Tok.isWsSep]), ihws.2⟩
      · show List.Chain' _ (Tok.word w :: P3Toks rest)
        rw [List.chain'_cons']
        refine ⟨fun y hy => ?_, ihio⟩
        intro w' hw' hlw hyws
        rcases hpair y hy with h | ⟨hp, c0, hc0, _⟩
        · exact (List.chain'_cons'.mp hio).1 y h w' hw' hlw hyws
        · exfalso
          rcases y with w2 | d
          · simp [Tok.isWsSep] at hyws
          · have hdp : isPunctChar d = true := by simpa [Tok.isPunctSep] using hp
            have hds : isSpaceChar d = true := by simpa [Tok.isWsSep] using hyws
            rw [punctChar_not_space d hdp] at hds
            exact Bool.false_ne_true hds
      · show List.Chain' _ (Tok.word w :: P3Toks rest)
        rw [List.chain'_cons']
        refine ⟨fun y _ hcon => absurd hcon.1 (by simp [Tok.isWsSep]), ihnp⟩
    · by_cases hc : (isSpaceChar c &&
          isPunctChar (((flatT rest).dropWhile isSpaceChar).headD 'x')) = true
      · rw [P3Toks_cons_sep_drop c rest hc]
        exact ⟨ihv, ihws, ihio, ihnp⟩
      · have hcf : (isSpaceChar c &&
            isPunctChar (((flatT rest).dropWhile isSpaceChar).headD 'x')) = false := by
          cases hcc : (isSpaceChar c &&
            isPunctChar (((flatT rest).dropWhile isSpaceChar).headD 'x'))
          · rfl
          · exact absurd hcc hc
        rw [P3Toks_cons_sep_keep c rest hcf]
        refine ⟨⟨?_, ?_⟩, ⟨?_, ?_⟩, ?_, ?_⟩
        · intro u hu
          rcases List.mem_cons.mp hu with h | h
          · subst h
            exact hokt
          · exact ihv.1 u h
        · rw [List.chain'_cons']
          refine ⟨fun y _ hcon => absurd hcon.1 (by simp [Tok.isWordTok]), ihv.2⟩
        · intro u hu huw
          rcases List.mem_cons.mp hu with h | h
          · subst h
            exact hws.1 (Tok.sep c) (by simp) huw
          · exact ihws.1 u h huw
        · rw [List.chain'_cons']
          refine ⟨fun y hy hcon => ?_, ihws.2⟩
          obtain ⟨h1, h2⟩ := hcon
          rcases hpair y hy with h | ⟨hp, c0, hc0, _⟩
          · exact (List.chain'_cons'.mp hws.2).1 y h ⟨h1, h2⟩
          · rcases y with w2 | d
            · simp [Tok.isWsSep] at h2
            · have hdp : isPunctChar d = true := by simpa [Tok.isPunctSep] using hp
              have hds : isSpaceChar d = true := by simpa [Tok.isWsSep] using h2
              rw [punctChar_not_space d hdp] at hds
              exact Bool.false_ne_true hds
        · show List.Chain' _ (Tok.sep c :: P3Toks rest)
          rw [List.chain'_cons']
          refine ⟨fun y _ => ?_, ihio⟩
          intro w' hw'
          simp at hw'
        · show List.Chain' _ (Tok.sep c :: P3Toks rest)
          rw [List.chain'_cons']
          refine ⟨fun y hy hcon => ?_, ihnp⟩
          obtain ⟨h1, h2⟩ := hcon
          have hcsp : isSpaceChar c = true := by simpa [Tok.isWsSep] using h1
          rcases hpair y hy with h | ⟨hp, c0, hc0, hc0sp⟩
          · rcases y with w2 | d
            · simp [Tok.isPunctSep] at h2
            · have hdp : isPunctChar d = true := by
                simpa [Tok.isPunctSep] using h2
              have hdn : isSpaceChar d = false := punctChar_not_space d hdp
              rcases rest with _ | ⟨t2, r2⟩
              · simp at h
              · have ht2 : t2 = Tok.sep d := by simpa using h
                subst ht2
                rw [flatT_cons, show Tok.flat (Tok.sep d) = [d] from rfl,
                  List.cons_append, List.nil_append, List.dropWhile_cons, hdn,
                  if_neg (by simp)] at hcf
                rw [show ((d :: flatT r2).headD 'x') = d from rfl] at hcf
                rw [hcsp, hdp] at hcf
                simp at hcf
          · exact (List.chain'_cons'.mp hws.2).1 (Tok.sep c0) hc0
              ⟨h1, by simpa [Tok.isWsSep] using hc0sp⟩

theorem P3_headOK (ts : List Tok) (hok : ∀ t ∈ ts, t.ok) (hws : WsRunsOK ts)
    (hhead : ∀ t, ts.head? = some t → t.isWsSep = false) :
    ∀ t, (P3Toks ts).head? = some t → t.isWsSep = false := by
  intro t ht
  rcases P3_head_facts ts hok hws t ht with h | ⟨hp, c0, hc0, _⟩
  · exact hhead t h
  · rcases t with w | d
    · simp [Tok.isWsSep]
    · have hdp : isPunctChar d = true := by simpa [Tok.isPunctSep] using hp
      simpa [Tok.isWsSep] using punctChar_not_space d hdp

theorem P3_lastOK (ts : List Tok)
    (hlast : ∀ t, ts.getLast? = some t → t.isWsSep = false) :
    ∀ t, (P3Toks ts).getLast? = some t → t.isWsSep = false := by
  induction ts with
  | nil =>
    intro t ht
    rw [show P3Toks ([] : List Tok) = [] from rfl] at ht
    simp at ht
  | cons t0 rest ih =>
    intro t ht
    have htail : rest ≠ [] → ∀ u, rest.getLast? = some u → u.isWsSep = false := by
      intro hne u hu
      apply hlast u
      obtain ⟨v, vs, hv⟩ := List.exists_cons_of_ne_nil hne
      rw [hv] at hu ⊢
      rw [List.getLast?_cons_cons]
      exact hu
    rcases t0 with w | c
    · rw [P3Toks_cons_word] at ht
      rcases hr : rest with _ | ⟨t2, r2⟩
      · subst hr
        rw [show P3Toks ([] : List Tok) = [] from rfl] at ht
        have : Tok.word w = t := by simpa using ht
        subst this
        simp [Tok.isWsSep]
      · have hne : P3Toks rest ≠ [] := P3_ne_nil rest (by rw [hr]; simp)
        obtain ⟨u, us, hu⟩ := List.exists_cons_of_ne_nil hne
        rw [hu, List.getLast?_cons_cons, ← hu] at ht
        exact ih (htail (by rw [hr]; simp)) t ht
    · by_cases hc : (isSpaceChar c &&
          isPunctChar (((flatT rest).dropWhile isSpaceChar).headD 'x')) = true
      · rw [P3Toks_cons_sep_drop c rest hc] at ht
        have hne : rest ≠ [] := by
          intro hnil
          subst hnil
          have : isPunctChar 'x' = true := (Bool.and_eq_true .. |>.mp hc).2
          exact absurd this (by decide)
        exact ih (htail hne) t ht
      · rw [P3Toks_cons_sep_keep c rest (by
          cases hcc : (isSpaceChar c &&
            isPunctChar (((flatT rest).dropWhile isSpaceChar).headD 'x'))
          · rfl
          · exact absurd hcc hc)] at ht
        rcases hr : rest with _ | ⟨t2, r2⟩
        · subst hr
          rw [show P3Toks ([] : List Tok) = [] from rfl] at ht
          have : Tok.sep c = t := by simpa using ht
          subst this
          exact hlast (Tok.sep c) rfl
        · have hne : P3Toks rest ≠ [] := P3_ne_nil rest (by rw [hr]; simp)
          obtain ⟨u, us, hu⟩ := List.exists_cons_of_ne_nil hne
          rw [hu, List.getLast?_cons_cons, ← hu] at ht
          exact ih (htail (by rw [hr]; simp)) t ht

theorem P4Toks_cons_word (w : List Char) (rest : List Tok) :
    P4Toks (Tok.word w :: rest) = Tok.word w :: P4Toks rest := by
  simp [P4Toks]

theorem P4Toks_sep_word_pos (c : Char) (w : List Char) (rest : List Tok)
    (hc : isPunctChar c = true) :
    P4Toks (Tok.sep c :: Tok.word w :: rest) =
      Tok.sep c :: Tok.sep ' ' :: Tok.word w :: P4Toks rest := by
  simp only [P4Toks]
  rw [if_pos hc]

theorem P4Toks_sep_word_neg (c : Char) (w : List Char) (rest : List Tok)
    (hc : isPunctChar c = false) :
    P4Toks (Tok.sep c :: Tok.word w :: rest) =
      Tok.sep c :: P4Toks (Tok.word w :: rest) := by
  simp only [P4Toks]
  rw [if_neg (by rw [hc]; simp)]

theorem P4Toks_sep_sep (c d : Char) (rest : List Tok) :
    P4Toks (Tok.sep c :: Tok.sep d :: rest) =
      Tok.sep c :: P4Toks (Tok.sep d :: rest) := by
  simp [P4Toks]

theorem P4Toks_sep_single (c : Char) : P4Toks [Tok.sep c] = [Tok.sep c] := rfl

theorem P4_head (ts : List Tok) :
    ∀ u, (P4Toks ts).head? = some u → ts.head? = some u := by
  intro u hu
  rcases ts with _ | ⟨t, rest⟩
  · rw [show P4Toks ([] : List Tok) = [] from rfl] at hu
    simp at hu
  · rcases t with w | c
    · rw [P4Toks_cons_word] at hu
      simpa using hu
    · rcases rest with _ | ⟨t2, rest2⟩
      · rw [P4Toks_sep_single] at hu
        simpa using hu
      · rcases t2 with w2 | d2
        · by_cases hc : isPunctChar c = true
          · rw [P4Toks_sep_word_pos c w2 rest2 hc] at hu
            simpa using hu
          · rw [P4Toks_sep_word_neg c w2 rest2 (by
              cases hcc : isPunctChar c
              · rfl
              · exact absurd hcc hc)] at hu
            simpa using hu
        · rw [P4Toks_sep_sep c d2 rest2] at hu
          simpa using hu

theorem P4_ne_nil (ts : List Tok) (h : ts ≠ []) : P4Toks ts ≠ [] := by
  rcases ts with _ | ⟨t, rest⟩
  · exact absurd rfl h
  · rcases t with w | c
    · rw [P4Toks_cons_word]
      simp
    · rcases rest with _ | ⟨t2, rest2⟩
      · rw [P4Toks_sep_single]
        simp
      · rcases t2 with w2 | d2
        · by_cases hc : isPunctChar c = true
          · rw [P4Toks_sep_word_pos c w2 rest2 hc]
            simp
          · rw [P4Toks_sep_word_neg c w2 rest2 (by
              cases hcc : isPunctChar c
              · rfl
              · exact absurd hcc hc)]
            simp
        · rw [P4Toks_sep_sep c d2 rest2]
          simp

theorem wordsOf_P4Toks (ts : List Tok) : wordsOf (P4Toks ts) = wordsOf ts := by
  have main : ∀ n ts, ts.length ≤ n → wordsOf (P4Toks ts) = wordsOf ts := by
    intro n
    induction n with
    | zero =>
      intro ts hlen
      have hnil : ts = [] := List.eq_nil_of_length_eq_zero (Nat.le_zero.mp hlen)
      subst hnil
      rfl
    | succ n ihn =>
      intro ts hlen
      rcases ts with _ | ⟨t, rest⟩
      · rfl
      · rcases t with w | c
        · rw [P4Toks_cons_word, wordsOf_cons_word, wordsOf_cons_word,
            ihn rest (by simp only [List.length_cons] at hlen; omega)]
        · rcases rest with _ | ⟨t2, rest2⟩
          · rfl
          · rcases t2 with w2 | d2
            · by_cases hc : isPunctChar c = true
              · rw [P4Toks_sep_word_pos c w2 rest2 hc, wordsOf_cons_sep,
                  wordsOf_cons_sep, wordsOf_cons_word, wordsOf_cons_sep,
                  wordsOf_cons_word,
                  ihn rest2 (by simp only [List.length_cons] at hlen; omega)]
              · rw [P4Toks_sep_word_neg c w2 rest2 (by
                  cases hcc : isPunctChar c
                  · rfl
                  · exact absurd hcc hc), wordsOf_cons_sep, wordsOf_cons_sep,
                  ihn (Tok.word w2 :: rest2)
                    (by simp only [List.length_cons] at hlen ⊢; omega)]
            · rw [P4Toks_sep_sep c d2 rest2, wordsOf_cons_sep, wordsOf_cons_sep,
                ihn (Tok.sep d2 :: rest2)
                  (by simp only [List.length_cons] at hlen ⊢; omega)]
  exact main ts.length ts le_rfl

/-- The punctuation-spacing stage preserves all running invariants and
establishes that no punctuation separator directly precedes a word. -/
theorem P4_main (ts : List Tok) (hok : ∀ t ∈ ts, t.ok) (hws : WsRunsOK ts)
    (hv : ValidT ts) (hio : IOk ts) (hnp : NoWsPunct ts) :
    ValidT (P4Toks ts) ∧ WsRunsOK (P4Toks ts) ∧ IOk (P4Toks ts) ∧
      NoWsPunct (P4Toks ts) ∧ NoPunctWord (P4Toks ts) := by
  have main : ∀ n ts, ts.length ≤ n → (∀ t ∈ ts, Tok.ok t) → WsRunsOK ts →
      ValidT ts → IOk ts → NoWsPunct ts →
      ValidT (P4Toks ts) ∧ WsRunsOK (P4Toks ts) ∧ IOk (P4Toks ts) ∧
        NoWsPunct (P4Toks ts) ∧ NoPunctWord (P4Toks ts) := by
    intro n
    induction n with
    | zero =>
      intro ts hlen _ _ _ _ _
      have hnil : ts = [] := List.eq_nil_of_length_eq_zero (Nat.le_zero.mp hlen)
      subst hnil
      rw [show P4Toks ([] : List Tok) = [] from rfl]
      exact ⟨⟨by simp, List.chain'_nil⟩, ⟨by simp, List.chain'_nil⟩,
        List.chain'_nil, List.chain'_nil, List.chain'_nil⟩
    | succ n ihn =>
      intro ts hlen hok hws hv hio hnp
      rcases ts with _ | ⟨t, rest⟩
      · rw [show P4Toks ([] : List Tok) = [] from rfl]
        exact ⟨⟨by simp, List.chain'_nil⟩, ⟨by simp, List.chain'_nil⟩,
          List.chain'_nil, List.chain'_nil, List.chain'_nil⟩
      · obtain ⟨hokt, hvr, hadj⟩ := (validT_cons_iff t rest).mp hv
        rcases t with w | c
        · obtain ⟨ihv, ihws, ihio, ihnp, ihpw⟩ := ihn rest
            (by simp only [List.length_cons] at hlen; omega)
            (fun u hu => hok u (by simp [hu])) (wsRunsOK_tail _ _ hws) hvr
            hio.tail hnp.tail
          rw [P4Toks_cons_word]
          refine ⟨⟨?_, ?_⟩, ⟨?_, ?_⟩, ?_, ?_, ?_⟩
          · intro u hu
            rcases List.mem_cons.mp hu with h | h
            · subst h
              exact hokt
            · exact ihv.1 u h
          · rw [List.chain'_cons']
            refine ⟨fun y hy hcon => hadj y (P4_head rest y hy) hcon, ihv.2⟩
          · intro u hu huw
            rcases List.mem_cons.mp hu with h | h
            · subst h
              simp [Tok.isWsSep] at huw
            · exact ihws.1 u h huw
          · rw [List.chain'_cons']
            refine ⟨fun y _ hcon => absurd hcon.1 (by simp [Tok.isWsSep]), ihws.2⟩
          · show List.Chain' _ (Tok.word w :: P4Toks rest)
            rw [List.chain'_cons']
            refine ⟨fun y hy => (List.chain'_cons'.mp hio).1 y (P4_head rest y hy),
              ihio⟩
          · show List.Chain' _ (Tok.word w :: P4Toks rest)
            rw [List.chain'_cons']
            refine ⟨fun y _ hcon => absurd hcon.1 (by simp [Tok.isWsSep]), ihnp⟩
          · show List.Chain' _ (Tok.word w :: P4Toks rest)
            rw [List.chain'_cons']
            refine ⟨fun y _ hcon => absurd hcon.1 (by simp [Tok.isPunctSep]), ihpw⟩
        · rcases rest with _ | ⟨t2, rest2⟩
          · rw [P4Toks_sep_single]
            refine ⟨⟨?_, List.chain'_singleton _⟩, ⟨?_, List.chain'_singleton _⟩,
              List.chain'_singleton _, List.chain'_singleton _,
              List.chain'_singleton _⟩
            · intro u hu
              rw [List.mem_singleton.mp hu]
              exact hokt
            · intro u hu huw
              rw [List.mem_singleton.mp hu] at huw ⊢
              exact hws.1 (Tok.sep c) (by simp) huw
          · rcases t2 with w2 | d2
            · by_cases hc : isPunctChar c = true
              · obtain ⟨ihv, ihws, ihio, ihnp, ihpw⟩ := ihn rest2
                  (by simp only [List.length_cons] at hlen; omega)
                  (fun u hu => hok u (by simp [hu]))
                  (wsRunsOK_tail _ _ (wsRunsOK_tail _ _ hws))
                  (validT_suffix _ _ ⟨[Tok.sep c, Tok.word w2], rfl⟩ hv)
                  hio.tail.tail hnp.tail.tail
                rw [P4Toks_sep_word_pos c w2 rest2 hc]
                have hcnw : isSpaceChar c = false := punctChar_not_space c hc
                refine ⟨⟨?_, ?_⟩, ⟨?_, ?_⟩, ?_, ?_, ?_⟩
                · intro u hu
                  rcases List.mem_cons.mp hu with h | h
                  · subst h
                    exact hokt
                  · rcases List.mem_cons.mp h with h | h
                    · subst h
                      show isWordChar ' ' = false
                      decide
                    · rcases List.mem_cons.mp h with h | h
                      · subst h
                        exact hok (Tok.word w2) (by simp)
                      · exact ihv.1 u h
                · rw [List.chain'_cons', List.chain'_cons', List.chain'_cons']
                  refine ⟨fun y _ hcon => absurd hcon.1 (by simp [Tok.isWordTok]),
                    fun y _ hcon => absurd hcon.1 (by simp [Tok.isWordTok]),
                    fun y hy hcon => ?_, ihv.2⟩
                  exact (List.chain'_cons'.mp (List.chain'_cons'.mp hv.2).2).1 y
                    (P4_head rest2 y hy) hcon
                · intro u hu huw
                  rcases List.mem_cons.mp hu with h | h
                  · subst h
                    rw [show (Tok.sep c).isWsSep = isSpaceChar c from rfl, hcnw]
                      at huw
                    simp at huw
                  · rcases List.mem_cons.mp h with h | h
                    · subst h
                      rfl
                    · rcases List.mem_cons.mp h with h | h
                      · subst h
                        simp [Tok.isWsSep] at huw
                      · exact ihws.1 u h huw
                · rw [List.chain'_cons', List.chain'_cons', List.chain'_cons']
                  refine ⟨fun y _ hcon => ?_,
                    fun y hy hcon => absurd hcon.2 (by
                      rw [← show Tok.word w2 = y from by simpa using hy]
                      simp [Tok.isWsSep]),
                    fun y _ hcon => absurd hcon.1 (by simp [Tok.isWsSep]), ihws.2⟩
                  · refine absurd hcon.1 ?_
                    rw [show (Tok.sep c).isWsSep = isSpaceChar c from rfl, hcnw]
                    simp
                · show List.Chain' _ (Tok.sep c :: Tok.sep ' ' :: Tok.word w2 ::
                    P4Toks rest2)
                  rw [List.chain'_cons', List.chain'_cons', List.chain'_cons']
                  refine ⟨fun y _ => ?_, fun y _ => ?_, fun y hy => ?_, ihio⟩
                  · intro w' hw'
                    simp at hw'
                  · intro w' hw'
                    simp at hw'
                  · exact (List.chain'_cons'.mp hio.tail).1 y (P4_head rest2 y hy)
                · show List.Chain' _ (Tok.sep c :: Tok.sep ' ' :: Tok.word w2 ::
                    P4Toks rest2)
                  rw [List.chain'_cons', List.chain'_cons', List.chain'_cons']
                  refine ⟨fun y _ hcon => ?_,
                    fun y hy hcon => absurd hcon.2 (by
                      rw [← show Tok.word w2 = y from by simpa using hy]
                      simp [Tok.isPunctSep]),
                    fun y _ hcon => absurd hcon.1 (by simp [Tok.isWsSep]), ihnp⟩
                  · refine absurd hcon.1 ?_
                    rw [show (Tok.sep c).isWsSep = isSpaceChar c from rfl, hcnw]
                    simp
                · show List.Chain' _ (Tok.sep c :: Tok.sep ' ' :: Tok.word w2 ::
                    P4Toks rest2)
                  rw [List.chain'_cons', List.chain'_cons', List.chain'_cons']
                  refine ⟨fun y hy hcon => absurd hcon.2 (by
                      rw [← show Tok.sep ' ' = y from by simpa using hy]
                      simp [Tok.isWordTok]),
                    fun y _ hcon => absurd hcon.1 (by decide),
                    fun y _ hcon => absurd hcon.1 (by simp [Tok.isPunctSep]), ihpw⟩
              · have hcf : isPunctChar c = false := by
                  cases hcc : isPunctChar c
                  · rfl
                  · exact absurd hcc hc
                obtain ⟨ihv, ihws, ihio, ihnp, ihpw⟩ :=
                  ihn (Tok.word w2 :: rest2)
                    (by simp only [List.length_cons] at hlen ⊢; omega)
                    (fun u hu => hok u (by simp [hu])) (wsRunsOK_tail _ _ hws) hvr
                    hio.tail hnp.tail
                rw [P4Toks_sep_word_neg c w2 rest2 hcf]
                have hy2 : ∀ y, (P4Toks (Tok.word w2 :: rest2)).head? = some y →
                    y = Tok.word w2 := by
                  intro y hy
                  have := P4_head _ y hy
                  simpa using this.symm
                refine ⟨⟨?_, ?_⟩, ⟨?_, ?_⟩, ?_, ?_, ?_⟩
                · intro u hu
                  rcases List.mem_cons.mp hu with h | h
                  · subst h
                    exact hokt
                  · exact ihv.1 u h
                · rw [List.chain'_cons']
                  refine ⟨fun y _ hcon => absurd hcon.1 (by simp [Tok.isWordTok]),
                    ihv.2⟩
                · intro u hu huw
                  rcases List.mem_cons.mp hu with h | h
                  · subst h
                    exact hws.1 (Tok.sep c) (by simp) huw
                  · exact ihws.1 u h huw
                · rw [List.chain'_cons']
                  refine ⟨fun y hy hcon => absurd hcon.2 (by
                    rw [hy2 y hy]
                    simp [Tok.isWsSep]), ihws.2⟩
                · show List.Chain' _ (Tok.sep c :: P4Toks (Tok.word w2 :: rest2))
                  rw [List.chain'_cons']
                  refine ⟨fun y _ => ?_, ihio⟩
                  intro w' hw'
                  simp at hw'
                · show List.Chain' _ (Tok.sep c :: P4Toks (Tok.word w2 :: rest2))
                  rw [List.chain'_cons']
                  refine ⟨fun y hy hcon => absurd hcon.2 (by
                    rw [hy2 y hy]
                    simp [Tok.isPunctSep]), ihnp⟩
                · show List.Chain' _ (Tok.sep c :: P4Toks (Tok.word w2 :: rest2))
                  rw [List.chain'_cons']
                  refine ⟨fun y _ hcon => absurd hcon.1 (by
                    simp [Tok.isPunctSep, hcf]), ihpw⟩
            · obtain ⟨ihv, ihws, ihio, ihnp, ihpw⟩ :=
                ihn (Tok.sep d2 :: rest2)
                  (by simp only [List.length_cons] at hlen ⊢; omega)
                  (fun u hu => hok u (by simp [hu])) (wsRunsOK_tail _ _ hws) hvr
                  hio.tail hnp.tail
              rw [P4Toks_sep_sep c d2 rest2]
              have hy2 : ∀ y, (P4Toks (Tok.sep d2 :: rest2)).head? = some y →
                  y = Tok.sep d2 := by
                intro y hy
                have := P4_head _ y hy
                simpa using this.symm
              refine ⟨⟨?_, ?_⟩, ⟨?_, ?_⟩, ?_, ?_, ?_⟩
              · intro u hu
                rcases List.mem_cons.mp hu with h | h
                · subst h
                  exact hokt
                · exact ihv.1 u h
              · rw [List.chain'_cons']
                refine ⟨fun y _ hcon => absurd hcon.1 (by simp [Tok.isWordTok]),
                  ihv.2⟩
              · intro u hu huw
                rcases List.mem_cons.mp hu with h | h
                · subst h
                  exact hws.1 (Tok.sep c) (by simp) huw
                · exact ihws.1 u h huw
              · rw [List.chain'_cons']
                refine ⟨fun y hy hcon => ?_, ihws.2⟩
                rw [hy2 y hy] at hcon
                exact (List.chain'_cons'.mp hws.2).1 (Tok.sep d2) rfl hcon
              · show List.Chain' _ (Tok.sep c :: P4Toks (Tok.sep d2 :: rest2))
                rw [List.chain'_cons']
                refine ⟨fun y _ => ?_, ihio⟩
                intro w' hw'
                simp at hw'
              · show List.Chain' _ (Tok.sep c :: P4Toks (Tok.sep d2 :: rest2))
                rw [List.chain'_cons']
                refine ⟨fun y hy hcon => ?_, ihnp⟩
                rw [hy2 y hy] at hcon
                exact (List.chain'_cons'.mp hnp).1 (Tok.sep d2) rfl hcon
              · show List.Chain' _ (Tok.sep c :: P4Toks (Tok.sep d2 :: rest2))
                rw [List.chain'_cons']
                refine ⟨fun y hy hcon => absurd hcon.2 (by
                  rw [hy2 y hy]
                  simp [Tok.isWordTok]), ihpw⟩
  exact main ts.length ts le_rfl hok hws hv hio hnp

theorem P4_headOK (ts : List Tok)
    (hhead : ∀ t, ts.head? = some t → t.isWsSep = false) :
    ∀ t, (P4Toks ts).head? = some t → t.isWsSep = false := fun t ht =>
  hhead t (P4_head ts t ht)

theorem P4_lastOK (ts : List Tok)
    (hlast : ∀ t, ts.getLast? = some t → t.isWsSep = false) :
    ∀ t, (P4Toks ts).getLast? = some t → t.isWsSep = false := by
  have main : ∀ n ts, ts.length ≤ n →
      (∀ t, ts.getLast? = some t → t.isWsSep = false) →
      ∀ t, (P4Toks ts).getLast? = some t → t.isWsSep = false := by
    intro n
    induction n with
    | zero =>
      intro ts hlen _ t ht
      have hnil : ts = [] := List.eq_nil_of_length_eq_zero (Nat.le_zero.mp hlen)
      subst hnil
      rw [show P4Toks ([] : List Tok) = [] from rfl] at ht
      simp at ht
    | succ n ihn =>
      intro ts hlen hlast t ht
      rcases ts with _ | ⟨t0, rest⟩
      · rw [show P4Toks ([] : List Tok) = [] from rfl] at ht
        simp at ht
      · have htail : rest ≠ [] →
            ∀ u, rest.getLast? = some u → u.isWsSep = false := by
          intro hne u hu
          apply hlast u
          obtain ⟨v, vs, hv⟩ := List.exists_cons_of_ne_nil hne
          rw [hv] at hu ⊢
          rw [List.getLast?_cons_cons]
          exact hu
        rcases t0 with w | c
        · rw [P4Toks_cons_word] at ht
          rcases hr : rest with _ | ⟨t2, r2⟩
          · subst hr
            rw [show P4Toks ([] : List Tok) = [] from rfl] at ht
            have : Tok.word w = t := by simpa using ht
            subst this
            simp [Tok.isWsSep]
          · have hne : P4Toks rest ≠ [] := P4_ne_nil rest (by rw [hr]; simp)
            obtain ⟨u, us, hu⟩ := List.exists_cons_of_ne_nil hne
            rw [hu, List.getLast?_cons_cons, ← hu] at ht
            exact ihn rest (by simp only [List.length_cons] at hlen; omega)
              (htail (by rw [hr]; simp)) t ht
        · rcases rest with _ | ⟨t2, r2⟩
          · rw [P4Toks_sep_single] at ht
            have : Tok.sep c = t := by simpa using ht
            subst this
            exact hlast (Tok.sep c) rfl
          · rcases t2 with w2 | d2
            · by_cases hc : isPunctChar c = true
              · rw [P4Toks_sep_word_pos c w2 r2 hc] at ht
                rcases hr2 : r2 with _ | ⟨t3, r3⟩
                · subst hr2
                  rw [show P4Toks ([] : List Tok) = [] from rfl] at ht
                  rw [List.getLast?_cons_cons, List.getLast?_cons_cons] at ht
                  have : Tok.word w2 = t := by simpa using ht
                  subst this
                  simp [Tok.isWsSep]
                · have hne : P4Toks r2 ≠ [] := P4_ne_nil r2 (by rw [hr2]; simp)
                  obtain ⟨u, us, hu⟩ := List.exists_cons_of_ne_nil hne
                  rw [List.getLast?_cons_cons, List.getLast?_cons_cons, hu,
                    List.getLast?_cons_cons, ← hu] at ht
                  refine ihn r2 (by simp only [List.length_cons] at hlen; omega)
                    (fun u' hu' => ?_) t ht
                  apply hlast u'
                  rw [hr2] at hu' ⊢
                  rw [List.getLast?_cons_cons, List.getLast?_cons_cons]
                  exact hu'
              · rw [P4Toks_sep_word_neg c w2 r2 (by
                  cases hcc : isPunctChar c
                  · rfl
                  · exact absurd hcc hc)] at ht
                have hne : P4Toks (Tok.word w2 :: r2) ≠ [] :=
                  P4_ne_nil _ (by simp)
                obtain ⟨u, us, hu⟩ := List.exists_cons_of_ne_nil hne
                rw [hu, List.getLast?_cons_cons, ← hu] at ht
                exact ihn (Tok.word w2 :: r2)
                  (by simp only [List.length_cons] at hlen ⊢; omega)
                  (htail (by simp)) t ht
            · rw [P4Toks_sep_sep c d2 r2] at ht
              have hne : P4Toks (Tok.sep d2 :: r2) ≠ [] := P4_ne_nil _ (by simp)
              obtain ⟨u, us, hu⟩ := List.exists_cons_of_ne_nil hne
              rw [hu, List.getLast?_cons_cons, ← hu] at ht
              exact ihn (Tok.sep d2 :: r2)
                (by simp only [List.length_cons] at hlen ⊢; omega)
                (htail (by simp)) t ht
  exact main ts.length ts le_rfl hlast

/-- The contraction passes act tokenwise on the characters of a valid
token list with the running invariants. -/
theorem foldl_subWord_flatT (rules : List (List Char × List Char))
    (hrules : ∀ kr ∈ rules, ruleOK kr) :
    ∀ ts, ValidT ts → SpaceOK ts → IOk ts →
      rules.foldl (fun t kr => subWord kr.1 kr.2 t) (flatT ts) =
        flatT (rules.foldl (fun t kr => wStage kr.1 kr.2 t) ts) := by
  induction rules with
  | nil =>
    intro ts _ _ _
    rfl
  | cons kr rules' ih =>
    intro ts hv hsp hio
    obtain ⟨hk1, hk2, hrep, hrepws, hrephead, hreplast, hrepwords⟩ :=
      hrules kr (by simp)
    have hstep : subWord kr.1 kr.2 (flatT ts) = flatT (wStage kr.1 kr.2 ts) :=
      subWordAux_flatT kr.1 kr.2 hk1 hk2 ts hv false (by simp)
    obtain ⟨hv', hws', hio'⟩ := wStage_main kr.1 kr.2 hrep hrepws hrephead
      hreplast (fun w hw hl => (hrepwords w hw).2 hl) ts hv hsp.1 hio
    have hsp' : SpaceOK (wStage kr.1 kr.2 ts) :=
      ⟨hws', wStage_headOK kr.1 kr.2 hrep hrepws ts hsp.2.1,
        wStage_lastOK kr.1 kr.2 hrep hreplast ts hsp.2.2⟩
    rw [List.foldl_cons, List.foldl_cons, hstep,
      ih (fun kr' hkr' => hrules kr' (by simp [hkr'])) _ hv' hsp' hio']

theorem foldl_wStage_id (rules : List (List Char × List Char))
    (hkeys : ∀ kr ∈ rules, kr.1 ∈ keyList) (ts : List Tok)
    (hnk : NoKeys keyList ts) :
    rules.foldl (fun t kr => wStage kr.1 kr.2 t) ts = ts := by
  induction rules with
  | nil => rfl
  | cons kr rules' ih =>
    rw [List.foldl_cons,
      wStage_id kr.1 kr.2 ts (fun w hw hEq => hnk w hw (hEq ▸ hkeys kr (by simp))),
      ih (fun kr' h => hkeys kr' (by simp [h]))]

/-- The full pipeline is the tokenwise pipeline on the decomposition of the
whitespace-normalized input, and its output satisfies all the invariants. -/
theorem contractionsT_foldl (ts : List Tok) :
    contractionsT ts =
      contractionTable.foldl (fun t kr => wStage kr.1 kr.2 t) ts := rfl

theorem applyContractions_foldl (s : List Char) :
    applyContractions s =
      contractionTable.foldl (fun t kr => subWord kr.1 kr.2 t) s := rfl

section

attribute [local irreducible] contractionTable

/-- The full pipeline is the tokenwise pipeline on the decomposition of the
whitespace-normalized input, and its output satisfies all the invariants. -/
theorem cleanList_eq_flatT (s : List Char) :
    cleanList s = flatT (cleanToks (tokensOf (normalizeWs s))) ∧
    ValidT (cleanToks (tokensOf (normalizeWs s))) ∧
    SpaceOK (cleanToks (tokensOf (normalizeWs s))) ∧
    IOk (cleanToks (tokensOf (normalizeWs s))) ∧
    NoKeys keyList (cleanToks (tokensOf (normalizeWs s))) ∧
    NoWsPunct (cleanToks (tokensOf (normalizeWs s))) ∧
    NoPunctWord (cleanToks (tokensOf (normalizeWs s))) := by
  have hv0 : ValidT (tokensOf (normalizeWs s)) := validT_tokensOf _
  have hsp0 : SpaceOK (tokensOf (normalizeWs s)) := spaceOK_tokensOf_normalizeWs s
  obtain ⟨hv1, hsp1, hio1⟩ := iToks_preserves _ hv0 hsp0
  have hfold := foldl_wStage_main contractionTable all_rules_ok _ hv1 hsp1 hio1
  rw [← contractionsT_foldl] at hfold
  obtain ⟨hv2', hsp2', hio2'⟩ := hfold
  have hnk2 : NoKeys keyList (contractionsT (iToks (tokensOf (normalizeWs s)))) := by
    intro w hw
    rw [contractionsT_foldl] at hw
    have := foldl_wStage_noKeys contractionTable
      (fun kr h => ⟨all_rules_ok kr h, List.mem_map.mpr ⟨kr, h, rfl⟩⟩)
      (iToks (tokensOf (normalizeWs s))) [] (by simp) (by simp) w hw
    exact this.2
  obtain ⟨hv3, hws3, hio3, hnp3⟩ := P3_main
    (contractionsT (iToks (tokensOf (normalizeWs s)))) hv2'.1 hsp2'.1 hv2' hio2'
  have hsp3 : SpaceOK (P3Toks (contractionsT (iToks (tokensOf (normalizeWs s))))) :=
    ⟨hws3, P3_headOK _ hv2'.1 hsp2'.1 hsp2'.2.1, P3_lastOK _ hsp2'.2.2⟩
  have hnk3 : NoKeys keyList
      (P3Toks (contractionsT (iToks (tokensOf (normalizeWs s))))) := by
    intro w hw
    rw [wordsOf_P3Toks] at hw
    exact hnk2 w hw
  obtain ⟨hv4, hws4, hio4, hnp4, hpw4⟩ := P4_main _ hv3.1 hws3 hv3 hio3 hnp3
  have hsp4 : SpaceOK (cleanToks (tokensOf (normalizeWs s))) :=
    ⟨hws4, P4_headOK _ hsp3.2.1, P4_lastOK _ hsp3.2.2⟩
  have hnk4 : NoKeys keyList (cleanToks (tokensOf (normalizeWs s))) := by
    intro w hw
    rw [show cleanToks (tokensOf (normalizeWs s)) =
      P4Toks (P3Toks (contractionsT (iToks (tokensOf (normalizeWs s)))))
      from rfl, wordsOf_P4Toks] at hw
    exact hnk3 w hw
  refine ⟨?_, hv4, hsp4, hio4, hnk4, hnp4, hpw4⟩
  have e1 : subIAux 0 false (normalizeWs s) =
      flatT (iToks (tokensOf (normalizeWs s))) := by
    conv_lhs => rw [← flatT_tokensOf (normalizeWs s)]
    exact subIAux_flatT _ hv0 false (by simp)
  have e2 := foldl_subWord_flatT contractionTable all_rules_ok _ hv1 hsp1 hio1
  rw [← applyContractions_foldl, ← contractionsT_foldl] at e2
  have e3 := subSpacePunct_flatT
    (contractionsT (iToks (tokensOf (normalizeWs s)))) hv2'.1
  have e4 := subPunctWord_flatT
    (P3Toks (contractionsT (iToks (tokensOf (normalizeWs s))))) hv3.1
  show subPunctWord (subSpacePunct (applyContractions
    (subIAux 0 false (normalizeWs s)))) = _
  rw [e1, e2, e3, e4]
  rfl

/-- `clean_transcript_basic` is the identity on its own image (character
level). -/
theorem cleanList_idempotent (s : List Char) :
    cleanList (cleanList s) = cleanList s := by
  obtain ⟨heq, hv, hsp, hio, hnk, hnp, hpw⟩ := cleanList_eq_flatT s
  have hok := hv.1
  have key : cleanList (flatT (cleanToks (tokensOf (normalizeWs s)))) =
      flatT (cleanToks (tokensOf (normalizeWs s))) := by
    have hnorm := normalizeWs_id_of_spaceOK _ hok hsp
    have e1 : subIAux 0 false (flatT (cleanToks (tokensOf (normalizeWs s)))) =
        flatT (cleanToks (tokensOf (normalizeWs s))) := by
      rw [subIAux_flatT _ hv false (by simp), iToks_id _ hsp.1 hio]
    have e2 : applyContractions (flatT (cleanToks (tokensOf (normalizeWs s)))) =
        flatT (cleanToks (tokensOf (normalizeWs s))) := by
      have h := foldl_subWord_flatT contractionTable all_rules_ok _ hv hsp hio
      rw [← applyContractions_foldl, ← contractionsT_foldl] at h
      rw [h, contractionsT_foldl, foldl_wStage_id contractionTable
        (fun kr hh => List.mem_map.mpr ⟨kr, hh, rfl⟩) _ hnk]
    have e3 : subSpacePunct (flatT (cleanToks (tokensOf (normalizeWs s)))) =
        flatT (cleanToks (tokensOf (normalizeWs s))) := by
      rw [subSpacePunct_flatT _ hok, P3Toks_id _ hok hsp.1 hnp]
    have e4 : subPunctWord (flatT (cleanToks (tokensOf (normalizeWs s)))) =
        flatT (cleanToks (tokensOf (normalizeWs s))) := by
      rw [subPunctWord_flatT _ hok, P4Toks_id _ hpw]
    show subPunctWord (subSpacePunct (applyContractions (subIAux 0 false
      (normalizeWs (flatT (cleanToks (tokensOf (normalizeWs s)))))))) = _
    rw [hnorm, e1, e2, e3, e4]
  calc cleanList (cleanList s)
      = cleanList (flatT (cleanToks (tokensOf (normalizeWs s)))) :=
        congrArg cleanList heq
    _ = flatT (cleanToks (tokensOf (normalizeWs s))) := key
    _ = cleanList s := heq.symm

/-- C2: the Text Normalizer is idempotent: for every input string `s`,
applying `clean_transcript_basic` to the result of
`clean_transcript_basic s` returns that result unchanged. -/
theorem clean_transcript_basic_idempotent (s : String) :
    clean_transcript_basic (clean_transcript_basic s) =
      clean_transcript_basic s :=
  congrArg String.mk (cleanList_idempotent s.data)

end

theorem spaceChar_not_word (c : Char) (h : isSpaceChar c = true) :
    isWordChar c = false := by
  cases hw : isWordChar c
  · rfl
  · rw [wordChar_not_space c hw] at h
    simp at h

theorem tokensOf_append_foldr (a b : List Char) :
    tokensOf (a ++ b) = a.foldr tokStep (tokensOf b) := by
  simp [tokensOf, List.foldr_append]

theorem wordRuns_cons_nonword (c : Char) (hc : isWordChar c = false)
    (s : List Char) : wordRuns (c :: s) = wordRuns s := by
  show wordsOf (tokensOf (c :: s)) = _
  rw [tokensOf_cons, tokStep_sep c hc, wordsOf_cons_sep]
  rfl

theorem foldr_tokStep_words (s : List Char) (init : List Tok)
    (hinit : headNotWord init) :
    wordsOf (s.foldr tokStep init) = wordRuns s ++ wordsOf init ∧
      (∀ w, (s.foldr tokStep init).head? = some (Tok.word w) ↔
        (tokensOf s).head? = some (Tok.word w)) := by
  induction s with
  | nil =>
    refine ⟨by simp [wordRuns, wordsOf, tokensOf], fun w => ?_⟩
    constructor
    · intro h
      exact absurd h (hinit w)
    · intro h
      simp [tokensOf] at h
  | cons c s' ih =>
    obtain ⟨ih1, ih2⟩ := ih
    rw [List.foldr_cons]
    by_cases hc : isWordChar c = true
    · have hcase :
          (∃ w rest rest0, s'.foldr tokStep init = Tok.word w :: rest ∧
            tokensOf s' = Tok.word w :: rest0) ∨
          (headNotWord (s'.foldr tokStep init) ∧ headNotWord (tokensOf s')) := by
        rcases hX : s'.foldr tokStep init with _ | ⟨t, rest⟩
        · refine Or.inr ⟨headNotWord_nil, fun w0 h0 => ?_⟩
          have := (ih2 w0).mpr h0
          rw [hX] at this
          simp at this
        · rcases t with w | d
          · left
            have hT0 : (tokensOf s').head? = some (Tok.word w) :=
              (ih2 w).mp (by rw [hX]; rfl)
            rcases hT : tokensOf s' with _ | ⟨t0, rest0⟩
            · rw [hT] at hT0
              simp at hT0
            · rw [hT] at hT0
              have ht0 : t0 = Tok.word w := by simpa using hT0
              subst ht0
              exact ⟨w, rest, rest0, rfl, rfl⟩
          · refine Or.inr ⟨headNotWord_sep d rest,
              fun w0 h0 => ?_⟩
            have := (ih2 w0).mpr h0
            rw [hX] at this
            simp at this
      rcases hcase with ⟨w, rest, rest0, hX, hT⟩ | ⟨hX, hT⟩
      · rw [hX, tokStep_merge c hc w rest]
        have h1 : w :: wordsOf rest = wordRuns s' ++ wordsOf init := by
          rw [← wordsOf_cons_word, ← hX, ih1]
        have h2 : wordRuns s' = w :: wordsOf rest0 := by
          show wordsOf (tokensOf s') = _
          rw [hT, wordsOf_cons_word]
        have hrun : wordRuns (c :: s') = (c :: w) :: wordsOf rest0 := by
          show wordsOf (tokensOf (c :: s')) = _
          rw [show tokensOf (c :: s') = tokStep c (tokensOf s') from rfl, hT,
            tokStep_merge c hc w rest0, wordsOf_cons_word]
        constructor
        · rw [wordsOf_cons_word, hrun, List.cons_append]
          rw [h2, List.cons_append] at h1
          have := List.tail_eq_of_cons_eq h1
          rw [this]
        · intro w'
          rw [show tokensOf (c :: s') = tokStep c (tokensOf s') from rfl, hT,
            tokStep_merge c hc w rest0]
          simp
      · rw [tokStep_new c hc _ hX]
        have hstep : tokensOf (c :: s') = Tok.word [c] :: tokensOf s' := by
          rw [show tokensOf (c :: s') = tokStep c (tokensOf s') from rfl,
            tokStep_new c hc _ hT]
        constructor
        · rw [wordsOf_cons_word, ih1]
          rw [show wordRuns (c :: s') = wordsOf (tokensOf (c :: s')) from rfl,
            hstep, wordsOf_cons_word, List.cons_append]
          rfl
        · intro w'
          rw [hstep]
          simp
    · have hcf : isWordChar c = false := by
        cases hcc : isWordChar c
        · rfl
        · exact absurd hcc hc
      rw [tokStep_sep c hcf]
      have hstep : tokensOf (c :: s') = Tok.sep c :: tokensOf s' := by
        rw [show tokensOf (c :: s') = tokStep c (tokensOf s') from rfl,
          tokStep_sep c hcf]
      constructor
      · rw [wordsOf_cons_sep, ih1, wordRuns_cons_nonword c hcf]
      · intro w'
        rw [hstep]
        simp

theorem tokensOf_all_nonword (s : List Char)
    (h : ∀ c ∈ s, isWordChar c = false) :
    headNotWord (tokensOf s) ∧ wordsOf (tokensOf s) = [] := by
  induction s with
  | nil => exact ⟨headNotWord_nil, rfl⟩
  | cons c s' ih =>
    obtain ⟨ih1, ih2⟩ := ih (fun x hx => h x (by simp [hx]))
    have hstep : tokensOf (c :: s') = Tok.sep c :: tokensOf s' := by
      rw [show tokensOf (c :: s') = tokStep c (tokensOf s') from rfl,
        tokStep_sep c (h c (by simp))]
    rw [hstep]
    exact ⟨headNotWord_sep c _, by rw [wordsOf_cons_sep, ih2]⟩

theorem wordRuns_append_nonword_right (s a : List Char)
    (ha : ∀ c ∈ a, isWordChar c = false) :
    wordRuns (s ++ a) = wordRuns s := by
  show wordsOf (tokensOf (s ++ a)) = _
  rw [tokensOf_append_foldr,
    (foldr_tokStep_words s (tokensOf a) (tokensOf_all_nonword a ha).1).1,
    (tokensOf_all_nonword a ha).2, List.append_nil]

theorem wordRuns_append_sep (x : List Char) (c : Char)
    (hc : isWordChar c = false) (y : List Char) :
    wordRuns (x ++ c :: y) = wordRuns x ++ wordRuns y := by
  show wordsOf (tokensOf (x ++ c :: y)) = _
  have hstep : tokensOf (c :: y) = Tok.sep c :: tokensOf y := by
    rw [show tokensOf (c :: y) = tokStep c (tokensOf y) from rfl,
      tokStep_sep c hc]
  rw [tokensOf_append_foldr,
    (foldr_tokStep_words x (tokensOf (c :: y))
      (by rw [hstep]; exact headNotWord_sep c _)).1, hstep, wordsOf_cons_sep]
  rfl

theorem wordRuns_collapse (b : Bool) (s : List Char) :
    wordRuns (collapseWsAux b s) = wordRuns s ∧
      (b = false → ∀ w,
        (tokensOf (collapseWsAux b s)).head? = some (Tok.word w) ↔
          (tokensOf s).head? = some (Tok.word w)) := by
  induction s generalizing b with
  | nil =>
    cases b <;> exact ⟨rfl, fun _ w => Iff.rfl⟩
  | cons c s' ih =>
    by_cases hcs : isSpaceChar c = true
    · have hcw : isWordChar c = false := spaceChar_not_word c hcs
      cases b
      · rw [show collapseWsAux false (c :: s') =
          ' ' :: collapseWsAux true s' from by simp [collapseWsAux, hcs]]
        constructor
        · rw [wordRuns_cons_nonword ' ' (by decide),
            wordRuns_cons_nonword c hcw]
          exact (ih true).1
        · intro _ w
          have hL : tokensOf (' ' :: collapseWsAux true s') =
              Tok.sep ' ' :: tokensOf (collapseWsAux true s') := by
            rw [show tokensOf (' ' :: collapseWsAux true s') =
              tokStep ' ' (tokensOf (collapseWsAux true s')) from rfl,
              tokStep_sep ' ' (by decide)]
          have hR : tokensOf (c :: s') = Tok.sep c :: tokensOf s' := by
            rw [show tokensOf (c :: s') = tokStep c (tokensOf s') from rfl,
              tokStep_sep c hcw]
          rw [hL, hR]
          simp
      · rw [show collapseWsAux true (c :: s') = collapseWsAux true s' from by
          simp [collapseWsAux, hcs]]
        exact ⟨by rw [(ih true).1, wordRuns_cons_nonword c hcw],
          fun h => by simp at h⟩
    · have hcees : isSpaceChar c = false := by
        cases hcc : isSpaceChar c
        · rfl
        · exact absurd hcc hcs
      rw [show collapseWsAux b (c :: s') = c :: collapseWsAux false s' from by
        cases b <;> simp [collapseWsAux, hcees]]
      obtain ⟨ihr, ihh⟩ := ih false
      have ihh' := ihh rfl
      by_cases hc : isWordChar c = true
      · have hcase :
            (∃ w rest rest0,
              tokensOf (collapseWsAux false s') = Tok.word w :: rest ∧
              tokensOf s' = Tok.word w :: rest0) ∨
            (headNotWord (tokensOf (collapseWsAux false s')) ∧
              headNotWord (tokensOf s')) := by
          rcases hX : tokensOf (collapseWsAux false s') with _ | ⟨t, rest⟩
          · refine Or.inr ⟨headNotWord_nil, fun w0 h0 => ?_⟩
            have := (ihh' w0).mpr h0
            rw [hX] at this
            simp at this
          · rcases t with w | d
            · left
              have hT0 : (tokensOf s').head? = some (Tok.word w) :=
                (ihh' w).mp (by rw [hX]; rfl)
              rcases hT : tokensOf s' with _ | ⟨t0, rest0⟩
              · rw [hT] at hT0
                simp at hT0
              · rw [hT] at hT0
                have ht0 : t0 = Tok.word w := by simpa using hT0
                subst ht0
                exact ⟨w, rest, rest0, rfl, rfl⟩
            · refine Or.inr ⟨headNotWord_sep d rest,
                fun w0 h0 => ?_⟩
              have := (ihh' w0).mpr h0
              rw [hX] at this
              simp at this
        rcases hcase with ⟨w, rest, rest0, hX, hT⟩ | ⟨hX, hT⟩
        · have hL : tokensOf (c :: collapseWsAux false s') =
              Tok.word (c :: w) :: rest := by
            rw [show tokensOf (c :: collapseWsAux false s') =
              tokStep c (tokensOf (collapseWsAux false s')) from rfl, hX,
              tokStep_merge c hc w rest]
          have hR : tokensOf (c :: s') = Tok.word (c :: w) :: rest0 := by
            rw [show tokensOf (c :: s') = tokStep c (tokensOf s') from rfl, hT,
              tokStep_merge c hc w rest0]
          constructor
          · show wordsOf (tokensOf (c :: collapseWsAux false s')) =
              wordsOf (tokensOf (c :: s'))
            rw [hL, hR, wordsOf_cons_word, wordsOf_cons_word]
            have h1 : w :: wordsOf rest = w :: wordsOf rest0 := by
              rw [← wordsOf_cons_word, ← hX, ← wordsOf_cons_word (w := w), ← hT]
              exact ihr
            rw [List.tail_eq_of_cons_eq h1]
          · intro _ w'
            rw [hL, hR]
            simp
        · have hL : tokensOf (c :: collapseWsAux false s') =
              Tok.word [c] :: tokensOf (collapseWsAux false s') := by
            rw [show tokensOf (c :: collapseWsAux false s') =
              tokStep c (tokensOf (collapseWsAux false s')) from rfl,
              tokStep_new c hc _ hX]
          have hR : tokensOf (c :: s') = Tok.word [c] :: tokensOf s' := by
            rw [show tokensOf (c :: s') = tokStep c (tokensOf s') from rfl,
              tokStep_new c hc _ hT]
          constructor
          · show wordsOf (tokensOf (c :: collapseWsAux false s')) =
              wordsOf (tokensOf (c :: s'))
            rw [hL, hR, wordsOf_cons_word, wordsOf_cons_word]
            exact congrArg (List.cons [c]) ihr
          · intro _ w'
            rw [hL, hR]
            simp
      · have hcf : isWordChar c = false := by
          cases hcc : isWordChar c
          · rfl
          · exact absurd hcc hc
        constructor
        · rw [wordRuns_cons_nonword c hcf, wordRuns_cons_nonword c hcf]
          exact ihr
        · intro _ w'
          have hL : tokensOf (c :: collapseWsAux false s') =
              Tok.sep c :: tokensOf (collapseWsAux false s') := by
            rw [show tokensOf (c :: collapseWsAux false s') =
              tokStep c (tokensOf (collapseWsAux false s')) from rfl,
              tokStep_sep c hcf]
          have hR : tokensOf (c :: s') = Tok.sep c :: tokensOf s' := by
            rw [show tokensOf (c :: s') = tokStep c (tokensOf s') from rfl,
              tokStep_sep c hcf]
          rw [hL, hR]
          simp

theorem wordRuns_dropWhile_ws (s : List Char) :
    wordRuns (s.dropWhile isSpaceChar) = wordRuns s := by
  induction s with
  | nil => rfl
  | cons c s' ih =>
    rw [List.dropWhile_cons]
    by_cases hc : isSpaceChar c = true
    · rw [if_pos hc, ih, wordRuns_cons_nonword c (spaceChar_not_word c hc)]
    · rw [if_neg (by simpa using hc)]

theorem wordRuns_stripEnds (s : List Char) :
    wordRuns (stripEnds s) = wordRuns s := by
  show wordRuns ((s.dropWhile isSpaceChar).reverse.dropWhile
    isSpaceChar).reverse = wordRuns s
  have hdec : s.dropWhile isSpaceChar =
      ((s.dropWhile isSpaceChar).reverse.dropWhile isSpaceChar).reverse ++
        ((s.dropWhile isSpaceChar).reverse.takeWhile isSpaceChar).reverse := by
    have h := List.takeWhile_append_dropWhile isSpaceChar
      (s.dropWhile isSpaceChar).reverse
    have h2 := congrArg List.reverse h
    rw [List.reverse_append, List.reverse_reverse] at h2
    exact h2.symm
  have hws : ∀ c ∈ ((s.dropWhile isSpaceChar).reverse.takeWhile
      isSpaceChar).reverse, isWordChar c = false := by
    intro c hc
    rw [List.mem_reverse] at hc
    exact spaceChar_not_word c (List.mem_takeWhile_imp hc)
  have := wordRuns_append_nonword_right
    ((s.dropWhile isSpaceChar).reverse.dropWhile isSpaceChar).reverse
    ((s.dropWhile isSpaceChar).reverse.takeWhile isSpaceChar).reverse hws
  rw [← hdec] at this
  rw [← this, wordRuns_dropWhile_ws]

theorem wordRuns_normalizeWs (s : List Char) :
    wordRuns (normalizeWs s) = wordRuns s := by
  show wordRuns (stripEnds (collapseWsAux false s)) = wordRuns s
  rw [wordRuns_stripEnds, (wordRuns_collapse false s).1]

/-! ### C1 (amended): the two assemblers agree on the lowered word
sequence.  The counterexample shows the raw word sets can differ (the
`i`-rule needs trailing whitespace, which the Flat join supplies and the
per-fragment cleaning does not, changing `i` to `I`); up to case the word
sequences always agree. -/

theorem lowSub_cons (key rep w : List Char) (ws : List (List Char)) :
    lowSub key rep (w :: ws) =
      (if w = key then (wordsOf (tokensOf rep)).map lowerL else [w]) ++
        lowSub key rep ws := by
  simp [lowSub]

theorem lowSub_append (key rep : List Char) (a b : List (List Char)) :
    lowSub key rep (a ++ b) = lowSub key rep a ++ lowSub key rep b := by
  simp [lowSub]

theorem foldl_lowSub_append (rules : List (List Char × List Char))
    (a b : List (List Char)) :
    rules.foldl (fun t kr => lowSub kr.1 kr.2 t) (a ++ b) =
      rules.foldl (fun t kr => lowSub kr.1 kr.2 t) a ++
        rules.foldl (fun t kr => lowSub kr.1 kr.2 t) b := by
  induction rules generalizing a b with
  | nil => rfl
  | cons kr rest ih =>
    rw [List.foldl_cons, List.foldl_cons, List.foldl_cons, lowSub_append]
    exact ih _ _

theorem foldl_lowSub_nil (rules : List (List Char × List Char)) :
    rules.foldl (fun t kr => lowSub kr.1 kr.2 t) [] = [] := by
  induction rules with
  | nil => rfl
  | cons kr rest ih =>
    rw [List.foldl_cons, show lowSub kr.1 kr.2 [] = [] from rfl]
    exact ih

theorem contractionsLW_append (a b : List (List Char)) :
    contractionsLW (a ++ b) = contractionsLW a ++ contractionsLW b :=
  foldl_lowSub_append contractionTable a b

theorem contractionsLW_flatMap {α : Type} (g : α → List (List Char))
    (l : List α) :
    contractionsLW (l.flatMap g) = l.flatMap (fun x => contractionsLW (g x)) := by
  induction l with
  | nil => exact foldl_lowSub_nil contractionTable
  | cons x rest ih =>
    rw [List.flatMap_cons, List.flatMap_cons, contractionsLW_append, ih]

theorem lowWordsT_wStage (key rep : List Char) (ts : List Tok) :
    (wordsOf (wStage key rep ts)).map lowerL =
      lowSub key rep ((wordsOf ts).map lowerL) := by
  induction ts with
  | nil => rfl
  | cons t rest ih =>
    rcases t with w | c
    · rw [wStage_cons, wordsOf_append, List.map_append, ih, wordsOf_cons_word,
        List.map_cons, lowSub_cons]
      by_cases hk : lowerL w = key
      · rw [if_pos hk, show wMap key rep (Tok.word w) = tokensOf rep from by
          simp [wMap, hk]]
      · rw [if_neg hk, show wMap key rep (Tok.word w) = [Tok.word w] from by
          simp [wMap, hk]]
        rfl
    · rw [wStage_cons, wMap_sep, wordsOf_cons_sep,
        show ([Tok.sep c] ++ wStage key rep rest : List Tok) =
          Tok.sep c :: wStage key rep rest from rfl, wordsOf_cons_sep, ih]

theorem wordsOf_dropWhile_ws (ts : List Tok) :
    wordsOf (ts.dropWhile Tok.isWsSep) = wordsOf ts := by
  induction ts with
  | nil => rfl
  | cons t rest ih =>
    rw [List.dropWhile_cons]
    rcases t with w | c
    · rw [if_neg (by simp [Tok.isWsSep])]
    · by_cases h : Tok.isWsSep (Tok.sep c) = true
      · rw [if_pos h, ih, wordsOf_cons_sep]
      · rw [if_neg (by simpa using h)]

theorem lowWordsT_iToks (ts : List Tok) :
    (wordsOf (iToks ts)).map lowerL = (wordsOf ts).map lowerL := by
  have main : ∀ n ts, List.length ts ≤ n →
      (wordsOf (iToks ts)).map lowerL = (wordsOf ts).map lowerL := by
    intro n
    induction n with
    | zero =>
      intro ts hlen
      have hnil : ts = [] := List.eq_nil_of_length_eq_zero (Nat.le_zero.mp hlen)
      subst hnil
      rw [iToks_nil]
    | succ n ih =>
      intro ts hlen
      rcases ts with _ | ⟨t, rest⟩
      · rw [iToks_nil]
      · have hrest : rest.length ≤ n := by simpa using hlen
        rcases t with w | c
        · by_cases hfire : (decide (lowerL w = ['i']) && headWsSep rest) = true
          · rw [iToks_cons_word_fire w rest hfire, wordsOf_cons_word,
              wordsOf_cons_sep, wordsOf_cons_word, List.map_cons, List.map_cons,
              ih _ (le_trans (List.IsSuffix.length_le
                (List.dropWhile_suffix Tok.isWsSep)) hrest),
              wordsOf_dropWhile_ws]
            have hwi : lowerL w = ['i'] := by
              have h1 := hfire
              simp only [Bool.and_eq_true, decide_eq_true_eq] at h1
              exact h1.1
            rw [show lowerL ['I'] = ['i'] from rfl, hwi]
          · rw [iToks_cons_word_nofire w rest hfire, wordsOf_cons_word,
              wordsOf_cons_word, List.map_cons, List.map_cons, ih rest hrest]
        · rw [iToks_cons_sep, wordsOf_cons_sep, wordsOf_cons_sep]
          exact ih rest hrest
  exact main ts.length ts le_rfl

theorem lowWordsT_foldl (rules : List (List Char × List Char)) (ts : List Tok) :
    (wordsOf (rules.foldl (fun t kr => wStage kr.1 kr.2 t) ts)).map lowerL =
      rules.foldl (fun t kr => lowSub kr.1 kr.2 t) ((wordsOf ts).map lowerL) := by
  induction rules generalizing ts with
  | nil => rfl
  | cons kr rest ih =>
    rw [List.foldl_cons, List.foldl_cons, ih (wStage kr.1 kr.2 ts),
      lowWordsT_wStage]

section

attribute [local irreducible] contractionTable

/-- The lowered word sequence of the Text Normalizer's output is the
contraction table's action on the lowered word sequence of the input. -/
theorem lowWords_cleanList (s : List Char) :
    lowWords (cleanList s) = contractionsLW (lowWords s) := by
  obtain ⟨heq, hv, -, -, -, -, -⟩ := cleanList_eq_flatT s
  rw [show lowWords (cleanList s) =
      (wordRuns (cleanList s)).map lowerL from rfl, heq]
  rw [show wordRuns (flatT (cleanToks (tokensOf (normalizeWs s)))) =
      wordsOf (cleanToks (tokensOf (normalizeWs s))) from by
    show wordsOf (tokensOf (flatT _)) = _
    rw [tokensOf_flatT _ hv]]
  rw [show wordsOf (cleanToks (tokensOf (normalizeWs s))) =
      wordsOf (contractionsT (iToks (tokensOf (normalizeWs s)))) from by
    show wordsOf (P4Toks (P3Toks _)) = _
    rw [wordsOf_P4Toks, wordsOf_P3Toks]]
  rw [contractionsT_foldl, lowWordsT_foldl, lowWordsT_iToks]
  rw [show wordsOf (tokensOf (normalizeWs s)) = wordRuns s from
    wordRuns_normalizeWs s]
  rfl

theorem wordRuns_append_nonword_left (a : List Char)
    (ha : ∀ c ∈ a, isWordChar c = false) (s : List Char) :
    wordRuns (a ++ s) = wordRuns s := by
  induction a with
  | nil => rfl
  | cons c a' ih =>
    rw [List.cons_append, wordRuns_cons_nonword c (ha c (by simp)),
      ih (fun x hx => ha x (by simp [hx]))]

theorem wordRuns_intercalate (sep : List Char) (hsep : sep ≠ [])
    (hs : ∀ c ∈ sep, isWordChar c = false) (ls : List (List Char)) :
    wordRuns (List.intercalate sep ls) = ls.flatMap wordRuns := by
  induction ls with
  | nil => rfl
  | cons x rest ih =>
    rcases rest with _ | ⟨y, rest'⟩
    · rw [show List.intercalate sep [x] = x ++ [] from rfl, List.append_nil]
      simp
    · rcases sep with _ | ⟨c, cs⟩
      · exact absurd rfl hsep
      · rw [show List.intercalate (c :: cs) (x :: y :: rest') =
          x ++ (c :: (cs ++ List.intercalate (c :: cs) (y :: rest'))) from rfl,
          wordRuns_append_sep x c (hs c (by simp)) _,
          wordRuns_append_nonword_left cs (fun d hd => hs d (by simp [hd])), ih]
        simp

theorem flatten_chunks4 {α : Type} (l : List α) : (chunks4 l).flatten = l := by
  induction l using chunks4.induct with
  | case1 => rfl
  | case2 a => simp [chunks4]
  | case3 a b => simp [chunks4]
  | case4 a b c => simp [chunks4]
  | case5 a b c d rest ih => simp [chunks4, ih]

theorem flatMap_chunk_flatMap {α : Type} (f : α → List (List Char))
    (L : List (List α)) :
    L.flatMap (fun c => c.flatMap f) = L.flatten.flatMap f := by
  induction L with
  | nil => rfl
  | cons c L' ih =>
    rw [List.flatMap_cons, List.flatten_cons, List.flatMap_append, ih]

/-- C1 (amended): for every ordered sequence of transcript fragments the
Flat assembler and the Chunked assembler produce outputs whose word
sequences, once whitespace and punctuation are ignored and letter case is
disregarded, are identical; the raw (case-sensitive) word sets can differ,
as the counterexample records, because the `i → I` rule needs trailing
whitespace that only the Flat join supplies. -/
theorem flat_chunked_low_word_seqs_equal (ts : List TranscriptFragment) :
    lowWords (App.format_original_transcript ts).data =
      lowWords (Streamlit.format_original_transcript ts).data := by
  have hflat : lowWords (App.format_original_transcript ts).data =
      ts.flatMap (fun t => contractionsLW (lowWords t.text.data)) := by
    show lowWords (cleanList (List.intercalate [' ']
      (ts.map (fun t => t.text.data)))) = _
    rw [lowWords_cleanList,
      show lowWords (List.intercalate [' '] (ts.map (fun t => t.text.data))) =
        (wordRuns (List.intercalate [' ']
          (ts.map (fun t => t.text.data)))).map lowerL from rfl,
      wordRuns_intercalate [' '] (by simp) (by decide),
      List.map_flatMap, contractionsLW_flatMap, List.flatMap_map]
    rfl
  have hchunk : lowWords (Streamlit.format_original_transcript ts).data =
      ts.flatMap (fun t => contractionsLW (lowWords t.text.data)) := by
    show lowWords (List.intercalate ['\n', '\n']
      ((chunks4 (ts.map (fun t => cleanList t.text.data))).map
        (List.intercalate [' ']))) = _
    rw [show lowWords (List.intercalate ['\n', '\n']
        ((chunks4 (ts.map (fun t => cleanList t.text.data))).map
          (List.intercalate [' ']))) =
      (wordRuns (List.intercalate ['\n', '\n']
        ((chunks4 (ts.map (fun t => cleanList t.text.data))).map
          (List.intercalate [' '])))).map lowerL from rfl,
      wordRuns_intercalate ['\n', '\n'] (by simp) (by decide),
      List.flatMap_map]
    have hinner : ∀ chunk : List (List Char),
        wordRuns (List.intercalate [' '] chunk) = chunk.flatMap wordRuns :=
      wordRuns_intercalate [' '] (by simp) (by decide)
    rw [show ((chunks4 (ts.map (fun t => cleanList t.text.data))).flatMap
        (fun chunk => wordRuns (List.intercalate [' '] chunk))) =
      ((chunks4 (ts.map (fun t => cleanList t.text.data))).flatMap
        (fun chunk => chunk.flatMap wordRuns)) from by
        exact List.flatMap_congr (fun chunk _ => hinner chunk),
      flatMap_chunk_flatMap, flatten_chunks4, List.map_flatMap,
      List.flatMap_map]
    refine List.flatMap_congr (fun f _ => ?_)
    rw [show (wordRuns (cleanList f.text.data)).map lowerL =
      lowWords (cleanList f.text.data) from rfl, lowWords_cleanList]
  rw [hflat, hchunk]

end

/-! ### C10: the contraction table rewrites ordinary English words. -/

theorem wordChar_of_toLower (c : Char) (h : isWordChar c.toLower = true) :
    isWordChar c = true := by
  rcases Bool.eq_false_or_eq_true (isWordChar c) with ht | hf
  · exact ht
  · rw [toLower_nonword c hf] at h
    exact h

theorem tokensOf_all_word (w : List Char) (hne : w ≠ [])
    (hw : ∀ c ∈ w, isWordChar c = true) : tokensOf w = [Tok.word w] := by
  induction w with
  | nil => exact absurd rfl hne
  | cons c w' ih =>
    rcases w' with _ | ⟨d, w''⟩
    · rw [tokensOf_cons, tokensOf_nil,
        tokStep_new c (hw c (by simp)) [] headNotWord_nil]
    · rw [tokensOf_cons, ih (by simp) (fun x hx => hw x (by simp [hx])),
        tokStep_merge c (hw c (by simp)) (d :: w'') []]

theorem mem_wordRuns_left (u w : List Char) (hne : w ≠ [])
    (hw : ∀ c ∈ w, isWordChar c = true)
    (hu : ∀ c, u.getLast? = some c → isWordChar c = false) :
    w ∈ wordRuns (u ++ w) := by
  rcases List.eq_nil_or_concat u with h0 | ⟨u₀, c, hcat⟩
  · subst h0
    rw [List.nil_append]
    show w ∈ wordsOf (tokensOf w)
    rw [tokensOf_all_word w hne hw]
    simp [wordsOf]
  · rw [List.concat_eq_append] at hcat
    subst hcat
    have hc : isWordChar c = false := hu c (by
      rw [List.getLast?_append_of_ne_nil]
      · rfl
      · simp)
    rw [show u₀ ++ [c] ++ w = u₀ ++ c :: w from by simp,
      wordRuns_append_sep u₀ c hc w]
    refine List.mem_append_right _ ?_
    show w ∈ wordsOf (tokensOf w)
    rw [tokensOf_all_word w hne hw]
    simp [wordsOf]

theorem mem_wordRuns_of_standalone (u w v : List Char) (hne : w ≠ [])
    (hw : ∀ c ∈ w, isWordChar c = true) (hst : Standalone u v) :
    w ∈ wordRuns (u ++ w ++ v) := by
  obtain ⟨hu, hv⟩ := hst
  rcases v with _ | ⟨c, v'⟩
  · rw [List.append_nil]
    exact mem_wordRuns_left u w hne hw hu
  · have hc : isWordChar c = false := hv c rfl
    rw [wordRuns_append_sep (u ++ w) c hc v']
    exact List.mem_append_left _ (mem_wordRuns_left u w hne hw hu)

theorem mem_wordsOf_split (w : List Char) (ts : List Tok)
    (h : w ∈ wordsOf ts) : ∃ a b, ts = a ++ Tok.word w :: b := by
  induction ts with
  | nil => simp [wordsOf] at h
  | cons t rest ih =>
    rcases t with x | c
    · rw [wordsOf_cons_word] at h
      rcases List.mem_cons.mp h with he | hm
      · subst he
        exact ⟨[], rest, rfl⟩
      · obtain ⟨a, b, hab⟩ := ih hm
        exact ⟨Tok.word x :: a, b, by rw [hab]; rfl⟩
    · rw [wordsOf_cons_sep] at h
      obtain ⟨a, b, hab⟩ := ih h
      exact ⟨Tok.sep c :: a, b, by rw [hab]; rfl⟩

theorem dropWhile_ws_split (a : List Tok) (w : List Char) (b : List Tok) :
    ∃ a₂, (a ++ Tok.word w :: b).dropWhile Tok.isWsSep = a₂ ++ Tok.word w :: b ∧
      a₂.length ≤ a.length := by
  induction a with
  | nil =>
    refine ⟨[], ?_, by simp⟩
    rw [List.nil_append, List.dropWhile_cons, if_neg (by simp [Tok.isWsSep])]
  | cons t a' ih =>
    by_cases ht : Tok.isWsSep t = true
    · obtain ⟨a₂, h2, hl⟩ := ih
      refine ⟨a₂, ?_, le_trans hl (by simp)⟩
      rw [List.cons_append, List.dropWhile_cons, if_pos ht, h2]
    · refine ⟨t :: a', ?_, le_rfl⟩
      rw [List.cons_append, List.dropWhile_cons, if_neg ht]

theorem iToks_split (w : List Char) (hwi : lowerL w ≠ ['i']) (a b : List Tok) :
    ∃ a' b', iToks (a ++ Tok.word w :: b) = a' ++ Tok.word w :: b' := by
  have main : ∀ n a, List.length a ≤ n → ∀ b : List Tok,
      ∃ a' b', iToks (a ++ Tok.word w :: b) = a' ++ Tok.word w :: b' := by
    intro n
    induction n with
    | zero =>
      intro a ha b
      have h0 : a = [] := List.eq_nil_of_length_eq_zero (Nat.le_zero.mp ha)
      subst h0
      rw [List.nil_append, iToks_cons_word_nofire w b (by simp [hwi])]
      exact ⟨[], iToks b, rfl⟩
    | succ n ih =>
      intro a ha b
      rcases a with _ | ⟨t, a₁⟩
      · rw [List.nil_append, iToks_cons_word_nofire w b (by simp [hwi])]
        exact ⟨[], iToks b, rfl⟩
      · have ha₁ : a₁.length ≤ n := by simpa using ha
        rcases t with x | c
        · by_cases hfire :
              (decide (lowerL x = ['i']) && headWsSep (a₁ ++ Tok.word w :: b)) = true
          · rw [List.cons_append, iToks_cons_word_fire x _ hfire]
            obtain ⟨a₂, h2, hl⟩ := dropWhile_ws_split a₁ w b
            rw [h2]
            obtain ⟨a', b', h3⟩ := ih a₂ (le_trans hl ha₁) b
            rw [h3]
            exact ⟨Tok.word ['I'] :: Tok.sep ' ' :: a', b', rfl⟩
          · rw [List.cons_append, iToks_cons_word_nofire x _ hfire]
            obtain ⟨a', b', h3⟩ := ih a₁ ha₁ b
            rw [h3]
            exact ⟨Tok.word x :: a', b', rfl⟩
        · rw [List.cons_append, iToks_cons_sep]
          obtain ⟨a', b', h3⟩ := ih a₁ ha₁ b
          rw [h3]
          exact ⟨Tok.sep c :: a', b', rfl⟩
  exact main a.length a le_rfl b

theorem flatMap_id_on {α : Type} (f : α → List α) (B : List α)
    (h : ∀ t ∈ B, f t = [t]) : B.flatMap f = B := by
  induction B with
  | nil => rfl
  | cons t B' ih =>
    rw [List.flatMap_cons, h t (by simp), ih (fun x hx => h x (by simp [hx]))]
    rfl

theorem wStage_block (key rep : List Char) (B : List Tok)
    (hB : ∀ x, Tok.word x ∈ B → lowerL x ≠ key) (a b : List Tok) :
    wStage key rep (a ++ (B ++ b)) =
      wStage key rep a ++ (B ++ wStage key rep b) := by
  have hid : B.flatMap (wMap key rep) = B := by
    refine flatMap_id_on _ B ?_
    intro t ht
    rcases t with x | c
    · simp [wMap, hB x ht]
    · rfl
  show (a ++ (B ++ b)).flatMap (wMap key rep) = _
  rw [List.flatMap_append, List.flatMap_append, hid]
  rfl

theorem wStage_fire (key rep : List Char) (w : List Char) (hw : lowerL w = key)
    (a b : List Tok) :
    wStage key rep (a ++ Tok.word w :: b) =
      wStage key rep a ++ (tokensOf rep ++ wStage key rep b) := by
  show (a ++ Tok.word w :: b).flatMap (wMap key rep) = _
  rw [List.flatMap_append, List.flatMap_cons,
    show wMap key rep (Tok.word w) = tokensOf rep from by simp [wMap, hw]]
  rfl

theorem foldl_wStage_block (rules : List (List Char × List Char)) (B : List Tok)
    (hB : ∀ kr ∈ rules, ∀ x, Tok.word x ∈ B → lowerL x ≠ kr.1) :
    ∀ a b, ∃ a' b',
      rules.foldl (fun t kr => wStage kr.1 kr.2 t) (a ++ (B ++ b)) =
        a' ++ (B ++ b') := by
  induction rules with
  | nil => exact fun a b => ⟨a, b, rfl⟩
  | cons kr rest ih =>
    intro a b
    rw [List.foldl_cons, wStage_block kr.1 kr.2 B (hB kr (by simp)) a b]
    exact ih (fun kr' h' x hx => hB kr' (by simp [h']) x hx)
      (wStage kr.1 kr.2 a) (wStage kr.1 kr.2 b)

theorem P3_pass (rest : List Tok) :
    ∀ a, ∃ a', P3Toks (a ++ rest) = a' ++ P3Toks rest := by
  intro a
  induction a with
  | nil => exact ⟨[], rfl⟩
  | cons t a₁ ih =>
    obtain ⟨a', h⟩ := ih
    rcases t with x | c
    · exact ⟨Tok.word x :: a', by rw [List.cons_append, P3Toks_cons_word, h]; rfl⟩
    · rcases Bool.eq_false_or_eq_true (isSpaceChar c &&
        isPunctChar (((flatT (a₁ ++ rest)).dropWhile isSpaceChar).headD 'x')) with
        hc | hc
      · exact ⟨a', by rw [List.cons_append, P3Toks_cons_sep_drop _ _ hc, h]⟩
      · exact ⟨Tok.sep c :: a',
          by rw [List.cons_append, P3Toks_cons_sep_keep _ _ hc, h]; rfl⟩

theorem P3_block (B : List Tok)
    (hB : ∀ c, Tok.sep c ∈ B → isSpaceChar c = false) (b : List Tok) :
    P3Toks (B ++ b) = B ++ P3Toks b := by
  induction B with
  | nil => rfl
  | cons t B' ih =>
    rcases t with x | c
    · rw [List.cons_append, P3Toks_cons_word,
        ih (fun d hd => hB d (by simp [hd]))]
      rfl
    · have hc : isSpaceChar c = false := hB c (by simp)
      rw [List.cons_append, P3Toks_cons_sep_keep _ _ (by rw [hc]; rfl),
        ih (fun d hd => hB d (by simp [hd]))]
      rfl

theorem P4_pass (W : List Char) (rest : List Tok) :
    ∀ a, ∃ a', P4Toks (a ++ Tok.word W :: rest) =
      a' ++ Tok.word W :: P4Toks rest := by
  have main : ∀ n a, List.length a ≤ n →
      ∃ a', P4Toks (a ++ Tok.word W :: rest) =
        a' ++ Tok.word W :: P4Toks rest := by
    intro n
    induction n with
    | zero =>
      intro a ha
      have h0 : a = [] := List.eq_nil_of_length_eq_zero (Nat.le_zero.mp ha)
      subst h0
      rw [List.nil_append, P4Toks_cons_word]
      exact ⟨[], rfl⟩
    | succ n ih =>
      intro a ha
      rcases a with _ | ⟨t, a₁⟩
      · rw [List.nil_append, P4Toks_cons_word]
        exact ⟨[], rfl⟩
      · have ha₁ : a₁.length ≤ n := by simpa using ha
        rcases t with x | c
        · obtain ⟨a', h⟩ := ih a₁ ha₁
          exact ⟨Tok.word x :: a',
            by rw [List.cons_append, P4Toks_cons_word, h]; rfl⟩
        · rcases a₁ with _ | ⟨t₂, a₂⟩
          · rcases Bool.eq_false_or_eq_true (isPunctChar c) with hc | hc
            · rw [show (Tok.sep c :: [] : List Tok) ++ Tok.word W :: rest =
                Tok.sep c :: Tok.word W :: rest from rfl,
                P4Toks_sep_word_pos _ _ _ hc]
              exact ⟨[Tok.sep c, Tok.sep ' '], rfl⟩
            · rw [show (Tok.sep c :: [] : List Tok) ++ Tok.word W :: rest =
                Tok.sep c :: Tok.word W :: rest from rfl,
                P4Toks_sep_word_neg _ _ _ hc, P4Toks_cons_word]
              exact ⟨[Tok.sep c], rfl⟩
          · rcases t₂ with y | d
            · rcases Bool.eq_false_or_eq_true (isPunctChar c) with hc | hc
              · obtain ⟨a', h⟩ := ih a₂ (by
                  have h1 : a₂.length + 1 ≤ n := by simpa using ha₁
                  omega)
                rw [show (Tok.sep c :: Tok.word y :: a₂) ++ Tok.word W :: rest =
                  Tok.sep c :: Tok.word y :: (a₂ ++ Tok.word W :: rest) from rfl,
                  P4Toks_sep_word_pos _ _ _ hc, h]
                exact ⟨Tok.sep c :: Tok.sep ' ' :: Tok.word y :: a', rfl⟩
              · obtain ⟨a', h⟩ := ih (Tok.word y :: a₂) (by simpa using ha)
                rw [show (Tok.sep c :: Tok.word y :: a₂) ++ Tok.word W :: rest =
                  Tok.sep c :: ((Tok.word y :: a₂) ++ Tok.word W :: rest) from rfl,
                  show (Tok.word y :: a₂) ++ Tok.word W :: rest =
                  Tok.word y :: (a₂ ++ Tok.word W :: rest) from rfl,
                  P4Toks_sep_word_neg _ _ _ hc,
                  show Tok.word y :: (a₂ ++ Tok.word W :: rest) =
                  (Tok.word y :: a₂) ++ Tok.word W :: rest from rfl, h]
                exact ⟨Tok.sep c :: a', rfl⟩
            · obtain ⟨a', h⟩ := ih (Tok.sep d :: a₂) (by simpa using ha)
              rw [show (Tok.sep c :: Tok.sep d :: a₂) ++ Tok.word W :: rest =
                Tok.sep c :: Tok.sep d :: (a₂ ++ Tok.word W :: rest) from rfl,
                P4Toks_sep_sep,
                show Tok.sep d :: (a₂ ++ Tok.word W :: rest) =
                (Tok.sep d :: a₂) ++ Tok.word W :: rest from rfl, h]
              exact ⟨Tok.sep c :: a', rfl⟩
  exact fun a => main a.length a le_rfl

theorem flatT_last_nonword (a : List Tok) (hok : ∀ t ∈ a, t.ok)
    (hnw : ∀ w, a.getLast? ≠ some (Tok.word w)) :
    ∀ c, (flatT a).getLast? = some c → isWordChar c = false := by
  intro c hc
  rcases List.eq_nil_or_concat a with h0 | ⟨a₀, t, hcat⟩
  · subst h0
    simp [flatT] at hc
  · rw [List.concat_eq_append] at hcat
    subst hcat
    rcases t with ww | d
    · exact absurd (by
        rw [List.getLast?_append_of_ne_nil]
        · rfl
        · simp) (hnw ww)
    · have hd : (flatT (a₀ ++ [Tok.sep d])).getLast? = some d := by
        rw [flatT_append, show flatT [Tok.sep d] = [d] from rfl,
          List.getLast?_append_of_ne_nil]
        · rfl
        · simp
      rw [hd] at hc
      have : c = d := (Option.some_inj.mp hc).symm
      subst this
      exact hok (Tok.sep c) (by simp)

theorem flatT_head_nonword (b : List Tok) (hok : ∀ t ∈ b, t.ok)
    (hnw : ∀ w, b.head? ≠ some (Tok.word w)) :
    ∀ c, (flatT b).head? = some c → isWordChar c = false := by
  intro c hc
  rcases b with _ | ⟨t, b₁⟩
  · simp [flatT] at hc
  · rcases t with ww | d
    · exact absurd rfl (hnw ww)
    · have hd : (flatT (Tok.sep d :: b₁)).head? = some d := by
        rw [flatT_cons]
        rfl
      rw [hd] at hc
      have : c = d := (Option.some_inj.mp hc).symm
      subst this
      exact hok (Tok.sep c) (by simp)

section

attribute [local irreducible] contractionTable

/-- Core of C10: a word standing alone in the input whose lowering equals
the key of a contraction-table rule is replaced by the rule's
apostrophized replacement, which again stands alone in the output. -/
theorem cleanList_rewrites_key
    (pre post : List (List Char × List Char)) (key rep w₁ w₂ : List Char)
    (q : Char)
    (htab : contractionTable = pre ++ (key, rep) :: post)
    (hpre : ∀ kr ∈ pre, kr.1 ≠ key)
    (hshape : tokensOf rep = [Tok.word w₁, Tok.sep q, Tok.word w₂])
    (hpost : ∀ kr ∈ post, lowerL w₁ ≠ kr.1 ∧ lowerL w₂ ≠ kr.1)
    (hqs : isSpaceChar q = false) (hqp : isPunctChar q = false)
    (hki : key ≠ ['i']) (hkne : key ≠ [])
    (hkw : ∀ c ∈ key, isWordChar c = true)
    (u w v : List Char) (hw : lowerL w = key) (hst : Standalone u v) :
    ∃ u' v', cleanList (u ++ w ++ v) = u' ++ rep ++ v' ∧ Standalone u' v' := by
  have hwne : w ≠ [] := by
    intro h0
    rw [h0] at hw
    exact hkne hw.symm
  have hww : ∀ c ∈ w, isWordChar c = true := by
    intro c hc
    refine wordChar_of_toLower c (hkw c.toLower ?_)
    rw [← hw]
    exact List.mem_map_of_mem Char.toLower hc
  have hwi : lowerL w ≠ ['i'] := by
    rw [hw]
    exact hki
  set s₀ := u ++ w ++ v with hs₀
  have h1 : w ∈ wordRuns s₀ := mem_wordRuns_of_standalone u w v hwne hww hst
  have h2 : w ∈ wordsOf (tokensOf (normalizeWs s₀)) := by
    show w ∈ wordRuns (normalizeWs s₀)
    rw [wordRuns_normalizeWs]
    exact h1
  obtain ⟨a, b, hab⟩ := mem_wordsOf_split w _ h2
  obtain ⟨a₁, b₁, h3⟩ := iToks_split w hwi a b
  obtain ⟨a₂, b₂, h5⟩ := foldl_wStage_block pre [Tok.word w]
    (by
      intro kr hkr x hx
      have hxw : x = w := by simpa using hx
      subst hxw
      rw [hw]
      exact (hpre kr hkr).symm) a₁ b₁
  obtain ⟨a₃, b₃, h6⟩ := foldl_wStage_block post
    [Tok.word w₁, Tok.sep q, Tok.word w₂]
    (by
      intro kr hkr x hx
      have hxor : x = w₁ ∨ x = w₂ := by simpa using hx
      rcases hxor with h | h <;> subst h
      · exact (hpost kr hkr).1
      · exact (hpost kr hkr).2)
    (wStage key rep a₂) (wStage key rep b₂)
  have hstep2 : contractionsT (iToks (tokensOf (normalizeWs s₀))) =
      a₃ ++ ([Tok.word w₁, Tok.sep q, Tok.word w₂] ++ b₃) := by
    rw [contractionsT_foldl, htab, hab, h3, List.foldl_append, List.foldl_cons,
      show a₁ ++ Tok.word w :: b₁ = a₁ ++ ([Tok.word w] ++ b₁) from rfl, h5,
      show a₂ ++ ([Tok.word w] ++ b₂) = a₂ ++ Tok.word w :: b₂ from rfl,
      wStage_fire key rep w hw a₂ b₂, hshape, h6]
  obtain ⟨a₄, h7⟩ := P3_pass ([Tok.word w₁, Tok.sep q, Tok.word w₂] ++ b₃) a₃
  have h8 : P3Toks ([Tok.word w₁, Tok.sep q, Tok.word w₂] ++ b₃) =
      [Tok.word w₁, Tok.sep q, Tok.word w₂] ++ P3Toks b₃ :=
    P3_block _ (by
      intro d hd
      have hdq : d = q := by simpa using hd
      subst hdq
      exact hqs) b₃
  obtain ⟨a₅, h9⟩ := P4_pass w₁ (Tok.sep q :: Tok.word w₂ :: P3Toks b₃) a₄
  have h10 : P4Toks (Tok.sep q :: Tok.word w₂ :: P3Toks b₃) =
      Tok.sep q :: Tok.word w₂ :: P4Toks (P3Toks b₃) := by
    rw [P4Toks_sep_word_neg _ _ _ hqp, P4Toks_cons_word]
  have hfinal : cleanToks (tokensOf (normalizeWs s₀)) =
      a₅ ++ (Tok.word w₁ :: Tok.sep q :: Tok.word w₂ ::
        P4Toks (P3Toks b₃)) := by
    show P4Toks (P3Toks (contractionsT (iToks (tokensOf (normalizeWs s₀))))) = _
    rw [hstep2, h7, h8,
      show ([Tok.word w₁, Tok.sep q, Tok.word w₂] ++ P3Toks b₃ : List Tok) =
        Tok.word w₁ :: Tok.sep q :: Tok.word w₂ :: P3Toks b₃ from rfl,
      show (a₄ ++ Tok.word w₁ :: Tok.sep q :: Tok.word w₂ :: P3Toks b₃ :
        List Tok) =
        a₄ ++ Tok.word w₁ :: (Tok.sep q :: Tok.word w₂ :: P3Toks b₃) from rfl,
      h9, h10]
  have hclean := (cleanList_eq_flatT s₀).1
  have hval := (cleanList_eq_flatT s₀).2.1
  rw [hfinal] at hclean hval
  have hrep : rep = w₁ ++ (q :: w₂) := by
    have h0 : rep = flatT (tokensOf rep) := (flatT_tokensOf rep).symm
    rw [hshape] at h0
    simpa [flatT, Tok.flat] using h0
  have hokA : ∀ t ∈ a₅, t.ok := by
    intro t ht
    exact hval.1 t (List.mem_append_left _ ht)
  have hokB : ∀ t ∈ P4Toks (P3Toks b₃), t.ok := by
    intro t ht
    refine hval.1 t (List.mem_append_right _ ?_)
    simp [ht]
  have hchain := hval.2
  rw [List.chain'_append] at hchain
  have hlastA : ∀ ww, a₅.getLast? ≠ some (Tok.word ww) := by
    intro ww hcon
    have := hchain.2.2 (Tok.word ww) hcon (Tok.word w₁) rfl
    simp [Tok.isWordTok] at this
  have hheadB : ∀ ww, (P4Toks (P3Toks b₃)).head? ≠ some (Tok.word ww) := by
    intro ww hcon
    have hc2 := hchain.2.1
    rw [List.chain'_cons'] at hc2
    have hc3 := hc2.2
    rw [List.chain'_cons'] at hc3
    have hc4 := hc3.2
    rw [List.chain'_cons'] at hc4
    have := hc4.1 (Tok.word ww) hcon
    simp [Tok.isWordTok] at this
  refine ⟨flatT a₅, flatT (P4Toks (P3Toks b₃)), ?_, ?_, ?_⟩
  · rw [hclean, flatT_append, flatT_cons, flatT_cons, flatT_cons, hrep]
    show flatT a₅ ++ (w₁ ++ ([q] ++ (w₂ ++ flatT (P4Toks (P3Toks b₃))))) = _
    simp
  · exact flatT_last_nonword a₅ hokA hlastA
  · exact flatT_head_nonword _ hokB hheadB

end

/-- Table facts for the rule `were → we're`, established by evaluation. -/
theorem were_facts :
    contractionTable = contractionTable.take 11 ++
      ("were".data, "we're".data) :: contractionTable.drop 12 ∧
    (∀ kr ∈ contractionTable.take 11, kr.1 ≠ "were".data) ∧
    (∀ kr ∈ contractionTable.drop 12,
      lowerL "we".data ≠ kr.1 ∧ lowerL "re".data ≠ kr.1) :=
  ⟨by decide, by decide, by decide⟩

/-- Table facts for the rule `its → it's`, established by evaluation. -/
theorem its_facts :
    contractionTable = contractionTable.take 7 ++
      ("its".data, "it's".data) :: contractionTable.drop 8 ∧
    (∀ kr ∈ contractionTable.take 7, kr.1 ≠ "its".data) ∧
    (∀ kr ∈ contractionTable.drop 8,
      lowerL "it".data ≠ kr.1 ∧ lowerL "s".data ≠ kr.1) :=
  ⟨by decide, by decide, by decide⟩

/-- Table facts for the rule `id → I'd`, established by evaluation. -/
theorem id_facts :
    contractionTable = contractionTable.take 1 ++
      ("id".data, "I'd".data) :: contractionTable.drop 2 ∧
    (∀ kr ∈ contractionTable.take 1, kr.1 ≠ "id".data) ∧
    (∀ kr ∈ contractionTable.drop 2,
      lowerL "I".data ≠ kr.1 ∧ lowerL "d".data ≠ kr.1) :=
  ⟨by decide, by decide, by decide⟩

/-- Table facts for the rule `wont → won't`, established by evaluation. -/
theorem wont_facts :
    contractionTable = contractionTable.take 13 ++
      ("wont".data, "won't".data) :: contractionTable.drop 14 ∧
    (∀ kr ∈ contractionTable.take 13, kr.1 ≠ "wont".data) ∧
    (∀ kr ∈ contractionTable.drop 14,
      lowerL "won".data ≠ kr.1 ∧ lowerL "t".data ≠ kr.1) :=
  ⟨by decide, by decide, by decide⟩

/-- The end-to-end example of C10, established by evaluation. -/
theorem they_were_here_example :
    clean_transcript_basic "they were here" = "they we're here" := by
  decide

section

attribute [local irreducible] contractionTable

/-- C10: the Normalizer's contraction table rewrites ordinary English
words unconditionally — for every input containing, as a standalone word
in any letter case, one of the table keys `were`, `its`, `id` or `wont`
(all legitimate words), the output replaces it with the apostrophized
contraction `we're`, `it's`, `I'd` or `won't`, again standalone; in
particular normalizing `"they were here"` yields `"they we're here"`. -/
theorem contraction_table_rewrites_ordinary_words :
    (∀ kr ∈ ordinaryKeyRules, ∀ (s : String) (u w v : List Char),
      s.data = u ++ w ++ v → lowerL w = kr.1 → Standalone u v →
      ∃ u' v', (clean_transcript_basic s).data = u' ++ kr.2 ++ v' ∧
        Standalone u' v') ∧
    clean_transcript_basic "they were here" = "they we're here" := by
  constructor
  · intro kr hkr s u w v hsplit hw hst
    rw [show (clean_transcript_basic s).data = cleanList s.data from rfl,
      hsplit]
    have hkr4 : kr = ("were".data, "we're".data) ∨
        kr = ("its".data, "it's".data) ∨ kr = ("id".data, "I'd".data) ∨
        kr = ("wont".data, "won't".data) := by
      simpa [ordinaryKeyRules] using hkr
    rcases hkr4 with h | h | h | h <;> subst h
    · exact cleanList_rewrites_key (contractionTable.take 11)
        (contractionTable.drop 12) "were".data "we're".data
        "we".data "re".data '\'' were_facts.1 were_facts.2.1 (by decide)
        were_facts.2.2 (by decide) (by decide) (by decide) (by decide)
        (by decide) u w v hw hst
    · exact cleanList_rewrites_key (contractionTable.take 7)
        (contractionTable.drop 8) "its".data "it's".data
        "it".data "s".data '\'' its_facts.1 its_facts.2.1 (by decide)
        its_facts.2.2 (by decide) (by decide) (by decide) (by decide)
        (by decide) u w v hw hst
    · exact cleanList_rewrites_key (contractionTable.take 1)
        (contractionTable.drop 2) "id".data "I'd".data
        "I".data "d".data '\'' id_facts.1 id_facts.2.1 (by decide)
        id_facts.2.2 (by decide) (by decide) (by decide) (by decide)
        (by decide) u w v hw hst
    · exact cleanList_rewrites_key (contractionTable.take 13)
        (contractionTable.drop 14) "wont".data "won't".data
        "won".data "t".data '\'' wont_facts.1 wont_facts.2.1 (by decide)
        wont_facts.2.2 (by decide) (by decide) (by decide) (by decide)
        (by decide) u w v hw hst
  · exact they_were_here_example

end

/-! ### C8: scanner equivalences for the Markup Reconstructor. -/

theorem subTransAux_genScan : ∀ (skip : Nat) (s : List Char),
    subTransAux skip s = genScan fTrans skip s := by
  intro skip s
  induction s generalizing skip with
  | nil => cases skip <;> rfl
  | cons c cs ih =>
    cases skip with
    | succ k =>
      show subTransAux k cs = genScan fTrans k cs
      exact ih k
    | zero =>
      rcases h : dropLit transLit ((c :: cs).dropWhile isSpaceChar) with
        _ | afterLit
      · simp only [subTransAux, genScan, fTrans, h]
        exact congrArg (c :: ·) (ih 0)
      · simp only [subTransAux, genScan, fTrans, h, List.singleton_append,
          List.cons.injEq, true_and]
        exact ih _

theorem subNumAux_genScan : ∀ (skip : Nat) (s : List Char),
    subNumAux skip s = genScan fNum skip s := by
  intro skip s
  induction s generalizing skip with
  | nil => cases skip <;> rfl
  | cons c cs ih =>
    cases skip with
    | succ k =>
      show subNumAux k cs = genScan fNum k cs
      exact ih k
    | zero =>
      rcases hc : (c == ' ') with _ | _
      · simp only [subNumAux, genScan, fNum, hc, Bool.false_eq_true,
          if_false]
        exact congrArg (c :: ·) (ih 0)
      · rcases hdw : cs.dropWhile isDigitChar with _ | ⟨a, rest⟩
        · simp only [subNumAux, genScan, fNum, hc, if_true, hdw]
          exact congrArg (c :: ·) (ih 0)
        · rcases rest with _ | ⟨b, rest'⟩
          · simp only [subNumAux, genScan, fNum, hc, if_true, hdw]
            exact congrArg (c :: ·) (ih 0)
          · rcases hcond : (!(cs.takeWhile isDigitChar).isEmpty && a == '.' &&
                b == ' ') with _ | _
            · simp only [subNumAux, genScan, fNum, hc, if_true, hdw, hcond,
                Bool.false_eq_true, if_false]
              exact congrArg (c :: ·) (ih 0)
            · simp only [subNumAux, genScan, fNum, hc, if_true, hdw, hcond,
                if_true]
              rw [ih]
              simp

theorem subStarAux_genScan : ∀ (skip : Nat) (s : List Char),
    subStarAux skip s = genScan fStar skip s := by
  intro skip s
  induction s generalizing skip with
  | nil => cases skip <;> rfl
  | cons c cs ih =>
    cases skip with
    | succ k =>
      show subStarAux k cs = genScan fStar k cs
      exact ih k
    | zero =>
      rcases cs with _ | ⟨a, rest⟩
      · simp only [subStarAux, genScan, fStar]
      · rcases rest with _ | ⟨b, rest'⟩
        · simp only [subStarAux, genScan, fStar]
        · rcases hcond : (c == ' ' && a == '*' && b == ' ') with _ | _
          · simp only [subStarAux, genScan, fStar, hcond, Bool.false_eq_true,
              if_false]
            exact congrArg (c :: ·) (ih 0)
          · have hrec : subStarAux 0 rest' = genScan fStar 0 rest' := ih 2
            simp only [subStarAux, genScan, fStar, hcond, if_true]
            rw [hrec]
            simp

theorem subJamAux_genScan : ∀ (skip : Nat) (s : List Char),
    subJamAux skip s = genScan fJam skip s := by
  intro skip s
  induction s generalizing skip with
  | nil => cases skip <;> rfl
  | cons c cs ih =>
    cases skip with
    | succ k =>
      show subJamAux k cs = genScan fJam k cs
      exact ih k
    | zero =>
      rcases hsc : isSpaceChar c with _ | _
      · rcases cs with _ | ⟨sp, rest⟩
        · simp only [subJamAux, genScan, fJam, hsc]
          rfl
        · rcases hsp : (sp == ' ') with _ | _
          · simp only [subJamAux, genScan, fJam, hsc, Bool.not_false, if_true,
              hsp, Bool.false_eq_true, if_false]
            exact congrArg (c :: ·) (ih 0)
          · rcases hcond : (!(rest.takeWhile isDigitChar).isEmpty &&
                ((rest.dropWhile isDigitChar).headD 'x' == '.')) with _ | _
            · simp only [subJamAux, genScan, fJam, hsc, Bool.not_false,
                if_true, hsp, hcond, Bool.false_eq_true, if_false]
              exact congrArg (c :: ·) (ih 0)
            · have hrec : subJamAux ((rest.takeWhile isDigitChar).length + 1)
                  rest =
                  genScan fJam ((rest.takeWhile isDigitChar).length + 1) rest :=
                ih ((rest.takeWhile isDigitChar).length + 2)
              simp only [subJamAux, genScan, fJam, hsc, Bool.not_false,
                if_true, hsp, hcond]
              rw [hrec]
              simp
      · have hf : fJam (c :: cs) = none := by
          rcases cs with _ | ⟨sp, rest⟩
          · rfl
          · simp [fJam, hsc]
        rw [show genScan fJam 0 (c :: cs) = c :: genScan fJam 0 cs from by
          simp only [genScan, hf]]
        rw [show subJamAux 0 (c :: cs) = c :: subJamAux 0 cs from by
          simp [subJamAux, hsc]]
        exact congrArg (c :: ·) (ih 0)

theorem subNlAux_genScan : ∀ (skip : Nat) (s : List Char),
    subNlAux skip s = genScan fNl skip s := by
  intro skip s
  induction s generalizing skip with
  | nil => cases skip <;> rfl
  | cons c cs ih =>
    cases skip with
    | succ k =>
      show subNlAux k cs = genScan fNl k cs
      exact ih k
    | zero =>
      rcases cs with _ | ⟨d, rest⟩
      · simp only [subNlAux, genScan, fNl]
      · rcases hcond : (c == '\n' && d == '\n') with _ | _
        · simp only [subNlAux, genScan, fNl, hcond, Bool.false_eq_true,
            if_false]
          exact congrArg (c :: ·) (ih 0)
        · simp only [subNlAux, genScan, fNl, hcond, if_true]
          rw [ih]
          simp

/-! ### Generic scanner lemmas. -/

theorem genScan_skip_append (f : List Char → Option (List Char × Nat))
    (x y : List Char) : genScan f x.length (x ++ y) = genScan f 0 y := by
  induction x with
  | nil => rfl
  | cons c x' ih =>
    show genScan f x'.length (x' ++ y) = _
    exact ih

theorem genScan_pass (f : List Char → Option (List Char × Nat))
    (A tail : List Char)
    (h : ∀ w, w ≠ [] → w.IsSuffix A → f (w ++ tail) = none) :
    genScan f 0 (A ++ tail) = A ++ genScan f 0 tail := by
  induction A with
  | nil => rfl
  | cons c A' ih =>
    have h0 : f (c :: (A' ++ tail)) = none := by
      have := h (c :: A') (by simp) List.suffix_rfl
      rwa [List.cons_append] at this
    rw [List.cons_append, show genScan f 0 (c :: (A' ++ tail)) =
      c :: genScan f 0 (A' ++ tail) from by simp only [genScan, h0],
      ih (fun w hne hsuf => h w hne (hsuf.trans (List.suffix_cons c A')))]
    rfl

theorem getLast?_cons_ne_nil (c : Char) (l : List Char) (h : l ≠ []) :
    (c :: l).getLast? = l.getLast? := by
  rw [show c :: l = [c] ++ l from rfl, List.getLast?_append_of_ne_nil _ h]

/-- If every fired match only consumes characters of the class `P` after
its first one, and the guarded tail starts outside `P`, then the scanner
factors through the boundary. -/
theorem genScan_through (f : List Char → Option (List Char × Nat))
    (P : Char → Bool)
    (hreg : ∀ s e adv, f s = some (e, adv) →
      ∀ c ∈ (s.drop 1).take adv, P c = true)
    (tail : List Char) (htail : ∀ c, tail.head? = some c → P c = false) :
    ∀ u, ∃ u', genScan f 0 (u ++ tail) = u' ++ genScan f 0 tail := by
  rcases tail with _ | ⟨t0, tail'⟩
  · intro u
    exact ⟨genScan f 0 (u ++ []), by simp [genScan]⟩
  · have ht0 : P t0 = false := htail t0 rfl
    have main : ∀ n u, List.length u ≤ n →
        ∃ u', genScan f 0 (u ++ t0 :: tail') =
          u' ++ genScan f 0 (t0 :: tail') := by
      intro n
      induction n with
      | zero =>
        intro u hu
        have h0 : u = [] := List.eq_nil_of_length_eq_zero (Nat.le_zero.mp hu)
        subst h0
        exact ⟨[], rfl⟩
      | succ n ih =>
        intro u hu
        rcases u with _ | ⟨c, u₁⟩
        · exact ⟨[], rfl⟩
        · have hu₁ : u₁.length ≤ n := by simpa using hu
          rcases hf : f (c :: (u₁ ++ t0 :: tail')) with _ | ⟨e, adv⟩
          · obtain ⟨u', h⟩ := ih u₁ hu₁
            refine ⟨c :: u', ?_⟩
            rw [List.cons_append, show genScan f 0 (c :: (u₁ ++ t0 :: tail')) =
              c :: genScan f 0 (u₁ ++ t0 :: tail') from by
                simp only [genScan, hf], h]
            rfl
          · have hadv : adv ≤ u₁.length := by
              by_contra hgt
              push_neg at hgt
              have hmem : t0 ∈ ((c :: (u₁ ++ t0 :: tail')).drop 1).take adv := by
                show t0 ∈ (u₁ ++ t0 :: tail').take adv
                rw [List.take_append_eq_append_take]
                refine List.mem_append_right _ ?_
                rcases hk : adv - u₁.length with _ | k
                · omega
                · simp
              have hP := hreg _ _ _ hf t0 hmem
              rw [ht0] at hP
              simp at hP
            obtain ⟨u'', h2⟩ := ih (u₁.drop adv) (by
              rw [List.length_drop]
              omega)
            refine ⟨e ++ u'', ?_⟩
            rw [List.cons_append, show genScan f 0 (c :: (u₁ ++ t0 :: tail')) =
              e ++ genScan f adv (u₁ ++ t0 :: tail') from by
                simp only [genScan, hf]]
            have h3 : genScan f adv (u₁ ++ t0 :: tail') =
                genScan f 0 (u₁.drop adv ++ t0 :: tail') := by
              have h4 := genScan_skip_append f (u₁.take adv)
                (u₁.drop adv ++ t0 :: tail')
              rw [show (u₁.take adv).length = adv from by
                rw [List.length_take]; omega, ← List.append_assoc,
                List.take_append_drop] at h4
              exact h4
            rw [h3, h2, List.append_assoc]
    exact fun u => main u.length u le_rfl

/-- A scanner whose fires triggered at a newline emit a newline first
preserves a leading newline (or emptiness) of its input. -/
theorem genScan_headNl (f : List Char → Option (List Char × Nat))
    (hfire : ∀ v₁ e adv, f ('\n' :: v₁) = some (e, adv) →
      e.head? = some '\n') :
    ∀ v, HeadNl v → HeadNl (genScan f 0 v) := by
  intro v hv
  rcases hv with h0 | hh
  · subst h0
    exact Or.inl rfl
  · rcases v with _ | ⟨c, v₁⟩
    · simp at hh
    · have hc : c = '\n' := by simpa using hh
      subst hc
      rcases hf : f ('\n' :: v₁) with _ | ⟨e, adv⟩
      · refine Or.inr ?_
        rw [show genScan f 0 ('\n' :: v₁) = '\n' :: genScan f 0 v₁ from by
          simp only [genScan, hf]]
        rfl
      · have he := hfire v₁ e adv hf
        refine Or.inr ?_
        rw [show genScan f 0 ('\n' :: v₁) = e ++ genScan f adv v₁ from by
          simp only [genScan, hf]]
        rcases e with _ | ⟨e0, e'⟩
        · simp at he
        · have he0 : e0 = '\n' := by simpa using he
          subst he0
          rfl

/-- Variant of `genScan_through` for a scanner whose every emission is a
single newline: a trailing newline before the boundary survives. -/
theorem genScan_through_nl (f : List Char → Option (List Char × Nat))
    (P : Char → Bool)
    (hreg : ∀ s e adv, f s = some (e, adv) →
      ∀ c ∈ (s.drop 1).take adv, P c = true)
    (hemit : ∀ s e adv, f s = some (e, adv) → e = ['\n'])
    (t0 : Char) (tail' : List Char) (ht0 : P t0 = false) :
    ∀ u, EndsNl u → ∃ u',
      genScan f 0 (u ++ t0 :: tail') = u' ++ genScan f 0 (t0 :: tail') ∧
      (u' = [] ↔ u = []) ∧ (u ≠ [] → u'.getLast? = some '\n') := by
  have main : ∀ n u, List.length u ≤ n → EndsNl u → ∃ u',
      genScan f 0 (u ++ t0 :: tail') = u' ++ genScan f 0 (t0 :: tail') ∧
      (u' = [] ↔ u = []) ∧ (u ≠ [] → u'.getLast? = some '\n') := by
    intro n
    induction n with
    | zero =>
      intro u hu _
      have h0 : u = [] := List.eq_nil_of_length_eq_zero (Nat.le_zero.mp hu)
      subst h0
      exact ⟨[], rfl, by simp, fun h => absurd rfl h⟩
    | succ n ih =>
      intro u hu hEnd
      rcases u with _ | ⟨c, u₁⟩
      · exact ⟨[], rfl, by simp, fun h => absurd rfl h⟩
      · have hu₁ : u₁.length ≤ n := by simpa using hu
        have hlastu : (c :: u₁).getLast? = some '\n' :=
          hEnd.resolve_left (by simp)
        rcases hf : f (c :: (u₁ ++ t0 :: tail')) with _ | ⟨e, adv⟩
        · have hE1 : EndsNl u₁ := by
            rcases u₁ with _ | ⟨d, u₂⟩
            · exact Or.inl rfl
            · refine Or.inr ?_
              rwa [getLast?_cons_ne_nil c _ (by simp)] at hlastu
          obtain ⟨u', h, hiff, hlast⟩ := ih u₁ hu₁ hE1
          refine ⟨c :: u', ?_, by simp, ?_⟩
          · rw [List.cons_append, show genScan f 0 (c :: (u₁ ++ t0 :: tail')) =
              c :: genScan f 0 (u₁ ++ t0 :: tail') from by
                simp only [genScan, hf], h]
            rfl
          · intro _
            rcases u₁ with _ | ⟨d, u₂⟩
            · have hu' : u' = [] := hiff.mpr rfl
              subst hu'
              simpa using hlastu
            · have hne' : u' ≠ [] := fun h0 => List.cons_ne_nil _ _ (hiff.mp h0)
              rw [getLast?_cons_ne_nil c u' hne']
              exact hlast (by simp)
        · have hemit' := hemit _ _ _ hf
          subst hemit'
          have hadv : adv ≤ u₁.length := by
            by_contra hgt
            push_neg at hgt
            have hmem : t0 ∈ ((c :: (u₁ ++ t0 :: tail')).drop 1).take adv := by
              show t0 ∈ (u₁ ++ t0 :: tail').take adv
              rw [List.take_append_eq_append_take]
              refine List.mem_append_right _ ?_
              rcases hk : adv - u₁.length with _ | k
              · omega
              · simp
            have hP := hreg _ _ _ hf t0 hmem
            rw [ht0] at hP
            simp at hP
          have hE2 : EndsNl (u₁.drop adv) := by
            rcases hdp : u₁.drop adv with _ | ⟨d, u₂⟩
            · exact Or.inl rfl
            · refine Or.inr ?_
              have hne1 : u₁ ≠ [] := by
                intro h0
                rw [h0] at hdp
                simp at hdp
              have h5 : u₁.getLast? = (u₁.drop adv).getLast? := by
                conv_lhs => rw [← List.take_append_drop adv u₁]
                rw [List.getLast?_append_of_ne_nil _ (by rw [hdp]; simp)]
              rw [← hdp, ← h5]
              rwa [getLast?_cons_ne_nil c _ hne1] at hlastu
          obtain ⟨u'', h2, hiff2, hlast2⟩ := ih (u₁.drop adv) (by
            rw [List.length_drop]; omega) hE2
          refine ⟨'\n' :: u'', ?_, by simp, ?_⟩
          · rw [List.cons_append, show genScan f 0 (c :: (u₁ ++ t0 :: tail')) =
              ['\n'] ++ genScan f adv (u₁ ++ t0 :: tail') from by
                simp only [genScan, hf]]
            have h3 : genScan f adv (u₁ ++ t0 :: tail') =
                genScan f 0 (u₁.drop adv ++ t0 :: tail') := by
              have h4 := genScan_skip_append f (u₁.take adv)
                (u₁.drop adv ++ t0 :: tail')
              rw [show (u₁.take adv).length = adv from by
                rw [List.length_take]; omega, ← List.append_assoc,
                List.take_append_drop] at h4
              exact h4
            rw [h3, h2]
            rfl
          · intro _
            rcases hu'' : u'' with _ | ⟨d, u₃⟩
            · rfl
            · rw [← hu'', getLast?_cons_ne_nil '\n' u'' (by rw [hu'']; simp)]
              refine hlast2 ?_
              intro h0
              have h6 := hiff2.mpr h0
              rw [hu''] at h6
              simp at h6
  exact fun u => main u.length u le_rfl

theorem dropLit_some : ∀ (p x y : List Char), dropLit p x = some y →
    x = p ++ y := by
  intro p
  induction p with
  | nil =>
    intro x y h
    have h1 : x = y := by simpa [dropLit] using h
    rw [h1]
    rfl
  | cons pc p' ih =>
    intro x y h
    rcases x with _ | ⟨c, cs⟩
    · simp [dropLit] at h
    · rcases hc : (c == pc) with _ | _
      · rw [show dropLit (pc :: p') (c :: cs) =
          if c == pc then dropLit p' cs else none from rfl, hc] at h
        simp at h
      · rw [show dropLit (pc :: p') (c :: cs) =
          if c == pc then dropLit p' cs else none from rfl, hc, if_pos rfl] at h
        have hcp : c = pc := by simpa using hc
        rw [List.cons_append, ← hcp, ih cs y h]

theorem litMismatch_dropLit : ∀ (p w : List Char),
    litMismatch p w = true → ∀ v, dropLit p (w ++ v) = none := by
  intro p
  induction p with
  | nil =>
    intro w h
    simp [litMismatch] at h
  | cons pc p' ih =>
    intro w h v
    rcases w with _ | ⟨c, cs⟩
    · simp [litMismatch] at h
    · rw [List.cons_append,
        show dropLit (pc :: p') (c :: (cs ++ v)) =
          if c == pc then dropLit p' (cs ++ v) else none from rfl]
      rcases hc : (c == pc) with _ | _
      · simp
      · rw [if_pos rfl]
        refine ih cs ?_ v
        rw [show litMismatch (pc :: p') (c :: cs) =
          if c == pc then litMismatch p' cs else true from rfl, hc,
          if_pos rfl] at h
        exact h

theorem localFailTrans_sound (w : List Char) (h : localFailTrans w = true) :
    ∀ v, fTrans (w ++ v) = none := by
  intro v
  have h1 : (w.dropWhile isSpaceChar).isEmpty = false ∧
      litMismatch transLit (w.dropWhile isSpaceChar) = true := by
    have := h
    simp only [localFailTrans, Bool.and_eq_true, Bool.not_eq_true'] at this
    exact this
  rcases w with _ | ⟨c, w'⟩
  · simp at h1
  · rw [List.cons_append,
      show fTrans (c :: (w' ++ v)) =
        (match dropLit transLit ((c :: (w' ++ v)).dropWhile isSpaceChar) with
         | some afterLit => some (['\n'],
             ((c :: (w' ++ v)).takeWhile isSpaceChar).length + 11 +
               (afterLit.takeWhile isSpaceChar).length - 1)
         | none => none) from rfl]
    have h2 : (c :: (w' ++ v)).dropWhile isSpaceChar =
        (c :: w').dropWhile isSpaceChar ++ v := by
      rw [show c :: (w' ++ v) = (c :: w') ++ v from rfl, List.dropWhile_append,
        if_neg (by rw [h1.1]; simp)]
    rw [h2, litMismatch_dropLit _ _ h1.2 v]

theorem localFailNum_sound (w : List Char) (h : localFailNum w = true) :
    ∀ v, fNum (w ++ v) = none := by
  intro v
  rcases w with _ | ⟨c, w'⟩
  · simp [localFailNum] at h
  · rcases w' with _ | ⟨d, w''⟩
    · have hc : (c == ' ') = false := by
        simpa [localFailNum, Bool.not_eq_true'] using h
      rw [List.cons_append, List.nil_append,
        show fNum (c :: v) = (if c == ' ' then
          (match v.dropWhile isDigitChar with
           | a :: b :: _ =>
             if !(v.takeWhile isDigitChar).isEmpty && a == '.' && b == ' ' then
               some ('\n' :: ' ' :: (v.takeWhile isDigitChar ++ ['.', ' ']),
                 (v.takeWhile isDigitChar).length + 2)
             else none
           | _ => none) else none) from rfl, hc]
      simp
    · have hcd : (c == ' ') = false ∨ isDigitChar d = false := by
        have := h
        simp only [localFailNum, Bool.or_eq_true, Bool.not_eq_true'] at this
        exact this
      show fNum (c :: ((d :: w'') ++ v)) = none
      rw [show fNum (c :: ((d :: w'') ++ v)) = (if c == ' ' then
        (match ((d :: w'') ++ v).dropWhile isDigitChar with
         | a :: b :: _ =>
           if !(((d :: w'') ++ v).takeWhile isDigitChar).isEmpty &&
               a == '.' && b == ' ' then
             some ('\n' :: ' ' :: (((d :: w'') ++ v).takeWhile isDigitChar ++
                 ['.', ' ']),
               (((d :: w'') ++ v).takeWhile isDigitChar).length + 2)
           else none
         | _ => none) else none) from rfl]
      rcases hcd with hc | hd
      · rw [hc]
        simp
      · rw [show ((d :: w'') ++ v : List Char) = d :: (w'' ++ v) from rfl]
        simp only [List.takeWhile_cons, List.dropWhile_cons, hd,
          Bool.false_eq_true, if_false]
        rcases hww : w'' ++ v with _ | ⟨b, t⟩
        · rcases (c == ' ') with _ | _ <;> simp
        · rcases (c == ' ') with _ | _ <;> simp

theorem localFailStar_sound (w : List Char) (h : localFailStar w = true) :
    ∀ v, fStar (w ++ v) = none := by
  intro v
  rcases w with _ | ⟨c, w'⟩
  · simp [localFailStar] at h
  · rcases w' with _ | ⟨a, w''⟩
    · have hc : (c == ' ') = false := by
        simpa [localFailStar, Bool.not_eq_true'] using h
      rcases v with _ | ⟨a, v'⟩
      · rfl
      · rcases v' with _ | ⟨b, v''⟩
        · rfl
        · show fStar (c :: a :: b :: v'') = none
          rw [show fStar (c :: a :: b :: v'') =
            (if c == ' ' && a == '*' && b == ' ' then
              some (['\n', ' ', '*', ' '], 2) else none) from rfl, hc]
          simp
    · have hca : (c == ' ') = false ∨ (a == '*') = false := by
        have := h
        simp only [localFailStar, Bool.or_eq_true, Bool.not_eq_true'] at this
        exact this
      show fStar (c :: a :: (w'' ++ v)) = none
      rcases hww : w'' ++ v with _ | ⟨b, t⟩
      · rfl
      · rw [show fStar (c :: a :: b :: t) =
          (if c == ' ' && a == '*' && b == ' ' then
            some (['\n', ' ', '*', ' '], 2) else none) from rfl]
        rcases hca with h1 | h1 <;> rw [h1] <;> simp

theorem localFailJam_sound (w : List Char) (h : localFailJam w = true) :
    ∀ v, fJam (w ++ v) = none := by
  intro v
  rcases w with _ | ⟨c, w'⟩
  · simp [localFailJam] at h
  · rcases w' with _ | ⟨d, w''⟩
    · simp [localFailJam] at h
    · show fJam (c :: d :: (w'' ++ v)) = none
      rw [show fJam (c :: d :: (w'' ++ v)) = (if !isSpaceChar c then
        (if d == ' ' then
          (if !((w'' ++ v).takeWhile isDigitChar).isEmpty &&
              (((w'' ++ v).dropWhile isDigitChar).headD 'x' == '.') then
            some (c :: '\n' :: ((w'' ++ v).takeWhile isDigitChar ++ ['.']),
              ((w'' ++ v).takeWhile isDigitChar).length + 2)
          else none) else none) else none) from rfl]
      rcases w'' with _ | ⟨e, w₃⟩
      · have hcd : isSpaceChar c = true ∨ (d == ' ') = false := by
          have := h
          simp only [localFailJam, Bool.or_eq_true, Bool.not_eq_true'] at this
          exact this
        rcases hcd with h1 | h1
        · rw [h1]
          simp
        · rw [h1]
          rcases isSpaceChar c with _ | _ <;> simp
      · have hcde := h
        simp only [localFailJam, Bool.or_eq_true, Bool.not_eq_true'] at hcde
        rcases hcde with (h1 | h1) | h1
        · rw [h1]
          simp
        · rw [h1]
          rcases isSpaceChar c with _ | _ <;> simp
        · rw [show ((e :: w₃) ++ v : List Char) = e :: (w₃ ++ v) from rfl]
          simp only [List.takeWhile_cons, h1, Bool.false_eq_true, if_false]
          rcases isSpaceChar c with _ | _ <;> rcases (d == ' ') with _ | _ <;>
            simp

theorem localFailNl_sound (w : List Char) (h : localFailNl w = true) :
    ∀ v, fNl (w ++ v) = none := by
  intro v
  rcases w with _ | ⟨c, w'⟩
  · simp [localFailNl] at h
  · rcases w' with _ | ⟨d, w''⟩
    · have hc : (c == '\n') = false := by
        simpa [localFailNl, Bool.not_eq_true'] using h
      rcases v with _ | ⟨d, v'⟩
      · rfl
      · show fNl (c :: d :: v') = none
        rw [show fNl (c :: d :: v') = (if c == '\n' && d == '\n' then
          some (['\n', '\n'], 1 + (v'.takeWhile (· == '\n')).length)
          else none) from rfl, hc]
        simp
    · have hcd : (c == '\n') = false ∨ (d == '\n') = false := by
        have := h
        simp only [localFailNl, Bool.or_eq_true, Bool.not_eq_true'] at this
        exact this
      show fNl (c :: d :: (w'' ++ v)) = none
      rw [show fNl (c :: d :: (w'' ++ v)) = (if c == '\n' && d == '\n' then
        some (['\n', '\n'], 1 + ((w'' ++ v).takeWhile (· == '\n')).length)
        else none) from rfl]
      rcases hcd with h1 | h1 <;> rw [h1] <;> simp

theorem take_length_takeWhile (p : Char → Bool) (l : List Char) :
    l.take (l.takeWhile p).length = l.takeWhile p := by
  induction l with
  | nil => rfl
  | cons c l' ih =>
    rw [List.takeWhile_cons]
    rcases hp : p c with _ | _
    · simp
    · simp [ih]

theorem fNum_region : ∀ s e adv, fNum s = some (e, adv) →
    ∀ c ∈ (s.drop 1).take adv,
      (isDigitChar c || c == '.' || c == ' ') = true := by
  intro s e adv h c hc
  rcases s with _ | ⟨c₀, cs⟩
  · simp [fNum] at h
  · rw [show fNum (c₀ :: cs) = (if c₀ == ' ' then
      (match cs.dropWhile isDigitChar with
       | a :: b :: _ =>
         if !(cs.takeWhile isDigitChar).isEmpty && a == '.' && b == ' ' then
           some ('\n' :: ' ' :: (cs.takeWhile isDigitChar ++ ['.', ' ']),
             (cs.takeWhile isDigitChar).length + 2)
         else none
       | _ => none) else none) from rfl] at h
    rcases hc₀ : (c₀ == ' ') with _ | _
    · rw [hc₀] at h
      simp at h
    · rw [hc₀, if_pos rfl] at h
      rcases hdw : cs.dropWhile isDigitChar with _ | ⟨a, rest⟩
      · rw [hdw] at h
        simp at h
      · rcases rest with _ | ⟨b, rest'⟩
        · rw [hdw] at h
          simp at h
        · simp only [hdw] at h
          rcases hcond : (!(cs.takeWhile isDigitChar).isEmpty && a == '.' &&
              b == ' ') with _ | _
          · rw [hcond] at h
            simp at h
          · rw [hcond, if_pos rfl] at h
            simp only [Option.some.injEq, Prod.mk.injEq] at h
            have hadv : adv = (cs.takeWhile isDigitChar).length + 2 :=
              h.2.symm
            subst hadv
            have hcs : cs = cs.takeWhile isDigitChar ++ (a :: b :: rest') := by
              conv_lhs => rw [← List.takeWhile_append_dropWhile isDigitChar cs]
              rw [hdw]
            have hreg2 : ((c₀ :: cs).drop 1).take
                ((cs.takeWhile isDigitChar).length + 2) =
                cs.takeWhile isDigitChar ++ [a, b] := by
              show cs.take ((cs.takeWhile isDigitChar).length + 2) = _
              set t := cs.takeWhile isDigitChar with ht
              conv_lhs => rw [hcs]
              rw [List.take_append_eq_append_take,
                List.take_all_of_le (by omega),
                show t.length + 2 - t.length = 2 from by omega]
              rfl
            rw [hreg2] at hc
            simp only [Bool.and_eq_true, beq_iff_eq] at hcond
            rcases List.mem_append.mp hc with h1 | h1
            · rw [List.mem_takeWhile_imp h1]
              rfl
            · rcases (by simpa using h1 : c = a ∨ c = b) with h2 | h2 <;>
                subst h2
              · rw [hcond.1.2]
                decide
              · rw [hcond.2]
                decide

theorem fStar_region : ∀ s e adv, fStar s = some (e, adv) →
    ∀ c ∈ (s.drop 1).take adv, (c == '*' || c == ' ') = true := by
  intro s e adv h c hc
  rcases s with _ | ⟨c₀, s₁⟩
  · simp [fStar] at h
  · rcases s₁ with _ | ⟨a, s₂⟩
    · simp [fStar] at h
    · rcases s₂ with _ | ⟨b, s₃⟩
      · simp [fStar] at h
      · rw [show fStar (c₀ :: a :: b :: s₃) =
          (if c₀ == ' ' && a == '*' && b == ' ' then
            some (['\n', ' ', '*', ' '], 2) else none) from rfl] at h
        rcases hcond : (c₀ == ' ' && a == '*' && b == ' ') with _ | _
        · rw [hcond] at h
          simp at h
        · rw [hcond, if_pos rfl] at h
          simp only [Option.some.injEq, Prod.mk.injEq] at h
          have hadv : adv = 2 := h.2.symm
          subst hadv
          have hreg2 : ((c₀ :: a :: b :: s₃).drop 1).take 2 = [a, b] := rfl
          rw [hreg2] at hc
          simp only [Bool.and_eq_true, beq_iff_eq] at hcond
          rcases (by simpa using hc : c = a ∨ c = b) with h2 | h2 <;> subst h2
          · rw [hcond.1.2]
            decide
          · rw [hcond.2]
            decide

theorem fJam_region : ∀ s e adv, fJam s = some (e, adv) →
    ∀ c ∈ (s.drop 1).take adv,
      (c == ' ' || isDigitChar c || c == '.') = true := by
  intro s e adv h c hc
  rcases s with _ | ⟨c₀, s₁⟩
  · simp [fJam] at h
  · rcases s₁ with _ | ⟨sp, rest⟩
    · simp [fJam] at h
    · rw [show fJam (c₀ :: sp :: rest) = (if !isSpaceChar c₀ then
        (if sp == ' ' then
          (if !(rest.takeWhile isDigitChar).isEmpty &&
              ((rest.dropWhile isDigitChar).headD 'x' == '.') then
            some (c₀ :: '\n' :: (rest.takeWhile isDigitChar ++ ['.']),
              (rest.takeWhile isDigitChar).length + 2)
          else none) else none) else none) from rfl] at h
      rcases hsc : isSpaceChar c₀ with _ | _
      · rw [hsc] at h
        rcases hsp : (sp == ' ') with _ | _
        · rw [hsp] at h
          simp at h
        · rw [hsp] at h
          rcases hcond : (!(rest.takeWhile isDigitChar).isEmpty &&
              ((rest.dropWhile isDigitChar).headD 'x' == '.')) with _ | _
          · rw [hcond] at h
            simp at h
          · rw [hcond] at h
            simp only [Bool.not_false, if_true, Option.some.injEq,
              Prod.mk.injEq] at h
            have hadv : adv = (rest.takeWhile isDigitChar).length + 2 :=
              h.2.symm
            subst hadv
            rcases hdw : rest.dropWhile isDigitChar with _ | ⟨d0, t0⟩
            · rw [hdw] at hcond
              have hx : (('x' : Char) == '.') = false := by decide
              rw [show ([] : List Char).headD 'x' = 'x' from rfl, hx,
                Bool.and_false] at hcond
              simp at hcond
            · have hd0 : d0 = '.' := by
                rw [hdw] at hcond
                rw [show (d0 :: t0).headD 'x' = d0 from rfl] at hcond
                simp only [Bool.and_eq_true, beq_iff_eq] at hcond
                exact hcond.2
              subst hd0
              have hrest : rest = rest.takeWhile isDigitChar ++
                  ('.' :: t0) := by
                conv_lhs =>
                  rw [← List.takeWhile_append_dropWhile isDigitChar rest]
                rw [hdw]
              have hreg2 : ((c₀ :: sp :: rest).drop 1).take
                  ((rest.takeWhile isDigitChar).length + 2) =
                  sp :: (rest.takeWhile isDigitChar ++ ['.']) := by
                show (sp :: rest).take
                  ((rest.takeWhile isDigitChar).length + 2) = _
                set t := rest.takeWhile isDigitChar with ht
                rw [show t.length + 2 = (t.length + 1) + 1 from by omega,
                  show (sp :: rest).take ((t.length + 1) + 1) =
                    sp :: rest.take (t.length + 1) from rfl]
                conv_lhs => rw [hrest]
                rw [List.take_append_eq_append_take,
                  List.take_all_of_le (by omega),
                  show t.length + 1 - t.length = 1 from by omega]
                rfl
              rw [hreg2] at hc
              rcases List.mem_cons.mp hc with h1 | h1
              · have hsp' : sp = ' ' := by simpa using hsp
                rw [h1, hsp']
                decide
              · rcases List.mem_append.mp h1 with h2 | h2
                · rw [List.mem_takeWhile_imp h2]
                  simp
                · have h3 : c = '.' := by simpa using h2
                  subst h3
                  decide
      · rw [hsc] at h
        simp at h

theorem fNl_region : ∀ s e adv, fNl s = some (e, adv) →
    ∀ c ∈ (s.drop 1).take adv, (c == '\n') = true := by
  intro s e adv h c hc
  rcases s with _ | ⟨c₀, s₁⟩
  · simp [fNl] at h
  · rcases s₁ with _ | ⟨d, rest⟩
    · simp [fNl] at h
    · rw [show fNl (c₀ :: d :: rest) = (if c₀ == '\n' && d == '\n' then
        some (['\n', '\n'], 1 + (rest.takeWhile (· == '\n')).length)
        else none) from rfl] at h
      rcases hcond : (c₀ == '\n' && d == '\n') with _ | _
      · rw [hcond] at h
        simp at h
      · rw [hcond, if_pos rfl] at h
        simp only [Option.some.injEq, Prod.mk.injEq] at h
        have hadv : adv = 1 + (rest.takeWhile (· == '\n')).length := h.2.symm
        subst hadv
        have hreg2 : ((c₀ :: d :: rest).drop 1).take
            (1 + (rest.takeWhile (· == '\n')).length) =
            d :: rest.takeWhile (· == '\n') := by
          show (d :: rest).take (1 + (rest.takeWhile (· == '\n')).length) = _
          rw [show 1 + (rest.takeWhile (· == '\n')).length =
            (rest.takeWhile (· == '\n')).length + 1 from by omega,
            show (d :: rest).take ((rest.takeWhile (· == '\n')).length + 1) =
              d :: rest.take ((rest.takeWhile (· == '\n')).length) from rfl,
            take_length_takeWhile]
        rw [hreg2] at hc
        simp only [Bool.and_eq_true, beq_iff_eq] at hcond
        rcases List.mem_cons.mp hc with h1 | h1
        · subst h1
          rw [hcond.2]
          decide
        · simpa using List.mem_takeWhile_imp h1

theorem fTrans_region : ∀ s e adv, fTrans s = some (e, adv) →
    ∀ c ∈ (s.drop 1).take adv,
      (isSpaceChar c || transLit.elem c) = true := by
  intro s e adv h c hc
  rcases s with _ | ⟨c₀, cs⟩
  · simp [fTrans] at h
  · rw [show fTrans (c₀ :: cs) = (match dropLit transLit
        ((c₀ :: cs).dropWhile isSpaceChar) with
      | some afterLit => some (['\n'],
          ((c₀ :: cs).takeWhile isSpaceChar).length + 11 +
            (afterLit.takeWhile isSpaceChar).length - 1)
      | none => none) from rfl] at h
    rcases hdl : dropLit transLit ((c₀ :: cs).dropWhile isSpaceChar) with
      _ | afterLit
    · rw [hdl] at h
      simp at h
    · rw [hdl] at h
      simp only [Option.some.injEq, Prod.mk.injEq] at h
      have hadv : adv = ((c₀ :: cs).takeWhile isSpaceChar).length + 11 +
          (afterLit.takeWhile isSpaceChar).length - 1 := h.2.symm
      subst hadv
      set tw := (c₀ :: cs).takeWhile isSpaceChar with htw
      set tw2 := afterLit.takeWhile isSpaceChar with htw2
      have hsplit1 : c₀ :: cs = tw ++ (transLit ++ afterLit) := by
        rw [htw]
        conv_lhs =>
          rw [← List.takeWhile_append_dropWhile isSpaceChar (c₀ :: cs)]
        rw [dropLit_some _ _ _ hdl]
      have hmem2 : c ∈ (c₀ :: cs).take (tw.length + 11 + tw2.length) := by
        refine List.mem_of_mem_drop (n := 1) ?_
        rw [List.drop_take]
        exact hc
      have hlen11 : (transLit : List Char).length = 11 := rfl
      have heq0 : tw.length + 11 + tw2.length - tw.length =
          11 + tw2.length := by omega
      have hle1 : (transLit : List Char).length ≤ 11 + tw2.length := by
        rw [hlen11]
        omega
      have heq1 : 11 + tw2.length - (transLit : List Char).length =
          tw2.length := by
        rw [hlen11]
        omega
      have htake : (c₀ :: cs).take (tw.length + 11 + tw2.length) =
          tw ++ (transLit ++ tw2) := by
        conv_lhs => rw [hsplit1]
        rw [List.take_append_eq_append_take, List.take_all_of_le (by omega),
          heq0, List.take_append_eq_append_take, List.take_all_of_le hle1,
          heq1, htw2, take_length_takeWhile]
      rw [htake] at hmem2
      rcases List.mem_append.mp hmem2 with h1 | h1
      · rw [htw] at h1
        rw [List.mem_takeWhile_imp h1]
        rfl
      · rcases List.mem_append.mp h1 with h2 | h2
        · rw [List.elem_eq_true_of_mem h2]
          simp
        · rw [htw2] at h2
          rw [List.mem_takeWhile_imp h2]
          rfl

/-! ### Line-splitting algebra for the MULTILINE rules. -/

theorem linesOf_ne_nil (s : List Char) : linesOf s ≠ [] :=
  splitNlAux_ne_nil [] s

theorem splitNlAux_append : ∀ (a acc b : List Char),
    splitNlAux acc (a ++ '\n' :: b) = splitNlAux acc a ++ linesOf b := by
  intro a
  induction a with
  | nil =>
    intro acc b
    show splitNlAux acc ('\n' :: b) = _
    rw [show splitNlAux acc ('\n' :: b) =
      if '\n' == '\n' then acc.reverse :: splitNlAux [] b
      else splitNlAux ('\n' :: acc) b from rfl, if_pos (by decide)]
    rfl
  | cons c a' ih =>
    intro acc b
    show splitNlAux acc (c :: (a' ++ '\n' :: b)) = _
    rcases hc : (c == '\n') with _ | _
    · rw [show splitNlAux acc (c :: (a' ++ '\n' :: b)) =
        if c == '\n' then acc.reverse :: splitNlAux [] (a' ++ '\n' :: b)
        else splitNlAux (c :: acc) (a' ++ '\n' :: b) from rfl, hc,
        if_neg (by simp), ih (c :: acc) b,
        show splitNlAux acc (c :: a') =
          if c == '\n' then acc.reverse :: splitNlAux [] a'
          else splitNlAux (c :: acc) a' from rfl, hc, if_neg (by simp)]
    · rw [show splitNlAux acc (c :: (a' ++ '\n' :: b)) =
        if c == '\n' then acc.reverse :: splitNlAux [] (a' ++ '\n' :: b)
        else splitNlAux (c :: acc) (a' ++ '\n' :: b) from rfl, hc,
        if_pos rfl, ih [] b,
        show splitNlAux acc (c :: a') =
          if c == '\n' then acc.reverse :: splitNlAux [] a'
          else splitNlAux (c :: acc) a' from rfl, hc, if_pos rfl]
      rfl

theorem linesOf_append_nl (a b : List Char) :
    linesOf (a ++ '\n' :: b) = linesOf a ++ linesOf b :=
  splitNlAux_append a [] b

theorem splitNlAux_no_nl : ∀ (l acc : List Char),
    (∀ c ∈ l, (c == '\n') = false) →
    splitNlAux acc l = [acc.reverse ++ l] := by
  intro l
  induction l with
  | nil =>
    intro acc _
    simp [splitNlAux]
  | cons c l' ih =>
    intro acc h
    rw [show splitNlAux acc (c :: l') =
      if c == '\n' then acc.reverse :: splitNlAux [] l'
      else splitNlAux (c :: acc) l' from rfl,
      if_neg (by simp [h c (by simp)]),
      ih (c :: acc) (fun x hx => h x (by simp [hx]))]
    simp

theorem linesOf_no_nl (l : List Char) (h : ∀ c ∈ l, (c == '\n') = false) :
    linesOf l = [l] := by
  rw [show linesOf l = splitNlAux [] l from rfl, splitNlAux_no_nl l [] h]
  rfl

theorem unlines_single (l : List Char) : unlines [l] = l := by
  rw [show unlines [l] = l ++ [] from rfl, List.append_nil]

theorem linesOf_unlines : ∀ (ls : List (List Char)), ls ≠ [] →
    linesOf (unlines ls) = ls.flatMap linesOf := by
  intro ls
  induction ls with
  | nil => exact fun h => absurd rfl h
  | cons l ls' ih =>
    intro _
    rcases ls' with _ | ⟨y, rest⟩
    · rw [unlines_single]
      simp
    · rw [unlines_cons l _ (by simp), linesOf_append_nl, ih (by simp)]
      rfl

theorem mapLines_lines (f : List Char → List Char) (s : List Char) :
    linesOf (mapLines f s) = (linesOf s).flatMap (fun l => linesOf (f l)) := by
  show linesOf (unlines ((linesOf s).map f)) = _
  rw [linesOf_unlines ((linesOf s).map f) (by
    intro h0
    rw [List.map_eq_nil_iff] at h0
    exact linesOf_ne_nil s h0), List.flatMap_map]

theorem splitNlAux_filter (p : Char → Bool) (hp : p '\n' = true) :
    ∀ (s acc : List Char), splitNlAux (acc.filter p) (s.filter p) =
      (splitNlAux acc s).map (List.filter p) := by
  intro s
  induction s with
  | nil =>
    intro acc
    simp [splitNlAux, List.filter_reverse]
  | cons c s' ih =>
    intro acc
    rcases hpc : p c with _ | _
    · have hc : (c == '\n') = false := by
        rcases hcc : (c == '\n') with _ | _
        · rfl
        · have h1 : c = '\n' := by simpa using hcc
          rw [h1, hp] at hpc
          simp at hpc
      rw [show (c :: s').filter p = s'.filter p from by
        simp [List.filter_cons, hpc],
        show splitNlAux acc (c :: s') = splitNlAux (c :: acc) s' from by
          rw [show splitNlAux acc (c :: s') =
            if c == '\n' then acc.reverse :: splitNlAux [] s'
            else splitNlAux (c :: acc) s' from rfl, hc, if_neg (by simp)],
        show acc.filter p = (c :: acc).filter p from by
          simp [List.filter_cons, hpc]]
      exact ih (c :: acc)
    · rw [show (c :: s').filter p = c :: s'.filter p from by
        simp [List.filter_cons, hpc]]
      rcases hc : (c == '\n') with _ | _
      · rw [show splitNlAux (acc.filter p) (c :: s'.filter p) =
          if c == '\n' then (acc.filter p).reverse :: splitNlAux [] (s'.filter p)
          else splitNlAux (c :: acc.filter p) (s'.filter p) from rfl, hc,
          if_neg (by simp),
          show splitNlAux acc (c :: s') =
            if c == '\n' then acc.reverse :: splitNlAux [] s'
            else splitNlAux (c :: acc) s' from rfl, hc, if_neg (by simp),
          show (c :: acc.filter p : List Char) = (c :: acc).filter p from by
            simp [List.filter_cons, hpc]]
        exact ih (c :: acc)
      · rw [show splitNlAux (acc.filter p) (c :: s'.filter p) =
          if c == '\n' then (acc.filter p).reverse :: splitNlAux [] (s'.filter p)
          else splitNlAux (c :: acc.filter p) (s'.filter p) from rfl, hc,
          if_pos rfl,
          show splitNlAux acc (c :: s') =
            if c == '\n' then acc.reverse :: splitNlAux [] s'
            else splitNlAux (c :: acc) s' from rfl, hc, if_pos rfl,
          show (splitNlAux [] (s'.filter p) : List (List Char)) =
            splitNlAux (([] : List Char).filter p) (s'.filter p) from rfl,
          ih []]
        simp [List.filter_reverse]

theorem linesOf_filter (p : Char → Bool) (hp : p '\n' = true) (s : List Char) :
    linesOf (s.filter p) = (linesOf s).map (List.filter p) := by
  have h := splitNlAux_filter p hp s []
  rwa [show (([] : List Char).filter p) = [] from rfl] at h

theorem splitNlAux_mem_decomp : ∀ (x acc l : List Char),
    l ∈ splitNlAux acc x →
    ∃ u v, acc.reverse ++ x = u ++ l ++ v ∧ EndsNl u ∧ HeadNl v := by
  intro x
  induction x with
  | nil =>
    intro acc l hl
    have h1 : l = acc.reverse := by simpa [splitNlAux] using hl
    subst h1
    exact ⟨[], [], by simp, Or.inl rfl, Or.inl rfl⟩
  | cons c x' ih =>
    intro acc l hl
    rcases hc : (c == '\n') with _ | _
    · rw [show splitNlAux acc (c :: x') =
        if c == '\n' then acc.reverse :: splitNlAux [] x'
        else splitNlAux (c :: acc) x' from rfl, hc, if_neg (by simp)] at hl
      obtain ⟨u, v, hx, hu, hv⟩ := ih (c :: acc) l hl
      refine ⟨u, v, ?_, hu, hv⟩
      rw [← hx]
      simp
    · rw [show splitNlAux acc (c :: x') =
        if c == '\n' then acc.reverse :: splitNlAux [] x'
        else splitNlAux (c :: acc) x' from rfl, hc, if_pos rfl] at hl
      have hcnl : c = '\n' := by simpa using hc
      rcases List.mem_cons.mp hl with h1 | h1
      · subst h1
        exact ⟨[], c :: x', by simp, Or.inl rfl,
          Or.inr (by rw [hcnl]; rfl)⟩
      · obtain ⟨u, v, hx, hu, hv⟩ := ih [] l h1
        rw [List.reverse_nil, List.nil_append] at hx
        refine ⟨acc.reverse ++ c :: u, v, ?_, ?_, hv⟩
        · rw [show acc.reverse ++ c :: x' =
            acc.reverse ++ c :: (u ++ l ++ v) from by rw [← hx]]
          simp
        · refine Or.inr ?_
          rcases hu with hu0 | hu1
          · subst hu0
            rw [show acc.reverse ++ c :: ([] : List Char) =
              acc.reverse ++ [c] from rfl,
              List.getLast?_append_of_ne_nil _ (by simp)]
            rw [hcnl]
            rfl
          · have hune : u ≠ [] := by
              intro h0
              rw [h0] at hu1
              simp at hu1
            rw [List.getLast?_append_of_ne_nil _ (by simp),
              getLast?_cons_ne_nil c u hune]
            exact hu1

theorem mem_linesOf_decomp (l s : List Char) (h : l ∈ linesOf s) :
    ∃ u v, s = u ++ l ++ v ∧ EndsNl u ∧ HeadNl v := by
  obtain ⟨u, v, hx, hu, hv⟩ := splitNlAux_mem_decomp s [] l h
  exact ⟨u, v, by simpa using hx, hu, hv⟩

theorem mem_linesOf_left (u l : List Char)
    (hl : ∀ c ∈ l, (c == '\n') = false) (hu : EndsNl u) :
    l ∈ linesOf (u ++ l) := by
  rcases hu with hu0 | huh
  · subst hu0
    rw [List.nil_append, linesOf_no_nl l hl]
    simp
  · have hune : u ≠ [] := by
      intro h0
      rw [h0] at huh
      simp at huh
    obtain ⟨u₀, c, hcat⟩ := (List.eq_nil_or_concat u).resolve_left hune
    rw [List.concat_eq_append] at hcat
    subst hcat
    have hcn : c = '\n' := by
      rw [List.getLast?_append_of_ne_nil _ (by simp)] at huh
      simpa using huh
    subst hcn
    rw [show u₀ ++ ['\n'] ++ l = u₀ ++ '\n' :: l from by simp,
      linesOf_append_nl, linesOf_no_nl l hl]
    simp

theorem decomp_mem_linesOf (l u v : List Char)
    (hl : ∀ c ∈ l, (c == '\n') = false) (hu : EndsNl u) (hv : HeadNl v) :
    l ∈ linesOf (u ++ l ++ v) := by
  rcases hv with hv0 | hvh
  · subst hv0
    rw [List.append_nil]
    exact mem_linesOf_left u l hl hu
  · rcases v with _ | ⟨c, v'⟩
    · simp at hvh
    · have hcn : c = '\n' := by simpa using hvh
      subst hcn
      rw [show u ++ l ++ '\n' :: v' = (u ++ l) ++ '\n' :: v' from by simp,
        linesOf_append_nl]
      exact List.mem_append_left _ (mem_linesOf_left u l hl hu)

/-! ### The strip stage keeps a guarded fragment intact. -/

theorem stripEnds_mid (M : List Char) (hM : M ≠ [])
    (hMh : ∀ c, M.head? = some c → isSpaceChar c = false)
    (hMl : ∀ c, M.getLast? = some c → isSpaceChar c = false)
    (u v : List Char) :
    ∃ u' v', stripEnds (u ++ M ++ v) = u' ++ M ++ v' ∧
      (u' ≠ [] → u'.getLast? = u.getLast?) ∧
      (v' ≠ [] → v'.head? = v.head?) := by
  obtain ⟨m, M', hM'⟩ := List.exists_cons_of_ne_nil hM
  have hmns : isSpaceChar m = false := hMh m (by rw [hM']; rfl)
  have hdropM : (M ++ v).dropWhile isSpaceChar = M ++ v := by
    rw [hM', List.cons_append, List.dropWhile_cons, if_neg (by simp [hmns])]
  have hL : (u ++ M ++ v).dropWhile isSpaceChar =
      u.dropWhile isSpaceChar ++ (M ++ v) := by
    rw [List.append_assoc, List.dropWhile_append]
    by_cases hE : (u.dropWhile isSpaceChar).isEmpty = true
    · rw [if_pos hE, hdropM,
        show u.dropWhile isSpaceChar = [] from by
          rwa [List.isEmpty_iff] at hE, List.nil_append]
    · rw [if_neg hE]
  obtain ⟨m₂, M₂, hM₂⟩ := List.exists_cons_of_ne_nil
    (show M.reverse ≠ [] from by simp [hM])
  have hm₂ : isSpaceChar m₂ = false := by
    apply hMl
    rw [← List.head?_reverse, hM₂]
    rfl
  have hdropR : (M.reverse ++ (u.dropWhile isSpaceChar).reverse).dropWhile
      isSpaceChar = M.reverse ++ (u.dropWhile isSpaceChar).reverse := by
    rw [hM₂, List.cons_append, List.dropWhile_cons, if_neg (by simp [hm₂])]
  have hR : (v.reverse ++
      (M.reverse ++ (u.dropWhile isSpaceChar).reverse)).dropWhile isSpaceChar =
      v.reverse.dropWhile isSpaceChar ++
        (M.reverse ++ (u.dropWhile isSpaceChar).reverse) := by
    rw [List.dropWhile_append]
    by_cases hE : (v.reverse.dropWhile isSpaceChar).isEmpty = true
    · rw [if_pos hE, hdropR,
        show v.reverse.dropWhile isSpaceChar = [] from by
          rwa [List.isEmpty_iff] at hE, List.nil_append]
    · rw [if_neg hE]
  refine ⟨u.dropWhile isSpaceChar, (v.reverse.dropWhile isSpaceChar).reverse,
    ?_, ?_, ?_⟩
  · show ((((u ++ M ++ v).dropWhile isSpaceChar).reverse).dropWhile
      isSpaceChar).reverse = _
    rw [hL, show (u.dropWhile isSpaceChar ++ (M ++ v)).reverse =
      v.reverse ++ (M.reverse ++ (u.dropWhile isSpaceChar).reverse) from by
        simp, hR]
    simp
  · intro hne
    have hsplit1 : u.takeWhile isSpaceChar ++ u.dropWhile isSpaceChar = u := by
      simp [List.takeWhile_append_dropWhile]
    conv_rhs => rw [← hsplit1]
    exact (List.getLast?_append_of_ne_nil _ hne).symm
  · intro hne
    have hsplit2 : v.reverse.takeWhile isSpaceChar ++
        v.reverse.dropWhile isSpaceChar = v.reverse := by
      simp [List.takeWhile_append_dropWhile]
    have hv : (v.reverse.dropWhile isSpaceChar).reverse ++
        (v.reverse.takeWhile isSpaceChar).reverse = v := by
      rw [← List.reverse_append, hsplit2, List.reverse_reverse]
    obtain ⟨a, t, ha⟩ := List.exists_cons_of_ne_nil hne
    rw [ha]
    rw [ha] at hv
    rw [← hv]
    rfl

theorem EndsNl_of_transfer (u u' : List Char)
    (h : u' ≠ [] → u'.getLast? = u.getLast?) (hu : EndsNl u) : EndsNl u' := by
  by_cases hne : u' = []
  · exact Or.inl hne
  · refine Or.inr ?_
    rw [h hne]
    rcases hu with h0 | hh
    · subst h0
      have h1 := List.getLast?_eq_getLast u' hne
      rw [h hne] at h1
      simp at h1
    · exact hh

theorem HeadNl_of_transfer (v v' : List Char)
    (h : v' ≠ [] → v'.head? = v.head?) (hv : HeadNl v) : HeadNl v' := by
  by_cases hne : v' = []
  · exact Or.inl hne
  · refine Or.inr ?_
    rw [h hne]
    rcases hv with h0 | hh
    · subst h0
      rcases v' with _ | ⟨a, t⟩
      · exact absurd rfl hne
      · have h1 := h hne
        simp at h1
    · exact hh

theorem unlines_append : ∀ (L1 L2 : List (List Char)), L1 ≠ [] → L2 ≠ [] →
    unlines (L1 ++ L2) = unlines L1 ++ '\n' :: unlines L2 := by
  intro L1 L2
  induction L1 with
  | nil =>
    intro h1 _
    exact absurd rfl h1
  | cons a L1' ih =>
    intro _ h2
    rcases L1' with _ | ⟨b, rest⟩
    · rw [List.cons_append, List.nil_append, unlines_cons a L2 h2,
        unlines_single]
    · rw [List.cons_append, unlines_cons a ((b :: rest) ++ L2) (by simp),
        unlines_cons a (b :: rest) (by simp), ih (by simp) h2]
      simp

theorem mapLines_nlfree (f : List Char → List Char) (l : List Char)
    (hl : ∀ c ∈ l, (c == '\n') = false) : mapLines f l = f l := by
  show unlines ((linesOf l).map f) = f l
  rw [linesOf_no_nl l hl]
  exact unlines_single (f l)

theorem mapLines_append_nl (f : List Char → List Char) (X Y : List Char) :
    mapLines f (X ++ '\n' :: Y) = mapLines f X ++ '\n' :: mapLines f Y := by
  show unlines ((linesOf (X ++ '\n' :: Y)).map f) = _
  rw [linesOf_append_nl, List.map_append,
    unlines_append ((linesOf X).map f) ((linesOf Y).map f)
      (by
        intro h0
        rw [List.map_eq_nil_iff] at h0
        exact linesOf_ne_nil X h0)
      (by
        intro h0
        rw [List.map_eq_nil_iff] at h0
        exact linesOf_ne_nil Y h0)]
  rfl

theorem mapLines_decomp_right (f : List Char → List Char) (l u : List Char)
    (hl : ∀ c ∈ l, (c == '\n') = false) (hu : EndsNl u) :
    ∃ u', mapLines f (u ++ l) = u' ++ f l ∧ EndsNl u' := by
  rcases hu with h0 | hh
  · subst h0
    refine ⟨[], ?_, Or.inl rfl⟩
    rw [List.nil_append, mapLines_nlfree f l hl]
    rfl
  · obtain ⟨u₀, c, hcat⟩ := (List.eq_nil_or_concat u).resolve_left (by
      intro h0
      rw [h0] at hh
      simp at hh)
    rw [List.concat_eq_append] at hcat
    subst hcat
    have hc : c = '\n' := by
      rw [List.getLast?_append_of_ne_nil _ (by simp)] at hh
      simpa using hh
    subst hc
    refine ⟨mapLines f u₀ ++ ['\n'], ?_, Or.inr ?_⟩
    · rw [show u₀ ++ ['\n'] ++ l = u₀ ++ '\n' :: l from by simp,
        mapLines_append_nl, mapLines_nlfree f l hl]
      simp
    · rw [List.getLast?_append_of_ne_nil _ (by simp)]
      decide

theorem mapLines_decomp_left (f : List Char → List Char) (l v : List Char)
    (hl : ∀ c ∈ l, (c == '\n') = false) (hv : HeadNl v) :
    ∃ v', mapLines f (l ++ v) = f l ++ v' ∧ HeadNl v' := by
  rcases hv with h0 | hh
  · subst h0
    refine ⟨[], ?_, Or.inl rfl⟩
    rw [List.append_nil, mapLines_nlfree f l hl, List.append_nil]
  · rcases v with _ | ⟨c, v₀⟩
    · simp at hh
    · have hc : c = '\n' := by simpa using hh
      subst hc
      refine ⟨'\n' :: mapLines f v₀, ?_, Or.inr rfl⟩
      rw [mapLines_append_nl, mapLines_nlfree f l hl]

theorem mapLines_decomp (f : List Char → List Char) (l u v : List Char)
    (hl : ∀ c ∈ l, (c == '\n') = false) (hu : EndsNl u) (hv : HeadNl v) :
    ∃ u' v', mapLines f (u ++ l ++ v) = u' ++ f l ++ v' ∧
      EndsNl u' ∧ HeadNl v' := by
  rcases hv with h0 | hh
  · subst h0
    obtain ⟨u', h, hu'⟩ := mapLines_decomp_right f l u hl hu
    refine ⟨u', [], ?_, hu', Or.inl rfl⟩
    rw [List.append_nil, h, List.append_nil]
  · rcases v with _ | ⟨c, v₀⟩
    · simp at hh
    · have hc : c = '\n' := by simpa using hh
      subst hc
      obtain ⟨u', h, hu'⟩ := mapLines_decomp_right f l u hl hu
      refine ⟨u', '\n' :: mapLines f v₀, ?_, hu', Or.inr rfl⟩
      rw [mapLines_append_nl, h]

theorem mapLines_decomp₂ (f : List Char → List Char) (l₁ l₂ u v : List Char)
    (hl₁ : ∀ c ∈ l₁, (c == '\n') = false)
    (hl₂ : ∀ c ∈ l₂, (c == '\n') = false)
    (hu : EndsNl u) (hv : HeadNl v) :
    ∃ u' v', mapLines f (u ++ (l₁ ++ '\n' :: l₂) ++ v) =
      u' ++ (f l₁ ++ '\n' :: f l₂) ++ v' ∧ EndsNl u' ∧ HeadNl v' := by
  obtain ⟨u', h1, hu'⟩ := mapLines_decomp_right f l₁ u hl₁ hu
  obtain ⟨v', h2, hv'⟩ := mapLines_decomp_left f l₂ v hl₂ hv
  refine ⟨u', v', ?_, hu', hv'⟩
  rw [show u ++ (l₁ ++ '\n' :: l₂) ++ v = (u ++ l₁) ++ '\n' :: (l₂ ++ v) from by
    simp, mapLines_append_nl, h1, h2]
  simp

theorem EndsNl_map (g : Char → Char) (hg : g '\n' = '\n') (u : List Char)
    (hu : EndsNl u) : EndsNl (u.map g) := by
  rcases hu with h0 | hh
  · subst h0
    exact Or.inl rfl
  · refine Or.inr ?_
    rw [List.getLast?_map, hh]
    simp [hg]

theorem HeadNl_map (g : Char → Char) (hg : g '\n' = '\n') (v : List Char)
    (hv : HeadNl v) : HeadNl (v.map g) := by
  rcases hv with h0 | hh
  · subst h0
    exact Or.inl rfl
  · refine Or.inr ?_
    rw [List.head?_map, hh]
    simp [hg]

theorem EndsNl_concat_nl (u : List Char) : EndsNl (u ++ ['\n']) :=
  Or.inr (by rw [List.getLast?_append_of_ne_nil _ (by simp)]; decide)

theorem learnLit_head_ns : ∀ c, learnLit.head? = some c →
    isSpaceChar c = false := by
  intro c hc
  have h1 : some 'L' = some c := by
    rw [← hc]
    decide
  obtain rfl := Option.some.inj h1
  decide

theorem learnLit_last_ns : ∀ c, learnLit.getLast? = some c →
    isSpaceChar c = false := by
  intro c hc
  have h1 : some 's' = some c := by
    rw [← hc]
    decide
  obtain rfl := Option.some.inj h1
  decide

theorem learnHeader_head_ns : ∀ c, learnHeader.head? = some c →
    isSpaceChar c = false := by
  intro c hc
  have h1 : some '-' = some c := by
    rw [← hc]
    decide
  obtain rfl := Option.some.inj h1
  decide

theorem learnHeader_last_ns : ∀ c, learnHeader.getLast? = some c →
    isSpaceChar c = false := by
  intro c hc
  have h1 : some 's' = some c := by
    rw [← hc]
    decide
  obtain rfl := Option.some.inj h1
  decide

theorem fTrans_emit : ∀ s e adv, fTrans s = some (e, adv) → e = ['\n'] := by
  intro s e adv h
  rcases s with _ | ⟨c, cs⟩
  · simp [fTrans] at h
  · rw [show fTrans (c :: cs) =
      (match dropLit transLit ((c :: cs).dropWhile isSpaceChar) with
       | some afterLit => some (['\n'],
           ((c :: cs).takeWhile isSpaceChar).length + 11 +
             (afterLit.takeWhile isSpaceChar).length - 1)
       | none => none) from rfl] at h
    rcases hdl : dropLit transLit ((c :: cs).dropWhile isSpaceChar)
      with _ | afterLit
    · simp only [hdl] at h
      exact Option.noConfusion h
    · simp only [hdl] at h
      injection h with h'
      injection h' with ha hb
      exact ha.symm

theorem fNl_emit : ∀ s e adv, fNl s = some (e, adv) → e = ['\n', '\n'] := by
  intro s e adv h
  rcases s with _ | ⟨c, s₁⟩
  · simp [fNl] at h
  · rcases s₁ with _ | ⟨d, rest⟩
    · simp [fNl] at h
    · rw [show fNl (c :: d :: rest) = (if c == '\n' && d == '\n' then
        some (['\n', '\n'], 1 + (rest.takeWhile (· == '\n')).length)
        else none) from rfl] at h
      rcases hcd : (c == '\n' && d == '\n') with _ | _
      · rw [hcd] at h
        simp at h
      · rw [hcd, if_pos rfl] at h
        injection h with h'
        injection h' with ha hb
        exact ha.symm

theorem fNum_props : ∀ s e adv, fNum s = some (e, adv) →
    s.head? = some ' ' ∧ e ≠ [] := by
  intro s e adv h
  rcases s with _ | ⟨c, cs⟩
  · simp [fNum] at h
  · rw [show fNum (c :: cs) = (if c == ' ' then
      (match cs.dropWhile isDigitChar with
       | a :: b :: _ =>
         if !(cs.takeWhile isDigitChar).isEmpty && a == '.' && b == ' ' then
           some ('\n' :: ' ' :: (cs.takeWhile isDigitChar ++ ['.', ' ']),
             (cs.takeWhile isDigitChar).length + 2)
         else none
       | _ => none) else none) from rfl] at h
    rcases hc : (c == ' ') with _ | _
    · rw [hc] at h
      simp at h
    · rw [hc, if_pos rfl] at h
      have hcsp : c = ' ' := by simpa using hc
      refine ⟨by rw [hcsp]; rfl, ?_⟩
      rcases hdw : cs.dropWhile isDigitChar with _ | ⟨a, rest⟩
      · simp only [hdw] at h
        exact Option.noConfusion h
      · rcases rest with _ | ⟨b, rest'⟩
        · simp only [hdw] at h
          exact Option.noConfusion h
        · simp only [hdw] at h
          rcases hcond : (!(cs.takeWhile isDigitChar).isEmpty && a == '.' &&
              b == ' ') with _ | _
          · rw [hcond] at h
            simp at h
          · rw [hcond, if_pos rfl] at h
            injection h with h'
            injection h' with ha hb
            rw [← ha]
            simp

theorem fStar_props : ∀ s e adv, fStar s = some (e, adv) →
    s.head? = some ' ' ∧ e ≠ [] := by
  intro s e adv h
  rcases s with _ | ⟨c, s₁⟩
  · simp [fStar] at h
  · rcases s₁ with _ | ⟨a, s₂⟩
    · simp [fStar] at h
    · rcases s₂ with _ | ⟨b, s₃⟩
      · simp [fStar] at h
      · rw [show fStar (c :: a :: b :: s₃) =
          (if c == ' ' && a == '*' && b == ' ' then
            some (['\n', ' ', '*', ' '], 2) else none) from rfl] at h
        rcases hcond : (c == ' ' && a == '*' && b == ' ') with _ | _
        · rw [hcond] at h
          simp at h
        · rw [hcond, if_pos rfl] at h
          have hc : c = ' ' := by
            have h1 : ((c == ' ') = true ∧ (a == '*') = true) ∧
                (b == ' ') = true := by
              simpa only [Bool.and_eq_true] using hcond
            simpa using h1.1.1
          injection h with h'
          injection h' with ha hb
          exact ⟨by rw [hc]; rfl, by rw [← ha]; simp⟩

theorem fJam_props : ∀ s e adv, fJam s = some (e, adv) →
    (∀ c, s.head? = some c → isSpaceChar c = false) ∧ e ≠ [] := by
  intro s e adv h
  rcases s with _ | ⟨c, s₁⟩
  · simp [fJam] at h
  · rcases s₁ with _ | ⟨sp, rest⟩
    · simp [fJam] at h
    · rw [show fJam (c :: sp :: rest) = (if !isSpaceChar c then
        (if sp == ' ' then
          (if !(rest.takeWhile isDigitChar).isEmpty &&
              ((rest.dropWhile isDigitChar).headD 'x' == '.') then
            some (c :: '\n' :: (rest.takeWhile isDigitChar ++ ['.']),
              (rest.takeWhile isDigitChar).length + 2)
          else none) else none) else none) from rfl] at h
      rcases hnsp : (!isSpaceChar c) with _ | _
      · rw [hnsp] at h
        simp at h
      · rw [hnsp, if_pos rfl] at h
        rcases hspeq : (sp == ' ') with _ | _
        · rw [hspeq] at h
          simp at h
        · rw [hspeq, if_pos rfl] at h
          rcases hcond : (!(rest.takeWhile isDigitChar).isEmpty &&
              ((rest.dropWhile isDigitChar).headD 'x' == '.')) with _ | _
          · rw [hcond] at h
            simp at h
          · rw [hcond, if_pos rfl] at h
            injection h with h'
            injection h' with ha hb
            refine ⟨?_, by rw [← ha]; simp⟩
            intro x hx
            have hxc : c = x := by simpa using hx
            rw [← hxc]
            simpa using hnsp

theorem fJam_single (c : Char) (v : List Char) (hv : HeadNl v) :
    fJam (c :: v) = none := by
  rcases hv with h0 | hh
  · subst h0
    rfl
  · rcases v with _ | ⟨d, v₀⟩
    · simp at hh
    · have hd : d = '\n' := by simpa using hh
      subst hd
      rw [show fJam (c :: '\n' :: v₀) = (if !isSpaceChar c then
        (if '\n' == ' ' then
          (if !(v₀.takeWhile isDigitChar).isEmpty &&
              ((v₀.dropWhile isDigitChar).headD 'x' == '.') then
            some (c :: '\n' :: (v₀.takeWhile isDigitChar ++ ['.']),
              (v₀.takeWhile isDigitChar).length + 2)
          else none) else none) else none) from rfl]
      rcases hnsp : (!isSpaceChar c) with _ | _
      · simp
      · rw [if_pos rfl, if_neg (by decide)]

theorem no_nl_of_P (P : Char → Bool) (hP : P '\n' = false) (c : Char)
    (hc : P c = true) : (c == '\n') = false := by
  rcases h' : (c == '\n') with _ | _
  · rfl
  · have hcn : c = '\n' := by simpa using h'
    rw [hcn, hP] at hc
    exact Bool.noConfusion hc

/-- Variant of `genScan_through` that preserves a trailing newline of the
prefix: every fire either emits something ending in a newline, or starts
away from a newline and consumes no newline. -/
theorem genScan_through_keep (f : List Char → Option (List Char × Nat))
    (P : Char → Bool)
    (hreg : ∀ s e adv, f s = some (e, adv) →
      ∀ c ∈ (s.drop 1).take adv, P c = true)
    (hne : ∀ s e adv, f s = some (e, adv) → e ≠ [])
    (hgood : ∀ s e adv, f s = some (e, adv) →
      e.getLast? = some '\n' ∨
      (s.head? ≠ some '\n' ∧ ∀ c ∈ (s.drop 1).take adv, (c == '\n') = false))
    (t0 : Char) (tail' : List Char) (ht0 : P t0 = false) :
    ∀ u, EndsNl u → ∃ u',
      genScan f 0 (u ++ t0 :: tail') = u' ++ genScan f 0 (t0 :: tail') ∧
      (u' = [] ↔ u = []) ∧ (u ≠ [] → u'.getLast? = some '\n') := by
  have main : ∀ n u, List.length u ≤ n → EndsNl u → ∃ u',
      genScan f 0 (u ++ t0 :: tail') = u' ++ genScan f 0 (t0 :: tail') ∧
      (u' = [] ↔ u = []) ∧ (u ≠ [] → u'.getLast? = some '\n') := by
    intro n
    induction n with
    | zero =>
      intro u hu _
      have h0 : u = [] := List.eq_nil_of_length_eq_zero (Nat.le_zero.mp hu)
      subst h0
      exact ⟨[], rfl, by simp, fun h => absurd rfl h⟩
    | succ n ih =>
      intro u hu hEnd
      rcases u with _ | ⟨c, u₁⟩
      · exact ⟨[], rfl, by simp, fun h => absurd rfl h⟩
      · have hu₁ : u₁.length ≤ n := by simpa using hu
        have hlastu : (c :: u₁).getLast? = some '\n' :=
          hEnd.resolve_left (by simp)
        rcases hf : f (c :: (u₁ ++ t0 :: tail')) with _ | ⟨e, adv⟩
        · have hE1 : EndsNl u₁ := by
            rcases u₁ with _ | ⟨d, u₂⟩
            · exact Or.inl rfl
            · refine Or.inr ?_
              rwa [getLast?_cons_ne_nil c _ (by simp)] at hlastu
          obtain ⟨u', h, hiff, hlast⟩ := ih u₁ hu₁ hE1
          refine ⟨c :: u', ?_, by simp, ?_⟩
          · rw [List.cons_append, show genScan f 0 (c :: (u₁ ++ t0 :: tail')) =
              c :: genScan f 0 (u₁ ++ t0 :: tail') from by
                simp only [genScan, hf], h]
            rfl
          · intro _
            rcases u₁ with _ | ⟨d, u₂⟩
            · have hu' : u' = [] := hiff.mpr rfl
              subst hu'
              simpa using hlastu
            · have hne' : u' ≠ [] := fun h0 => List.cons_ne_nil _ _ (hiff.mp h0)
              rw [getLast?_cons_ne_nil c u' hne']
              exact hlast (by simp)
        · have heneq : e ≠ [] := hne _ _ _ hf
          have hadv : adv ≤ u₁.length := by
            by_contra hgt
            push_neg at hgt
            have hmem : t0 ∈ ((c :: (u₁ ++ t0 :: tail')).drop 1).take adv := by
              show t0 ∈ (u₁ ++ t0 :: tail').take adv
              rw [List.take_append_eq_append_take]
              refine List.mem_append_right _ ?_
              rcases hk : adv - u₁.length with _ | k
              · omega
              · simp
            have hP := hreg _ _ _ hf t0 hmem
            rw [ht0] at hP
            simp at hP
          have hE2 : EndsNl (u₁.drop adv) := by
            rcases hdp : u₁.drop adv with _ | ⟨d, u₂⟩
            · exact Or.inl rfl
            · refine Or.inr ?_
              have hne1 : u₁ ≠ [] := by
                intro h0
                rw [h0] at hdp
                simp at hdp
              have h5 : u₁.getLast? = (u₁.drop adv).getLast? := by
                conv_lhs => rw [← List.take_append_drop adv u₁]
                rw [List.getLast?_append_of_ne_nil _ (by rw [hdp]; simp)]
              rw [← hdp, ← h5]
              rwa [getLast?_cons_ne_nil c _ hne1] at hlastu
          obtain ⟨u'', h2, hiff2, hlast2⟩ := ih (u₁.drop adv) (by
            rw [List.length_drop]
            omega) hE2
          refine ⟨e ++ u'', ?_, ?_, ?_⟩
          · rw [List.cons_append, show genScan f 0 (c :: (u₁ ++ t0 :: tail')) =
              e ++ genScan f adv (u₁ ++ t0 :: tail') from by
                simp only [genScan, hf]]
            have h3 : genScan f adv (u₁ ++ t0 :: tail') =
                genScan f 0 (u₁.drop adv ++ t0 :: tail') := by
              have h4 := genScan_skip_append f (u₁.take adv)
                (u₁.drop adv ++ t0 :: tail')
              rw [show (u₁.take adv).length = adv from by
                rw [List.length_take]; omega, ← List.append_assoc,
                List.take_append_drop] at h4
              exact h4
            rw [h3, h2, List.append_assoc]
          · exact iff_of_false (List.append_ne_nil_of_left_ne_nil heneq u'')
              (by simp)
          · intro _
            rcases hu'' : u'' with _ | ⟨d, u₃⟩
            · rw [List.append_nil]
              rcases hgood _ _ _ hf with hg | ⟨hstart, hcons⟩
              · exact hg
              · exfalso
                have hdropnil : u₁.drop adv = [] := hiff2.mp hu''
                rcases u₁ with _ | ⟨d₁, u₂⟩
                · have hc : c = '\n' := by simpa using hlastu
                  refine hstart ?_
                  rw [hc]
                  rfl
                · have hlast1 : (d₁ :: u₂).getLast? = some '\n' := by
                    rwa [getLast?_cons_ne_nil c _ (by simp)] at hlastu
                  have hmemnl : '\n' ∈ (d₁ :: u₂) :=
                    List.mem_of_mem_getLast? hlast1
                  have hadv2 : (d₁ :: u₂).length ≤ adv :=
                    List.drop_eq_nil_iff.mp hdropnil
                  have hmm : '\n' ∈
                      ((c :: ((d₁ :: u₂) ++ t0 :: tail')).drop 1).take adv := by
                    show '\n' ∈ ((d₁ :: u₂) ++ t0 :: tail').take adv
                    rw [List.take_append_eq_append_take]
                    refine List.mem_append_left _ ?_
                    rw [List.take_of_length_le hadv2]
                    exact hmemnl
                  have hbad := hcons '\n' hmm
                  simp at hbad
            · rw [← hu'', List.getLast?_append_of_ne_nil _ (by
                rw [hu'']
                simp)]
              refine hlast2 ?_
              intro h0
              have h6 := hiff2.mpr h0
              rw [hu''] at h6
              simp at h6
  exact fun u hu => main u.length u le_rfl hu

/-- A scanner with a matching region class, pass certificates over a
guarded block, and newline-respecting fires maps
`prefix ++ block ++ suffix` to the same shape. -/
theorem scan_stage (f : List Char → Option (List Char × Nat)) (P : Char → Bool)
    (B : List Char) (b0 : Char) (bTail : List Char) (hB : B = b0 :: bTail)
    (hreg : ∀ s e adv, f s = some (e, adv) →
      ∀ c ∈ (s.drop 1).take adv, P c = true)
    (hne : ∀ s e adv, f s = some (e, adv) → e ≠ [])
    (hgood : ∀ s e adv, f s = some (e, adv) →
      e.getLast? = some '\n' ∨
      (s.head? ≠ some '\n' ∧ ∀ c ∈ (s.drop 1).take adv, (c == '\n') = false))
    (hP : P b0 = false)
    (hpass : ∀ v, HeadNl v → ∀ w, w ≠ [] → w.IsSuffix B → f (w ++ v) = none)
    (hheadnl : ∀ v₁ e adv, f ('\n' :: v₁) = some (e, adv) →
      e.head? = some '\n')
    (u v : List Char) (hu : EndsNl u) (hv : HeadNl v) :
    ∃ u' v', genScan f 0 (u ++ B ++ v) = u' ++ B ++ v' ∧
      EndsNl u' ∧ HeadNl v' := by
  obtain ⟨u', h1, hiff, hlast⟩ := genScan_through_keep f P hreg hne hgood b0
    (bTail ++ v) hP u hu
  refine ⟨u', genScan f 0 v, ?_, ?_, genScan_headNl f hheadnl v hv⟩
  · have key : genScan f 0 (u ++ (B ++ v)) = u' ++ (B ++ genScan f 0 v) := by
      have e1 : u ++ (B ++ v) = u ++ b0 :: (bTail ++ v) := by
        rw [hB, List.cons_append]
      rw [e1, h1, show b0 :: (bTail ++ v) = B ++ v from by
        rw [hB, List.cons_append], genScan_pass f B v (hpass v hv)]
    rw [List.append_assoc, key, ← List.append_assoc]
  · by_cases h0 : u = []
    · exact Or.inl (hiff.mpr h0)
    · exact Or.inr (hlast h0)

theorem fTrans_pass : ∀ v, HeadNl v → ∀ w, w ≠ [] → w.IsSuffix learnLit →
    fTrans (w ++ v) = none := by
  intro v _ w hw hsuf
  obtain ⟨t, ht⟩ := hsuf
  have hdrop : w = learnLit.drop t.length := by
    rw [← ht, List.drop_left]
  have hlen : t.length + w.length = 34 := by
    rw [← List.length_append, ht]
    decide
  have hi : t.length < 34 := by
    have hwpos : 0 < w.length := List.length_pos.mpr hw
    omega
  have hLF : ∀ i, i < 34 → localFailTrans (learnLit.drop i) = true := by
    decide
  rw [hdrop]
  exact localFailTrans_sound _ (hLF t.length hi) v

theorem fNum_pass : ∀ v, HeadNl v → ∀ w, w ≠ [] → w.IsSuffix learnHeader →
    fNum (w ++ v) = none := by
  intro v _ w hw hsuf
  obtain ⟨t, ht⟩ := hsuf
  have hdrop : w = learnHeader.drop t.length := by
    rw [← ht, List.drop_left]
  have hlen : t.length + w.length = 41 := by
    rw [← List.length_append, ht]
    decide
  have hi : t.length < 41 := by
    have hwpos : 0 < w.length := List.length_pos.mpr hw
    omega
  have hLF : ∀ i, i < 41 → localFailNum (learnHeader.drop i) = true := by
    decide
  rw [hdrop]
  exact localFailNum_sound _ (hLF t.length hi) v

theorem fStar_pass : ∀ v, HeadNl v → ∀ w, w ≠ [] → w.IsSuffix learnHeader →
    fStar (w ++ v) = none := by
  intro v _ w hw hsuf
  obtain ⟨t, ht⟩ := hsuf
  have hdrop : w = learnHeader.drop t.length := by
    rw [← ht, List.drop_left]
  have hlen : t.length + w.length = 41 := by
    rw [← List.length_append, ht]
    decide
  have hi : t.length < 41 := by
    have hwpos : 0 < w.length := List.length_pos.mpr hw
    omega
  have hLF : ∀ i, i < 41 → localFailStar (learnHeader.drop i) = true := by
    decide
  rw [hdrop]
  exact localFailStar_sound _ (hLF t.length hi) v

theorem fNl_pass : ∀ v, HeadNl v → ∀ w, w ≠ [] → w.IsSuffix learnHeader →
    fNl (w ++ v) = none := by
  intro v _ w hw hsuf
  obtain ⟨t, ht⟩ := hsuf
  have hdrop : w = learnHeader.drop t.length := by
    rw [← ht, List.drop_left]
  have hlen : t.length + w.length = 41 := by
    rw [← List.length_append, ht]
    decide
  have hi : t.length < 41 := by
    have hwpos : 0 < w.length := List.length_pos.mpr hw
    omega
  have hLF : ∀ i, i < 41 → localFailNl (learnHeader.drop i) = true := by
    decide
  rw [hdrop]
  exact localFailNl_sound _ (hLF t.length hi) v

theorem fJam_pass : ∀ v, HeadNl v → ∀ w, w ≠ [] → w.IsSuffix learnHeader →
    fJam (w ++ v) = none := by
  intro v hv w hw hsuf
  obtain ⟨t, ht⟩ := hsuf
  rcases w with _ | ⟨a, w₁⟩
  · exact absurd rfl hw
  · rcases w₁ with _ | ⟨b, w₂⟩
    · show fJam (a :: v) = none
      exact fJam_single a v hv
    · have hdrop : a :: b :: w₂ = learnHeader.drop t.length := by
        rw [← ht, List.drop_left]
      have hlen : t.length + (a :: b :: w₂).length = 41 := by
        rw [← List.length_append, ht]
        decide
      have hi : t.length < 40 := by
        simp only [List.length_cons] at hlen
        omega
      have hLF : ∀ i, i < 40 → localFailJam (learnHeader.drop i) = true := by
        decide
      rw [hdrop]
      exact localFailJam_sound _ (hLF t.length hi) v

/-- Stage 2 of `clean_and_fix_text` (the Transcribrr removal) carries a
line equal to the Learnings phrase through unchanged, on its own line. -/
theorem transStage (u v : List Char) (hu : EndsNl u) (hv : HeadNl v) :
    ∃ u' v', subTransAux 0 (u ++ learnLit ++ v) = u' ++ learnLit ++ v' ∧
      EndsNl u' ∧ HeadNl v' := by
  have hgood : ∀ s e adv, fTrans s = some (e, adv) →
      e.getLast? = some '\n' ∨ (s.head? ≠ some '\n' ∧
        ∀ c ∈ (s.drop 1).take adv, (c == '\n') = false) := by
    intro s e adv h
    refine Or.inl ?_
    rw [fTrans_emit s e adv h]
    decide
  have hheadnl : ∀ v₁ e adv, fTrans ('\n' :: v₁) = some (e, adv) →
      e.head? = some '\n' := by
    intro v₁ e adv hf
    rw [fTrans_emit _ _ _ hf]
    rfl
  rw [subTransAux_genScan]
  exact scan_stage fTrans (fun c => isSpaceChar c || transLit.elem c)
    learnLit 'L' (learnLit.drop 1) (by decide) fTrans_region
    (fun s e adv h => by rw [fTrans_emit s e adv h]; simp) hgood (by decide)
    fTrans_pass hheadnl u v hu hv

/-- Stage 7 of `clean_and_fix_text` (the run-on numbered list rule)
carries the Learnings header block through unchanged. -/
theorem numStage (u v : List Char) (hu : EndsNl u) (hv : HeadNl v) :
    ∃ u' v', subNumAux 0 (u ++ learnHeader ++ v) = u' ++ learnHeader ++ v' ∧
      EndsNl u' ∧ HeadNl v' := by
  have hgood : ∀ s e adv, fNum s = some (e, adv) →
      e.getLast? = some '\n' ∨ (s.head? ≠ some '\n' ∧
        ∀ c ∈ (s.drop 1).take adv, (c == '\n') = false) := by
    intro s e adv h
    refine Or.inr ⟨?_, ?_⟩
    · rw [(fNum_props s e adv h).1]
      decide
    · intro c hc
      exact no_nl_of_P (fun c => isDigitChar c || c == '.' || c == ' ')
        (by decide) c (fNum_region s e adv h c hc)
  have hheadnl : ∀ v₁ e adv, fNum ('\n' :: v₁) = some (e, adv) →
      e.head? = some '\n' := by
    intro v₁ e adv hf
    have h1 := (fNum_props _ _ _ hf).1
    rw [show ('\n' :: v₁).head? = some '\n' from rfl] at h1
    exact absurd h1 (by decide)
  rw [subNumAux_genScan]
  exact scan_stage fNum (fun c => isDigitChar c || c == '.' || c == ' ')
    learnHeader '-' (learnHeader.drop 1) (by decide) fNum_region
    (fun s e adv h => (fNum_props s e adv h).2) hgood (by decide)
    fNum_pass hheadnl u v hu hv

/-- Stage 8 of `clean_and_fix_text` (the run-on bullet rule) carries the
Learnings header block through unchanged. -/
theorem starStage (u v : List Char) (hu : EndsNl u) (hv : HeadNl v) :
    ∃ u' v', subStarAux 0 (u ++ learnHeader ++ v) = u' ++ learnHeader ++ v' ∧
      EndsNl u' ∧ HeadNl v' := by
  have hgood : ∀ s e adv, fStar s = some (e, adv) →
      e.getLast? = some '\n' ∨ (s.head? ≠ some '\n' ∧
        ∀ c ∈ (s.drop 1).take adv, (c == '\n') = false) := by
    intro s e adv h
    refine Or.inr ⟨?_, ?_⟩
    · rw [(fStar_props s e adv h).1]
      decide
    · intro c hc
      exact no_nl_of_P (fun c => c == '*' || c == ' ')
        (by decide) c (fStar_region s e adv h c hc)
  have hheadnl : ∀ v₁ e adv, fStar ('\n' :: v₁) = some (e, adv) →
      e.head? = some '\n' := by
    intro v₁ e adv hf
    have h1 := (fStar_props _ _ _ hf).1
    rw [show ('\n' :: v₁).head? = some '\n' from rfl] at h1
    exact absurd h1 (by decide)
  rw [subStarAux_genScan]
  exact scan_stage fStar (fun c => c == '*' || c == ' ')
    learnHeader '-' (learnHeader.drop 1) (by decide) fStar_region
    (fun s e adv h => (fStar_props s e adv h).2) hgood (by decide)
    fStar_pass hheadnl u v hu hv

/-- Stage 9 of `clean_and_fix_text` (the jammed list rule) carries the
Learnings header block through unchanged. -/
theorem jamStage (u v : List Char) (hu : EndsNl u) (hv : HeadNl v) :
    ∃ u' v', subJamAux 0 (u ++ learnHeader ++ v) = u' ++ learnHeader ++ v' ∧
      EndsNl u' ∧ HeadNl v' := by
  have hgood : ∀ s e adv, fJam s = some (e, adv) →
      e.getLast? = some '\n' ∨ (s.head? ≠ some '\n' ∧
        ∀ c ∈ (s.drop 1).take adv, (c == '\n') = false) := by
    intro s e adv h
    refine Or.inr ⟨?_, ?_⟩
    · intro h0
      exact absurd ((fJam_props s e adv h).1 '\n' h0) (by decide)
    · intro c hc
      exact no_nl_of_P (fun c => c == ' ' || isDigitChar c || c == '.')
        (by decide) c (fJam_region s e adv h c hc)
  have hheadnl : ∀ v₁ e adv, fJam ('\n' :: v₁) = some (e, adv) →
      e.head? = some '\n' := by
    intro v₁ e adv hf
    exact absurd ((fJam_props _ _ _ hf).1 '\n' rfl) (by decide)
  rw [subJamAux_genScan]
  exact scan_stage fJam (fun c => c == ' ' || isDigitChar c || c == '.')
    learnHeader '-' (learnHeader.drop 1) (by decide) fJam_region
    (fun s e adv h => (fJam_props s e adv h).2) hgood (by decide)
    fJam_pass hheadnl u v hu hv

/-- Stage 10 of `clean_and_fix_text` (the double-newline collapse) carries
the Learnings header block through unchanged. -/
theorem nlStage (u v : List Char) (hu : EndsNl u) (hv : HeadNl v) :
    ∃ u' v', subNlAux 0 (u ++ learnHeader ++ v) = u' ++ learnHeader ++ v' ∧
      EndsNl u' ∧ HeadNl v' := by
  have hgood : ∀ s e adv, fNl s = some (e, adv) →
      e.getLast? = some '\n' ∨ (s.head? ≠ some '\n' ∧
        ∀ c ∈ (s.drop 1).take adv, (c == '\n') = false) := by
    intro s e adv h
    refine Or.inl ?_
    rw [fNl_emit s e adv h]
    decide
  have hheadnl : ∀ v₁ e adv, fNl ('\n' :: v₁) = some (e, adv) →
      e.head? = some '\n' := by
    intro v₁ e adv hf
    rw [fNl_emit _ _ _ hf]
    rfl
  rw [subNlAux_genScan]
  exact scan_stage fNl (fun c => c == '\n')
    learnHeader '-' (learnHeader.drop 1) (by decide) fNl_region
    (fun s e adv h => by rw [fNl_emit s e adv h]; simp) hgood (by decide)
    fNl_pass hheadnl u v hu hv

/-- C8.  For every input text containing a line exactly equal to
`"Learnings and Actionable Takeaways"`, the Markup Reconstructor's output
contains the horizontal-rule marker `---` immediately followed by the
level-2 header line `## Learnings and Actionable Takeaways`: the output
splits as `x ++ "---\n## Learnings and Actionable Takeaways" ++ y` where
`x` is empty or ends with a newline and `y` is empty or starts with a
newline, so the rule and the header stand on their own lines. -/
theorem markup_learnings_header (s : String)
    (h : learnLit ∈ linesOf s.data) :
    ∃ x y, (clean_and_fix_text s).data = x ++ learnHeader ++ y ∧
      EndsNl x ∧ HeadNl y := by
  have hpipe : (clean_and_fix_text s).data =
      stripEnds (subNlAux 0 (subJamAux 0 (subStarAux 0 (subNumAux 0
        ((mapLines azRuleLine (mapLines learnRuleLine (mapLines partRuleLine
          (stripEnds (subTransAux 0
            (s.data.filter (fun c => c != '﻿'))))))).map
          (fun c => if c == '•' then '*' else c)))))) := by
    simp only [clean_and_fix_text, cleanFixList]
  have hp : learnLit ∈ linesOf (s.data.filter (fun c => c != '﻿')) := by
    rw [linesOf_filter _ (by decide)]
    exact List.mem_map.mpr ⟨learnLit, h, by decide⟩
  obtain ⟨u₁, v₁, ht1, hu₁, hv₁⟩ := mem_linesOf_decomp _ _ hp
  obtain ⟨u₂, v₂, ht2, hu₂, hv₂⟩ := transStage u₁ v₁ hu₁ hv₁
  obtain ⟨u₃, v₃, ht3, htu₃, htv₃⟩ := stripEnds_mid learnLit (by decide)
    learnLit_head_ns learnLit_last_ns u₂ v₂
  have hu₃ : EndsNl u₃ := EndsNl_of_transfer u₂ u₃ htu₃ hu₂
  have hv₃ : HeadNl v₃ := HeadNl_of_transfer v₂ v₃ htv₃ hv₂
  obtain ⟨u₄, v₄, ht4, hu₄, hv₄⟩ := mapLines_decomp partRuleLine learnLit
    u₃ v₃ (by decide) hu₃ hv₃
  rw [show partRuleLine learnLit = learnLit from by decide] at ht4
  obtain ⟨u₅, v₅, ht5, hu₅, hv₅⟩ := mapLines_decomp learnRuleLine learnLit
    u₄ v₄ (by decide) hu₄ hv₄
  rw [show learnRuleLine learnLit = '\n' :: learnHeader from by decide] at ht5
  have ht5' : mapLines learnRuleLine (u₄ ++ learnLit ++ v₄) =
      (u₅ ++ ['\n']) ++ learnHeader ++ v₅ := by
    rw [ht5]
    simp
  obtain ⟨u₆, v₆, ht6, hu₆, hv₆⟩ := mapLines_decomp₂ azRuleLine "---".data
    learnHeader2 (u₅ ++ ['\n']) v₅ (by decide) (by decide)
    (EndsNl_concat_nl u₅) hv₅
  rw [show azRuleLine "---".data = "---".data from by decide,
    show azRuleLine learnHeader2 = learnHeader2 from by decide] at ht6
  have ht6' : mapLines azRuleLine ((u₅ ++ ['\n']) ++ learnHeader ++ v₅) =
      u₆ ++ learnHeader ++ v₆ := by
    rw [show (learnHeader : List Char) = "---".data ++ '\n' :: learnHeader2
      from rfl]
    exact ht6
  have ht7 : (u₆ ++ learnHeader ++ v₆).map
        (fun c => if c == '•' then '*' else c) =
      u₆.map (fun c => if c == '•' then '*' else c) ++ learnHeader ++
        v₆.map (fun c => if c == '•' then '*' else c) := by
    rw [List.map_append, List.map_append,
      show learnHeader.map (fun c => if c == '•' then '*' else c) =
        learnHeader from by decide]
  obtain ⟨u₇, v₇, ht8, hu₇, hv₇⟩ := numStage
    (u₆.map (fun c => if c == '•' then '*' else c))
    (v₆.map (fun c => if c == '•' then '*' else c))
    (EndsNl_map _ (by decide) u₆ hu₆) (HeadNl_map _ (by decide) v₆ hv₆)
  obtain ⟨u₈, v₈, ht9, hu₈, hv₈⟩ := starStage u₇ v₇ hu₇ hv₇
  obtain ⟨u₉, v₉, ht10, hu₉, hv₉⟩ := jamStage u₈ v₈ hu₈ hv₈
  obtain ⟨u₁₀, v₁₀, ht11, hu₁₀, hv₁₀⟩ := nlStage u₉ v₉ hu₉ hv₉
  obtain ⟨x, y, hfin, htx, hty⟩ := stripEnds_mid learnHeader (by decide)
    learnHeader_head_ns learnHeader_last_ns u₁₀ v₁₀
  refine ⟨x, y, ?_, EndsNl_of_transfer u₁₀ x htx hu₁₀,
    HeadNl_of_transfer v₁₀ y hty hv₁₀⟩
  rw [hpipe, ht1, ht2, ht3, ht4, ht5', ht6', ht7, ht8, ht9, ht10, ht11, hfin]

/-- Witness for C8: the concrete input
`"intro\nLearnings and Actionable Takeaways\nmore text"` contains the
phrase as a line, and the theorem applies to it. -/
theorem markup_learnings_header_witness :
    learnLit ∈
      linesOf "intro\nLearnings and Actionable Takeaways\nmore text".data ∧
    ∃ x y,
      (clean_and_fix_text
        "intro\nLearnings and Actionable Takeaways\nmore text").data =
        x ++ learnHeader ++ y ∧ EndsNl x ∧ HeadNl y :=
  ⟨by decide, markup_learnings_header _ (by decide)⟩

/-- Witness for C10: applying the theorem to the concrete input
`"they were here"` and the rule `were → we're`. -/
theorem contraction_table_rewrites_ordinary_words_witness :
    ∃ u' v', (clean_transcript_basic "they were here").data =
      u' ++ "we're".data ++ v' ∧ Standalone u' v' :=
  contraction_table_rewrites_ordinary_words.1 ("were".data, "we're".data)
    (by decide) "they were here" "they ".data "were".data " here".data
    (by decide) (by decide)
    ⟨by
      intro c hc
      have hcc : c = ' ' := by
        rw [show ("they ".data.getLast? : Option Char) = some ' ' from by
          decide] at hc
        exact (Option.some_inj.mp hc).symm
      subst hcc
      decide,
     by
      intro c hc
      have hcc : c = ' ' := by
        rw [show ((" here".data.head? : Option Char)) = some ' ' from by
          decide] at hc
        exact (Option.some_inj.mp hc).symm
      subst hcc
      decide⟩

end Transcribr
